import Mathlib

/-!
# networksim — Graph Algorithm Engine, shallow embedding

This file embeds the graph-algorithm engine of the `networksim` repository
(the step-recording algorithm functions of `src/App.tsx` / the graph-algorithms
service module: `runDijkstra`, `runBellmanFord`, `runBFS`, `runDFS`, `runPrim`,
`runKruskal`, `runFordFulkerson`, `runFleury`, `runHierholzer`,
`checkBipartite`) into Lean, and proves or refutes the specification claims
about it.

Modelling conventions:
* JavaScript numbers are modelled as `Int`; the value `Infinity`, used by the
  distance maps, is modelled by `Option Int` with `none = Infinity` (`JNum`).
* A JavaScript object (`Record<string, T>`) is an association list in
  insertion order (`JSObj`): assignment to an existing key overwrites in
  place, assignment to a fresh key appends, and `Object.keys`/`for-in`
  iteration follows that order.
* `a || b` on a possibly-absent numeric field (`l.capacity || l.weight`)
  treats both `undefined` and `0` as falsy, which is reproduced exactly.
* Unbounded `while` loops are given explicit fuel; a function returns
  `none` when the fuel runs out or when the original JavaScript would have
  thrown (e.g. pushing onto the adjacency entry of a dangling node id).
  All claims are settled either at concrete inputs, where the fuel is
  evaluated away, or with enough hypotheses to show the fuel suffices.
-/

set_option maxHeartbeats 1000000

namespace NetworkSim

/-- `Node.type` from `types.ts`: `'router' | 'switch' | 'pc' | 'server'`. -/
inductive NodeType where
  | router
  | switch
  | pc
  | server
deriving DecidableEq, Repr

/-- `Node` from `types.ts`. -/
structure Node where
  id : String
  x : Int
  y : Int
  label : String
  type : NodeType
deriving DecidableEq, Repr

/-- `Link` from `types.ts`.  `capacity` and `flow` are optional fields. -/
structure Link where
  source : String
  target : String
  weight : Int
  capacity : Option Int := none
  flow : Option Int := none
deriving DecidableEq, Repr

/-- `GraphData` from `types.ts`. -/
structure GraphData where
  nodes : List Node
  links : List Link
  isDirected : Bool
deriving DecidableEq, Repr

/-- A JavaScript number that may be `Infinity`: `none` is `Infinity`. -/
abbrev JNum := Option Int

/-- `a < b` on JavaScript numbers with `Infinity` (`Infinity < Infinity` is false). -/
def jnLt (a b : JNum) : Bool :=
  match a, b with
  | some x, some y => x < y
  | some _, none => true
  | none, _ => false

/-- `a <= b` on JavaScript numbers with `Infinity`. -/
def jnLe (a b : JNum) : Bool :=
  match a, b with
  | some x, some y => x ≤ y
  | some _, none => true
  | none, some _ => false
  | none, none => true

/-- Adding a finite number to a possibly-infinite one. -/
def jnAdd (a : JNum) (w : Int) : JNum := a.map (· + w)

/-- `Math.min` with a possibly-infinite accumulator. -/
def jnMin (a b : JNum) : JNum := if jnLe a b then a else b

/-- How JavaScript prints the numbers that reach the log strings. -/
def numStr : JNum → String
  | some i => toString i
  | none => "Infinity"

/-- A JavaScript object keyed by strings, in insertion order. -/
abbrev JSObj (α : Type) := List (String × α)

namespace JSObj

/-- Property read `m[k]`: `none` models `undefined`. -/
def get {α : Type} : JSObj α → String → Option α
  | [], _ => none
  | (k', v') :: rest, k => if k' = k then some v' else get rest k

/-- Property write `m[k] = v`: overwrite in place, or append a fresh key. -/
def set {α : Type} : JSObj α → String → α → JSObj α
  | [], k, v => [(k, v)]
  | (k', v') :: rest, k, v =>
    if k' = k then (k, v) :: rest else (k', v') :: set rest k v

/-- `Object.keys m` (insertion order). -/
def keys {α : Type} (m : JSObj α) : List String := m.map (·.1)

@[simp] theorem get_nil {α : Type} (k : String) : get ([] : JSObj α) k = none := rfl

@[simp] theorem get_set {α : Type} (m : JSObj α) (k : String) (v : α) :
    get (set m k v) k = some v := by
  induction m with
  | nil => simp [get, set]
  | cons p rest ih =>
    by_cases h : p.1 = k
    · cases p; simp_all [set, get]
    · cases p; simp_all [set, get]

theorem get_set_ne {α : Type} (m : JSObj α) (k k' : String) (v : α) (h : k ≠ k') :
    get (set m k v) k' = get m k' := by
  induction m with
  | nil => simp [get, set, h]
  | cons p rest ih =>
    cases p with
    | mk key val =>
      by_cases hk : key = k
      · subst hk; simp [set, get, h]
      · by_cases hk2 : key = k'
        · subst hk2
          simp [set, get, hk, Ne.symm h]
        · simp [set, get, hk, hk2, ih]

theorem keys_set_of_mem {α : Type} (m : JSObj α) (k : String) (v : α)
    (h : k ∈ keys m) : keys (set m k v) = keys m := by
  induction m with
  | nil => simp [keys] at h
  | cons p rest ih =>
    cases p with
    | mk key val =>
      by_cases hk : key = k
      · simp [set, hk, keys]
      · have hmem : k ∈ keys rest := by
          simp only [keys, List.map_cons, List.mem_cons] at h
          rcases h with h | h
          · exact absurd h.symm hk
          · simpa [keys] using h
        simp only [set, hk, if_false, keys, List.map_cons, List.cons.injEq, true_and]
        exact ih hmem

theorem keys_set {α : Type} (m : JSObj α) (k : String) (v : α) :
    keys (set m k v) = keys m ∨ keys (set m k v) = keys m ++ [k] := by
  induction m with
  | nil => right; simp [set, keys]
  | cons p rest ih =>
    cases p with
    | mk key val =>
      by_cases hk : key = k
      · left; simp [set, hk, keys]
      · rcases ih with h | h
        · left
          simp only [set, hk, if_false, keys, List.map_cons, List.cons.injEq, true_and]
          exact h
        · right
          simp only [set, hk, if_false, keys, List.map_cons, List.cons_append,
            List.cons.injEq, true_and]
          exact h

end JSObj

/-- The entries of the derived adjacency view
(`{ node: string; weight: number; capacity?: number }` with the capacity
already defaulted as `l.capacity || l.weight`). -/
structure AdjEntry where
  node : String
  weight : Int
  capacity : Int
deriving DecidableEq, Repr

/-- `l.capacity || l.weight` — JavaScript `||` also treats a present `0` as absent. -/
def capOrWeight (l : Link) : Int :=
  match l.capacity with
  | some c => if c = 0 then l.weight else c
  | none => l.weight

/-- `adj[key].push(e)` — throws (`none`) if `key` is a dangling id. -/
def pushAdj (adj : JSObj (List AdjEntry)) (key : String) (e : AdjEntry) :
    Option (JSObj (List AdjEntry)) :=
  match adj.get key with
  | some lst => some (adj.set key (lst ++ [e]))
  | none => none

/-- One link of the adjacency build: forward entry, plus the reverse entry
when the graph is undirected. -/
def adjStep (graph : GraphData) (adj : JSObj (List AdjEntry)) (l : Link) :
    Option (JSObj (List AdjEntry)) := do
  let adj1 ← pushAdj adj l.source ⟨l.target, l.weight, capOrWeight l⟩
  if graph.isDirected then pure adj1
  else pushAdj adj1 l.target ⟨l.source, l.weight, capOrWeight l⟩

/-- `getAdjacencyList` from the engine. -/
def getAdjacencyList (graph : GraphData) : Option (JSObj (List AdjEntry)) :=
  let init : JSObj (List AdjEntry) := graph.nodes.foldl (fun m n => m.set n.id []) []
  graph.links.foldlM (adjStep graph) init

/-- `getLabel` from the engine. -/
def getLabel (graph : GraphData) (id : String) : String :=
  match graph.nodes.find? (fun n => n.id == id) with
  | some n => n.label
  | none => id

/-- JavaScript string truthiness (`""` is falsy). -/
def truthy (s : String) : Bool := s ≠ ""

/-- The loop of `reconstructPath`; the fuel is always sufficient because each
iteration adds a fresh id to `visited` (ids are drawn from the finite map). -/
def reconstructPathGo (previous : JSObj (Option String)) :
    Nat → Option String → List String → List String → List String
  | 0, _, _, path => path
  | fuel + 1, current, visited, path =>
    match current with
    | none => path
    | some c =>
      if truthy c = false then path
      else if visited.contains c then path
      else reconstructPathGo previous fuel ((previous.get c).getD none)
        (visited ++ [c]) (c :: path)

/-- `reconstructPath` from the engine (cycle-guarded backward walk). -/
def reconstructPath (previous : JSObj (Option String)) (endId : String) : List String :=
  reconstructPathGo previous (previous.keys.length + 2) (some endId) [] []

/-- `getEdgesFromPrevious` from the engine. -/
def getEdgesFromPrevious (graph : GraphData) (previous : JSObj (Option String)) :
    List Link :=
  graph.nodes.foldl (fun edges n =>
    match (previous.get n.id).getD none with
    | some p =>
      if truthy p then
        let link := graph.links.find? (fun l =>
          (l.source == p && l.target == n.id) ||
          (!graph.isDirected && l.source == n.id && l.target == p))
        let w : Int := match link with | some l => l.weight | none => 0
        edges ++ [{ source := p, target := n.id, weight := w }]
      else edges
    | none => edges) []

/-- `AlgorithmStep` from `types.ts`; absent optional fields are `none`. -/
structure AlgorithmStep where
  visited : Option (List String) := none
  path : Option (List String) := none
  currentNodeId : Option String := none
  currentLinkId : Option (String × String) := none
  mstLinks : Option (List Link) := none
  traversedEdges : Option (List Link) := none
  flowDetails : Option (JSObj Int) := none
  bipartiteSets : Option (List String × List String) := none
  log : String
deriving DecidableEq, Repr

/-- `AlgorithmResult` from `types.ts`; absent optional fields are `none`. -/
structure AlgorithmResult where
  path : Option (List String) := none
  visited : Option (List String) := none
  mstLinks : Option (List Link) := none
  traversedEdges : Option (List Link) := none
  maxFlow : Option Int := none
  flowDetails : Option (JSObj Int) := none
  logs : List String
  isBipartite : Option Bool := none
  bipartiteSets : Option (List String × List String) := none
  eulerPath : Option (List String) := none
  steps : Option (List AlgorithmStep) := none
deriving DecidableEq, Repr, Inhabited

/-- How a raw (possibly `undefined`) lookup renders inside a template string. -/
def lookupStr : Option JNum → String
  | some j => numStr j
  | none => "undefined"

/-- Truthiness of the optional `endId` parameter (absent, `null` and `""` are falsy). -/
def endTruthy : Option String → Bool
  | some e => truthy e
  | none => false

/-- Keys of a distance map whose value is not `Infinity`
(`Object.keys(distances).filter(k => distances[k] !== Infinity)`). -/
def finiteKeys (m : JSObj JNum) : List String :=
  (m.filter (fun p => p.2.isSome)).map (·.1)

/-- Stable insertion preserving the original order of equal keys. -/
def insertByKey (key : String → JNum) (x : String) : List String → List String
  | [] => [x]
  | y :: ys => if jnLe (key y) (key x) then y :: insertByKey key x ys else x :: y :: ys

/-- `queue.sort((a, b) => distances[a] - distances[b])`: a stable sort by
tentative distance.  (The JavaScript engine's sort is stable, and the
comparator induces the total preorder compared here: `Infinity - Infinity`
is `NaN`, which a stable sort treats as "keep the current order", exactly
like two equal keys.) -/
def sortByKey (key : String → JNum) (l : List String) : List String :=
  l.foldl (fun acc x => insertByKey key x acc) []

/-- Mutable state of `runDijkstra`'s main loop. -/
structure DijkstraState where
  distances : JSObj JNum
  previous : JSObj (Option String)
  queue : List String
  visited : List String
  logs : List String
  steps : List AlgorithmStep
deriving Repr

/-- One neighbour relaxation of `runDijkstra` (`adj[u]?.forEach(...)` body). -/
def dijkstraRelax (graph : GraphData) (u : String) (st : DijkstraState)
    (neighbor : AdjEntry) : DijkstraState :=
  let alt : JNum := jnAdd ((st.distances.get u).getD none) neighbor.weight
  let cond : Bool :=
    match st.distances.get neighbor.node with
    | some dv => jnLt alt dv
    | none => false
  if cond then
    let distances := st.distances.set neighbor.node alt
    let previous := st.previous.set neighbor.node (some u)
    let updateLog := "  -> Cập nhật Route: " ++ getLabel graph neighbor.node ++
      " qua " ++ getLabel graph u ++ " (Metric: " ++ numStr alt ++ ")"
    { st with
      distances := distances
      previous := previous
      logs := st.logs ++ [updateLog]
      steps := st.steps ++ [{
        log := updateLog
        visited := some st.visited
        currentNodeId := some u
        currentLinkId := some (u, neighbor.node)
        traversedEdges := some (getEdgesFromPrevious graph previous) }] }
  else st

/-- The `while (queue.length > 0)` loop of `runDijkstra`.  Each iteration
shortens the queue by one, so fuel `graph.nodes.length + 1` suffices. -/
def dijkstraLoop (graph : GraphData) (startId : String) (endId : Option String) :
    Nat → DijkstraState → Option DijkstraState
  | 0, st => if st.queue.isEmpty then some st else none
  | fuel + 1, st =>
    if st.queue.isEmpty then some st else
    let sorted := sortByKey (fun a => (st.distances.get a).getD none) st.queue
    match sorted with
    | [] => some { st with queue := [] }
    | u :: rest =>
      let st := { st with queue := rest }
      if (st.distances.get u) = some none then some st else
      let st := { st with visited := st.visited ++ [u] }
      let visitLog := "Xử lý Router: " ++ getLabel graph u ++
        " (Metric tích lũy: " ++ lookupStr (st.distances.get u) ++ ")"
      let st := { st with
        logs := st.logs ++ [visitLog]
        steps := st.steps ++ [{
          log := visitLog
          visited := some st.visited
          currentNodeId := some u
          traversedEdges := some (getEdgesFromPrevious graph st.previous) }] }
      if endTruthy endId && u == endId.getD "" then
        some { st with logs := st.logs ++
          ["Đã đến đích " ++ getLabel graph (endId.getD "") ++ ". Kết thúc định tuyến."] }
      else
        match getAdjacencyList graph with
        | none => none
        | some adj =>
          let st := ((adj.get u).getD []).foldl (dijkstraRelax graph u) st
          dijkstraLoop graph startId endId fuel st

/-- `runDijkstra` from the engine (OSPF simulation).  `none` models an
uncaught exception (only possible on a graph with dangling link endpoints). -/
def runDijkstra (graph : GraphData) (startId : String) (endId : Option String) :
    Option AlgorithmResult :=
  let hasNegativeWeight := graph.links.any (fun l => l.weight < 0)
  if hasNegativeWeight then
    let errorLog := "LỖI OSPF: Phát hiện Metric âm. OSPF không hỗ trợ trọng số âm. Vui lòng chuyển sang giao thức RIP (Bellman-Ford)."
    some { logs := [errorLog], steps := some [{ log := errorLog }] }
  else
  let init : JSObj JNum × JSObj (Option String) × List String :=
    graph.nodes.foldl (fun acc n =>
      (acc.1.set n.id none, acc.2.1.set n.id none, acc.2.2 ++ [n.id]))
      ([], [], [])
  let distances := init.1.set startId (some 0)
  let previous := init.2.1
  let queue := init.2.2
  let initLog := if endTruthy endId then
      "OSPF Init: Tính toán bảng định tuyến từ " ++ getLabel graph startId ++
        " đến " ++ getLabel graph (endId.getD "") ++ "."
    else
      "OSPF Init: Quảng bá LSA, tìm đường đi ngắn nhất từ " ++
        getLabel graph startId ++ " đến toàn mạng."
  let st0 : DijkstraState := {
    distances := distances
    previous := previous
    queue := queue
    visited := []
    logs := [initLog]
    steps := [{ log := initLog, visited := some [], currentNodeId := some startId }] }
  match dijkstraLoop graph startId endId (graph.nodes.length + 1) st0 with
  | none => none
  | some st =>
    if endTruthy endId then
      let e := endId.getD ""
      if st.distances.get e = some none then
        let failLog := "LỖI: Host đích không phản hồi (Destination Unreachable). Mạng bị ngắt quãng."
        some {
          logs := st.logs ++ [failLog]
          visited := some st.visited
          steps := some st.steps }
      else
        let path := reconstructPath st.previous e
        let pathLabels := String.intercalate " -> " (path.map (getLabel graph))
        let successLog := "Định tuyến thành công: " ++ pathLabels ++
          " (Tổng Metric: " ++ lookupStr (st.distances.get e) ++ ")"
        some {
          path := some path
          visited := some st.visited
          logs := st.logs ++ [successLog]
          steps := some (st.steps ++ [{
            log := successLog
            visited := some st.visited
            path := some path }]) }
    else
      let acc := graph.nodes.foldl (fun acc n =>
        let acc1 : List Link :=
          match (st.previous.get n.id).getD none with
          | some p =>
            if truthy p then
              let link := graph.links.find? (fun l =>
                (l.source == p && l.target == n.id) ||
                (!graph.isDirected && l.source == n.id && l.target == p))
              let w : Int := match link with | some l => l.weight | none => 0
              acc.1 ++ [{ source := p, target := n.id, weight := w }]
            else acc.1
          | none => acc.1
        if (st.distances.get n.id).getD none ≠ none then
          (acc1, acc.2.1 ++ ["Net " ++ getLabel graph n.id ++ ": Metric " ++
            lookupStr (st.distances.get n.id)], acc.2.2)
        else
          (acc1, acc.2.1, acc.2.2 ++ [getLabel graph n.id]))
        (([] : List Link), ([] : List String), ([] : List String))
      let mstLinks := acc.1
      let finalDistancesLog := acc.2.1
      let unreachable := acc.2.2
      let logs := st.logs ++ ["=== Bảng Định Tuyến OSPF ==="] ++ finalDistancesLog ++
        (if unreachable.length > 0 then
          ["CẢNH BÁO: Các subnet không thông mạng (Unreachable): " ++
            String.intercalate ", " unreachable]
        else [])
      some {
        mstLinks := some mstLinks
        visited := some st.visited
        logs := logs
        steps := some (st.steps ++ [{
          log := "Hoàn thành OSPF. Hiển thị Cây đường đi ngắn nhất (Shortest Path Tree)."
          visited := some st.visited
          mstLinks := some mstLinks }]) }

/-- The `{ u, v, w }` edge records `runBellmanFord` relaxes. -/
structure BFEdge where
  u : String
  v : String
  w : Int
deriving DecidableEq, Repr

/-- `allEdges` of `runBellmanFord`: every link, plus the reverse orientation
when the graph is undirected. -/
def bfAllEdges (graph : GraphData) : List BFEdge :=
  graph.links.foldl (fun es l =>
    es ++ [⟨l.source, l.target, l.weight⟩] ++
      (if graph.isDirected then [] else [⟨l.target, l.source, l.weight⟩])) []

/-- The relaxation test of `runBellmanFord`:
`distances[e.u] !== Infinity && distances[e.u] + e.w < distances[e.v]`.
An `undefined` lookup on either side makes the comparison false (`NaN`). -/
def bfImproves (distances : JSObj JNum) (e : BFEdge) : Bool :=
  match distances.get e.u with
  | some (some du) =>
    match distances.get e.v with
    | some dv => jnLt (some (du + e.w)) dv
    | none => false
  | _ => false

/-- Mutable state of `runBellmanFord`'s main loop. -/
structure BFState where
  distances : JSObj JNum
  previous : JSObj (Option String)
  logs : List String
  steps : List AlgorithmStep
  somethingChanged : Bool
deriving Repr

/-- One edge relaxation inside a Bellman-Ford round. -/
def bfRelaxEdge (graph : GraphData) (st : BFState) (e : BFEdge) : BFState :=
  if bfImproves st.distances e then
    let du := match st.distances.get e.u with
      | some (some du) => du
      | _ => 0
    let distances := st.distances.set e.v (some (du + e.w))
    let previous := st.previous.set e.v (some e.u)
    let updateLog := "  -> Cập nhật: " ++ getLabel graph e.v ++ " đi qua " ++
      getLabel graph e.u ++ " (Metric: " ++ lookupStr (distances.get e.v) ++ ")"
    { st with
      distances := distances
      previous := previous
      somethingChanged := true
      logs := st.logs ++ [updateLog]
      steps := st.steps ++ [{
        log := updateLog
        currentNodeId := some e.v
        currentLinkId := some (e.u, e.v)
        visited := some (finiteKeys distances)
        traversedEdges := some (getEdgesFromPrevious graph previous) }] }
  else st

/-- The `for (let i = 1; i < V; i++)` relaxation rounds of `runBellmanFord`,
with the early "Network Converged" exit.  `total = V - 1`; `rem` counts the
rounds still to run. -/
def bfMainLoop (graph : GraphData) (allEdges : List BFEdge) (total : Nat) :
    Nat → BFState → BFState
  | 0, st => st
  | rem + 1, st =>
    let i := total - rem
    let iterLog := "Update Round " ++ toString i ++ "/" ++ toString total ++
      ": Quảng bá thông tin định tuyến..."
    let st := { st with
      somethingChanged := false
      logs := st.logs ++ [iterLog]
      steps := st.steps ++ [{
        log := iterLog
        visited := some (finiteKeys st.distances)
        traversedEdges := some (getEdgesFromPrevious graph st.previous) }] }
    let st := allEdges.foldl (bfRelaxEdge graph) st
    if !st.somethingChanged then
      { st with logs := st.logs ++ ["Mạng đã hội tụ (Network Converged)."] }
    else
      bfMainLoop graph allEdges total rem st

/-- The fatal message of the undirected negative-weight pre-check of
`runBellmanFord`. -/
def bfUndirNegMsg : String :=
  "LỖI RIP: Liên kết vô hướng có metric âm sẽ tạo chu trình âm (Routing Loop). Không thể hội tụ."

/-- The fatal message of the post-pass negative-cycle detection of
`runBellmanFord`. -/
def bfCycleMsg : String :=
  "CRITICAL ERROR: Phát hiện chu trình âm (Negative Cycle). Giao thức không thể định tuyến!"

/-- The state of `runBellmanFord` after initialisation, the `V - 1`
relaxation rounds and the "Kiểm tra Routing Loop" log, just before the
negative-cycle detection pass. -/
def bfAfterLoopState (graph : GraphData) (startId : String) : BFState :=
  let init : JSObj JNum × JSObj (Option String) :=
    graph.nodes.foldl (fun acc n => (acc.1.set n.id none, acc.2.set n.id none)) ([], [])
  let distances := init.1.set startId (some 0)
  let previous := init.2
  let V := graph.nodes.length
  let initLog := "RIP Start: Khởi tạo bảng định tuyến (Distance Vector). Nguồn: " ++
    getLabel graph startId
  let st0 : BFState := {
    distances := distances
    previous := previous
    logs := [initLog]
    steps := [{ log := initLog, currentNodeId := some startId }]
    somethingChanged := false }
  let st := bfMainLoop graph (bfAllEdges graph) (V - 1) (V - 1) st0
  { st with logs := st.logs ++ ["Kiểm tra Routing Loop (Chu trình âm)..."] }

/-- The terminal phase of `runBellmanFord` once no residual improving edge
was found: path reconstruction with an end id, else the routing-table /
tree report. -/
def bfEndPhase (graph : GraphData) (endId : Option String) (st : BFState) :
    AlgorithmResult :=
  if endTruthy endId then
    let e := endId.getD ""
    if st.distances.get e = some none then
      { logs := st.logs ++ ["Destination Unreachable."], steps := some st.steps }
    else
      let path := reconstructPath st.previous e
      let pathLabels := String.intercalate " -> " (path.map (getLabel graph))
      let successLog := "Định tuyến RIP: " ++ pathLabels ++ " (Metric: " ++
        lookupStr (st.distances.get e) ++ ")"
      { path := some path
        visited := some path
        logs := st.logs ++ [successLog]
        steps := some (st.steps ++ [{
          log := successLog
          path := some path
          visited := some path }]) }
  else
    let mstLinks := getEdgesFromPrevious graph st.previous
    let finalDistancesLog := graph.nodes.foldl (fun acc n =>
      if (st.distances.get n.id).getD none ≠ none then
        acc ++ [getLabel graph n.id ++ ": " ++ lookupStr (st.distances.get n.id)]
      else acc) []
    { mstLinks := some mstLinks
      logs := st.logs ++ finalDistancesLog
      steps := some (st.steps ++ [{ log := "Hoàn tất RIP.", mstLinks := some mstLinks }]) }

/-- `runBellmanFord` from the engine (RIP simulation).  Every loop is
bounded, so no fuel is needed and the function is total. -/
def runBellmanFord (graph : GraphData) (startId : String) (endId : Option String) :
    AlgorithmResult :=
  if !graph.isDirected && graph.links.any (fun l => l.weight < 0) then
    let err := bfUndirNegMsg
    { logs := [err], steps := some [{ log := err }] }
  else
  let st := bfAfterLoopState graph startId
  match (bfAllEdges graph).find? (bfImproves st.distances) with
  | some e =>
    let cycleLog := bfCycleMsg
    { logs := st.logs ++ [cycleLog]
      steps := some (st.steps ++ [{ log := cycleLog, currentLinkId := some (e.u, e.v) }]) }
  | none => bfEndPhase graph endId st

/-- Mutable state of `runBFS`'s loop. -/
structure BFSState where
  queue : List String
  visitedSet : List String
  visited : List String
  logs : List String
  traversedEdges : List Link
  steps : List AlgorithmStep
deriving Repr

/-- The neighbour scan of one `runBFS` iteration (`adj[u]?.forEach(...)`). -/
def bfsScan (graph : GraphData) (u : String) (st : BFSState) (neighbor : AdjEntry) :
    BFSState :=
  if st.visitedSet.contains neighbor.node then st
  else
    let traversedEdges := st.traversedEdges ++
      [{ source := u, target := neighbor.node, weight := neighbor.weight }]
    let discoverLog := "  -> Forwarding (Chuyển tiếp) đến: " ++ getLabel graph neighbor.node
    { st with
      visitedSet := st.visitedSet ++ [neighbor.node]
      queue := st.queue ++ [neighbor.node]
      traversedEdges := traversedEdges
      logs := st.logs ++ [discoverLog]
      steps := st.steps ++ [{
        log := discoverLog
        visited := some st.visited
        currentNodeId := some u
        traversedEdges := some traversedEdges
        currentLinkId := some (u, neighbor.node) }] }

/-- The `while (queue.length > 0)` loop of `runBFS`.  Every enqueue after the
first marks a previously unseen id, so fuel `2 * |links| + 2` suffices. -/
def bfsLoop (graph : GraphData) (adj : JSObj (List AdjEntry)) :
    Nat → BFSState → BFSState
  | 0, st => st
  | fuel + 1, st =>
    match st.queue with
    | [] => st
    | u :: rest =>
      let st := { st with queue := rest }
      let st := if st.visited.contains u then st
        else { st with visited := st.visited ++ [u] }
      let visitLog := "Gói tin đã đến: " ++ getLabel graph u
      let st := { st with
        logs := st.logs ++ [visitLog]
        steps := st.steps ++ [{
          log := visitLog
          visited := some st.visited
          currentNodeId := some u
          traversedEdges := some st.traversedEdges }] }
      let st := ((adj.get u).getD []).foldl (bfsScan graph u) st
      bfsLoop graph adj fuel st

/-- `runBFS` from the engine (broadcast simulation). -/
def runBFS (graph : GraphData) (startId : String) : Option AlgorithmResult :=
  let startLog := "Broadcast Init: Bắt đầu quảng bá gói tin từ nút nguồn " ++
    getLabel graph startId
  match getAdjacencyList graph with
  | none => none
  | some adj =>
    let st0 : BFSState := {
      queue := [startId]
      visitedSet := [startId]
      visited := []
      logs := [startLog]
      traversedEdges := []
      steps := [{ log := startLog, visited := some [], currentNodeId := some startId }] }
    let st := bfsLoop graph adj (2 * graph.links.length + 2) st0
    some {
      visited := some st.visited
      logs := st.logs
      traversedEdges := some st.traversedEdges
      steps := some st.steps }

/-- Mutable state of `runDFS`'s loop; the stack carries `(node, from)` pairs. -/
structure DFSState where
  stack : List (String × Option String)
  visitedSet : List String
  visited : List String
  logs : List String
  traversedEdges : List Link
  steps : List AlgorithmStep
deriving Repr

/-- The `while (stack.length > 0)` loop of `runDFS`.  Each adjacency entry is
pushed at most once, so fuel `2 * |links| + 2` suffices. -/
def dfsLoop (graph : GraphData) (adj : JSObj (List AdjEntry)) :
    Nat → DFSState → DFSState
  | 0, st => st
  | fuel + 1, st =>
    match st.stack with
    | [] => st
    | (u, from?) :: rest =>
      let st := { st with stack := rest }
      if st.visitedSet.contains u then dfsLoop graph adj fuel st
      else
        let st := { st with
          visitedSet := st.visitedSet ++ [u]
          visited := st.visited ++ [u] }
        let st : DFSState := match from? with
          | some f =>
            if truthy f then
              { st with traversedEdges := st.traversedEdges ++
                [{ source := f, target := u, weight := 0 }] }
            else st
          | none => st
        let visitLog := "Dò quét Node: " ++ getLabel graph u
        let linkId : Option (String × String) := match from? with
          | some f => if truthy f then some (f, u) else none
          | none => none
        let st := { st with
          logs := st.logs ++ [visitLog]
          steps := st.steps ++ [{
            log := visitLog
            visited := some st.visited
            currentNodeId := some u
            traversedEdges := some st.traversedEdges
            currentLinkId := linkId }] }
        let neighbors := ((adj.get u).getD []).reverse
        let st := neighbors.foldl (fun st neighbor =>
          if st.visitedSet.contains neighbor.node then st
          else { st with stack := (neighbor.node, some u) :: st.stack }) st
        dfsLoop graph adj fuel st

/-- `runDFS` from the engine (deep-trace simulation).  The stack is modelled
head-first: JavaScript `push`/`pop` work on the array tail, and the neighbour
loop pushes one by one, so pushing at the head in iteration order matches. -/
def runDFS (graph : GraphData) (startId : String) : Option AlgorithmResult :=
  let startLog := "Deep Trace: Bắt đầu dò quét sâu (Depth-First) từ " ++
    getLabel graph startId
  match getAdjacencyList graph with
  | none => none
  | some adj =>
    let st0 : DFSState := {
      stack := [(startId, none)]
      visitedSet := []
      visited := []
      logs := [startLog]
      traversedEdges := []
      steps := [{ log := startLog, visited := some [], currentNodeId := some startId }] }
    let st := dfsLoop graph adj (2 * graph.links.length + 2) st0
    some {
      visited := some st.visited
      logs := st.logs
      traversedEdges := some st.traversedEdges
      steps := some st.steps }

/-- Mutable state of `runPrim`'s main loop. -/
structure PrimState where
  parent : JSObj (Option String)
  key : JSObj JNum
  mstSet : List String
  visitedNodes : List String
  logs : List String
  mstLinks : List Link
  steps : List AlgorithmStep
  totalCost : Int
deriving Repr

/-- The scan for the not-yet-included node of minimum key
(`graph.nodes.forEach` with `indexOf`). -/
def primFindMin (graph : GraphData) (st : PrimState) : Option Nat :=
  (graph.nodes.enum.foldl (fun acc p =>
    let idx := p.1
    let n := p.2
    let kn := (st.key.get n.id).getD none
    if !st.mstSet.contains n.id && jnLt kn acc.2 then (some idx, kn) else acc)
    ((none : Option Nat), (none : JNum))).1

/-- One iteration of `runPrim`'s `for` loop (returns `none` when `u === -1`,
the disconnected-graph break). -/
def primIteration (graph : GraphData) (adj : JSObj (List AdjEntry)) (st : PrimState) :
    Option PrimState :=
  match primFindMin graph st with
  | none => none
  | some u =>
    let uId := ((graph.nodes.get? u).map (·.id)).getD ""
    let st := { st with
      mstSet := st.mstSet ++ [uId]
      visitedNodes := st.visitedNodes ++ [uId] }
    let st : PrimState :=
      match (st.parent.get uId).getD none with
      | some p =>
        let kv : Int := match st.key.get uId with
          | some (some k) => k
          | _ => 0
        let mstLinks := st.mstLinks ++ [{ source := p, target := uId, weight := kv }]
        let addLog := "Triển khai cáp: " ++ getLabel graph p ++ " <==> " ++
          getLabel graph uId ++ " (Cost: " ++ lookupStr (st.key.get uId) ++ ")"
        { st with
          mstLinks := mstLinks
          totalCost := st.totalCost + kv
          logs := st.logs ++ [addLog]
          steps := st.steps ++ [{
            log := addLog
            mstLinks := some mstLinks
            visited := some st.visitedNodes
            currentNodeId := some uId
            currentLinkId := none }] }
      | none =>
        let selectLog := "Active Node: " ++ getLabel graph uId
        { st with
          logs := st.logs ++ [selectLog]
          steps := st.steps ++ [{
            log := selectLog
            mstLinks := some st.mstLinks
            visited := some st.visitedNodes
            currentNodeId := some uId }] }
    let st := ((adj.get uId).getD []).foldl (fun st v =>
      let cond : Bool := !st.mstSet.contains v.node &&
        (match st.key.get v.node with
         | some kv => jnLt (some v.weight) kv
         | none => false)
      if cond then
        { st with
          parent := st.parent.set v.node (some uId)
          key := st.key.set v.node (some v.weight) }
      else st) st
    some st

/-- The bounded `for (let i = 0; i < graph.nodes.length; i++)` loop of `runPrim`. -/
def primLoop (graph : GraphData) (adj : JSObj (List AdjEntry)) :
    Nat → PrimState → PrimState
  | 0, st => st
  | fuel + 1, st =>
    match primIteration graph adj st with
    | none => st
    | some st => primLoop graph adj fuel st

/-- `runPrim` from the engine (backbone design).  `none` models an uncaught
exception: reading `graph.nodes[0].id` of an empty undirected graph, or a
dangling link endpoint in the adjacency build. -/
def runPrim (graph : GraphData) : Option AlgorithmResult :=
  if graph.isDirected then
    some { logs := ["Prim Error: Chỉ áp dụng cho thiết kế mạng Backbone vô hướng."] }
  else
  match graph.nodes.head? with
  | none => none
  | some startNodeObj =>
    let startNode := startNodeObj.id
    let key0 : JSObj JNum := graph.nodes.foldl (fun m n => m.set n.id none) []
    let key := key0.set startNode (some 0)
    let parent : JSObj (Option String) := JSObj.set [] startNode none
    match getAdjacencyList graph with
    | none => none
    | some adj =>
      let startLog := "Design Init: Bắt đầu xây dựng Backbone từ Core " ++
        getLabel graph startNode
      let st0 : PrimState := {
        parent := parent
        key := key
        mstSet := []
        visitedNodes := []
        logs := [startLog]
        mstLinks := []
        steps := [{
          log := startLog
          mstLinks := some []
          currentNodeId := some startNode
          visited := some [] }]
        totalCost := 0 }
      let st := primLoop graph adj graph.nodes.length st0
      let logs := st.logs ++
        (if st.mstSet.length < graph.nodes.length then
          ["CẢNH BÁO: Mạng không liên thông (Disconnected). Kết quả là Rừng khung nhỏ nhất (MSF)."]
        else ["Hoàn tất thiết kế Backbone (MST Complete)."])
      let finalLog := "TỔNG CHI PHÍ TRIỂN KHAI (Total Cost): " ++ toString st.totalCost
      some {
        mstLinks := some st.mstLinks
        logs := logs ++ [finalLog]
        steps := some (st.steps ++ [{
          log := finalLog
          mstLinks := some st.mstLinks
          visited := some st.visitedNodes }])
        visited := some st.visitedNodes }

/-- Stable insertion by link weight, preserving the original order of ties. -/
def insertLinkByWeight (x : Link) : List Link → List Link
  | [] => [x]
  | y :: ys => if y.weight ≤ x.weight then y :: insertLinkByWeight x ys else x :: y :: ys

/-- `[...graph.links].sort((a, b) => a.weight - b.weight)`: JavaScript's sort
is stable, so ties keep their original order. -/
def sortLinksByWeight (l : List Link) : List Link :=
  l.foldl (fun acc x => insertLinkByWeight x acc) []

/-- The recursive `find` of `runKruskal`'s union-find; `none` models the stack
overflow that a cyclic or dangling parent chain would cause. -/
def ufFind (parent : JSObj String) : Nat → String → Option String
  | 0, _ => none
  | fuel + 1, i =>
    match parent.get i with
    | none => none
    | some p => if p = i then some i else ufFind parent fuel p

/-- Mutable state of `runKruskal`'s loop. -/
structure KruskalState where
  parent : JSObj String
  mstLinks : List Link
  visitedSet : List String
  logs : List String
  steps : List AlgorithmStep
  totalCost : Int
  edgesCount : Nat
deriving Repr

/-- One edge evaluation of `runKruskal` (check step, then union and the
accept/reject step). -/
def kruskalEdge (graph : GraphData) (fuel : Nat) (st : KruskalState) (link : Link) :
    Option KruskalState :=
  let checkLog := "Đánh giá liên kết: " ++ getLabel graph link.source ++ " - " ++
    getLabel graph link.target ++ " (Cost: " ++ toString link.weight ++ ")"
  let st : KruskalState := { st with
    logs := st.logs ++ [checkLog]
    steps := st.steps ++ [{
      log := checkLog
      mstLinks := some st.mstLinks
      visited := some st.visitedSet
      currentLinkId := some (link.source, link.target) }] }
  match ufFind st.parent fuel link.source with
  | none => none
  | some rootI =>
    match ufFind st.parent fuel link.target with
    | none => none
    | some rootJ =>
      if rootI ≠ rootJ then
        let st := { st with parent := st.parent.set rootI rootJ }
        let mstLinks := st.mstLinks ++ [link]
        let visitedSet := (if st.visitedSet.contains link.source then st.visitedSet
          else st.visitedSet ++ [link.source])
        let visitedSet := (if visitedSet.contains link.target then visitedSet
          else visitedSet ++ [link.target])
        let addLog := "  -> CHẤP NHẬN: Thêm vào cấu trúc mạng."
        some { st with
          mstLinks := mstLinks
          totalCost := st.totalCost + link.weight
          edgesCount := st.edgesCount + 1
          visitedSet := visitedSet
          logs := st.logs ++ [addLog]
          steps := st.steps ++ [{
            log := addLog
            mstLinks := some mstLinks
            visited := some visitedSet
            currentLinkId := none }] }
      else
        let skipLog := "  -> TỪ CHỐI: Phát hiện vòng lặp (Redundant Loop)."
        some { st with
          logs := st.logs ++ [skipLog]
          steps := st.steps ++ [{
            log := skipLog
            mstLinks := some st.mstLinks
            visited := some st.visitedSet
            currentLinkId := none }] }

/-- `runKruskal` from the engine (cable-cost optimisation). -/
def runKruskal (graph : GraphData) : Option AlgorithmResult :=
  if graph.isDirected then
    some { logs := ["Kruskal Error: Chỉ áp dụng cho mô hình mạng vô hướng."] }
  else
  let sortedLinks := sortLinksByWeight graph.links
  let parent : JSObj String := graph.nodes.foldl (fun m n => m.set n.id n.id) []
  let startLog := "Link Cost Audit: Sắp xếp danh sách liên kết theo chi phí tăng dần."
  let st0 : KruskalState := {
    parent := parent
    mstLinks := []
    visitedSet := []
    logs := [startLog]
    steps := [{ log := startLog, mstLinks := some [], visited := some [] }]
    totalCost := 0
    edgesCount := 0 }
  match sortedLinks.foldlM (kruskalEdge graph (graph.nodes.length + 1)) st0 with
  | none => none
  | some st =>
    let logs := st.logs ++
      (if (st.edgesCount : Int) < (graph.nodes.length : Int) - 1 then
        ["LƯU Ý: Đồ thị không liên thông. Kết quả là Rừng khung (Minimum Spanning Forest)."]
      else ["Hoàn tất tối ưu hóa chi phí cáp mạng (MST)."])
    let finalLog := "TỔNG CHI PHÍ HẠ TẦNG (Total Cost): " ++ toString st.totalCost
    some {
      mstLinks := some st.mstLinks
      logs := logs ++ [finalLog]
      steps := some (st.steps ++ [{
        log := finalLog
        mstLinks := some st.mstLinks
        visited := some st.visitedSet }])
      visited := some st.visitedSet }

/-- The residual-map key `` `${u}->${v}` ``. -/
def edgeKey (u v : String) : String := u ++ "->" ++ v

/-- Residual-graph initialisation of `runFordFulkerson`: forward capacity per
link; reverse capacity equal for undirected graphs, else `0` unless a reverse
link already claimed the key. -/
def buildResidual (graph : GraphData) : JSObj Int :=
  graph.links.foldl (fun r l =>
    let r := r.set (edgeKey l.source l.target) (capOrWeight l)
    if !graph.isDirected then
      r.set (edgeKey l.target l.source) (capOrWeight l)
    else
      match r.get (edgeKey l.target l.source) with
      | none => r.set (edgeKey l.target l.source) 0
      | some _ => r) []

/-- `getFlowDetails` of `runFordFulkerson`: per-link flow display derived by
comparing residuals to the original capacity.  Both residual keys of every
link are initialised by `buildResidual`, so the `getD 0` defaults never fire. -/
def getFlowDetails (graph : GraphData) (rGraph : JSObj Int) : JSObj Int :=
  graph.links.foldl (fun details l =>
    let cap := capOrWeight l
    let forwardResid := (rGraph.get (edgeKey l.source l.target)).getD 0
    let backwardResid := (rGraph.get (edgeKey l.target l.source)).getD 0
    if graph.isDirected then
      details.set (edgeKey l.source l.target) (max 0 (cap - forwardResid))
    else
      if forwardResid < cap then
        (details.set (edgeKey l.source l.target) (cap - forwardResid)).set
          (edgeKey l.target l.source) 0
      else if backwardResid < cap then
        (details.set (edgeKey l.target l.source) (cap - backwardResid)).set
          (edgeKey l.source l.target) 0
      else
        details.set (edgeKey l.source l.target) 0) []

/-- Mutable state shared by `runFordFulkerson`'s BFS and outer loop. -/
structure FFState where
  rGraph : JSObj Int
  parent : JSObj String
  maxFlow : Int
  logs : List String
  steps : List AlgorithmStep
deriving Repr

/-- The `for (const node of graph.nodes)` scan of one BFS dequeue, with the
early `return true` when the sink is reached.  Note that the per-node step is
pushed onto `steps` without a matching log line. -/
def ffScanNodes (graph : GraphData) (t u : String) :
    List Node → List String → List String → FFState →
      (List String × List String × FFState × Bool)
  | [], queue, visitedSet, st => (queue, visitedSet, st, false)
  | node :: rest, queue, visitedSet, st =>
    let v := node.id
    let ok : Bool := !visitedSet.contains v &&
      (match st.rGraph.get (edgeKey u v) with
       | some rc => rc > 0
       | none => false)
    if ok then
      let rc := (st.rGraph.get (edgeKey u v)).getD 0
      let queue := queue ++ [v]
      let visitedSet := visitedSet ++ [v]
      let st := { st with
        parent := st.parent.set v u
        steps := st.steps ++ [{
          log := "  -> Duyệt: " ++ getLabel graph v ++ " (Dư: " ++ toString rc ++ ")"
          visited := some visitedSet
          currentNodeId := some v
          currentLinkId := some (u, v)
          flowDetails := some (getFlowDetails graph st.rGraph) }] }
      if v = t then (queue, visitedSet, st, true)
      else ffScanNodes graph t u rest queue visitedSet st
    else ffScanNodes graph t u rest queue visitedSet st

/-- The `while (queue.length > 0)` loop of `runFordFulkerson`'s BFS.  Each of
the at most `|nodes|` pushes is guarded by the visited set, so fuel
`|nodes| + 2` suffices. -/
def ffBfsLoop (graph : GraphData) (t : String) :
    Nat → List String → List String → FFState → (FFState × Bool)
  | 0, _, _, st => (st, false)
  | fuel + 1, queue, visitedSet, st =>
    match queue with
    | [] => (st, false)
    | u :: rest =>
      let r := ffScanNodes graph t u graph.nodes rest visitedSet st
      if r.2.2.2 then (r.2.2.1, true)
      else ffBfsLoop graph t fuel r.1 r.2.1 r.2.2.1

/-- One full `bfs()` call of `runFordFulkerson` (clears `parent`, logs the
scan banner, then searches the residual graph). -/
def ffBfs (graph : GraphData) (s t : String) (st : FFState) : FFState × Bool :=
  let st := { st with parent := [] }
  let scanLog := "Scanning: Quét đường dẫn khả dụng (BFS)..."
  let st := { st with
    logs := st.logs ++ [scanLog]
    steps := st.steps ++ [{
      log := scanLog
      visited := some [s]
      currentNodeId := some s
      flowDetails := some (getFlowDetails graph st.rGraph) }] }
  ffBfsLoop graph t (graph.nodes.length + 2) [s] [s] st

/-- The backward walk computing the augmenting path and its bottleneck
(`while (v !== s) { ... }`).  `none` models a broken parent chain, which a
successful BFS rules out. -/
def ffWalk (rGraph : JSObj Int) (parent : JSObj String) (s : String) :
    Nat → String → List String → JNum → Option (List String × JNum)
  | 0, _, _, _ => none
  | fuel + 1, v, path, pf =>
    if v = s then some (path, pf)
    else
      match parent.get v with
      | none => none
      | some u =>
        ffWalk rGraph parent s fuel u (u :: path)
          (jnMin pf (some ((rGraph.get (edgeKey u v)).getD 0)))

/-- The backward walk updating the residual capacities by `∓ pathFlow`. -/
def ffUpdate (parent : JSObj String) (s : String) (pf : Int) :
    Nat → String → JSObj Int → Option (JSObj Int)
  | 0, _, _ => none
  | fuel + 1, v, rGraph =>
    if v = s then some rGraph
    else
      match parent.get v with
      | none => none
      | some u =>
        let r := rGraph.set (edgeKey u v) ((rGraph.get (edgeKey u v)).getD 0 - pf)
        let r := r.set (edgeKey v u) ((r.get (edgeKey v u)).getD 0 + pf)
        ffUpdate parent s pf fuel u r

/-- The outer `while (bfs())` loop of `runFordFulkerson`.  With integer
capacities every augmentation moves at least one unit, so the fuel chosen in
`runFordFulkerson` suffices. -/
def ffOuterLoop (graph : GraphData) (s t : String) :
    Nat → FFState → Option FFState
  | 0, _ => none
  | fuel + 1, st =>
    let r := ffBfs graph s t st
    let st := r.1
    if !r.2 then some st
    else
      match ffWalk st.rGraph st.parent s (graph.nodes.length + 2) t [t] none with
      | none => none
      | some (path, pfJ) =>
        let pf : Int := match pfJ with
          | some p => p
          | none => 0
        let pathLabels := String.intercalate " -> " (path.map (getLabel graph))
        let foundLog := "Tìm thấy đường dẫn: " ++ pathLabels ++
          ". Đang tính cổ chai (Bottleneck)..."
        let st : FFState := { st with
          logs := st.logs ++ [foundLog]
          steps := st.steps ++ [{
            log := foundLog
            path := some path
            flowDetails := some (getFlowDetails graph st.rGraph)
            currentNodeId := none }] }
        let bottleLog := "  -> Bottleneck Capacity = " ++ numStr pfJ ++
          " Mbps. Chuẩn bị tăng luồng."
        let st : FFState := { st with
          logs := st.logs ++ [bottleLog]
          steps := st.steps ++ [{
            log := bottleLog
            path := some path
            flowDetails := some (getFlowDetails graph st.rGraph) }] }
        match ffUpdate st.parent s pf (graph.nodes.length + 2) t st.rGraph with
        | none => none
        | some rGraph =>
          let st : FFState := { st with rGraph := rGraph, maxFlow := st.maxFlow + pf }
          let updateLog := "Cập nhật băng thông: +" ++ toString pf ++
            " Mbps vào hệ thống."
          let st : FFState := { st with
            logs := st.logs ++ [updateLog]
            steps := st.steps ++ [{
              log := updateLog
              path := some path
              flowDetails := some (getFlowDetails graph st.rGraph) }] }
          ffOuterLoop graph s t fuel st

/-- Fuel for the augmentation loop: each round adds at least `1` to the flow,
which is bounded by the total residual capacity out of the source, itself at
most twice the summed absolute capacities. -/
def ffFuel (graph : GraphData) : Nat :=
  2 * (graph.links.foldl (fun a l => a + (capOrWeight l).natAbs) 0) + 2

/-- `runFordFulkerson` from the engine (Edmonds–Karp with animation). -/
def runFordFulkerson (graph : GraphData) (s t : String) : Option AlgorithmResult :=
  let st0 : FFState := {
    rGraph := buildResidual graph
    parent := []
    maxFlow := 0
    logs := []
    steps := [] }
  let initLog := "Traffic Engineer: Bắt đầu phân tích luồng. Nguồn: " ++
    getLabel graph s ++ " -> Đích: " ++ getLabel graph t
  let st0 := { st0 with
    logs := [initLog]
    steps := [{ log := initLog, flowDetails := some (getFlowDetails graph st0.rGraph) }] }
  match ffOuterLoop graph s t (ffFuel graph) st0 with
  | none => none
  | some st =>
    let saturationLog := "Không còn đường tăng luồng khả dụng (Saturation Point)."
    let st : FFState := { st with
      logs := st.logs ++ [saturationLog]
      steps := st.steps ++ [{
        log := saturationLog
        flowDetails := some (getFlowDetails graph st.rGraph) }] }
    let finalFlowDetails := getFlowDetails graph st.rGraph
    let resultLog := "HOÀN TẤT PHÂN TÍCH. TỔNG BĂNG THÔNG CỰC ĐẠI: " ++
      toString st.maxFlow ++ " Mbps"
    some {
      maxFlow := some st.maxFlow
      flowDetails := some finalFlowDetails
      logs := st.logs ++ [resultLog]
      steps := some (st.steps ++ [{ log := resultLog, flowDetails := some finalFlowDetails }]) }

/-- `getDegrees` from the engine: `(inDegree, outDegree, degree)`.  The
`getD 0` defaults model the increment of an initialised counter; a dangling
endpoint would produce `NaN` in JavaScript and never occurs in the claims. -/
def getDegrees (graph : GraphData) : JSObj Int × JSObj Int × JSObj Int :=
  let init : JSObj Int × JSObj Int × JSObj Int :=
    graph.nodes.foldl (fun m n => (m.1.set n.id 0, m.2.1.set n.id 0, m.2.2.set n.id 0))
      ([], [], [])
  graph.links.foldl (fun m l =>
    if graph.isDirected then
      (m.1.set l.target ((m.1.get l.target).getD 0 + 1),
       m.2.1.set l.source ((m.2.1.get l.source).getD 0 + 1),
       m.2.2)
    else
      let d1 := m.2.2.set l.source ((m.2.2.get l.source).getD 0 + 1)
      let d2 := d1.set l.target ((d1.get l.target).getD 0 + 1)
      (m.1, m.2.1, d2)) init

/-- Builds the plain `Record<string, string[]>` adjacency used by Fleury and
Hierholzer; `none` models the throw on a dangling endpoint. -/
def pushEuler (adj : JSObj (List String)) (key v : String) :
    Option (JSObj (List String)) :=
  match adj.get key with
  | some lst => some (adj.set key (lst ++ [v]))
  | none => none

/-- One link of the Euler adjacency build: forward entry, plus the reverse
entry when the graph is undirected. -/
def eulerStep (graph : GraphData) (adj : JSObj (List String)) (l : Link) :
    Option (JSObj (List String)) := do
  let adj1 ← pushEuler adj l.source l.target
  if graph.isDirected then pure adj1
  else pushEuler adj1 l.target l.source

/-- The mutable adjacency copy of `runFleury` / `runHierholzer`. -/
def buildEulerAdj (graph : GraphData) : Option (JSObj (List String)) :=
  let init : JSObj (List String) := graph.nodes.foldl (fun m n => m.set n.id []) []
  graph.links.foldlM (eulerStep graph) init

/-- The DFS of `countReachable`; the JavaScript array stack pops from the
end, which the head of this list models. -/
def countReachableGo (adj : JSObj (List String)) :
    Nat → List String → List String → Nat → Nat
  | 0, _, _, count => count
  | fuel + 1, stack, visited, count =>
    match stack with
    | [] => count
    | node :: rest =>
      let acc := ((adj.get node).getD []).foldl
        (fun (acc : List String × List String) v =>
          if acc.2.contains v then acc else (v :: acc.1, acc.2 ++ [v]))
        (rest, visited)
      countReachableGo adj fuel acc.1 acc.2 (count + 1)

/-- `countReachable` from `runFleury`: size of the reachable set over the
remaining adjacency. -/
def countReachable (graph : GraphData) (u : String) (adj : JSObj (List String)) : Nat :=
  countReachableGo adj (graph.nodes.length + 2 * graph.links.length + 2) [u] [u] 0

/-- `removeEdge` from `runFleury`: `filter` drops every copy of the endpoint.
The call sites guarantee the keys exist for well-formed graphs (JavaScript
would throw on a dangling id). -/
def euRemoveEdge (graph : GraphData) (adj : JSObj (List String)) (u v : String) :
    JSObj (List String) :=
  let adj := adj.set u (((adj.get u).getD []).filter (fun n => n ≠ v))
  if !graph.isDirected then
    adj.set v (((adj.get v).getD []).filter (fun n => n ≠ u))
  else adj

/-- `isValidNextEdge` from `runFleury` — the bridge test.  It mutates the
shared adjacency (remove, then re-append at the end), which the returned
object reproduces, including the original's loss of parallel copies. -/
def isValidNextEdge (graph : GraphData) (adj : JSObj (List String)) (u v : String) :
    Bool × JSObj (List String) :=
  if ((adj.get u).getD []).length = 1 then (true, adj)
  else
    let count1 := countReachable graph u adj
    let adj := euRemoveEdge graph adj u v
    let count2 := countReachable graph u adj
    let adj := adj.set u (((adj.get u).getD []) ++ [v])
    let adj := if !graph.isDirected then adj.set v (((adj.get v).getD []) ++ [u]) else adj
    (decide (count1 ≤ count2), adj)

/-- The `for (const v of neighbors)` choice loop of `runFleury`, iterating
over the snapshot taken before any bridge test while threading the mutated
adjacency. -/
def fleuryChoose (graph : GraphData) (u : String) :
    List String → JSObj (List String) → Option String × JSObj (List String)
  | [], adj => (none, adj)
  | v :: rest, adj =>
    let r := isValidNextEdge graph adj u v
    if r.1 then (some v, r.2) else fleuryChoose graph u rest r.2

/-- Mutable state of `runFleury`'s walk. -/
structure FleuryState where
  adj : JSObj (List String)
  path : List String
  u : String
  logs : List String
  steps : List AlgorithmStep
deriving Repr

/-- The bounded walk of `runFleury`
(`while (adj[u] && adj[u].length > 0 && step < maxSteps * 2)`); the fuel is
exactly the source's own `maxSteps * 2` iteration bound. -/
def fleuryLoop (graph : GraphData) : Nat → FleuryState → FleuryState
  | 0, st => st
  | fuel + 1, st =>
    match st.adj.get st.u with
    | none => st
    | some lst =>
      if lst.length = 0 then st
      else
        let c := fleuryChoose graph st.u lst st.adj
        let chosen : Option String := match c.1 with
          | some v => some v
          | none => lst.head?
        match chosen with
        | none => st
        | some v =>
          let stepLog := "Audit Step: Đi qua " ++ getLabel graph st.u ++ " -> " ++
            getLabel graph v
          let adj := euRemoveEdge graph c.2 st.u v
          let currentPath := st.path ++ [v]
          fleuryLoop graph fuel {
            adj := adj
            path := currentPath
            u := v
            logs := st.logs ++ [stepLog]
            steps := st.steps ++ [{
              log := stepLog
              path := some currentPath
              currentNodeId := some v
              currentLinkId := some (st.u, v) }] }

/-- The per-node scan of the directed Eulerian feasibility check
(`balanced`, `startNodes`, `endNodes`, candidate start); `none` is the
"unbalanced" early return. -/
def eulerDirectedScan (outDeg inDeg : JSObj Int) :
    List Node → Nat × Nat × Nat × Option String → Option (Nat × Nat × Nat × Option String)
  | [], acc => some acc
  | n :: rest, acc =>
    let outD := (outDeg.get n.id).getD 0
    let inD := (inDeg.get n.id).getD 0
    if outD = inD then
      eulerDirectedScan outDeg inDeg rest (acc.1 + 1, acc.2.1, acc.2.2.1, acc.2.2.2)
    else if outD = inD + 1 then
      eulerDirectedScan outDeg inDeg rest (acc.1, acc.2.1 + 1, acc.2.2.1, some n.id)
    else if inD = outD + 1 then
      eulerDirectedScan outDeg inDeg rest (acc.1, acc.2.1, acc.2.2.1 + 1, acc.2.2.2)
    else none

/-- The `for (const id in degree)` odd-degree scan (count, last odd id). -/
def oddScan (degree : JSObj Int) : Nat × Option String :=
  degree.foldl (fun acc p => if p.2 % 2 ≠ 0 then (acc.1 + 1, some p.1) else acc)
    ((0 : Nat), (none : Option String))

/-- `runFleury` from the engine (link-coverage audit). -/
def runFleury (graph : GraphData) : Option AlgorithmResult :=
  match graph.nodes.head? with
  | none => none
  | some firstNode =>
    let degs := getDegrees graph
    let inDegree := degs.1
    let outDegree := degs.2.1
    let degree := degs.2.2
    let startLogs : Option (String × List String) :=
      if graph.isDirected then
        match eulerDirectedScan outDegree inDegree graph.nodes (0, 0, 0, none) with
        | none => none
        | some acc =>
          let startNodes := acc.2.1
          let endNodes := acc.2.2.1
          let sNode := acc.2.2.2
          if startNodes = 0 && endNodes = 0 then
            some (firstNode.id,
              ["Network Audit: Đồ thị có hướng đảm bảo Chu trình Euler (Closed Circuit)."])
          else if startNodes = 1 && endNodes = 1 then
            some (sNode.getD "",
              ["Network Audit: Đồ thị có hướng đảm bảo Đường đi Euler (Open Path)."])
          else none
      else
        let odd := oddScan degree
        if odd.1 = 0 then
          some (firstNode.id, ["Network Audit: Đồ thị vô hướng đảm bảo Chu trình Euler."])
        else if odd.1 = 2 then
          some (odd.2.getD "", ["Network Audit: Đồ thị vô hướng đảm bảo Đường đi Euler."])
        else none
    match startLogs with
    | none =>
      -- one of the three fatal feasibility returns; the exact message depends
      -- on which branch failed
      let msg :=
        if graph.isDirected then
          match eulerDirectedScan outDegree inDegree graph.nodes (0, 0, 0, none) with
          | none => "Fleury Error: Cấu trúc có hướng không cân bằng (Unbalanced). Không tồn tại đường đi Euler."
          | some _ => "Fleury Error: Số lượng nút Bắt đầu/Kết thúc không hợp lệ cho đường đi Euler."
        else "Fleury Error: Mạng có > 2 nút bậc lẻ. Không tồn tại đường đi phủ kín."
      some { logs := [msg], steps := some [] }
    | some (startNode, auditLogs) =>
      let initLog := "Audit Init: Bắt đầu kiểm tra phủ kín (Fleury)."
      match buildEulerAdj graph with
      | none => none
      | some adj =>
        let st0 : FleuryState := {
          adj := adj
          path := [startNode]
          u := startNode
          logs := auditLogs ++ [initLog]
          steps := [{ log := initLog, visited := some [], currentNodeId := some startNode }] }
        let st := fleuryLoop graph (2 * (graph.links.length + 2)) st0
        let pathLabels := String.intercalate " -> " (st.path.map (getLabel graph))
        let finalLog := "Kết quả Fleury: " ++ pathLabels
        some {
          path := some st.path
          visited := some st.path
          logs := st.logs ++ [finalLog]
          steps := some (st.steps ++ [{
            log := finalLog
            path := some st.path
            visited := some st.path }]) }

/-- Mutable state of `runHierholzer`'s loop; the JavaScript array stack's
top is the head of this list. -/
structure HierState where
  adj : JSObj (List String)
  stack : List String
  circuit : List String
  logs : List String
  steps : List AlgorithmStep
deriving Repr

/-- The stack loop of `runHierholzer`: consume the last adjacency entry of
the top node (deleting the mirrored entry when undirected) or backtrack.
Every iteration removes an adjacency entry or pops, so fuel
`4 * |links| + 3` suffices. -/
def hierLoop (graph : GraphData) : Nat → HierState → Option HierState
  | 0, _ => none
  | fuel + 1, st =>
    match st.stack with
    | [] => some st
    | u :: _ =>
      match st.adj.get u with
      | some (lst@(_ :: _)) =>
        let v := (lst.getLast?).getD ""
        let adj := st.adj.set u lst.dropLast
        let adj := if !graph.isDirected then
            adj.set v (((adj.get v).getD []).erase u)
          else adj
        let pushLog := "  -> Forward: " ++ getLabel graph u ++ " -> " ++ getLabel graph v
        hierLoop graph fuel { st with
          adj := adj
          stack := v :: st.stack
          logs := st.logs ++ [pushLog]
          steps := st.steps ++ [{
            log := pushLog
            currentNodeId := some v
            currentLinkId := some (u, v) }] }
      | _ =>
        match st.stack with
        | [] => some st
        | popped :: rest =>
          let popLog := "  <- Backtrack: Ghi nhận nút " ++ getLabel graph popped ++ " vào mạch"
          hierLoop graph fuel { st with
            stack := rest
            circuit := st.circuit ++ [popped]
            logs := st.logs ++ [popLog]
            steps := st.steps ++ [{ log := popLog, currentNodeId := some popped }] }

/-- `runHierholzer` from the engine (circuit audit).  Note the source
initialises the stack with the start node **and** pushes it again
(`const stack = [startNode]; ... stack.push(startNode)`). -/
def runHierholzer (graph : GraphData) : Option AlgorithmResult :=
  match graph.nodes.head? with
  | none => none
  | some firstNode =>
    let degs := getDegrees graph
    let inDegree := degs.1
    let outDegree := degs.2.1
    let degree := degs.2.2
    let startRes : Option String :=
      if graph.isDirected then
        match eulerDirectedScan outDegree inDegree graph.nodes (0, 0, 0, none) with
        | none => none
        | some acc =>
          let startNodes := acc.2.1
          let sNode := acc.2.2.2
          if startNodes = 1 then some (sNode.getD "")
          else if startNodes = 0 then some firstNode.id
          else none
      else
        let odd := oddScan degree
        if odd.1 = 2 then some (odd.2.getD "")
        else if odd.1 ≠ 0 then none
        else some firstNode.id
    match startRes with
    | none =>
      let msg :=
        if graph.isDirected then
          match eulerDirectedScan outDegree inDegree graph.nodes (0, 0, 0, none) with
          | none => "Hierholzer Error: Đồ thị không thỏa mãn điều kiện Euler."
          | some _ => "Hierholzer Error: Không tồn tại đường đi."
        else "Hierholzer Error: Số bậc lẻ không hợp lệ."
      some { logs := [msg], steps := some [] }
    | some startNode =>
      let startLog := "Circuit Audit: Bắt đầu dò tìm mạch vòng từ " ++
        getLabel graph startNode
      match buildEulerAdj graph with
      | none => none
      | some adj =>
        let st0 : HierState := {
          adj := adj
          stack := [startNode, startNode]
          circuit := []
          logs := [startLog]
          steps := [{ log := startLog, visited := some [], currentNodeId := some startNode }] }
        match hierLoop graph (4 * graph.links.length + 3) st0 with
        | none => none
        | some st =>
          let resultPath := st.circuit.reverse
          let finalLog := "Kết quả Hierholzer: " ++
            String.intercalate " -> " (resultPath.map (getLabel graph))
          some {
            path := some resultPath
            visited := some resultPath
            logs := st.logs ++ [finalLog]
            steps := some (st.steps ++ [{ log := finalLog, path := some resultPath }]) }

/-- Mutable state of `checkBipartite`. -/
structure BipState where
  colors : JSObj Int
  setA : List String
  setB : List String
  queue : List String
  logs : List String
  steps : List AlgorithmStep
  isBipartite : Bool
deriving Repr

/-- The `for (const neighbor of neighbors)` loop of `checkBipartite`, with the
conflict `break`. -/
def bipNeighborLoop (graph : GraphData) (u : String) :
    List AdjEntry → BipState → BipState
  | [], st => st
  | neighbor :: rest, st =>
    let v := neighbor.node
    match st.colors.get v with
    | none =>
      let cu := (st.colors.get u).getD 0
      let cv := 1 - cu
      let colors := st.colors.set v cv
      let setA := if cv = 0 then st.setA ++ [v] else st.setA
      let setB := if cv = 0 then st.setB else st.setB ++ [v]
      let assignLog := "  -> Gán " ++ getLabel graph v ++ " vào " ++
        (if cv = 0 then "Zone A" else "Zone B")
      bipNeighborLoop graph u rest { st with
        colors := colors
        setA := setA
        setB := setB
        queue := st.queue ++ [v]
        logs := st.logs ++ [assignLog]
        steps := st.steps ++ [{
          log := assignLog
          currentNodeId := some v
          currentLinkId := some (u, v)
          bipartiteSets := some (setA, setB) }] }
    | some cv =>
      if cv = (st.colors.get u).getD 0 then
        let conflictLog := "XUNG ĐỘT: " ++ getLabel graph u ++ " và " ++
          getLabel graph v ++ " cùng vùng màu! Mạng không thể phân tách."
        { st with
          isBipartite := false
          logs := st.logs ++ [conflictLog]
          steps := st.steps ++ [{
            log := conflictLog
            currentLinkId := some (u, v)
            bipartiteSets := some (st.setA, st.setB) }] }
      else bipNeighborLoop graph u rest st

/-- The per-component `while (queue.length > 0)` loop of `checkBipartite`.
Every enqueue colours a fresh id, so fuel `|nodes| + 2 |links| + 2` suffices. -/
def bipWhileLoop (graph : GraphData) (adj : JSObj (List AdjEntry)) :
    Nat → BipState → BipState
  | 0, st => st
  | fuel + 1, st =>
    match st.queue with
    | [] => st
    | u :: rest =>
      let st := { st with queue := rest }
      let neighbors := (adj.get u).getD []
      let st := bipNeighborLoop graph u neighbors st
      if !st.isBipartite then st else bipWhileLoop graph adj fuel st

/-- The `for (const node of graph.nodes)` component loop of `checkBipartite`. -/
def bipOuterLoop (graph : GraphData) (adj : JSObj (List AdjEntry)) (fuelInner : Nat) :
    List Node → BipState → BipState
  | [], st => st
  | node :: rest, st =>
    if (st.colors.get node.id).isSome then bipOuterLoop graph adj fuelInner rest st
    else
      let colors := st.colors.set node.id 0
      let setA := st.setA ++ [node.id]
      let startLog := "Khởi tạo phân vùng mới từ " ++ getLabel graph node.id ++
        " (Gán vào Zone A)."
      let st := { st with
        colors := colors
        setA := setA
        queue := [node.id]
        logs := st.logs ++ [startLog]
        steps := st.steps ++ [{
          log := startLog
          currentNodeId := some node.id
          bipartiteSets := some (setA, st.setB) }] }
      let st := bipWhileLoop graph adj fuelInner st
      if !st.isBipartite then st else bipOuterLoop graph adj fuelInner rest st

/-- `checkBipartite` from the engine (network segmentation analysis). -/
def checkBipartite (graph : GraphData) : Option AlgorithmResult :=
  match getAdjacencyList graph with
  | none => none
  | some adj =>
    let st0 : BipState := {
      colors := []
      setA := []
      setB := []
      queue := []
      logs := ["Segmentation Init: Bắt đầu phân tích phân đoạn mạng (Bipartite Check)..."]
      steps := []
      isBipartite := true }
    let st := bipOuterLoop graph adj
      (graph.nodes.length + 2 * graph.links.length + 2) graph.nodes st0
    let setALabels := String.intercalate ", " (st.setA.map (getLabel graph))
    let setBLabels := String.intercalate ", " (st.setB.map (getLabel graph))
    let resultLog := if st.isBipartite then
        "THÀNH CÔNG: Mạng có thể phân tách 2 vùng độc lập.\nZone A: " ++ setALabels ++
          "\nZone B: " ++ setBLabels
      else "THẤT BẠI: Cấu trúc mạng đan xen, không thể phân tách thành 2 vùng độc lập."
    some {
      isBipartite := some st.isBipartite
      bipartiteSets := some (st.setA, st.setB)
      logs := st.logs ++ [resultLog]
      steps := some (st.steps ++ [{
        log := resultLog
        bipartiteSets := some (st.setA, st.setB) }]) }

/-! ## Specification-level notions used by the claims -/

/-- The spec's capacity of an edge: "`capacity` (defaults to `weight` if
absent)" — a present `0` is **not** absent. -/
def specCapacity (l : Link) : Int := l.capacity.getD l.weight

/-- Capacity of the cut `(s, V \ s)`: total spec-capacity of links leaving
`s` (both orientations count when the graph is undirected). -/
def cutCapacity (graph : GraphData) (s : List String) : Int :=
  graph.links.foldl (fun a l =>
    if l.source ∈ s ∧ l.target ∉ s then a + specCapacity l
    else if ¬graph.isDirected ∧ l.target ∈ s ∧ l.source ∉ s then a + specCapacity l
    else a) 0

/-- The minimum s-t cut value, by enumerating all node subsets containing
`s` and not `t`. -/
def minCutValue (graph : GraphData) (s t : String) : Option Int :=
  (((graph.nodes.map (·.id)).sublists.filter
    (fun c => s ∈ c ∧ t ∉ c)).map (cutCapacity graph)).min?

/-! ## Concrete inputs used by counterexamples and witnesses -/

/-- A plain router node. -/
def mkNode (i l : String) : Node := { id := i, x := 0, y := 0, label := l, type := .router }

/-- Undirected triangle `A-B (1), B-C (2), A-C (4)` — the spec's own example
graph: connected, all degrees even, so an Eulerian circuit exists. -/
def triangleGraph : GraphData := {
  nodes := [mkNode "a" "A", mkNode "b" "B", mkNode "c" "C"]
  links := [
    { source := "a", target := "b", weight := 1 },
    { source := "b", target := "c", weight := 2 },
    { source := "a", target := "c", weight := 4 }]
  isDirected := false }

/-- A single undirected edge `A-B (1)`. -/
def twoNodeGraph : GraphData := {
  nodes := [mkNode "a" "A", mkNode "b" "B"]
  links := [{ source := "a", target := "b", weight := 1 }]
  isDirected := false }

/-- A single directed edge of weight `5` whose `capacity` field is present
and equal to `0`. -/
def capZeroGraph : GraphData := {
  nodes := [mkNode "s" "S", mkNode "t" "T"]
  links := [{ source := "s", target := "t", weight := 5, capacity := some 0 }]
  isDirected := true }

/-- A single undirected edge of negative weight. -/
def negWeightGraph : GraphData := {
  nodes := [mkNode "a" "A", mkNode "b" "B"]
  links := [{ source := "a", target := "b", weight := -3 }]
  isDirected := false }

/-! ## Generic invariant helpers -/

/-- Fold preservation of an invariant. -/
theorem foldl_invariant {α β : Type} (P : β → Prop) (f : β → α → β) (l : List α)
    (st : β) (h0 : P st) (h : ∀ st a, P st → P (f st a)) : P (l.foldl f st) := by
  induction l generalizing st with
  | nil => exact h0
  | cons a rest ih => exact ih (f st a) (h st a h0)

/-! ## C5 — Dijkstra aborts on a negative edge weight -/

/-- The abort message of `runDijkstra`'s negative-weight precondition. -/
def dijkstraNegMsg : String :=
  "LỖI OSPF: Phát hiện Metric âm. OSPF không hỗ trợ trọng số âm. Vui lòng chuyển sang giao thức RIP (Bellman-Ford)."

/-- **C5.** On any graph with a negative-weight edge, `runDijkstra` returns
immediately: the result has exactly one log line, exactly one step carrying
that same log, and no path, no visited list and no tree (`mstLinks`),
whatever the start and end ids were. -/
theorem dijkstra_negative_weight_aborts (graph : GraphData) (startId : String)
    (endId : Option String) (h : ∃ l ∈ graph.links, l.weight < 0) :
    runDijkstra graph startId endId =
      some { logs := [dijkstraNegMsg], steps := some [{ log := dijkstraNegMsg }] } := by
  have hneg : graph.links.any (fun l => l.weight < 0) = true := by
    rcases h with ⟨l, hl, hw⟩
    exact List.any_eq_true.mpr ⟨l, hl, by simpa using hw⟩
  unfold runDijkstra
  rw [hneg]
  rfl

/-- Witness for C5 at the concrete negative-weight graph. -/
theorem dijkstra_negative_weight_aborts_witness :
    runDijkstra negWeightGraph "a" (some "b") =
      some { logs := [dijkstraNegMsg], steps := some [{ log := dijkstraNegMsg }] } :=
  dijkstra_negative_weight_aborts negWeightGraph "a" (some "b")
    ⟨{ source := "a", target := "b", weight := -3 }, by decide, by decide⟩

/-! ## C2 — Eulerian walks of length `|E| + 1`

The claim says that on any graph meeting the degree precondition both
`runFleury` and `runHierholzer` return a walk with exactly `|E| + 1` node
entries.  `runHierholzer` in the engine initialises its stack with the start
node and then pushes it a second time, so the returned list always carries a
duplicated start: on the triangle (3 edges, Eulerian circuit) it returns
5 entries beginning `a, a`, where the older service implementation of the
same function returns the 4-entry circuit the claim describes. -/

/-- **C2.** The triangle satisfies the degree precondition (all degrees
even), yet `runHierholzer` returns `["a","a","c","b","a"]` — `|E| + 2 = 5`
node entries with a duplicated start that is not a walk — instead of a walk
of `|E| + 1 = 4` entries; `runFleury` on the same input does return the
4-entry circuit. -/
theorem hierholzer_duplicated_start_on_triangle :
    (runHierholzer triangleGraph).map (fun r => r.path) =
        some (some ["a", "a", "c", "b", "a"]) ∧
      (runFleury triangleGraph).map (fun r => r.path) =
        some (some ["a", "b", "c", "a"]) ∧
      triangleGraph.links.length + 1 = 4 := by
  refine ⟨by rfl, by rfl, by rfl⟩

/-! ## C3 — Max-flow equals min-cut -/

/-- **C3.** On a well-formed directed graph consisting of one edge of weight
`5` with `capacity: 0` present, the spec's min-cut value (capacity defaults
to weight only "if absent") is `0`, but `runFordFulkerson` computes the
capacity as `l.capacity || l.weight`, treats the present `0` as absent, and
reports a max flow of `5`. -/
theorem fordFulkerson_capacity_zero_mismatch :
    (runFordFulkerson capZeroGraph "s" "t").map (fun r => r.maxFlow) =
        some (some 5) ∧
      minCutValue capZeroGraph "s" "t" = some 0 := by
  refine ⟨by rfl, by rfl⟩

/-! ## C8 — logs and steps in one-to-one correspondence -/

/-- **C8 (counterexample).** `runDijkstra` on the one-edge graph with both
endpoints given returns six log lines but only five steps: the
"destination reached" log (`Đã đến đích ...`) is pushed without a step, so
logs and steps are not in one-to-one correspondence. -/
theorem dijkstra_logs_steps_mismatch :
    (runDijkstra twoNodeGraph "a" (some "b")).map
      (fun r => (r.logs.length, (r.steps.getD []).length)) = some (6, 5) := by
  rfl

/-- Lockstep invariant: the recorded steps carry exactly the log lines, in
order. -/
def Lockstep (logs : List String) (steps : List AlgorithmStep) : Prop :=
  steps.map AlgorithmStep.log = logs

theorem bfsScan_lockstep (graph : GraphData) (u : String) (st : BFSState)
    (ne : AdjEntry) (h : Lockstep st.logs st.steps) :
    Lockstep (bfsScan graph u st ne).logs (bfsScan graph u st ne).steps := by
  unfold bfsScan
  split
  · exact h
  · simp only [Lockstep, List.map_append] at *
    simp [h]

theorem bfsLoop_lockstep (graph : GraphData) (adj : JSObj (List AdjEntry))
    (fuel : Nat) (st : BFSState) (h : Lockstep st.logs st.steps) :
    Lockstep (bfsLoop graph adj fuel st).logs (bfsLoop graph adj fuel st).steps := by
  induction fuel generalizing st with
  | zero => exact h
  | succ fuel ih =>
    unfold bfsLoop
    match hq : st.queue with
    | [] => exact h
    | u :: rest =>
      simp only
      apply ih
      apply foldl_invariant (fun s => Lockstep s.logs s.steps) _ _ _ _
        (fun s a hs => bfsScan_lockstep graph u s a hs)
      split <;> simp_all [Lockstep]

theorem dfsLoop_lockstep (graph : GraphData) (adj : JSObj (List AdjEntry))
    (fuel : Nat) (st : DFSState) (h : Lockstep st.logs st.steps) :
    Lockstep (dfsLoop graph adj fuel st).logs (dfsLoop graph adj fuel st).steps := by
  induction fuel generalizing st with
  | zero => exact h
  | succ fuel ih =>
    unfold dfsLoop
    match hq : st.stack with
    | [] => exact h
    | (u, from?) :: rest =>
      simp only
      split
      · exact ih _ h
      · apply ih
        apply foldl_invariant (fun s : DFSState => Lockstep s.logs s.steps) _ _ _ _
          (fun s a hs => by
            by_cases hc : a.node ∈ s.visitedSet
            · simpa [hc] using hs
            · simpa [hc] using hs)
        cases from? with
        | none => simp_all [Lockstep]
        | some f =>
          by_cases hf : truthy f = true <;> simp_all [Lockstep]

/-- **C8 (amended).** For `runBFS` and `runDFS` the logs and steps do
correspond one-to-one in order: whenever a result is returned, mapping each
step to its log yields exactly the logs list (hence equal lengths and
`logs[i] = steps[i].log`). -/
theorem bfs_dfs_logs_steps_lockstep (graph : GraphData) (startId : String)
    (r : AlgorithmResult)
    (h : runBFS graph startId = some r ∨ runDFS graph startId = some r) :
    ∃ st, r.steps = some st ∧ st.map AlgorithmStep.log = r.logs := by
  rcases h with h | h
  · unfold runBFS at h
    rcases hadj : getAdjacencyList graph with _ | adj
    · rw [hadj] at h; exact absurd h (by simp)
    · rw [hadj] at h
      simp only [Option.some.injEq] at h
      subst h
      refine ⟨_, rfl, ?_⟩
      exact bfsLoop_lockstep graph adj _ _ (by simp [Lockstep])
  · unfold runDFS at h
    rcases hadj : getAdjacencyList graph with _ | adj
    · rw [hadj] at h; exact absurd h (by simp)
    · rw [hadj] at h
      simp only [Option.some.injEq] at h
      subst h
      refine ⟨_, rfl, ?_⟩
      exact dfsLoop_lockstep graph adj _ _ (by simp [Lockstep])

/-- Witness for the amended C8 at the concrete triangle graph. -/
theorem bfs_dfs_logs_steps_lockstep_witness :
    ∃ st, ((runBFS triangleGraph "a").getD default).steps = some st ∧
      st.map AlgorithmStep.log = ((runBFS triangleGraph "a").getD default).logs :=
  bfs_dfs_logs_steps_lockstep triangleGraph "a"
    ((runBFS triangleGraph "a").getD default) (Or.inl (by rfl))

/-! ## C4 — Bellman-Ford detects every reachable negative cycle

Core argument: if the post-pass finds no improving edge, then the distance
map is stable (`d v ≤ d u + w` along every defined edge), every node
reachable from the finite start entry has a finite distance, and summing the
stability inequalities around any reachable cycle yields a non-negative
cycle weight.  Contrapositive: a reachable negative cycle forces the
detection pass to fire, and then `runBellmanFord` returns with no `path`,
no `mstLinks`, and the fatal log. -/

/-- Walks over the relaxation edge list, carrying their total weight. -/
inductive BFWalkFrom (es : List BFEdge) : String → String → Int → Prop
  | nil (u : String) : BFWalkFrom es u u 0
  | cons {u v x : String} {w rest : Int} (he : BFEdge.mk u v w ∈ es)
      (ht : BFWalkFrom es v x rest) : BFWalkFrom es u x (w + rest)

/-- A negative cycle (one edge plus a closing walk) whose entry point is
reachable from `start`, all over the relaxation edge list. -/
def NegCycleReachable (es : List BFEdge) (start : String) : Prop :=
  ∃ (u v : String) (w wrest : Int),
    (∃ w0, BFWalkFrom es start u w0) ∧
    (BFEdge.mk u v w) ∈ es ∧
    BFWalkFrom es v u wrest ∧
    w + wrest < 0

/-- The distance map holds a finite number at `k`. -/
def KeyFiniteAt (d : JSObj JNum) (k : String) : Prop := ∃ x : Int, d.get k = some (some x)

/-- The distance map has an entry (possibly `Infinity`) at `k`. -/
def KeyDefinedAt (d : JSObj JNum) (k : String) : Prop := ∃ j, d.get k = some j

theorem bfRelaxEdge_get (graph : GraphData) (st : BFState) (e : BFEdge) (k : String) :
    (bfRelaxEdge graph st e).distances.get k = st.distances.get k ∨
      ∃ x : Int, (bfRelaxEdge graph st e).distances.get k = some (some x) := by
  unfold bfRelaxEdge
  split
  · by_cases hk : k = e.v
    · subst hk
      right
      exact ⟨_, JSObj.get_set _ _ _⟩
    · left
      simp only
      exact JSObj.get_set_ne _ _ _ _ (fun hh => hk hh.symm)
  · left; rfl

theorem bfRelaxEdge_finiteAt (graph : GraphData) (st : BFState) (e : BFEdge) (k : String)
    (h : KeyFiniteAt st.distances k) : KeyFiniteAt (bfRelaxEdge graph st e).distances k := by
  rcases bfRelaxEdge_get graph st e k with heq | ⟨x, hx⟩
  · rw [KeyFiniteAt, heq]; exact h
  · exact ⟨x, hx⟩

theorem bfRelaxEdge_definedAt (graph : GraphData) (st : BFState) (e : BFEdge) (k : String)
    (h : KeyDefinedAt st.distances k) : KeyDefinedAt (bfRelaxEdge graph st e).distances k := by
  rcases bfRelaxEdge_get graph st e k with heq | ⟨x, hx⟩
  · rw [KeyDefinedAt, heq]; exact h
  · exact ⟨_, hx⟩

/-- Both key invariants survive a whole relaxation round. -/
theorem bfRound_preserves (graph : GraphData) (es : List BFEdge) (st : BFState)
    (k : String) :
    (KeyFiniteAt st.distances k → KeyFiniteAt (es.foldl (bfRelaxEdge graph) st).distances k) ∧
    (KeyDefinedAt st.distances k → KeyDefinedAt (es.foldl (bfRelaxEdge graph) st).distances k) := by
  constructor
  · intro h
    exact foldl_invariant (fun s => KeyFiniteAt s.distances k) _ es st h
      (fun s e hs => bfRelaxEdge_finiteAt graph s e k hs)
  · intro h
    exact foldl_invariant (fun s => KeyDefinedAt s.distances k) _ es st h
      (fun s e hs => bfRelaxEdge_definedAt graph s e k hs)

theorem bfMainLoop_preserves (graph : GraphData) (es : List BFEdge) (total : Nat)
    (rem : Nat) (st : BFState) (k : String) :
    (KeyFiniteAt st.distances k →
      KeyFiniteAt (bfMainLoop graph es total rem st).distances k) ∧
    (KeyDefinedAt st.distances k →
      KeyDefinedAt (bfMainLoop graph es total rem st).distances k) := by
  induction rem generalizing st with
  | zero => exact ⟨id, id⟩
  | succ rem ih =>
    unfold bfMainLoop
    simp only
    constructor
    · intro h
      split
      · refine (bfRound_preserves graph es _ k).1 ?_
        exact h
      · refine (ih _).1 ?_
        refine (bfRound_preserves graph es _ k).1 ?_
        exact h
    · intro h
      split
      · refine (bfRound_preserves graph es _ k).2 ?_
        exact h
      · refine (ih _).2 ?_
        refine (bfRound_preserves graph es _ k).2 ?_
        exact h

/-- `bfImproves d e = false` with both endpoints defined and the source
finite forces a finite target obeying the triangle inequality. -/
theorem stable_edge_bound (d : JSObj JNum) (e : BFEdge) (du : Int)
    (hni : bfImproves d e = false)
    (hu : d.get e.u = some (some du))
    (hv : KeyDefinedAt d e.v) :
    ∃ dv : Int, d.get e.v = some (some dv) ∧ dv ≤ du + e.w := by
  rcases hv with ⟨j, hj⟩
  unfold bfImproves at hni
  rw [hu, hj] at hni
  cases j with
  | none => simp [jnLt] at hni
  | some dv =>
    refine ⟨dv, hj, ?_⟩
    simp only [jnLt, decide_eq_false_iff_not, not_lt] at hni
    exact hni

/-- Along any walk, stability propagates finiteness and the summed bound. -/
theorem walk_bound (es : List BFEdge) (d : JSObj JNum)
    (hni : ∀ e ∈ es, bfImproves d e = false)
    (hkeys : ∀ e ∈ es, KeyDefinedAt d e.u ∧ KeyDefinedAt d e.v)
    {a b : String} {w : Int} (hw : BFWalkFrom es a b w) :
    ∀ da : Int, d.get a = some (some da) →
      ∃ db : Int, d.get b = some (some db) ∧ db ≤ da + w := by
  induction hw with
  | nil u => exact fun da hda => ⟨da, hda, by omega⟩
  | cons he ht ih =>
    intro da hda
    obtain ⟨dv, hdv, hbound⟩ := stable_edge_bound d _ da (hni _ he) hda (hkeys _ he).2
    obtain ⟨db, hdb, hbound2⟩ := ih dv hdv
    refine ⟨db, hdb, ?_⟩
    dsimp only at hbound
    omega

/-- If no edge of `es` is improvable, no negative cycle is reachable from a
finitely-valued start. -/
theorem no_improve_no_negcycle (es : List BFEdge) (d : JSObj JNum) (start : String)
    (hni : ∀ e ∈ es, bfImproves d e = false)
    (hkeys : ∀ e ∈ es, KeyDefinedAt d e.u ∧ KeyDefinedAt d e.v)
    (hstart : KeyFiniteAt d start) :
    ¬ NegCycleReachable es start := by
  rintro ⟨u, v, w, wrest, ⟨w0, hreach⟩, hedge, hcyc, hneg⟩
  rcases hstart with ⟨s0, hs0⟩
  obtain ⟨du, hdu, -⟩ := walk_bound es d hni hkeys hreach s0 hs0
  obtain ⟨dv, hdv, hb1⟩ := stable_edge_bound d _ du (hni _ hedge) hdu (hkeys _ hedge).2
  obtain ⟨du', hdu', hb2⟩ := walk_bound es d hni hkeys hcyc dv hdv
  rw [hdu] at hdu'
  have hdd : du = du' := by
    simpa using hdu'
  dsimp only at hb1
  omega

/-- All walk weights are non-negative when every edge weight is. -/
theorem walk_nonneg (es : List BFEdge) (hpos : ∀ e ∈ es, 0 ≤ e.w)
    {a b : String} {w : Int} (hw : BFWalkFrom es a b w) : 0 ≤ w := by
  induction hw with
  | nil u => omega
  | cons he ht ih =>
    have hw := hpos _ he
    dsimp only at hw
    omega

/-- A fold that only appends equals the accumulator followed by the
flat-mapped contributions. -/
theorem foldl_append_flatMap {α β : Type} (f : α → List β) (l : List α) (acc : List β) :
    l.foldl (fun es a => es ++ f a) acc = acc ++ l.flatMap f := by
  induction l generalizing acc with
  | nil => simp
  | cons a rest ih => simp [ih, List.append_assoc]

/-- Membership in `bfAllEdges`: each edge is a link orientation. -/
theorem bfAllEdges_mem (graph : GraphData) (e : BFEdge) (he : e ∈ bfAllEdges graph) :
    ∃ l ∈ graph.links, (e.u = l.source ∧ e.v = l.target ∧ e.w = l.weight) ∨
      (graph.isDirected = false ∧ e.u = l.target ∧ e.v = l.source ∧ e.w = l.weight) := by
  unfold bfAllEdges at he
  rw [show (fun (es : List BFEdge) l =>
      es ++ [(⟨l.source, l.target, l.weight⟩ : BFEdge)] ++
        (if graph.isDirected then [] else [⟨l.target, l.source, l.weight⟩])) =
    (fun es (l : Link) =>
      es ++ ([(⟨l.source, l.target, l.weight⟩ : BFEdge)] ++
        (if graph.isDirected then [] else [⟨l.target, l.source, l.weight⟩]))) from by
    funext es l
    simp [List.append_assoc]] at he
  rw [foldl_append_flatMap] at he
  simp only [List.nil_append] at he
  rcases List.mem_flatMap.mp he with ⟨l, hl, hmem⟩
  refine ⟨l, hl, ?_⟩
  rcases List.mem_append.mp hmem with h | h
  · left
    simp only [List.mem_singleton] at h
    subst h; exact ⟨rfl, rfl, rfl⟩
  · right
    split at h
    next hdir => simp at h
    next hdir =>
      simp only [List.mem_singleton] at h
      subst h
      exact ⟨by simpa using hdir, rfl, rfl, rfl⟩

theorem JSObj.get_set_defined {α : Type} (m : JSObj α) (k k' : String) (v : α)
    (h : ∃ j, m.get k = some j) : ∃ j, (m.set k' v).get k = some j := by
  by_cases hk : k' = k
  · subst hk; exact ⟨v, JSObj.get_set _ _ _⟩
  · rw [JSObj.get_set_ne _ _ _ _ hk]; exact h

/-- First component of the paired initialisation fold of `runBellmanFord`. -/
theorem bf_init_fst (graph : GraphData) :
    (graph.nodes.foldl
      (fun (acc : JSObj JNum × JSObj (Option String)) n =>
        (JSObj.set acc.1 n.id none, JSObj.set acc.2 n.id none)) ([], [])).1 =
    graph.nodes.foldl (fun m n => JSObj.set m n.id none) [] := by
  suffices h : ∀ (l : List Node) (a : JSObj JNum) (b : JSObj (Option String)),
      (l.foldl (fun acc n => (JSObj.set acc.1 n.id none, JSObj.set acc.2 n.id none)) (a, b)).1 =
      l.foldl (fun m n => JSObj.set m n.id none) a by
    exact h graph.nodes [] []
  intro l
  induction l with
  | nil => intro a b; rfl
  | cons n rest ih => intro a b; exact ih _ _

theorem get_foldl_set_defined (l : List Node) (m0 : JSObj JNum) (k : String)
    (hk : k ∈ l.map Node.id ∨ ∃ j, JSObj.get m0 k = some j) :
    ∃ j, JSObj.get (l.foldl (fun m n => JSObj.set m n.id (none : JNum)) m0) k = some j := by
  induction l generalizing m0 with
  | nil =>
    rcases hk with h | h
    · simp at h
    · exact h
  | cons n rest ih =>
    rcases hk with h | h
    · simp only [List.map_cons, List.mem_cons] at h
      rcases h with h | h
      · exact ih _ (Or.inr (by rw [h]; exact ⟨_, JSObj.get_set _ _ _⟩))
      · exact ih _ (Or.inl h)
    · exact ih _ (Or.inr (JSObj.get_set_defined _ _ _ _ h))

theorem bfAfterLoopState_start_finite (graph : GraphData) (startId : String) :
    KeyFiniteAt (bfAfterLoopState graph startId).distances startId := by
  simp only [bfAfterLoopState]
  refine (bfMainLoop_preserves graph _ _ _ _ startId).1 ?_
  exact ⟨0, JSObj.get_set _ _ _⟩

theorem bfAfterLoopState_node_defined (graph : GraphData) (startId : String)
    (k : String) (hk : k ∈ graph.nodes.map Node.id) :
    KeyDefinedAt (bfAfterLoopState graph startId).distances k := by
  simp only [bfAfterLoopState]
  refine (bfMainLoop_preserves graph _ _ _ _ k).2 ?_
  refine JSObj.get_set_defined _ _ _ _ ?_
  rw [bf_init_fst]
  exact get_foldl_set_defined graph.nodes [] k (Or.inl hk)

/-- **C4.** On any well-formed graph containing a negative cycle reachable
from the start node, `runBellmanFord` returns no `path` and no `mstLinks`,
and its logs contain the fatal negative-cycle report (either the post-pass
`CRITICAL ERROR` line or, for undirected graphs, the negative-metric
pre-check line). -/
theorem bellmanFord_reports_negative_cycle (graph : GraphData) (startId : String)
    (endId : Option String)
    (hwf : ∀ l ∈ graph.links,
      l.source ∈ graph.nodes.map Node.id ∧ l.target ∈ graph.nodes.map Node.id)
    (hcyc : NegCycleReachable (bfAllEdges graph) startId) :
    (runBellmanFord graph startId endId).path = none ∧
    (runBellmanFord graph startId endId).mstLinks = none ∧
    (bfCycleMsg ∈ (runBellmanFord graph startId endId).logs ∨
     bfUndirNegMsg ∈ (runBellmanFord graph startId endId).logs) := by
  unfold runBellmanFord
  by_cases hpre : (!graph.isDirected && graph.links.any (fun l => l.weight < 0)) = true
  · rw [if_pos hpre]
    exact ⟨rfl, rfl, Or.inr (by simp)⟩
  · rw [if_neg hpre]
    rcases hfind : (bfAllEdges graph).find?
        (bfImproves (bfAfterLoopState graph startId).distances) with _ | e
    · exfalso
      have hni : ∀ e ∈ bfAllEdges graph,
          bfImproves (bfAfterLoopState graph startId).distances e = false := by
        intro e he
        have := List.find?_eq_none.mp hfind e he
        simpa using this
      have hkeys : ∀ e ∈ bfAllEdges graph,
          KeyDefinedAt (bfAfterLoopState graph startId).distances e.u ∧
          KeyDefinedAt (bfAfterLoopState graph startId).distances e.v := by
        intro e he
        obtain ⟨l, hl, hor⟩ := bfAllEdges_mem graph e he
        rcases hor with ⟨hu, hv, -⟩ | ⟨-, hu, hv, -⟩
        · exact ⟨bfAfterLoopState_node_defined graph startId _ (hu ▸ (hwf l hl).1),
            bfAfterLoopState_node_defined graph startId _ (hv ▸ (hwf l hl).2)⟩
        · exact ⟨bfAfterLoopState_node_defined graph startId _ (hu ▸ (hwf l hl).2),
            bfAfterLoopState_node_defined graph startId _ (hv ▸ (hwf l hl).1)⟩
      exact no_improve_no_negcycle (bfAllEdges graph)
        (bfAfterLoopState graph startId).distances startId hni hkeys
        (bfAfterLoopState_start_finite graph startId) hcyc
    · simp only [hfind]
      refine ⟨trivial, trivial, Or.inl ?_⟩
      simp


/-- A directed two-node graph with the negative cycle `a -> b -> a` of total
weight `-2`, reachable from `a`. -/
def negCycleGraph : GraphData := {
  nodes := [mkNode "a" "A", mkNode "b" "B"]
  links := [
    { source := "a", target := "b", weight := 1 },
    { source := "b", target := "a", weight := -3 }]
  isDirected := true }

/-- Witness for C4 at the concrete negative-cycle graph. -/
theorem bellmanFord_reports_negative_cycle_witness :
    (runBellmanFord negCycleGraph "a" none).path = none ∧
    (runBellmanFord negCycleGraph "a" none).mstLinks = none ∧
    (bfCycleMsg ∈ (runBellmanFord negCycleGraph "a" none).logs ∨
     bfUndirNegMsg ∈ (runBellmanFord negCycleGraph "a" none).logs) := by
  apply bellmanFord_reports_negative_cycle
  · decide
  · refine ⟨"a", "b", 1, -3 + 0, ⟨0, BFWalkFrom.nil "a"⟩, ?_, ?_, ?_⟩
    · decide
    · exact BFWalkFrom.cons (by decide) (BFWalkFrom.nil "a")
    · decide

/-! ## C7 — bipartiteness check

The spec-level notions: the symmetric (underlying undirected) adjacency of
the link list, walks over it, and odd closed walks.  `checkBipartite` is
proved to answer `true` with a disjoint covering 2-partition exactly on
undirected graphs without odd closed walks, and `false` on any graph whose
underlying structure has one. -/

/-- The underlying undirected adjacency of the link list. -/
def LinkAdj (graph : GraphData) (u v : String) : Prop :=
  ∃ l ∈ graph.links, (l.source = u ∧ l.target = v) ∨ (l.source = v ∧ l.target = u)

theorem LinkAdj.symm {graph : GraphData} {u v : String} (h : LinkAdj graph u v) :
    LinkAdj graph v u := by
  rcases h with ⟨l, hl, h | h⟩
  · exact ⟨l, hl, Or.inr h⟩
  · exact ⟨l, hl, Or.inl h⟩

/-- Walks in the underlying undirected graph, measured by length. -/
inductive UWalk (graph : GraphData) : String → String → Nat → Prop
  | nil (u : String) : UWalk graph u u 0
  | cons {u v x : String} {n : Nat} (h : LinkAdj graph u v) (ht : UWalk graph v x n) :
      UWalk graph u x (n + 1)

theorem UWalk.append {graph : GraphData} {u v w : String} {m n : Nat}
    (h1 : UWalk graph u v m) (h2 : UWalk graph v w n) : UWalk graph u w (m + n) := by
  induction h1 with
  | nil _ => simpa using h2
  | cons h ht ih =>
    rw [Nat.add_right_comm]
    exact UWalk.cons h (ih h2)

theorem UWalk.snoc {graph : GraphData} {u v w : String} {n : Nat}
    (h1 : UWalk graph u v n) (h2 : LinkAdj graph v w) : UWalk graph u w (n + 1) :=
  h1.append (UWalk.cons h2 (UWalk.nil w))

theorem UWalk.reverse {graph : GraphData} {u v : String} {n : Nat}
    (h : UWalk graph u v n) : UWalk graph v u n := by
  induction h with
  | nil u => exact UWalk.nil u
  | cons h ht ih => exact ih.snoc h.symm

/-- The underlying undirected structure contains an odd closed walk. -/
def HasOddCycle (graph : GraphData) : Prop :=
  ∃ (u : String) (n : Nat), UWalk graph u u (2 * n + 1)

theorem hasOddCycle_of_odd_closed {graph : GraphData} {u : String} {n : Nat}
    (hodd : n % 2 = 1) (h : UWalk graph u u n) : HasOddCycle graph :=
  ⟨u, n / 2, by rwa [show 2 * (n / 2) + 1 = n from by omega]⟩

/-! ### Adjacency-list lemmas under well-formedness -/

/-- Well-formedness: every link endpoint names an existing node. -/
def WellFormed (graph : GraphData) : Prop :=
  ∀ l ∈ graph.links, l.source ∈ graph.nodes.map Node.id ∧
    l.target ∈ graph.nodes.map Node.id

theorem get_foldl_init_defined {α : Type} (l : List Node) (m0 : JSObj (List α))
    (k : String) (hk : k ∈ l.map Node.id ∨ ∃ j, JSObj.get m0 k = some j) :
    ∃ j, JSObj.get (l.foldl (fun m n => JSObj.set m n.id []) m0) k = some j := by
  induction l generalizing m0 with
  | nil =>
    rcases hk with h | h
    · simp at h
    · exact h
  | cons n rest ih =>
    rcases hk with h | h
    · simp only [List.map_cons, List.mem_cons] at h
      rcases h with h | h
      · exact ih _ (Or.inr (by rw [h]; exact ⟨_, JSObj.get_set _ _ _⟩))
      · exact ih _ (Or.inl h)
    · refine ih _ (Or.inr ?_)
      by_cases hn : n.id = k
      · subst hn; exact ⟨_, JSObj.get_set _ _ _⟩
      · rw [JSObj.get_set_ne _ _ _ _ hn]; exact h

theorem pushAdj_defined (adj adj' : JSObj (List AdjEntry)) (key : String)
    (e : AdjEntry) (h : pushAdj adj key e = some adj') (k : String)
    (hk : ∃ j, adj.get k = some j) : ∃ j, adj'.get k = some j := by
  unfold pushAdj at h
  rcases hget : adj.get key with _ | lst
  · rw [hget] at h; exact absurd h (by simp)
  · rw [hget] at h
    simp only [Option.some.injEq] at h
    subst h
    by_cases hkk : key = k
    · subst hkk; exact ⟨_, JSObj.get_set _ _ _⟩
    · rw [JSObj.get_set_ne _ _ _ _ hkk]; exact hk

/-- Case analysis for one step of the adjacency build. -/
theorem adjStep_cases (graph : GraphData) (m m' : JSObj (List AdjEntry)) (l : Link)
    (h : adjStep graph m l = some m') :
    ∃ m1, pushAdj m l.source ⟨l.target, l.weight, capOrWeight l⟩ = some m1 ∧
      ((graph.isDirected = true ∧ m' = m1) ∨
       (graph.isDirected = false ∧
         pushAdj m1 l.target ⟨l.source, l.weight, capOrWeight l⟩ = some m')) := by
  unfold adjStep at h
  rcases hp1 : pushAdj m l.source ⟨l.target, l.weight, capOrWeight l⟩ with _ | m1
  · rw [hp1] at h; exact absurd h (by simp)
  · rw [hp1] at h
    simp only [Option.bind_eq_bind, Option.some_bind] at h
    refine ⟨m1, rfl, ?_⟩
    rcases hdir : graph.isDirected with _ | _
    · rw [hdir] at h
      simp only [Bool.false_eq_true, if_false] at h
      exact Or.inr ⟨rfl, h⟩
    · rw [hdir] at h
      simp only [if_true, Option.pure_def, Option.some.injEq] at h
      exact Or.inl ⟨rfl, h.symm⟩

/-- The adjacency build succeeds on a well-formed graph, with an entry list
for every node id. -/
theorem getAdjacencyList_wf (graph : GraphData) (hwf : WellFormed graph) :
    ∃ adj, getAdjacencyList graph = some adj ∧
      ∀ k, k ∈ graph.nodes.map Node.id → ∃ j, adj.get k = some j := by
  unfold getAdjacencyList
  simp only
  suffices h : ∀ (ls : List Link) (m : JSObj (List AdjEntry)),
      (∀ l ∈ ls, l.source ∈ graph.nodes.map Node.id ∧ l.target ∈ graph.nodes.map Node.id) →
      (∀ k, k ∈ graph.nodes.map Node.id → ∃ j, m.get k = some j) →
      ∃ adj, ls.foldlM (adjStep graph) m = some adj ∧
        ∀ k, k ∈ graph.nodes.map Node.id → ∃ j, adj.get k = some j by
    refine h graph.links _ hwf ?_
    intro k hk
    exact get_foldl_init_defined graph.nodes [] k (Or.inl hk)
  intro ls
  induction ls with
  | nil => exact fun m _ hm => ⟨m, rfl, hm⟩
  | cons l rest ih =>
    intro m hls hm
    obtain ⟨j1, hj1⟩ := hm l.source (hls l (by simp)).1
    have hpush1 : pushAdj m l.source ⟨l.target, l.weight, capOrWeight l⟩ =
        some (m.set l.source (j1 ++ [⟨l.target, l.weight, capOrWeight l⟩])) := by
      unfold pushAdj; rw [hj1]
    set m1 := m.set l.source (j1 ++ [⟨l.target, l.weight, capOrWeight l⟩]) with hm1
    have hm1def : ∀ k, k ∈ graph.nodes.map Node.id → ∃ j, m1.get k = some j :=
      fun k hk => pushAdj_defined m m1 l.source _ hpush1 k (hm k hk)
    rcases hdir : graph.isDirected with _ | _
    · obtain ⟨j2, hj2⟩ := hm1def l.target (hls l (by simp)).2
      have hpush2 : pushAdj m1 l.target ⟨l.source, l.weight, capOrWeight l⟩ =
          some (m1.set l.target (j2 ++ [⟨l.source, l.weight, capOrWeight l⟩])) := by
        unfold pushAdj; rw [hj2]
      set m2 := m1.set l.target (j2 ++ [⟨l.source, l.weight, capOrWeight l⟩]) with hm2
      have hm2def : ∀ k, k ∈ graph.nodes.map Node.id → ∃ j, m2.get k = some j :=
        fun k hk => pushAdj_defined m1 m2 l.target _ hpush2 k (hm1def k hk)
      obtain ⟨adj, hadj, hdef⟩ := ih m2 (fun l' hl' => hls l' (by simp [hl'])) hm2def
      refine ⟨adj, ?_, hdef⟩
      rw [List.foldlM_cons]
      have hstep : adjStep graph m l = some m2 := by
        unfold adjStep
        rw [hpush1]
        simp only [Option.bind_eq_bind, Option.some_bind, hdir, Bool.false_eq_true, if_false]
        exact hpush2
      rw [hstep]
      simpa using hadj
    · obtain ⟨adj, hadj, hdef⟩ := ih m1 (fun l' hl' => hls l' (by simp [hl'])) hm1def
      refine ⟨adj, ?_, hdef⟩
      rw [List.foldlM_cons]
      have hstep : adjStep graph m l = some m1 := by
        unfold adjStep
        rw [hpush1]
        simp [hdir]
      rw [hstep]
      simpa using hadj

/-- The adjacency map `m` has an entry `x` at key `u`. -/
def HasEntry (m : JSObj (List AdjEntry)) (u x : String) : Prop :=
  ∃ lst, m.get u = some lst ∧ ∃ e ∈ lst, e.node = x

/-- Sound adjacency: every recorded entry comes from a link. -/
def AdjSound (graph : GraphData) (m : JSObj (List AdjEntry)) : Prop :=
  ∀ u lst, m.get u = some lst → ∀ e ∈ lst, LinkAdj graph u e.node

theorem pushAdj_entries (m m' : JSObj (List AdjEntry)) (key : String) (e : AdjEntry)
    (h : pushAdj m key e = some m') (u : String) (lst : List AdjEntry)
    (hu : m.get u = some lst) : ∃ t, m'.get u = some (lst ++ t) := by
  unfold pushAdj at h
  rcases hget : m.get key with _ | lst0
  · rw [hget] at h; exact absurd h (by simp)
  · rw [hget] at h
    simp only [Option.some.injEq] at h
    subst h
    by_cases hkk : key = u
    · subst hkk
      rw [hget] at hu
      simp only [Option.some.injEq] at hu
      subst hu
      exact ⟨[e], JSObj.get_set _ _ _⟩
    · rw [JSObj.get_set_ne _ _ _ _ hkk]
      exact ⟨[], by simpa using hu⟩

theorem pushAdj_hasEntry_mono (m m' : JSObj (List AdjEntry)) (key : String)
    (e : AdjEntry) (h : pushAdj m key e = some m') (u x : String)
    (he : HasEntry m u x) : HasEntry m' u x := by
  rcases he with ⟨lst, hlst, e0, he0, hx⟩
  obtain ⟨t, ht⟩ := pushAdj_entries m m' key e h u lst hlst
  exact ⟨lst ++ t, ht, e0, by simp [he0], hx⟩

theorem pushAdj_hasEntry_self (m m' : JSObj (List AdjEntry)) (key : String)
    (e : AdjEntry) (h : pushAdj m key e = some m') : HasEntry m' key e.node := by
  unfold pushAdj at h
  rcases hget : m.get key with _ | lst0
  · rw [hget] at h; exact absurd h (by simp)
  · rw [hget] at h
    simp only [Option.some.injEq] at h
    subst h
    exact ⟨lst0 ++ [e], JSObj.get_set _ _ _, e, by simp, rfl⟩

theorem pushAdj_sound (graph : GraphData) (m m' : JSObj (List AdjEntry)) (key : String)
    (e : AdjEntry) (h : pushAdj m key e = some m') (hs : AdjSound graph m)
    (hl : LinkAdj graph key e.node) : AdjSound graph m' := by
  unfold pushAdj at h
  rcases hget : m.get key with _ | lst0
  · rw [hget] at h; exact absurd h (by simp)
  · rw [hget] at h
    simp only [Option.some.injEq] at h
    subst h
    intro u lst hu e0 he0
    by_cases hkk : key = u
    · subst hkk
      rw [JSObj.get_set] at hu
      simp only [Option.some.injEq] at hu
      subst hu
      rcases List.mem_append.mp he0 with h0 | h0
      · exact hs _ _ hget _ h0
      · simp only [List.mem_singleton] at h0
        subst h0
        exact hl
    · rw [JSObj.get_set_ne _ _ _ _ hkk] at hu
      exact hs _ _ hu _ he0

/-- `getAdjacencyList` is sound: each entry at `u` names a link neighbour. -/
theorem getAdjacencyList_sound (graph : GraphData) (adj : JSObj (List AdjEntry))
    (h : getAdjacencyList graph = some adj) : AdjSound graph adj := by
  unfold getAdjacencyList at h
  simp only at h
  suffices hgen : ∀ (ls : List Link), (∀ l ∈ ls, l ∈ graph.links) →
      ∀ m, AdjSound graph m → ls.foldlM (adjStep graph) m = some adj →
      AdjSound graph adj by
    refine hgen graph.links (fun l hl => hl) _ ?_ h
    intro u lst hu e he
    exfalso
    suffices hempty : ∀ (l : List Node) (m0 : JSObj (List AdjEntry)),
        (∀ u lst, JSObj.get m0 u = some lst → lst = []) →
        ∀ u lst, JSObj.get (l.foldl (fun m n => JSObj.set m n.id []) m0) u = some lst →
          lst = [] by
      have := hempty graph.nodes [] (by intro u lst h0; simp at h0) u lst hu
      subst this
      simp at he
    intro l
    induction l with
    | nil => intro m0 hm0; exact hm0
    | cons n rest ih =>
      intro m0 hm0
      refine ih _ ?_
      intro u lst h0
      by_cases hn : n.id = u
      · subst hn
        rw [JSObj.get_set] at h0
        simpa using h0.symm
      · rw [JSObj.get_set_ne _ _ _ _ hn] at h0
        exact hm0 _ _ h0
  intro ls
  induction ls with
  | nil =>
    intro _ m hm hfold
    simp only [List.foldlM_nil, Option.pure_def, Option.some.injEq] at hfold
    subst hfold
    exact hm
  | cons l rest ih =>
    intro hls m hm hfold
    rw [List.foldlM_cons] at hfold
    rcases hstep : adjStep graph m l with _ | mnext
    · rw [hstep] at hfold; exact absurd hfold (by simp)
    · rw [hstep] at hfold
      simp only [Option.bind_eq_bind, Option.some_bind] at hfold
      obtain ⟨m1, hp1, hcase⟩ := adjStep_cases graph m mnext l hstep
      have hm1 : AdjSound graph m1 :=
        pushAdj_sound graph m m1 _ _ hp1 hm ⟨l, hls l (by simp), Or.inl ⟨rfl, rfl⟩⟩
      have hmnext : AdjSound graph mnext := by
        rcases hcase with ⟨-, heq⟩ | ⟨-, hp2⟩
        · subst heq; exact hm1
        · exact pushAdj_sound graph m1 mnext _ _ hp2 hm1
            ⟨l, hls l (by simp), Or.inr ⟨rfl, rfl⟩⟩
      exact ih (fun l' hl' => hls l' (by simp [hl'])) mnext hmnext hfold

/-- Entry sets only grow along the remaining fold. -/
theorem adjFold_hasEntry_mono (graph : GraphData) (adj : JSObj (List AdjEntry))
    (ls : List Link) (m : JSObj (List AdjEntry))
    (hfold : ls.foldlM (adjStep graph) m = some adj) (u x : String)
    (hx : HasEntry m u x) : HasEntry adj u x := by
  induction ls generalizing m with
  | nil =>
    simp only [List.foldlM_nil, Option.pure_def, Option.some.injEq] at hfold
    subst hfold
    exact hx
  | cons l rest ih =>
    rw [List.foldlM_cons] at hfold
    rcases hstep : adjStep graph m l with _ | mnext
    · rw [hstep] at hfold; exact absurd hfold (by simp)
    · rw [hstep] at hfold
      simp only [Option.bind_eq_bind, Option.some_bind] at hfold
      obtain ⟨m1, hp1, hcase⟩ := adjStep_cases graph m mnext l hstep
      have hx1 : HasEntry m1 u x := pushAdj_hasEntry_mono m m1 _ _ hp1 u x hx
      have hxnext : HasEntry mnext u x := by
        rcases hcase with ⟨-, heq⟩ | ⟨-, hp2⟩
        · subst heq; exact hx1
        · exact pushAdj_hasEntry_mono m1 mnext _ _ hp2 u x hx1
      exact ih mnext hfold hxnext

/-- `getAdjacencyList` is complete: each link records its forward entry, and
its reverse entry when the graph is undirected. -/
theorem getAdjacencyList_complete (graph : GraphData) (adj : JSObj (List AdjEntry))
    (h : getAdjacencyList graph = some adj) :
    ∀ l ∈ graph.links, HasEntry adj l.source l.target ∧
      (graph.isDirected = false → HasEntry adj l.target l.source) := by
  unfold getAdjacencyList at h
  simp only at h
  suffices hgen : ∀ (ls : List Link) (m : JSObj (List AdjEntry)),
      ls.foldlM (adjStep graph) m = some adj →
      ∀ l ∈ ls, HasEntry adj l.source l.target ∧
        (graph.isDirected = false → HasEntry adj l.target l.source) by
    exact hgen graph.links _ h
  intro ls
  induction ls with
  | nil => intro m _ l hl; simp at hl
  | cons l rest ih =>
    intro m hfold l' hl'
    rw [List.foldlM_cons] at hfold
    rcases hstep : adjStep graph m l with _ | mnext
    · rw [hstep] at hfold; exact absurd hfold (by simp)
    · rw [hstep] at hfold
      simp only [Option.bind_eq_bind, Option.some_bind] at hfold
      obtain ⟨m1, hp1, hcase⟩ := adjStep_cases graph m mnext l hstep
      rcases List.mem_cons.mp hl' with heq | hmem
      · subst heq
        constructor
        · refine adjFold_hasEntry_mono graph adj rest mnext hfold _ _ ?_
          have hself := pushAdj_hasEntry_self m m1 _ _ hp1
          rcases hcase with ⟨-, heq⟩ | ⟨-, hp2⟩
          · subst heq; exact hself
          · exact pushAdj_hasEntry_mono m1 mnext _ _ hp2 _ _ hself
        · intro hdir
          rcases hcase with ⟨hdir2, -⟩ | ⟨-, hp2⟩
          · rw [hdir] at hdir2; exact absurd hdir2 (by simp)
          · exact adjFold_hasEntry_mono graph adj rest mnext hfold _ _
              (pushAdj_hasEntry_self m1 mnext _ _ hp2)
      · exact ih mnext hfold l' hmem

/-! ### Colouring invariants -/

/-- Every adjacency entry of `u` is coloured differently from `c`. -/
def FullyScanned (adj : JSObj (List AdjEntry)) (colors : JSObj Int) (u : String)
    (c : Int) : Prop :=
  ∀ e ∈ (adj.get u).getD [], ∃ cv, colors.get e.node = some cv ∧ cv ≠ c

/-- The odd-cycle transfer invariant: any walk between coloured nodes whose
parity disagrees with the colours forces an odd closed walk somewhere. -/
def WInv (graph : GraphData) (colors : JSObj Int) : Prop :=
  ∀ u v cu cv n, colors.get u = some cu → colors.get v = some cv →
    UWalk graph u v n →
    ((n % 2 = 0 ∧ cu ≠ cv) ∨ (n % 2 = 1 ∧ cu = cv)) → HasOddCycle graph

/-- Colours are only 0 or 1. -/
def C01 (colors : JSObj Int) : Prop :=
  ∀ k c, colors.get k = some c → c = 0 ∨ c = 1

theorem colors_set_preserve (colors : JSObj Int) (v : String) (c : Int)
    (hv : colors.get v = none) (k : String) (ck : Int)
    (hk : colors.get k = some ck) : (colors.set v c).get k = some ck := by
  by_cases hkv : v = k
  · subst hkv; rw [hv] at hk; exact absurd hk (by simp)
  · rw [JSObj.get_set_ne _ _ _ _ hkv]; exact hk

theorem fullyScanned_mono (adj : JSObj (List AdjEntry)) (colors colors' : JSObj Int)
    (hm : ∀ k c, colors.get k = some c → colors'.get k = some c) (u : String) (c : Int)
    (h : FullyScanned adj colors u c) : FullyScanned adj colors' u c := by
  intro e he
  obtain ⟨cv, hcv, hne⟩ := h e he
  exact ⟨cv, hm _ _ hcv, hne⟩

/-- Colouring a fresh node `v` with `1 - cu` across an edge from `u`
preserves the transfer invariant. -/
theorem WInv_extend (graph : GraphData) (colors : JSObj Int) (u v : String) (cu : Int)
    (hW : WInv graph colors) (hC : C01 colors)
    (hcu : colors.get u = some cu) (hv : colors.get v = none)
    (hadjuv : LinkAdj graph u v) :
    WInv graph (colors.set v (1 - cu)) := by
  have hget : ∀ k c, (colors.set v (1 - cu)).get k = some c →
      (k ≠ v ∧ colors.get k = some c) ∨ (k = v ∧ c = 1 - cu) := by
    intro k c hk
    by_cases hkv : k = v
    · subst hkv
      rw [JSObj.get_set] at hk
      simp only [Option.some.injEq] at hk
      exact Or.inr ⟨rfl, hk.symm⟩
    · rw [JSObj.get_set_ne _ _ _ _ (fun h => hkv h.symm)] at hk
      exact Or.inl ⟨hkv, hk⟩
  have hcu01 : cu = 0 ∨ cu = 1 := hC u cu hcu
  intro p q cp cq n hp hq hwalk hbad
  rcases hget p cp hp with ⟨hpv, hpold⟩ | ⟨hpv, hcp⟩ <;>
    rcases hget q cq hq with ⟨hqv, hqold⟩ | ⟨hqv, hcq⟩
  · exact hW p q cp cq n hpold hqold hwalk hbad
  · -- q = v fresh, p old: extend the walk by the edge v-u
    subst hqv hcq
    have hwalk2 : UWalk graph p u (n + 1) := hwalk.snoc hadjuv.symm
    have hcp01 : cp = 0 ∨ cp = 1 := hC p cp hpold
    refine hW p u cp cu (n + 1) hpold hcu hwalk2 ?_
    rcases hbad with ⟨he, hne⟩ | ⟨ho, heq⟩
    · right
      refine ⟨by omega, by omega⟩
    · left
      refine ⟨by omega, by omega⟩
  · -- p = v fresh, q old: reverse
    subst hpv hcp
    have hwalk2 : UWalk graph q u (n + 1) := hwalk.reverse.snoc hadjuv.symm
    have hcq01 : cq = 0 ∨ cq = 1 := hC q cq hqold
    refine hW q u cq cu (n + 1) hqold hcu hwalk2 ?_
    rcases hbad with ⟨he, hne⟩ | ⟨ho, heq⟩
    · right
      refine ⟨by omega, by omega⟩
    · left
      refine ⟨by omega, by omega⟩
  · -- both are the fresh node: a closed walk at v
    subst hpv hcp
    subst hqv
    rcases hbad with ⟨-, hne⟩ | ⟨ho, -⟩
    · exact absurd hcq (by omega)
    · exact hasOddCycle_of_odd_closed ho hwalk

/-- Walks out of a coloured node stay coloured when the colouring is closed
under the link adjacency. -/
theorem walk_colored_of_closed (graph : GraphData) (colors : JSObj Int)
    (hclosed : ∀ w c, colors.get w = some c → ∀ y, LinkAdj graph w y →
      ∃ cy, colors.get y = some cy)
    {p y : String} {n : Nat} (hwalk : UWalk graph p y n) :
    ∀ cp, colors.get p = some cp → ∃ cy, colors.get y = some cy := by
  induction hwalk with
  | nil u => exact fun cp hp => ⟨cp, hp⟩
  | cons h ht ih =>
    intro cp hp
    obtain ⟨cw, hcw⟩ := hclosed _ _ hp _ h
    exact ih cw hcw

/-- Colouring a fresh component start with `0` preserves the transfer
invariant, provided the existing colouring is adjacency-closed. -/
theorem WInv_new_component (graph : GraphData) (colors : JSObj Int) (s : String)
    (hW : WInv graph colors) (hs : colors.get s = none)
    (hclosed : ∀ w c, colors.get w = some c → ∀ y, LinkAdj graph w y →
      ∃ cy, colors.get y = some cy) :
    WInv graph (colors.set s 0) := by
  have hget : ∀ k c, (colors.set s 0).get k = some c →
      (k ≠ s ∧ colors.get k = some c) ∨ (k = s ∧ c = 0) := by
    intro k c hk
    by_cases hks : k = s
    · subst hks
      rw [JSObj.get_set] at hk
      simp only [Option.some.injEq] at hk
      exact Or.inr ⟨rfl, hk.symm⟩
    · rw [JSObj.get_set_ne _ _ _ _ (fun h => hks h.symm)] at hk
      exact Or.inl ⟨hks, hk⟩
  intro p q cp cq n hp hq hwalk hbad
  rcases hget p cp hp with ⟨hpv, hpold⟩ | ⟨hpv, hcp⟩ <;>
    rcases hget q cq hq with ⟨hqv, hqold⟩ | ⟨hqv, hcq⟩
  · exact hW p q cp cq n hpold hqold hwalk hbad
  · subst hqv
    obtain ⟨cy, hcy⟩ := walk_colored_of_closed graph colors hclosed hwalk cp hpold
    rw [hs] at hcy
    exact absurd hcy (by simp)
  · subst hpv
    obtain ⟨cy, hcy⟩ :=
      walk_colored_of_closed graph colors hclosed hwalk.reverse cq hqold
    rw [hs] at hcy
    exact absurd hcy (by simp)
  · subst hpv hcp
    subst hqv
    rcases hbad with ⟨-, hne⟩ | ⟨ho, -⟩
    · exact absurd hcq (by omega)
    · exact hasOddCycle_of_odd_closed ho hwalk

/-! ### Termination measure for the BFS queue -/

/-- Every id the colouring can ever touch. -/
def candidates (graph : GraphData) : List String :=
  graph.nodes.map Node.id ++ graph.links.flatMap (fun l => [l.source, l.target])

theorem mem_candidates_of_linkAdj {graph : GraphData} {u v : String}
    (h : LinkAdj graph u v) : v ∈ candidates graph := by
  rcases h with ⟨l, hl, ⟨-, ht⟩ | ⟨hs, -⟩⟩
  · exact List.mem_append.mpr (Or.inr (List.mem_flatMap.mpr ⟨l, hl, by simp [ht]⟩))
  · exact List.mem_append.mpr (Or.inr (List.mem_flatMap.mpr ⟨l, hl, by simp [hs]⟩))

/-- Number of candidate ids not yet coloured (with multiplicity). -/
def uncoloredCount (graph : GraphData) (colors : JSObj Int) : Nat :=
  ((candidates graph).filter (fun k => (colors.get k).isNone)).length

theorem length_filter_mono {α : Type} (p q : α → Bool)
    (h : ∀ a, p a = true → q a = true) (l : List α) :
    (l.filter p).length ≤ (l.filter q).length := by
  induction l with
  | nil => simp
  | cons a rest ih =>
    by_cases hp : p a = true
    · simp [List.filter_cons, hp, h a hp]
      omega
    · simp only [List.filter_cons, Bool.not_eq_true] at *
      rw [hp]
      by_cases hq : q a = true
      · simp [hq]; omega
      · simp only [Bool.not_eq_true] at hq
        rw [hq]
        simpa using ih

theorem length_filter_lt {α : Type} [DecidableEq α] (p q : α → Bool)
    (h : ∀ a, p a = true → q a = true) (l : List α) (v : α) (hv : v ∈ l)
    (hq : q v = true) (hp : p v = false) :
    (l.filter p).length < (l.filter q).length := by
  induction l with
  | nil => simp at hv
  | cons a rest ih =>
    rcases List.mem_cons.mp hv with heq | hmem
    · subst heq
      simp only [List.filter_cons, hp, hq]
      simp only [Bool.false_eq_true, if_false, if_true, List.length_cons]
      exact Nat.lt_succ_of_le (length_filter_mono p q h rest)
    · by_cases hpa : p a = true
      · simp only [List.filter_cons, hpa, h a hpa, if_true, List.length_cons]
        exact Nat.succ_lt_succ (ih hmem)
      · simp only [Bool.not_eq_true] at hpa
        simp only [List.filter_cons, hpa, Bool.false_eq_true, if_false]
        by_cases hqa : q a = true
        · simp only [hqa, if_true, List.length_cons]
          exact Nat.lt_succ_of_lt (ih hmem)
        · simp only [Bool.not_eq_true] at hqa
          simp only [hqa, Bool.false_eq_true, if_false]
          exact ih hmem

theorem uncoloredCount_set_lt (graph : GraphData) (colors : JSObj Int) (v : String)
    (c : Int) (hv : colors.get v = none) (hc : v ∈ candidates graph) :
    uncoloredCount graph (colors.set v c) < uncoloredCount graph colors := by
  refine length_filter_lt _ _ ?_ _ v hc (by simp [hv]) (by simp)
  intro a ha
  simp only [Option.isNone_iff_eq_none] at ha ⊢
  by_cases hav : v = a
  · subst hav
    rw [JSObj.get_set] at ha
    exact absurd ha (by simp)
  · rwa [JSObj.get_set_ne _ _ _ _ hav] at ha

end NetworkSim
namespace NetworkSim

/-- The state update of `bipNeighborLoop` on an uncoloured neighbour:
colour it `1 - cu`, place it in the opposite zone, enqueue it, log it. -/
def bipAssign (graph : GraphData) (u : String) (e : AdjEntry) (cu : Int)
    (st : BipState) : BipState :=
  let v := e.node
  let cv := 1 - cu
  let setA := if cv = 0 then st.setA ++ [v] else st.setA
  let setB := if cv = 0 then st.setB else st.setB ++ [v]
  let assignLog := "  -> G\u00e1n " ++ getLabel graph v ++ " v\u00e0o " ++
    (if cv = 0 then "Zone A" else "Zone B")
  { st with
    colors := st.colors.set v cv
    setA := setA
    setB := setB
    queue := st.queue ++ [v]
    logs := st.logs ++ [assignLog]
    steps := st.steps ++ [{
      log := assignLog
      currentNodeId := some v
      currentLinkId := some (u, v)
      bipartiteSets := some (setA, setB) }] }

theorem bipAssign_colors (graph : GraphData) (u : String) (e : AdjEntry) (cu : Int)
    (st : BipState) :
    (bipAssign graph u e cu st).colors = st.colors.set e.node (1 - cu) := rfl

theorem bipAssign_queue (graph : GraphData) (u : String) (e : AdjEntry) (cu : Int)
    (st : BipState) :
    (bipAssign graph u e cu st).queue = st.queue ++ [e.node] := rfl

theorem bipAssign_isBipartite (graph : GraphData) (u : String) (e : AdjEntry)
    (cu : Int) (st : BipState) :
    (bipAssign graph u e cu st).isBipartite = st.isBipartite := rfl

theorem bipAssign_setA (graph : GraphData) (u : String) (e : AdjEntry) (cu : Int)
    (st : BipState) :
    (bipAssign graph u e cu st).setA =
      (if 1 - cu = 0 then st.setA ++ [e.node] else st.setA) := rfl

theorem bipAssign_setB (graph : GraphData) (u : String) (e : AdjEntry) (cu : Int)
    (st : BipState) :
    (bipAssign graph u e cu st).setB =
      (if 1 - cu = 0 then st.setB else st.setB ++ [e.node]) := rfl

/-- Full specification of one neighbour scan of `checkBipartite`:
colour monotonicity, queue extension, all colouring invariants, the
odd-cycle consequence of a conflict, and — on success — that the scanned
entries are properly coloured and the scanned-or-queued invariant holds. -/
theorem bipNeighborLoop_spec (graph : GraphData) (adj : JSObj (List AdjEntry))
    (hadj : AdjSound graph adj) (u : String) (cu : Int) :
    ∀ (entries done : List AdjEntry) (st : BipState),
    (adj.get u).getD [] = done ++ entries →
    st.isBipartite = true →
    st.colors.get u = some cu →
    (∀ x ∈ st.queue, ∃ c, st.colors.get x = some c) →
    C01 st.colors →
    (∀ k, k ∈ st.setA ↔ st.colors.get k = some 0) →
    (∀ k, k ∈ st.setB ↔ st.colors.get k = some 1) →
    (∀ w c, st.colors.get w = some c →
       w = u ∨ w ∈ st.queue ∨ FullyScanned adj st.colors w c) →
    (∀ e ∈ done, ∃ cv, st.colors.get e.node = some cv ∧ cv ≠ cu) →
    (graph.isDirected = false → WInv graph st.colors) →
    ((∀ k c, st.colors.get k = some c →
        (bipNeighborLoop graph u entries st).colors.get k = some c) ∧
     (∃ qext, (bipNeighborLoop graph u entries st).queue = st.queue ++ qext) ∧
     (∀ x ∈ (bipNeighborLoop graph u entries st).queue,
        ∃ c, (bipNeighborLoop graph u entries st).colors.get x = some c) ∧
     C01 (bipNeighborLoop graph u entries st).colors ∧
     (∀ k, k ∈ (bipNeighborLoop graph u entries st).setA ↔
        (bipNeighborLoop graph u entries st).colors.get k = some 0) ∧
     (∀ k, k ∈ (bipNeighborLoop graph u entries st).setB ↔
        (bipNeighborLoop graph u entries st).colors.get k = some 1) ∧
     (graph.isDirected = false →
        WInv graph (bipNeighborLoop graph u entries st).colors) ∧
     ((bipNeighborLoop graph u entries st).isBipartite = false →
        graph.isDirected = false → HasOddCycle graph) ∧
     ((bipNeighborLoop graph u entries st).isBipartite = true →
       (∀ e ∈ done ++ entries, ∃ cv,
          (bipNeighborLoop graph u entries st).colors.get e.node = some cv ∧ cv ≠ cu) ∧
       (∀ w c, (bipNeighborLoop graph u entries st).colors.get w = some c →
          w = u ∨ w ∈ (bipNeighborLoop graph u entries st).queue ∨
            FullyScanned adj (bipNeighborLoop graph u entries st).colors w c))) := by
  intro entries
  induction entries with
  | nil =>
    intro done st hsplit hTrue hcu hQ hC hSA hSB hScan hdone hW
    simp only [bipNeighborLoop]
    refine ⟨fun k c h => h, ⟨[], by simp⟩, hQ, hC, hSA, hSB, hW, ?_, ?_⟩
    · intro hfalse
      rw [hTrue] at hfalse
      exact absurd hfalse (by simp)
    · intro _
      refine ⟨by simpa using hdone, hScan⟩
  | cons e rest ih =>
    intro done st hsplit hTrue hcu hQ hC hSA hSB hScan hdone hW
    have hmemu : ∃ lst, adj.get u = some lst ∧ e ∈ lst := by
      rcases hga : adj.get u with _ | lst
      · rw [hga] at hsplit
        simp only [Option.getD_none] at hsplit
        exact absurd hsplit.symm (by simp)
      · rw [hga] at hsplit
        simp only [Option.getD_some] at hsplit
        exact ⟨lst, rfl, by rw [hsplit]; exact List.mem_append.mpr (Or.inr (by simp))⟩
    have hlink : LinkAdj graph u e.node := by
      obtain ⟨lst, hlst, hel⟩ := hmemu
      exact hadj u lst hlst e hel
    rcases hv : st.colors.get e.node with _ | cv
    · -- uncoloured neighbour: colour it, enqueue it, recurse
      have hcu01 : cu = 0 ∨ cu = 1 := hC u cu hcu
      have hstep : bipNeighborLoop graph u (e :: rest) st =
          bipNeighborLoop graph u rest (bipAssign graph u e cu st) := by
        simp only [bipNeighborLoop, hv, hcu, Option.getD_some, bipAssign]
      have hpres : ∀ k c, st.colors.get k = some c →
          (st.colors.set e.node (1 - cu)).get k = some c :=
        fun k c h => colors_set_preserve st.colors e.node (1 - cu) hv k c h
      have hgetv : (st.colors.set e.node (1 - cu)).get e.node = some (1 - cu) := by
        rw [JSObj.get_set]
      have hsplit2 : (adj.get u).getD [] = (done ++ [e]) ++ rest := by
        rw [hsplit, List.append_cons]
      have hcu2 : (bipAssign graph u e cu st).colors.get u = some cu :=
        hpres u cu hcu
      have hQ2 : ∀ x ∈ (bipAssign graph u e cu st).queue,
          ∃ c, (bipAssign graph u e cu st).colors.get x = some c := by
        intro x hx
        rw [bipAssign_queue] at hx
        rw [bipAssign_colors]
        rcases List.mem_append.mp hx with hx | hx
        · obtain ⟨c, hc⟩ := hQ x hx
          exact ⟨c, hpres x c hc⟩
        · simp only [List.mem_singleton] at hx
          subst hx
          exact ⟨1 - cu, hgetv⟩
      have hC2 : C01 (bipAssign graph u e cu st).colors := by
        intro k c hk
        rw [bipAssign_colors] at hk
        by_cases hke : e.node = k
        · subst hke
          rw [JSObj.get_set] at hk
          simp only [Option.some.injEq] at hk
          omega
        · rw [JSObj.get_set_ne _ _ _ _ hke] at hk
          exact hC k c hk
      have hSA2 : ∀ k, k ∈ (bipAssign graph u e cu st).setA ↔
          (bipAssign graph u e cu st).colors.get k = some 0 := by
        intro k
        rw [bipAssign_setA, bipAssign_colors]
        by_cases hke : e.node = k
        · subst hke
          rw [JSObj.get_set]
          rcases hcu01 with h0 | h1
          · subst h0
            simp only [show (1 : Int) - 0 = 1 from rfl]
            constructor
            · intro hmem
              simp only [if_neg (by omega : ¬(1 : Int) = 0)] at hmem
              have := (hSA e.node).mp hmem
              rw [hv] at this
              exact absurd this (by simp)
            · intro habs
              simp only [Option.some.injEq] at habs
              exact absurd habs (by omega)
          · subst h1
            simp only [show (1 : Int) - 1 = 0 from rfl, if_pos rfl]
            constructor
            · intro _
              trivial
            · intro _
              simp
        · rw [JSObj.get_set_ne _ _ _ _ hke]
          split
          · constructor
            · intro hmem
              rcases List.mem_append.mp hmem with h | h
              · exact (hSA k).mp h
              · simp only [List.mem_singleton] at h
                exact absurd h.symm hke
            · intro h
              exact List.mem_append.mpr (Or.inl ((hSA k).mpr h))
          · exact hSA k
      have hSB2 : ∀ k, k ∈ (bipAssign graph u e cu st).setB ↔
          (bipAssign graph u e cu st).colors.get k = some 1 := by
        intro k
        rw [bipAssign_setB, bipAssign_colors]
        by_cases hke : e.node = k
        · subst hke
          rw [JSObj.get_set]
          rcases hcu01 with h0 | h1
          · subst h0
            simp only [show (1 : Int) - 0 = 1 from rfl, if_neg (by omega : ¬(1 : Int) = 0)]
            constructor
            · intro _
              trivial
            · intro _
              simp
          · subst h1
            simp only [show (1 : Int) - 1 = 0 from rfl, if_pos rfl]
            constructor
            · intro hmem
              have := (hSB e.node).mp hmem
              rw [hv] at this
              exact absurd this (by simp)
            · intro habs
              simp only [Option.some.injEq] at habs
              exact absurd habs (by omega)
        · rw [JSObj.get_set_ne _ _ _ _ hke]
          split
          · exact hSB k
          · constructor
            · intro hmem
              rcases List.mem_append.mp hmem with h | h
              · exact (hSB k).mp h
              · simp only [List.mem_singleton] at h
                exact absurd h.symm hke
            · intro h
              exact List.mem_append.mpr (Or.inl ((hSB k).mpr h))
      have hScan2 : ∀ w c, (bipAssign graph u e cu st).colors.get w = some c →
          w = u ∨ w ∈ (bipAssign graph u e cu st).queue ∨
            FullyScanned adj (bipAssign graph u e cu st).colors w c := by
        intro w c hw
        rw [bipAssign_colors] at hw
        rw [bipAssign_queue]
        by_cases hwe : e.node = w
        · subst hwe
          exact Or.inr (Or.inl (List.mem_append.mpr (Or.inr (by simp))))
        · rw [JSObj.get_set_ne _ _ _ _ hwe] at hw
          rcases hScan w c hw with h | h | h
          · exact Or.inl h
          · exact Or.inr (Or.inl (List.mem_append.mpr (Or.inl h)))
          · refine Or.inr (Or.inr ?_)
            rw [bipAssign_colors]
            exact fullyScanned_mono adj st.colors _ hpres w c h
      have hdone2 : ∀ e' ∈ done ++ [e], ∃ cv,
          (bipAssign graph u e cu st).colors.get e'.node = some cv ∧ cv ≠ cu := by
        intro e' he'
        rw [bipAssign_colors]
        rcases List.mem_append.mp he' with h | h
        · obtain ⟨cv, hcv, hne⟩ := hdone e' h
          exact ⟨cv, hpres _ _ hcv, hne⟩
        · simp only [List.mem_singleton] at h
          subst h
          exact ⟨1 - cu, hgetv, by omega⟩
      have hW2 : graph.isDirected = false →
          WInv graph (bipAssign graph u e cu st).colors := by
        intro hdir
        rw [bipAssign_colors]
        exact WInv_extend graph st.colors u e.node cu (hW hdir) hC hcu hv hlink
      obtain ⟨hmono, ⟨qext, hqext⟩, hQr, hCr, hSAr, hSBr, hWr, hFr, hTr⟩ :=
        ih (done ++ [e]) (bipAssign graph u e cu st) hsplit2 hTrue hcu2 hQ2 hC2
          hSA2 hSB2 hScan2 hdone2 hW2
      rw [hstep]
      refine ⟨fun k c h => hmono k c (hpres k c h), ?_, hQr, hCr, hSAr, hSBr, hWr,
        hFr, ?_⟩
      · refine ⟨[e.node] ++ qext, ?_⟩
        rw [hqext, bipAssign_queue, List.append_assoc]
      · intro htrue
        obtain ⟨hd, hs⟩ := hTr htrue
        refine ⟨?_, hs⟩
        intro e' he'
        refine hd e' ?_
        rw [← List.append_cons]
        exact he'
    · -- coloured neighbour: conflict or skip
      by_cases hconf : cv = cu
      · -- same colour as u: report a conflict and stop
        have hstep2 : bipNeighborLoop graph u (e :: rest) st = { st with
            isBipartite := false
            logs := st.logs ++ ["XUNG ĐỘT: " ++ getLabel graph u ++ " và " ++
              getLabel graph e.node ++
              " cùng vùng màu! Mạng không thể phân tách."]
            steps := st.steps ++ [{
              log := "XUNG ĐỘT: " ++ getLabel graph u ++ " và " ++
                getLabel graph e.node ++
                " cùng vùng màu! Mạng không thể phân tách."
              currentLinkId := some (u, e.node)
              bipartiteSets := some (st.setA, st.setB) }] } := by
          simp only [bipNeighborLoop, hv, hcu, Option.getD_some, hconf,
            eq_self_iff_true, if_true]
        rw [hstep2]
        refine ⟨fun k c h => h, ⟨[], by simp⟩, hQ, hC, hSA, hSB, hW, ?_, ?_⟩
        · intro _ hdir
          exact hW hdir u e.node cu cv 1 hcu hv
            (UWalk.cons hlink (UWalk.nil e.node)) (Or.inr ⟨rfl, hconf.symm⟩)
        · intro htrue
          simp at htrue
      · -- opposite colour: nothing to do, scan the rest
        have hstep3 : bipNeighborLoop graph u (e :: rest) st =
            bipNeighborLoop graph u rest st := by
          simp only [bipNeighborLoop, hv, hcu, Option.getD_some, if_neg hconf]
        have hsplit2 : (adj.get u).getD [] = (done ++ [e]) ++ rest := by
          rw [hsplit, List.append_cons]
        have hdone2 : ∀ e' ∈ done ++ [e], ∃ cv',
            st.colors.get e'.node = some cv' ∧ cv' ≠ cu := by
          intro e' he'
          rcases List.mem_append.mp he' with h | h
          · exact hdone e' h
          · simp only [List.mem_singleton] at h
            subst h
            exact ⟨cv, hv, hconf⟩
        obtain ⟨hmono, hqe, hQr, hCr, hSAr, hSBr, hWr, hFr, hTr⟩ :=
          ih (done ++ [e]) st hsplit2 hTrue hcu hQ hC hSA hSB hScan hdone2 hW
        rw [hstep3]
        refine ⟨hmono, hqe, hQr, hCr, hSAr, hSBr, hWr, hFr, ?_⟩
        intro htrue
        obtain ⟨hd, hs⟩ := hTr htrue
        refine ⟨?_, hs⟩
        intro e' he'
        refine hd e' ?_
        rw [← List.append_cons]
        exact he'


end NetworkSim
namespace NetworkSim

theorem flatMap_pair_length (links : List Link) :
    (links.flatMap (fun l => [l.source, l.target])).length = 2 * links.length := by
  induction links with
  | nil => rfl
  | cons l ls ih =>
    simp only [List.flatMap_cons, List.length_append, List.length_cons, ih,
      List.length_nil]
    omega

theorem candidates_length (graph : GraphData) :
    (candidates graph).length = graph.nodes.length + 2 * graph.links.length := by
  unfold candidates
  rw [List.length_append, List.length_map, flatMap_pair_length]

theorem uncoloredCount_le (graph : GraphData) (colors : JSObj Int) :
    uncoloredCount graph colors ≤ (candidates graph).length :=
  List.length_filter_le _ _

theorem uncoloredCount_mono (graph : GraphData) (colors colors' : JSObj Int)
    (h : ∀ k c, colors.get k = some c → colors'.get k = some c) :
    uncoloredCount graph colors' ≤ uncoloredCount graph colors := by
  refine length_filter_mono _ _ ?_ _
  intro a ha
  simp only [Option.isNone_iff_eq_none] at ha ⊢
  rcases hc : colors.get a with _ | c
  · rfl
  · rw [h a c hc] at ha
    exact absurd ha (by simp)

/-- Each neighbour scan does not increase `uncoloured + queue length`:
every enqueue colours a previously uncoloured candidate id. -/
theorem bipNeighborLoop_measure (graph : GraphData) (u : String) :
    ∀ (entries : List AdjEntry) (st : BipState),
    (∀ e ∈ entries, LinkAdj graph u e.node) →
    uncoloredCount graph (bipNeighborLoop graph u entries st).colors +
      (bipNeighborLoop graph u entries st).queue.length ≤
    uncoloredCount graph st.colors + st.queue.length := by
  intro entries
  induction entries with
  | nil =>
    intro st _
    simp only [bipNeighborLoop]
    exact Nat.le_refl _
  | cons e rest ih =>
    intro st hcand
    rcases hv : st.colors.get e.node with _ | cv
    · have hstep : bipNeighborLoop graph u (e :: rest) st =
          bipNeighborLoop graph u rest
            (bipAssign graph u e ((st.colors.get u).getD 0) st) := by
        simp only [bipNeighborLoop, hv, bipAssign]
      rw [hstep]
      have h1 := ih (bipAssign graph u e ((st.colors.get u).getD 0) st)
        (fun e' he' => hcand e' (List.mem_cons_of_mem _ he'))
      have h2 : uncoloredCount graph
          (bipAssign graph u e ((st.colors.get u).getD 0) st).colors <
          uncoloredCount graph st.colors := by
        rw [bipAssign_colors]
        exact uncoloredCount_set_lt graph st.colors e.node _ hv
          (mem_candidates_of_linkAdj (hcand e (List.mem_cons_self e rest)))
      have h3 : (bipAssign graph u e ((st.colors.get u).getD 0) st).queue.length =
          st.queue.length + 1 := by
        rw [bipAssign_queue]
        simp
      omega
    · simp only [bipNeighborLoop, hv]
      by_cases hconf : cv = (st.colors.get u).getD 0
      · simp only [if_pos hconf]
        exact Nat.le_refl _
      · simp only [if_neg hconf]
        exact ih st (fun e' he' => hcand e' (List.mem_cons_of_mem _ he'))

/-- Specification of the per-component BFS `while` loop of `checkBipartite`:
with enough fuel it preserves all colouring invariants, empties the queue
on success leaving every coloured node fully scanned, and a `false` outcome
on an undirected graph exhibits an odd cycle. -/
theorem bipWhileLoop_spec (graph : GraphData) (adj : JSObj (List AdjEntry))
    (hadj : AdjSound graph adj) :
    ∀ (fuel : Nat) (st : BipState),
    uncoloredCount graph st.colors + st.queue.length ≤ fuel →
    st.isBipartite = true →
    (∀ x ∈ st.queue, ∃ c, st.colors.get x = some c) →
    C01 st.colors →
    (∀ k, k ∈ st.setA ↔ st.colors.get k = some 0) →
    (∀ k, k ∈ st.setB ↔ st.colors.get k = some 1) →
    (∀ w c, st.colors.get w = some c →
       w ∈ st.queue ∨ FullyScanned adj st.colors w c) →
    (graph.isDirected = false → WInv graph st.colors) →
    ((∀ k c, st.colors.get k = some c →
        (bipWhileLoop graph adj fuel st).colors.get k = some c) ∧
     C01 (bipWhileLoop graph adj fuel st).colors ∧
     (∀ k, k ∈ (bipWhileLoop graph adj fuel st).setA ↔
        (bipWhileLoop graph adj fuel st).colors.get k = some 0) ∧
     (∀ k, k ∈ (bipWhileLoop graph adj fuel st).setB ↔
        (bipWhileLoop graph adj fuel st).colors.get k = some 1) ∧
     (graph.isDirected = false →
        WInv graph (bipWhileLoop graph adj fuel st).colors) ∧
     ((bipWhileLoop graph adj fuel st).isBipartite = false →
        graph.isDirected = false → HasOddCycle graph) ∧
     ((bipWhileLoop graph adj fuel st).isBipartite = true →
        (bipWhileLoop graph adj fuel st).queue = [] ∧
        ∀ w c, (bipWhileLoop graph adj fuel st).colors.get w = some c →
           FullyScanned adj (bipWhileLoop graph adj fuel st).colors w c)) := by
  intro fuel
  induction fuel with
  | zero =>
    intro st hfuel hTrue hQ hC hSA hSB hScan hW
    simp only [bipWhileLoop]
    have hqnil : st.queue = [] := List.length_eq_zero.mp (by omega)
    refine ⟨fun k c h => h, hC, hSA, hSB, hW, ?_, ?_⟩
    · intro hfalse
      rw [hTrue] at hfalse
      exact absurd hfalse (by simp)
    · intro _
      refine ⟨hqnil, ?_⟩
      intro w c hw
      rcases hScan w c hw with h | h
      · rw [hqnil] at h
        exact absurd h (by simp)
      · exact h
  | succ f ih =>
    intro st hfuel hTrue hQ hC hSA hSB hScan hW
    rcases hq : st.queue with _ | ⟨u, rest⟩
    · simp only [bipWhileLoop, hq]
      refine ⟨fun k c h => h, hC, hSA, hSB, hW, ?_, ?_⟩
      · intro hfalse
        rw [hTrue] at hfalse
        exact absurd hfalse (by simp)
      · intro _
        refine ⟨trivial, ?_⟩
        intro w c hw
        rcases hScan w c hw with h | h
        · rw [hq] at h
          exact absurd h (by simp)
        · exact h
    · obtain ⟨cu, hcu⟩ := hQ u (by rw [hq]; exact List.mem_cons_self u rest)
      have hcand : ∀ e ∈ (adj.get u).getD [], LinkAdj graph u e.node := by
        intro e he
        rcases hga : adj.get u with _ | lst
        · rw [hga] at he
          exact absurd he (by simp)
        · rw [hga] at he
          exact hadj u lst hga e he
      obtain ⟨hmono, ⟨qext, hqext⟩, hQ2, hC2, hSA2, hSB2, hW2, hF2, hT2⟩ :=
        bipNeighborLoop_spec graph adj hadj u cu ((adj.get u).getD []) []
          { st with queue := rest } rfl hTrue hcu
          (fun x hx => hQ x (by rw [hq]; exact List.mem_cons_of_mem _ hx))
          hC hSA hSB
          (by
            intro w c hw
            rcases hScan w c hw with h | h
            · rw [hq] at h
              rcases List.mem_cons.mp h with heq | hmem
              · exact Or.inl heq
              · exact Or.inr (Or.inl hmem)
            · exact Or.inr (Or.inr h))
          (by simp) hW
      simp only [bipWhileLoop, hq]
      by_cases hb2 : (bipNeighborLoop graph u ((adj.get u).getD [])
          { st with queue := rest }).isBipartite = true
      · -- the scan succeeded: recurse with the remaining fuel
        simp only [hb2, Bool.not_true, Bool.false_eq_true, if_false]
        have hmeas : uncoloredCount graph (bipNeighborLoop graph u
              ((adj.get u).getD []) { st with queue := rest }).colors +
            (bipNeighborLoop graph u ((adj.get u).getD [])
              { st with queue := rest }).queue.length ≤
            uncoloredCount graph st.colors + rest.length :=
          bipNeighborLoop_measure graph u ((adj.get u).getD [])
            { st with queue := rest } hcand
        have hlen : st.queue.length = rest.length + 1 := by
          rw [hq]
          rfl
        obtain ⟨hdoneAll, hscan2⟩ := hT2 hb2
        obtain ⟨imono, iC, iSA, iSB, iW, iF, iT⟩ := ih
          (bipNeighborLoop graph u ((adj.get u).getD []) { st with queue := rest })
          (by omega) hb2 hQ2 hC2 hSA2 hSB2
          (by
            intro w c hw
            rcases hscan2 w c hw with heq | h | h
            · right
              rw [heq] at hw ⊢
              have hcu2 := hmono u cu hcu
              rw [hw] at hcu2
              simp only [Option.some.injEq] at hcu2
              subst hcu2
              exact fun e he => hdoneAll e he
            · exact Or.inl h
            · exact Or.inr h)
          hW2
        exact ⟨fun k c h => imono k c (hmono k c h), iC, iSA, iSB, iW, iF, iT⟩
      · -- the scan found a conflict: stop
        simp only [Bool.not_eq_true] at hb2
        simp only [hb2, Bool.not_false, if_true]
        refine ⟨hmono, hC2, hSA2, hSB2, hW2, fun _ => hF2 hb2, ?_⟩
        intro htrue
        exact absurd htrue (by simp)

end NetworkSim
namespace NetworkSim

/-- The fresh-component initialisation of `bipOuterLoop`: colour the start
node `0`, put it in Zone A, seed the queue with it. -/
def bipStart (graph : GraphData) (node : Node) (st : BipState) : BipState :=
  let colors := st.colors.set node.id 0
  let setA := st.setA ++ [node.id]
  let startLog := "Khởi tạo phân vùng mới từ " ++ getLabel graph node.id ++
    " (Gán vào Zone A)."
  { st with
    colors := colors
    setA := setA
    queue := [node.id]
    logs := st.logs ++ [startLog]
    steps := st.steps ++ [{
      log := startLog
      currentNodeId := some node.id
      bipartiteSets := some (setA, st.setB) }] }

theorem bipStart_colors (graph : GraphData) (node : Node) (st : BipState) :
    (bipStart graph node st).colors = st.colors.set node.id 0 := rfl

theorem bipStart_queue (graph : GraphData) (node : Node) (st : BipState) :
    (bipStart graph node st).queue = [node.id] := rfl

theorem bipStart_setA (graph : GraphData) (node : Node) (st : BipState) :
    (bipStart graph node st).setA = st.setA ++ [node.id] := rfl

theorem bipStart_setB (graph : GraphData) (node : Node) (st : BipState) :
    (bipStart graph node st).setB = st.setB := rfl

theorem bipStart_isBipartite (graph : GraphData) (node : Node) (st : BipState) :
    (bipStart graph node st).isBipartite = st.isBipartite := rfl

/-- Specification of the component loop of `checkBipartite`: invariants are
preserved, a `false` outcome on an undirected graph exhibits an odd cycle,
and a `true` outcome leaves every listed node coloured and every coloured
node fully scanned. -/
theorem bipOuterLoop_spec (graph : GraphData) (adj : JSObj (List AdjEntry))
    (hadj : AdjSound graph adj)
    (hcompl : ∀ l ∈ graph.links, HasEntry adj l.source l.target ∧
      (graph.isDirected = false → HasEntry adj l.target l.source))
    (fuelInner : Nat) :
    ∀ (nodesList : List Node) (st : BipState),
    (∀ n ∈ nodesList, n ∈ graph.nodes) →
    uncoloredCount graph st.colors + 1 ≤ fuelInner →
    st.isBipartite = true →
    C01 st.colors →
    (∀ k, k ∈ st.setA ↔ st.colors.get k = some 0) →
    (∀ k, k ∈ st.setB ↔ st.colors.get k = some 1) →
    (∀ w c, st.colors.get w = some c → FullyScanned adj st.colors w c) →
    (graph.isDirected = false → WInv graph st.colors) →
    ((∀ k c, st.colors.get k = some c →
        (bipOuterLoop graph adj fuelInner nodesList st).colors.get k = some c) ∧
     C01 (bipOuterLoop graph adj fuelInner nodesList st).colors ∧
     (∀ k, k ∈ (bipOuterLoop graph adj fuelInner nodesList st).setA ↔
        (bipOuterLoop graph adj fuelInner nodesList st).colors.get k = some 0) ∧
     (∀ k, k ∈ (bipOuterLoop graph adj fuelInner nodesList st).setB ↔
        (bipOuterLoop graph adj fuelInner nodesList st).colors.get k = some 1) ∧
     ((bipOuterLoop graph adj fuelInner nodesList st).isBipartite = false →
        graph.isDirected = false → HasOddCycle graph) ∧
     ((bipOuterLoop graph adj fuelInner nodesList st).isBipartite = true →
        (∀ nd ∈ nodesList, ∃ c,
          (bipOuterLoop graph adj fuelInner nodesList st).colors.get nd.id = some c) ∧
        (∀ w c, (bipOuterLoop graph adj fuelInner nodesList st).colors.get w = some c →
          FullyScanned adj (bipOuterLoop graph adj fuelInner nodesList st).colors w c))) := by
  intro nodesList
  induction nodesList with
  | nil =>
    intro st _ _ hTrue hC hSA hSB hScan0 hW
    simp only [bipOuterLoop]
    refine ⟨fun k c h => h, hC, hSA, hSB, ?_, ?_⟩
    · intro hfalse
      rw [hTrue] at hfalse
      exact absurd hfalse (by simp)
    · intro _
      exact ⟨by simp, hScan0⟩
  | cons node rest ih =>
    intro st hsub hfuel hTrue hC hSA hSB hScan0 hW
    by_cases hcol : (st.colors.get node.id).isSome = true
    · -- already coloured: skip
      have hstep : bipOuterLoop graph adj fuelInner (node :: rest) st =
          bipOuterLoop graph adj fuelInner rest st := by
        simp only [bipOuterLoop, hcol, if_true]
      rw [hstep]
      obtain ⟨c0, hc0⟩ := Option.isSome_iff_exists.mp hcol
      obtain ⟨imono, iC, iSA, iSB, iF, iT⟩ :=
        ih st (fun n hn => hsub n (List.mem_cons_of_mem _ hn)) hfuel hTrue hC
          hSA hSB hScan0 hW
      refine ⟨imono, iC, iSA, iSB, iF, ?_⟩
      intro htrue
      obtain ⟨hcov, hsc⟩ := iT htrue
      refine ⟨?_, hsc⟩
      intro nd hnd
      rcases List.mem_cons.mp hnd with heq | hmem
      · subst heq
        exact ⟨c0, imono _ c0 hc0⟩
      · exact hcov nd hmem
    · -- fresh component
      have hvnone : st.colors.get node.id = none := by
        rcases h : st.colors.get node.id with _ | c
        · rfl
        · rw [h] at hcol
          simp at hcol
      have hstep : bipOuterLoop graph adj fuelInner (node :: rest) st =
          (if !(bipWhileLoop graph adj fuelInner (bipStart graph node st)).isBipartite
           then bipWhileLoop graph adj fuelInner (bipStart graph node st)
           else bipOuterLoop graph adj fuelInner rest
             (bipWhileLoop graph adj fuelInner (bipStart graph node st))) := by
        simp only [bipOuterLoop, if_neg hcol, bipStart]
      have hcandn : node.id ∈ candidates graph :=
        List.mem_append.mpr (Or.inl (List.mem_map.mpr
          ⟨node, hsub node (List.mem_cons_self node rest), rfl⟩))
      have hpres : ∀ k c, st.colors.get k = some c →
          (st.colors.set node.id 0).get k = some c :=
        fun k c h => colors_set_preserve st.colors node.id 0 hvnone k c h
      have hgetv : (st.colors.set node.id 0).get node.id = some 0 := by
        rw [JSObj.get_set]
      have huc : uncoloredCount graph (st.colors.set node.id 0) <
          uncoloredCount graph st.colors :=
        uncoloredCount_set_lt graph st.colors node.id 0 hvnone hcandn
      obtain ⟨wmono, wC, wSA, wSB, wW, wF, wT⟩ :=
        bipWhileLoop_spec graph adj hadj fuelInner (bipStart graph node st)
          (by
            rw [bipStart_colors, bipStart_queue]
            simp only [List.length_singleton]
            omega)
          hTrue
          (by
            intro x hx
            rw [bipStart_queue] at hx
            simp only [List.mem_singleton] at hx
            subst hx
            rw [bipStart_colors]
            exact ⟨0, hgetv⟩)
          (by
            intro k c hk
            rw [bipStart_colors] at hk
            by_cases hke : node.id = k
            · subst hke
              rw [JSObj.get_set] at hk
              simp only [Option.some.injEq] at hk
              omega
            · rw [JSObj.get_set_ne _ _ _ _ hke] at hk
              exact hC k c hk)
          (by
            intro k
            rw [bipStart_setA, bipStart_colors]
            by_cases hke : node.id = k
            · subst hke
              rw [JSObj.get_set]
              constructor
              · intro _
                rfl
              · intro _
                exact List.mem_append.mpr (Or.inr (by simp))
            · rw [JSObj.get_set_ne _ _ _ _ hke]
              constructor
              · intro hmem
                rcases List.mem_append.mp hmem with h | h
                · exact (hSA k).mp h
                · simp only [List.mem_singleton] at h
                  exact absurd h.symm hke
              · intro h
                exact List.mem_append.mpr (Or.inl ((hSA k).mpr h)))
          (by
            intro k
            rw [bipStart_setB, bipStart_colors]
            by_cases hke : node.id = k
            · subst hke
              rw [JSObj.get_set]
              constructor
              · intro hmem
                have := (hSB node.id).mp hmem
                rw [hvnone] at this
                exact absurd this (by simp)
              · intro habs
                simp only [Option.some.injEq] at habs
                exact absurd habs (by omega)
            · rw [JSObj.get_set_ne _ _ _ _ hke]
              exact hSB k)
          (by
            intro w c hw
            rw [bipStart_colors] at hw
            rw [bipStart_queue]
            by_cases hwe : node.id = w
            · subst hwe
              exact Or.inl (by simp)
            · rw [JSObj.get_set_ne _ _ _ _ hwe] at hw
              right
              rw [bipStart_colors]
              exact fullyScanned_mono adj st.colors _ hpres w c (hScan0 w c hw))
          (by
            intro hdir
            rw [bipStart_colors]
            refine WInv_new_component graph st.colors node.id (hW hdir) hvnone ?_
            intro w c hw y hline
            have hfs := hScan0 w c hw
            have hentry : HasEntry adj w y := by
              rcases hline with ⟨l, hl, ⟨hs, ht⟩ | ⟨hs, ht⟩⟩
              · have := (hcompl l hl).1
                rw [hs, ht] at this
                exact this
              · have := (hcompl l hl).2 hdir
                rw [hs, ht] at this
                exact this
            obtain ⟨lst, hlst, e, he, hey⟩ := hentry
            obtain ⟨cy, hcy, -⟩ := hfs e (by rw [hlst]; exact he)
            rw [hey] at hcy
            exact ⟨cy, hcy⟩)
      rw [hstep]
      have hpres2 : ∀ k c, st.colors.get k = some c →
          (bipWhileLoop graph adj fuelInner (bipStart graph node st)).colors.get k
            = some c := by
        intro k c h
        refine wmono k c ?_
        rw [bipStart_colors]
        exact hpres k c h
      by_cases hb : (bipWhileLoop graph adj fuelInner
          (bipStart graph node st)).isBipartite = true
      · -- component succeeded: continue with the remaining nodes
        simp only [hb, Bool.not_true, Bool.false_eq_true, if_false]
        obtain ⟨hqnil2, hScan2⟩ := wT hb
        have huc2 : uncoloredCount graph
            (bipWhileLoop graph adj fuelInner (bipStart graph node st)).colors ≤
            uncoloredCount graph (st.colors.set node.id 0) := by
          refine uncoloredCount_mono graph _ _ ?_
          intro k c h
          refine wmono k c ?_
          rw [bipStart_colors]
          exact h
        obtain ⟨imono, iC, iSA, iSB, iF, iT⟩ :=
          ih (bipWhileLoop graph adj fuelInner (bipStart graph node st))
            (fun n hn => hsub n (List.mem_cons_of_mem _ hn))
            (by omega) hb wC wSA wSB hScan2 wW
        refine ⟨fun k c h => imono k c (hpres2 k c h), iC, iSA, iSB, iF, ?_⟩
        intro htrue
        obtain ⟨hcov, hsc⟩ := iT htrue
        refine ⟨?_, hsc⟩
        intro nd hnd
        rcases List.mem_cons.mp hnd with heq | hmem
        · subst heq
          refine ⟨0, imono _ 0 ?_⟩
          refine wmono _ 0 ?_
          rw [bipStart_colors]
          exact hgetv
        · exact hcov nd hmem
      · -- component failed: stop with isBipartite = false
        simp only [Bool.not_eq_true] at hb
        simp only [hb, Bool.not_false, if_true]
        refine ⟨hpres2, wC, wSA, wSB, fun _ => wF hb, ?_⟩
        intro htrue
        exact absurd htrue (by simp)

end NetworkSim
namespace NetworkSim

/-- Along any walk under a proper `{0,1}` colouring, colours agree exactly
on even lengths. -/
theorem walk_alternates (graph : GraphData) (colors : JSObj Int) (hC : C01 colors)
    (hproper : ∀ u v, LinkAdj graph u v →
      ∃ cu cv, colors.get u = some cu ∧ colors.get v = some cv ∧ cu ≠ cv) :
    ∀ {u v : String} {n : Nat}, UWalk graph u v n →
    ∀ cu cv, colors.get u = some cu → colors.get v = some cv →
    (n % 2 = 0 → cu = cv) ∧ (n % 2 = 1 → cu ≠ cv) := by
  intro u v n hwalk
  induction hwalk with
  | nil w =>
    intro cu cv hcu hcv
    rw [hcu] at hcv
    simp only [Option.some.injEq] at hcv
    exact ⟨fun _ => hcv, fun h => absurd h (by norm_num)⟩
  | cons hl ht ihw =>
    intro cu cv hcu hcv
    obtain ⟨cu', cw, hcu', hcw, hne⟩ := hproper _ _ hl
    simp only [hcu, Option.some.injEq] at hcu'
    subst hcu'
    obtain ⟨hev, hod⟩ := ihw cw cv hcw hcv
    have h01u : cu = 0 ∨ cu = 1 := hC _ _ hcu
    have h01w : cw = 0 ∨ cw = 1 := hC _ _ hcw
    have h01v : cv = 0 ∨ cv = 1 := hC _ _ hcv
    constructor
    · intro hpar
      have h2 := hod (by omega)
      omega
    · intro hpar
      have h2 := hev (by omega)
      omega

/-- A proper `{0,1}` colouring of every link forbids odd closed walks. -/
theorem no_oddCycle_of_proper (graph : GraphData) (colors : JSObj Int)
    (hC : C01 colors)
    (hproper : ∀ u v, LinkAdj graph u v →
      ∃ cu cv, colors.get u = some cu ∧ colors.get v = some cv ∧ cu ≠ cv) :
    ¬ HasOddCycle graph := by
  rintro ⟨u, n, hwalk⟩
  cases hwalk with
  | cons hl ht =>
    obtain ⟨cu, cw, hcu, hcw, -⟩ := hproper _ _ hl
    obtain ⟨-, hod⟩ :=
      walk_alternates graph colors hC hproper (UWalk.cons hl ht) cu cu hcu hcu
    exact hod (by omega) rfl

/-- The initial state of `checkBipartite`. -/
def bipInit : BipState := {
  colors := []
  setA := []
  setB := []
  queue := []
  logs := ["Segmentation Init: Bắt đầu phân tích phân đoạn mạng (Bipartite Check)..."]
  steps := []
  isBipartite := true }

end NetworkSim
namespace NetworkSim

/-- **C7.** For every well-formed undirected graph with no odd cycle,
`checkBipartite` returns `isBipartite = some true` together with
`bipartiteSets` whose two zones are disjoint and together contain every
node; for every well-formed graph containing an odd cycle it returns
`isBipartite = some false`. -/
theorem checkBipartite_correct (graph : GraphData) (hwf : WellFormed graph) :
    (graph.isDirected = false → ¬ HasOddCycle graph →
      ∃ r, checkBipartite graph = some r ∧ r.isBipartite = some true ∧
        ∃ sa sb, r.bipartiteSets = some (sa, sb) ∧
          (∀ k, k ∈ sa → k ∉ sb) ∧
          (∀ nd ∈ graph.nodes, nd.id ∈ sa ∨ nd.id ∈ sb)) ∧
    (HasOddCycle graph →
      ∃ r, checkBipartite graph = some r ∧ r.isBipartite = some false) := by
  obtain ⟨adj, hadjeq, -⟩ := getAdjacencyList_wf graph hwf
  have hsound := getAdjacencyList_sound graph adj hadjeq
  have hcompl := getAdjacencyList_complete graph adj hadjeq
  have hgetnil : ∀ k : String, JSObj.get bipInit.colors k = none := fun _ => rfl
  obtain ⟨omono, oC, oSA, oSB, oF, oT⟩ :=
    bipOuterLoop_spec graph adj hsound hcompl
      (graph.nodes.length + 2 * graph.links.length + 2) graph.nodes bipInit
      (fun n hn => hn)
      (by
        have h1 := uncoloredCount_le graph bipInit.colors
        rw [candidates_length] at h1
        omega)
      rfl
      (by
        intro k c h
        rw [hgetnil] at h
        exact absurd h (by simp))
      (by
        intro k
        constructor
        · intro h
          exact absurd h (by simp [bipInit])
        · intro h
          rw [hgetnil] at h
          exact absurd h (by simp))
      (by
        intro k
        constructor
        · intro h
          exact absurd h (by simp [bipInit])
        · intro h
          rw [hgetnil] at h
          exact absurd h (by simp))
      (by
        intro w c h
        rw [hgetnil] at h
        exact absurd h (by simp))
      (by
        intro _ u v cu cv n hcu hcv hwalk hbad
        rw [hgetnil] at hcu
        exact absurd hcu (by simp))
  rcases hck0 : checkBipartite graph with _ | r
  · exfalso
    unfold checkBipartite at hck0
    simp only [hadjeq] at hck0
    exact absurd hck0 (by simp)
  · unfold checkBipartite at hck0
    simp only [hadjeq, Option.some.injEq] at hck0
    have hrb : r.isBipartite = some (bipOuterLoop graph adj
        (graph.nodes.length + 2 * graph.links.length + 2) graph.nodes
        bipInit).isBipartite := by
      rw [← hck0]
      exact rfl
    have hrs : r.bipartiteSets = some ((bipOuterLoop graph adj
        (graph.nodes.length + 2 * graph.links.length + 2) graph.nodes
        bipInit).setA, (bipOuterLoop graph adj
        (graph.nodes.length + 2 * graph.links.length + 2) graph.nodes
        bipInit).setB) := by
      rw [← hck0]
      exact rfl
    constructor
    · -- even-cycle-only undirected graph: success with a disjoint cover
      intro hdir hnodd
      by_cases hbt : (bipOuterLoop graph adj
          (graph.nodes.length + 2 * graph.links.length + 2) graph.nodes
          bipInit).isBipartite = true
      · obtain ⟨hcov, hsc⟩ := oT hbt
        refine ⟨r, rfl, ?_, _, _, hrs, ?_, ?_⟩
        · rw [hrb, hbt]
        · intro k hka hkb
          have h0 := (oSA k).mp hka
          have h1 := (oSB k).mp hkb
          rw [h0] at h1
          simp at h1
        · intro nd hnd
          obtain ⟨c, hc⟩ := hcov nd hnd
          rcases oC _ _ hc with h0 | h1
          · subst h0
            exact Or.inl ((oSA nd.id).mpr hc)
          · subst h1
            exact Or.inr ((oSB nd.id).mpr hc)
      · simp only [Bool.not_eq_true] at hbt
        exact absurd (oF hbt hdir) hnodd
    · -- an odd cycle: a successful run would properly 2-colour it
      intro hodd
      by_cases hbt : (bipOuterLoop graph adj
          (graph.nodes.length + 2 * graph.links.length + 2) graph.nodes
          bipInit).isBipartite = true
      · exfalso
        obtain ⟨hcov, hsc⟩ := oT hbt
        refine absurd hodd (no_oddCycle_of_proper graph _ oC ?_)
        intro u v hline
        rcases hline with ⟨l, hl, ⟨hs, ht⟩ | ⟨hs, ht⟩⟩
        · obtain ⟨nd, hnd, hndid⟩ := List.mem_map.mp (hwf l hl).1
          obtain ⟨cu, hcu⟩ := hcov nd hnd
          rw [hndid, hs] at hcu
          obtain ⟨lst, hlst, e, he, hey⟩ := (hcompl l hl).1
          rw [hs] at hlst
          obtain ⟨cv, hcv, hne⟩ := hsc u cu hcu e (by rw [hlst]; exact he)
          rw [hey, ht] at hcv
          exact ⟨cu, cv, hcu, hcv, Ne.symm hne⟩
        · obtain ⟨nd, hnd, hndid⟩ := List.mem_map.mp (hwf l hl).1
          obtain ⟨cs, hcs⟩ := hcov nd hnd
          rw [hndid] at hcs
          obtain ⟨lst, hlst, e, he, hey⟩ := (hcompl l hl).1
          obtain ⟨ct, hct, hne⟩ := hsc l.source cs hcs e (by rw [hlst]; exact he)
          rw [hey, ht] at hct
          rw [hs] at hcs
          exact ⟨ct, cs, hct, hcs, hne⟩
      · simp only [Bool.not_eq_true] at hbt
        refine ⟨r, rfl, ?_⟩
        rw [hrb, hbt]

end NetworkSim
namespace NetworkSim

/-- An explicit proper colouring shows the single-edge graph has no odd
closed walk. -/
theorem twoNode_no_odd : ¬ HasOddCycle twoNodeGraph := by
  refine no_oddCycle_of_proper twoNodeGraph [("a", 0), ("b", 1)] ?_ ?_
  · intro k c h
    simp only [JSObj.get] at h
    split at h
    · simp only [Option.some.injEq] at h
      omega
    · split at h
      · simp only [Option.some.injEq] at h
        omega
      · exact absurd h (by simp)
  · intro u v hline
    rcases hline with ⟨l, hl, ⟨hs, ht⟩ | ⟨hs, ht⟩⟩
    · have hl' : l = { source := "a", target := "b", weight := 1 } := by
        simpa [twoNodeGraph] using hl
      subst hl'
      subst hs
      subst ht
      exact ⟨0, 1, by decide, by decide, by decide⟩
    · have hl' : l = { source := "a", target := "b", weight := 1 } := by
        simpa [twoNodeGraph] using hl
      subst hl'
      subst hs
      subst ht
      exact ⟨1, 0, by decide, by decide, by decide⟩

/-- The triangle is an odd closed walk. -/
theorem triangle_has_odd : HasOddCycle triangleGraph := by
  have h1 : LinkAdj triangleGraph "a" "b" :=
    ⟨{ source := "a", target := "b", weight := 1 },
      List.mem_cons_self _ _, Or.inl ⟨rfl, rfl⟩⟩
  have h2 : LinkAdj triangleGraph "b" "c" :=
    ⟨{ source := "b", target := "c", weight := 2 },
      List.mem_cons_of_mem _ (List.mem_cons_self _ _), Or.inl ⟨rfl, rfl⟩⟩
  have h3 : LinkAdj triangleGraph "c" "a" :=
    ⟨{ source := "a", target := "c", weight := 4 },
      List.mem_cons_of_mem _ (List.mem_cons_of_mem _ (List.mem_cons_self _ _)),
      Or.inr ⟨rfl, rfl⟩⟩
  exact ⟨"a", 1, UWalk.cons h1 (UWalk.cons h2 (UWalk.cons h3 (UWalk.nil "a")))⟩

theorem checkBipartite_correct_witness :
    (∃ r, checkBipartite twoNodeGraph = some r ∧ r.isBipartite = some true ∧
      ∃ sa sb, r.bipartiteSets = some (sa, sb) ∧
        (∀ k, k ∈ sa → k ∉ sb) ∧
        (∀ nd ∈ twoNodeGraph.nodes, nd.id ∈ sa ∨ nd.id ∈ sb)) ∧
    (∃ r, checkBipartite triangleGraph = some r ∧ r.isBipartite = some false) :=
  ⟨(checkBipartite_correct twoNodeGraph (by unfold WellFormed; decide)).1
      rfl twoNode_no_odd,
   (checkBipartite_correct triangleGraph (by unfold WellFormed; decide)).2
      triangle_has_odd⟩

end NetworkSim
namespace NetworkSim

/-- Under well-formedness every `pushEuler` key exists, so the shared
Euler adjacency build succeeds. -/
theorem buildEulerAdj_wf (graph : GraphData) (hwf : WellFormed graph) :
    ∃ adj, buildEulerAdj graph = some adj := by
  unfold buildEulerAdj
  simp only
  suffices h : ∀ (ls : List Link) (m : JSObj (List String)),
      (∀ l ∈ ls, l.source ∈ graph.nodes.map Node.id ∧
        l.target ∈ graph.nodes.map Node.id) →
      (∀ k, k ∈ graph.nodes.map Node.id → ∃ j, m.get k = some j) →
      ∃ adj, ls.foldlM (eulerStep graph) m = some adj by
    refine h graph.links _ hwf ?_
    intro k hk
    exact get_foldl_init_defined graph.nodes [] k (Or.inl hk)
  intro ls
  induction ls with
  | nil => exact fun m _ _ => ⟨m, rfl⟩
  | cons l rest ih =>
    intro m hls hm
    obtain ⟨j1, hj1⟩ := hm l.source (hls l (by simp)).1
    have hpush1 : pushEuler m l.source l.target =
        some (m.set l.source (j1 ++ [l.target])) := by
      unfold pushEuler
      rw [hj1]
    have hm1 : ∀ k, k ∈ graph.nodes.map Node.id →
        ∃ j, (m.set l.source (j1 ++ [l.target])).get k = some j :=
      fun k hk => JSObj.get_set_defined _ _ _ _ (hm k hk)
    rcases hdir : graph.isDirected with _ | _
    · obtain ⟨j2, hj2⟩ := hm1 l.target (hls l (by simp)).2
      have hpush2 : pushEuler (m.set l.source (j1 ++ [l.target])) l.target l.source =
          some ((m.set l.source (j1 ++ [l.target])).set l.target (j2 ++ [l.source])) := by
        unfold pushEuler
        rw [hj2]
      have hm2 : ∀ k, k ∈ graph.nodes.map Node.id →
          ∃ j, ((m.set l.source (j1 ++ [l.target])).set l.target
            (j2 ++ [l.source])).get k = some j :=
        fun k hk => JSObj.get_set_defined _ _ _ _ (hm1 k hk)
      obtain ⟨adj, hadj⟩ := ih _ (fun l' hl' => hls l' (by simp [hl'])) hm2
      refine ⟨adj, ?_⟩
      rw [List.foldlM_cons]
      have hstep : eulerStep graph m l = some ((m.set l.source (j1 ++ [l.target])).set
          l.target (j2 ++ [l.source])) := by
        unfold eulerStep
        rw [hpush1]
        simp only [Option.bind_eq_bind, Option.some_bind, hdir, Bool.false_eq_true,
          if_false]
        exact hpush2
      rw [hstep]
      simpa using hadj
    · obtain ⟨adj, hadj⟩ := ih _ (fun l' hl' => hls l' (by simp [hl'])) hm1
      refine ⟨adj, ?_⟩
      rw [List.foldlM_cons]
      have hstep : eulerStep graph m l = some (m.set l.source (j1 ++ [l.target])) := by
        unfold eulerStep
        rw [hpush1]
        simp [hdir]
      rw [hstep]
      simpa using hadj

/-- `runBFS` returns a result whenever the adjacency build succeeds. -/
theorem runBFS_isSome (graph : GraphData) (hwf : WellFormed graph) (s : String) :
    (runBFS graph s).isSome := by
  obtain ⟨adj, hadjeq, -⟩ := getAdjacencyList_wf graph hwf
  unfold runBFS
  simp only [hadjeq]
  rfl

/-- `runDFS` returns a result whenever the adjacency build succeeds. -/
theorem runDFS_isSome (graph : GraphData) (hwf : WellFormed graph) (s : String) :
    (runDFS graph s).isSome := by
  obtain ⟨adj, hadjeq, -⟩ := getAdjacencyList_wf graph hwf
  unfold runDFS
  simp only [hadjeq]
  rfl

/-- `checkBipartite` returns a result whenever the adjacency build succeeds. -/
theorem checkBipartite_isSome (graph : GraphData) (hwf : WellFormed graph) :
    (checkBipartite graph).isSome := by
  obtain ⟨adj, hadjeq, -⟩ := getAdjacencyList_wf graph hwf
  unfold checkBipartite
  simp only [hadjeq]
  rfl

/-- `runPrim` answers directly on directed graphs and otherwise runs its
total bounded loop. -/
theorem runPrim_isSome (graph : GraphData) (hwf : WellFormed graph)
    (hne : graph.nodes ≠ []) : (runPrim graph).isSome := by
  obtain ⟨adj, hadjeq, -⟩ := getAdjacencyList_wf graph hwf
  unfold runPrim
  rcases hdir : graph.isDirected with _ | _
  · simp only [Bool.false_eq_true, if_false]
    rcases hhead : graph.nodes.head? with _ | nd
    · rw [List.head?_eq_none_iff] at hhead
      exact absurd hhead hne
    · simp only [hadjeq]
      rfl
  · simp only [if_true]
    rfl

/-- `runFleury` runs its total bounded walk once the feasibility scan and
the adjacency build are past. -/
theorem runFleury_isSome (graph : GraphData) (hwf : WellFormed graph)
    (hne : graph.nodes ≠ []) : (runFleury graph).isSome := by
  obtain ⟨adj, hadjeq⟩ := buildEulerAdj_wf graph hwf
  unfold runFleury
  rcases hhead : graph.nodes.head? with _ | nd
  · rw [List.head?_eq_none_iff] at hhead
    exact absurd hhead hne
  · simp only
    split
    · rfl
    · simp only [hadjeq]
      rfl

end NetworkSim
namespace NetworkSim

theorem insertByKey_length (key : String → JNum) (x : String) (l : List String) :
    (insertByKey key x l).length = l.length + 1 := by
  induction l with
  | nil => rfl
  | cons y ys ih =>
    simp only [insertByKey]
    split
    · simp [ih]
    · simp

theorem sortByKey_length (key : String → JNum) (l : List String) :
    (sortByKey key l).length = l.length := by
  unfold sortByKey
  suffices h : ∀ acc : List String,
      (l.foldl (fun acc x => insertByKey key x acc) acc).length =
        acc.length + l.length by
    simpa using h []
  induction l with
  | nil => intro acc; simp
  | cons x xs ih =>
    intro acc
    simp only [List.foldl_cons]
    rw [ih, insertByKey_length]
    simp only [List.length_cons]
    omega

theorem dijkstraRelax_queue (graph : GraphData) (u : String) (st : DijkstraState)
    (e : AdjEntry) : (dijkstraRelax graph u st e).queue = st.queue := by
  unfold dijkstraRelax
  split <;> (dsimp only; split <;> rfl)

theorem dijkstraRelax_foldl_queue (graph : GraphData) (u : String)
    (l : List AdjEntry) (st : DijkstraState) :
    (l.foldl (dijkstraRelax graph u) st).queue = st.queue := by
  induction l generalizing st with
  | nil => rfl
  | cons e es ih => rw [List.foldl_cons, ih, dijkstraRelax_queue]

/-- The Dijkstra loop always answers within `|queue| + 1` rounds once the
adjacency build succeeds: every round shortens the queue by one. -/
theorem dijkstraLoop_isSome (graph : GraphData) (startId : String)
    (endId : Option String) (adj : JSObj (List AdjEntry))
    (hadjeq : getAdjacencyList graph = some adj) :
    ∀ (fuel : Nat) (st : DijkstraState), st.queue.length ≤ fuel →
    (dijkstraLoop graph startId endId fuel st).isSome := by
  intro fuel
  induction fuel with
  | zero =>
    intro st hlen
    have : st.queue = [] := List.length_eq_zero.mp (by omega)
    simp [dijkstraLoop, this]
  | succ f ih =>
    intro st hlen
    by_cases hq : st.queue.isEmpty
    · simp [dijkstraLoop, hq]
    · simp only [dijkstraLoop, hq, Bool.false_eq_true, if_false]
      rcases hs : sortByKey (fun a => (st.distances.get a).getD none) st.queue
        with _ | ⟨u, rest⟩
      · simp
      · have hrest : rest.length + 1 = st.queue.length := by
          have := sortByKey_length (fun a => (st.distances.get a).getD none) st.queue
          rw [hs] at this
          simpa using this
        simp only
        split
        · simp
        · split
          · simp
          · simp only [hadjeq]
            refine ih _ ?_
            rw [dijkstraRelax_foldl_queue]
            simp only
            omega

/-- `runDijkstra` returns a result on every well-formed graph. -/
theorem runDijkstra_isSome (graph : GraphData) (hwf : WellFormed graph)
    (s : String) (e : Option String) : (runDijkstra graph s e).isSome := by
  obtain ⟨adj, hadjeq, -⟩ := getAdjacencyList_wf graph hwf
  have hqlen : ∀ (l : List Node)
      (acc : JSObj JNum × JSObj (Option String) × List String),
      (l.foldl (fun acc n =>
        (acc.1.set n.id none, acc.2.1.set n.id none, acc.2.2 ++ [n.id]))
        acc).2.2.length = acc.2.2.length + l.length := by
    intro l
    induction l with
    | nil => intro acc; simp
    | cons n ns ih =>
      intro acc
      simp only [List.foldl_cons]
      rw [ih]
      simp only [List.length_append, List.length_cons, List.length_nil]
      omega
  have hsome := dijkstraLoop_isSome graph s e adj hadjeq (graph.nodes.length + 1)
  unfold runDijkstra
  rcases hneg : graph.links.any (fun l => l.weight < 0) with _ | _
  · simp only [hneg, Bool.false_eq_true, if_false]
    split
    next heq =>
      exfalso
      have h2 : (Option.isSome (none : Option DijkstraState)) = true := by
        rw [← heq]
        refine hsome _ ?_
        simp [hqlen]
      simp at h2
    next st heq =>
      split
      · split
        · rfl
        · rfl
      · rfl
  · simp only [hneg, if_true]
    rfl

end NetworkSim
namespace NetworkSim

/-- Total number of adjacency entries stored in an Euler adjacency map. -/
def adjTotal (m : JSObj (List String)) : Nat :=
  (m.map (fun p => p.2.length)).sum

theorem adjTotal_set (m : JSObj (List String)) (k : String) (v : List String) :
    adjTotal (JSObj.set m k v) + ((m.get k).getD []).length =
      adjTotal m + v.length := by
  induction m with
  | nil => simp [adjTotal, JSObj.set, JSObj.get]
  | cons p rest ih =>
    by_cases hk : p.1 = k
    · simp only [JSObj.set, JSObj.get, hk, if_pos rfl]
      simp [adjTotal]
      omega
    · simp only [JSObj.set, JSObj.get, if_neg hk]
      simp only [adjTotal, List.map_cons, List.sum_cons] at ih ⊢
      omega

theorem pushEuler_total (adj adj' : JSObj (List String)) (key v : String)
    (h : pushEuler adj key v = some adj') :
    adjTotal adj' = adjTotal adj + 1 := by
  unfold pushEuler at h
  rcases hget : adj.get key with _ | lst
  · rw [hget] at h
    exact absurd h (by simp)
  · rw [hget] at h
    simp only [Option.some.injEq] at h
    subst h
    have := adjTotal_set adj key (lst ++ [v])
    rw [hget] at this
    simp only [Option.getD_some, List.length_append, List.length_cons,
      List.length_nil] at this
    omega

theorem adjTotal_init (l : List Node) :
    ∀ m, adjTotal m = 0 → adjTotal (l.foldl (fun m n => m.set n.id []) m) = 0 := by
  induction l with
  | nil => intro m hm; exact hm
  | cons n ns ih =>
    intro m hm
    simp only [List.foldl_cons]
    refine ih _ ?_
    have := adjTotal_set m n.id []
    simp only [List.length_nil] at this
    omega

theorem buildEulerAdj_total (graph : GraphData) (adj : JSObj (List String))
    (h : buildEulerAdj graph = some adj) :
    adjTotal adj ≤ 2 * graph.links.length := by
  unfold buildEulerAdj at h
  simp only at h
  suffices hgen : ∀ (ls : List Link) (m : JSObj (List String)),
      ls.foldlM (eulerStep graph) m = some adj →
      adjTotal adj ≤ adjTotal m + 2 * ls.length by
    have h0 : adjTotal (graph.nodes.foldl (fun m n => m.set n.id []) []) = 0 :=
      adjTotal_init graph.nodes [] (by simp [adjTotal])
    have := hgen graph.links _ h
    omega
  intro ls
  induction ls with
  | nil =>
    intro m hm
    simp only [List.foldlM_nil, Option.pure_def, Option.some.injEq] at hm
    subst hm
    simp
  | cons l rest ih =>
    intro m hm
    rw [List.foldlM_cons] at hm
    rcases hstep : eulerStep graph m l with _ | m1
    · rw [hstep] at hm
      exact absurd hm (by simp)
    · rw [hstep] at hm
      simp only [Option.bind_eq_bind, Option.some_bind] at hm
      have hm1 : adjTotal m1 ≤ adjTotal m + 2 := by
        unfold eulerStep at hstep
        rcases hp1 : pushEuler m l.source l.target with _ | ma
        · rw [hp1] at hstep
          exact absurd hstep (by simp)
        · rw [hp1] at hstep
          simp only [Option.bind_eq_bind, Option.some_bind] at hstep
          have ha := pushEuler_total m ma l.source l.target hp1
          split at hstep
          · simp only [Option.pure_def, Option.some.injEq] at hstep
            subst hstep
            omega
          · have hb := pushEuler_total ma m1 l.target l.source hstep
            omega
      have := ih m1 hm
      simp only [List.length_cons] at this ⊢
      omega

/-- Every `hierLoop` round removes an adjacency entry or pops the stack, so
the measure `2 · entries + |stack|` bounds the rounds. -/
theorem hierLoop_isSome (graph : GraphData) :
    ∀ (fuel : Nat) (st : HierState),
    2 * adjTotal st.adj + st.stack.length < fuel →
    (hierLoop graph fuel st).isSome := by
  intro fuel
  induction fuel with
  | zero =>
    intro st h
    omega
  | succ f ih =>
    intro st h
    rcases hstack : st.stack with _ | ⟨u, rest⟩
    · simp [hierLoop, hstack]
    · rw [hstack] at h
      simp only [List.length_cons] at h
      rcases hadj : st.adj.get u with _ | lst
      · -- no adjacency entry at all: backtrack
        simp only [hierLoop, hstack, hadj]
        refine ih _ ?_
        simp only [List.length_cons]
        omega
      · rcases lst with _ | ⟨a, as⟩
        · -- empty list: backtrack
          simp only [hierLoop, hstack, hadj]
          refine ih _ ?_
          simp only [List.length_cons]
          omega
        · -- consume the last entry of `u`
          simp only [hierLoop, hstack, hadj]
          have hset : adjTotal (st.adj.set u (a :: as).dropLast) + 1 =
              adjTotal st.adj := by
            have := adjTotal_set st.adj u (a :: as).dropLast
            rw [hadj] at this
            simp only [Option.getD_some, List.length_cons] at this
            have hdrop : ((a :: as).dropLast).length = as.length := by
              simp [List.length_dropLast]
            omega
          refine ih _ ?_
          rcases hdir : graph.isDirected with _ | _
          · -- undirected: also erase the mirror entry
            simp only [hdir, Bool.not_false, if_true]
            have hself := adjTotal_set (st.adj.set u (a :: as).dropLast)
              (((a :: as).getLast?).getD "")
              ((((st.adj.set u (a :: as).dropLast).get
                (((a :: as).getLast?).getD "")).getD []).erase u)
            have herase : (((((st.adj.set u (a :: as).dropLast).get
                (((a :: as).getLast?).getD "")).getD []).erase u)).length ≤
                ((((st.adj.set u (a :: as).dropLast).get
                  (((a :: as).getLast?).getD "")).getD [])).length :=
              (List.erase_sublist _ _).length_le
            simp only [hstack, List.length_cons]
            omega
          · simp only [hdir, Bool.not_true, Bool.false_eq_true, if_false]
            simp only [hstack, List.length_cons]
            omega

/-- `runHierholzer` returns a result on every well-formed nonempty graph. -/
theorem runHierholzer_isSome (graph : GraphData) (hwf : WellFormed graph)
    (hne : graph.nodes ≠ []) : (runHierholzer graph).isSome := by
  obtain ⟨adj, hadjeq⟩ := buildEulerAdj_wf graph hwf
  have htot := buildEulerAdj_total graph adj hadjeq
  unfold runHierholzer
  rcases hhead : graph.nodes.head? with _ | nd
  · rw [List.head?_eq_none_iff] at hhead
    exact absurd hhead hne
  · simp only
    split
    · rfl
    · simp only [hadjeq]
      split
      next heq =>
        exfalso
        have h2 : (Option.isSome (none : Option HierState)) = true := by
          rw [← heq]
          refine hierLoop_isSome graph _ _ ?_
          simp only [List.length_cons, List.length_nil]
          omega
        simp at h2
      next st heq =>
        rfl

end NetworkSim
namespace NetworkSim

/-- The parent chain of the union-find: the exact node sequence `find`
follows from `k` to its root. -/
inductive UFChain (parent : JSObj String) : String → List String → Prop
  | root (k : String) : parent.get k = some k → UFChain parent k [k]
  | step (k p : String) (l : List String) : parent.get k = some p → p ≠ k →
      UFChain parent p l → UFChain parent k (k :: l)

theorem UFChain.ne_nil {parent : JSObj String} {k : String} {l : List String}
    (h : UFChain parent k l) : l ≠ [] := by
  cases h with
  | root => simp
  | step => simp

theorem ufFind_of_chain {parent : JSObj String} {k : String} {l : List String}
    (h : UFChain parent k l) :
    ∀ fuel, l.length ≤ fuel → (ufFind parent fuel k).isSome := by
  induction h with
  | root k hk =>
    intro fuel hf
    rcases fuel with _ | f
    · simp at hf
    · simp [ufFind, hk]
  | step k p l hk hne hch ih =>
    intro fuel hf
    rcases fuel with _ | f
    · simp at hf
    · simp only [ufFind, hk]
      rw [if_neg hne]
      refine ih f ?_
      simp only [List.length_cons] at hf
      omega

theorem ufFind_root (parent : JSObj String) :
    ∀ (fuel : Nat) (k r : String), ufFind parent fuel k = some r →
    parent.get r = some r := by
  intro fuel
  induction fuel with
  | zero => intro k r h; exact absurd h (by simp [ufFind])
  | succ f ih =>
    intro k r h
    simp only [ufFind] at h
    rcases hk : parent.get k with _ | p
    · rw [hk] at h
      exact absurd h (by simp)
    · simp only [hk] at h
      by_cases hpk : p = k
      · rw [if_pos hpk] at h
        simp only [Option.some.injEq] at h
        subst h
        subst hpk
        exact hk
      · rw [if_neg hpk] at h
        exact ih p r h

theorem mem_keys_of_get {α : Type} (m : JSObj α) (k : String) (v : α)
    (h : JSObj.get m k = some v) : k ∈ JSObj.keys m := by
  induction m with
  | nil => simp [JSObj.get] at h
  | cons p rest ih =>
    simp only [JSObj.get] at h
    by_cases hk : p.1 = k
    · simp [JSObj.keys, hk]
    · rw [if_neg hk] at h
      simp only [JSObj.keys, List.map_cons, List.mem_cons]
      exact Or.inr (ih h)

/-- A chain never revisits a node only because we carry `Nodup` in the
invariant; its root is always the last element. -/
theorem chain_root_last {parent : JSObj String} {k : String} {l : List String}
    (h : UFChain parent k l) :
    ∀ x ∈ l, parent.get x = some x → l.getLast? = some x := by
  induction h with
  | root k hk =>
    intro x hx _
    simp only [List.mem_singleton] at hx
    subst hx
    rfl
  | step k p l hk hne hch ih =>
    intro x hx hroot
    rcases List.mem_cons.mp hx with heq | hmem
    · subst heq
      rw [hroot] at hk
      simp only [Option.some.injEq] at hk
      exact absurd hk.symm hne
    · have := ih x hmem hroot
      rcases l with _ | ⟨a, t⟩
      · exact absurd rfl hch.ne_nil
      · rw [List.getLast?_cons_cons]
        exact this

theorem chain_keep {parent : JSObj String} {rI : String} {rJ : String}
    {k : String} {l : List String} (h : UFChain parent k l)
    (hout : ∀ x ∈ l, x ≠ rI) : UFChain (parent.set rI rJ) k l := by
  induction h with
  | root k hk =>
    refine UFChain.root k ?_
    rw [JSObj.get_set_ne _ _ _ _ (fun he => (hout k (by simp)) he.symm)]
    exact hk
  | step k p l hk hne hch ih =>
    refine UFChain.step k p l ?_ hne (ih (fun x hx => hout x (by simp [hx])))
    rw [JSObj.get_set_ne _ _ _ _ (fun he => (hout k (by simp)) he.symm)]
    exact hk

theorem chain_extend {parent : JSObj String} {rI rJ : String}
    (hI : parent.get rI = some rI) (hJ : parent.get rJ = some rJ)
    (hne : rJ ≠ rI) :
    ∀ {k : String} {l : List String}, UFChain parent k l →
    l.getLast? = some rI → UFChain (parent.set rI rJ) k (l ++ [rJ]) := by
  intro k l h
  induction h with
  | root k hk =>
    intro hlast
    simp only [List.getLast?_singleton, Option.some.injEq] at hlast
    subst hlast
    refine UFChain.step k rJ [rJ] ?_ hne (UFChain.root rJ ?_)
    · exact JSObj.get_set _ _ _
    · rw [JSObj.get_set_ne _ _ _ _ (fun he => hne he.symm)]
      exact hJ
  | step k p l hk hkne hch ih =>
    intro hlast
    have hknotI : k ≠ rI := by
      intro he
      subst he
      rw [hI] at hk
      simp only [Option.some.injEq] at hk
      exact hkne hk.symm
    have hlast2 : l.getLast? = some rI := by
      rcases l with _ | ⟨a, t⟩
      · exact absurd rfl hch.ne_nil
      · rw [List.getLast?_cons_cons] at hlast
        exact hlast
    have hch2 := ih hlast2
    rw [List.cons_append]
    refine UFChain.step k p (l ++ [rJ]) ?_ hkne hch2
    rw [JSObj.get_set_ne _ _ _ _ (fun he => hknotI he.symm)]
    exact hk

/-- The union-find invariant: every stored key has a duplicate-free parent
chain through stored keys. -/
def UFOk (parent : JSObj String) : Prop :=
  ∀ k q, parent.get k = some q → ∃ l, UFChain parent k l ∧ l.Nodup ∧
    ∀ x ∈ l, (parent.get x).isSome

theorem isSome_set {α : Type} (m : JSObj α) (a k : String) (b : α)
    (h : (JSObj.get m k).isSome) : ((JSObj.set m a b).get k).isSome := by
  by_cases hak : a = k
  · subst hak
    rw [JSObj.get_set]
    rfl
  · rw [JSObj.get_set_ne _ _ _ _ hak]
    exact h

/-- Linking one root beneath another preserves the invariant. -/
theorem UFOk_union (parent : JSObj String) (rI rJ : String)
    (hI : parent.get rI = some rI) (hJ : parent.get rJ = some rJ)
    (hne : rI ≠ rJ) (h : UFOk parent) : UFOk (parent.set rI rJ) := by
  intro k q hget
  by_cases hkI : k = rI
  · subst hkI
    refine ⟨[k, rJ], ?_, ?_, ?_⟩
    · refine UFChain.step k rJ [rJ] (JSObj.get_set _ _ _)
        (fun he => hne he.symm) (UFChain.root rJ ?_)
      rw [JSObj.get_set_ne _ _ _ _ hne]
      exact hJ
    · simp [hne]
    · intro x hx
      rcases List.mem_cons.mp hx with he | hx2
      · subst he
        rw [JSObj.get_set]
        rfl
      · simp only [List.mem_singleton] at hx2
        subst hx2
        rw [JSObj.get_set_ne _ _ _ _ hne, hJ]
        rfl
  · rw [JSObj.get_set_ne _ _ _ _ (fun he => hkI he.symm)] at hget
    obtain ⟨l, hch, hnd, hsome⟩ := h k q hget
    by_cases hImem : rI ∈ l
    · have hlast := chain_root_last hch rI hImem hI
      have hJnot : rJ ∉ l := by
        intro hmem
        have := chain_root_last hch rJ hmem hJ
        rw [hlast] at this
        simp only [Option.some.injEq] at this
        exact hne this
      refine ⟨l ++ [rJ], chain_extend hI hJ (fun he => hne he.symm) hch hlast,
        ?_, ?_⟩
      · simp only [List.nodup_append, List.nodup_singleton, true_and]
        exact ⟨hnd, by simpa [List.disjoint_singleton] using hJnot⟩
      · intro x hx
        rcases List.mem_append.mp hx with hx | hx
        · exact isSome_set _ _ _ _ (hsome x hx)
        · simp only [List.mem_singleton] at hx
          subst hx
          exact isSome_set _ _ _ _ (by rw [hJ]; rfl)
    · refine ⟨l, chain_keep hch (fun x hx he => hImem (he ▸ hx)), hnd, ?_⟩
      intro x hx
      exact isSome_set _ _ _ _ (hsome x hx)

theorem chain_length_le (parent : JSObj String) (l : List String)
    (hnd : l.Nodup) (hmem : ∀ x ∈ l, (parent.get x).isSome) :
    l.length ≤ (JSObj.keys parent).length := by
  have hsub : l.toFinset ⊆ (JSObj.keys parent).toFinset := by
    intro x hx
    rw [List.mem_toFinset] at hx
    rw [List.mem_toFinset]
    have := hmem x hx
    rcases hv : JSObj.get parent x with _ | v
    · rw [hv] at this
      exact absurd this (by simp)
    · exact mem_keys_of_get parent x v hv
  calc l.length = l.toFinset.card := (List.toFinset_card_of_nodup hnd).symm
    _ ≤ (JSObj.keys parent).toFinset.card := Finset.card_le_card hsub
    _ ≤ (JSObj.keys parent).length := (JSObj.keys parent).toFinset_card_le

/-- `find` answers within `|keys| + 1` steps under the invariant. -/
theorem ufFind_isSome (parent : JSObj String) (h : UFOk parent) (k : String)
    (hk : (parent.get k).isSome) (fuel : Nat)
    (hf : (JSObj.keys parent).length < fuel) : (ufFind parent fuel k).isSome := by
  rcases hv : parent.get k with _ | q
  · rw [hv] at hk
    exact absurd hk (by simp)
  · obtain ⟨l, hch, hnd, hsome⟩ := h k q hv
    refine ufFind_of_chain hch fuel ?_
    have := chain_length_le parent l hnd hsome
    omega

end NetworkSim
namespace NetworkSim

theorem uf_init_selfparent :
    ∀ (l : List Node) (m : JSObj String),
    (∀ k q, m.get k = some q → q = k) →
    ∀ k q, (l.foldl (fun m n => m.set n.id n.id) m).get k = some q → q = k := by
  intro l
  induction l with
  | nil => exact fun m hm => hm
  | cons n ns ih =>
    intro m hm
    simp only [List.foldl_cons]
    refine ih _ ?_
    intro k q hk
    by_cases hnk : n.id = k
    · subst hnk
      rw [JSObj.get_set] at hk
      simp only [Option.some.injEq] at hk
      exact hk.symm
    · rw [JSObj.get_set_ne _ _ _ _ hnk] at hk
      exact hm k q hk

theorem uf_init_defined :
    ∀ (l : List Node) (m : JSObj String) (k : String),
    (k ∈ l.map Node.id ∨ (m.get k).isSome) →
    ((l.foldl (fun m n => m.set n.id n.id) m).get k).isSome := by
  intro l
  induction l with
  | nil =>
    intro m k hk
    rcases hk with hk | hk
    · simp at hk
    · exact hk
  | cons n ns ih =>
    intro m k hk
    simp only [List.foldl_cons]
    refine ih _ k ?_
    rcases hk with hk | hk
    · simp only [List.map_cons, List.mem_cons] at hk
      rcases hk with hk | hk
      · subst hk
        exact Or.inr (by rw [JSObj.get_set]; rfl)
      · exact Or.inl hk
    · exact Or.inr (isSome_set _ _ _ _ hk)

theorem uf_init_keys :
    ∀ (l : List Node) (m : JSObj String),
    (JSObj.keys (l.foldl (fun m n => m.set n.id n.id) m)).length ≤
      (JSObj.keys m).length + l.length := by
  intro l
  induction l with
  | nil => intro m; simp
  | cons n ns ih =>
    intro m
    simp only [List.foldl_cons, List.length_cons]
    have h1 := ih (m.set n.id n.id)
    rcases JSObj.keys_set m n.id n.id with h | h
    · rw [h] at h1
      omega
    · rw [h] at h1
      simp only [List.length_append, List.length_cons, List.length_nil] at h1
      omega

theorem UFOk_selfparent (p : JSObj String) (h : ∀ k q, p.get k = some q → q = k) :
    UFOk p := by
  intro k q hget
  have hq := h k q hget
  subst hq
  exact ⟨[q], UFChain.root q hget, by simp, by
    intro x hx
    simp only [List.mem_singleton] at hx
    subst hx
    rw [hget]
    rfl⟩

/-- The Kruskal invariant threaded along the edge scan. -/
def KInv (graph : GraphData) (p : JSObj String) : Prop :=
  UFOk p ∧ (∀ k, k ∈ graph.nodes.map Node.id → (p.get k).isSome) ∧
    (JSObj.keys p).length ≤ graph.nodes.length

theorem kruskalEdge_isSome (graph : GraphData) (st : KruskalState) (link : Link)
    (hs : link.source ∈ graph.nodes.map Node.id)
    (ht : link.target ∈ graph.nodes.map Node.id)
    (hinv : KInv graph st.parent) :
    ∃ st', kruskalEdge graph (graph.nodes.length + 1) st link = some st' ∧
      KInv graph st'.parent := by
  obtain ⟨hok, hdef, hkeys⟩ := hinv
  have hfS : (ufFind st.parent (graph.nodes.length + 1) link.source).isSome :=
    ufFind_isSome _ hok _ (hdef _ hs) _ (by omega)
  rcases hS : ufFind st.parent (graph.nodes.length + 1) link.source with _ | rI
  · rw [hS] at hfS
    exact absurd hfS (by simp)
  · have hfT : (ufFind st.parent (graph.nodes.length + 1) link.target).isSome :=
      ufFind_isSome _ hok _ (hdef _ ht) _ (by omega)
    rcases hT : ufFind st.parent (graph.nodes.length + 1) link.target with _ | rJ
    · rw [hT] at hfT
      exact absurd hfT (by simp)
    · have hIroot := ufFind_root st.parent _ _ _ hS
      have hJroot := ufFind_root st.parent _ _ _ hT
      unfold kruskalEdge
      simp only [hS, hT]
      by_cases hIJ : rI ≠ rJ
      · rw [if_pos hIJ]
        have hinv2 : KInv graph (st.parent.set rI rJ) := by
          refine ⟨UFOk_union st.parent rI rJ hIroot hJroot hIJ hok, ?_, ?_⟩
          · exact fun k hk => isSome_set _ _ _ _ (hdef k hk)
          · rw [JSObj.keys_set_of_mem _ _ _ (mem_keys_of_get _ _ _ hIroot)]
            exact hkeys
        exact ⟨_, rfl, hinv2⟩
      · rw [if_neg hIJ]
        exact ⟨_, rfl, hok, hdef, hkeys⟩

theorem kruskal_fold_isSome (graph : GraphData) :
    ∀ (ls : List Link) (st : KruskalState),
    (∀ l ∈ ls, l.source ∈ graph.nodes.map Node.id ∧
      l.target ∈ graph.nodes.map Node.id) →
    KInv graph st.parent →
    (ls.foldlM (kruskalEdge graph (graph.nodes.length + 1)) st).isSome := by
  intro ls
  induction ls with
  | nil =>
    intro st _ _
    simp
  | cons l rest ih =>
    intro st hls hinv
    obtain ⟨st', hstep, hinv'⟩ := kruskalEdge_isSome graph st l
      (hls l (by simp)).1 (hls l (by simp)).2 hinv
    rw [List.foldlM_cons, hstep]
    simp only [Option.bind_eq_bind, Option.some_bind]
    exact ih st' (fun l' hl' => hls l' (by simp [hl'])) hinv'

theorem mem_insertLinkByWeight (x y : Link) (l : List Link)
    (h : x ∈ insertLinkByWeight y l) : x = y ∨ x ∈ l := by
  induction l with
  | nil =>
    simp only [insertLinkByWeight, List.mem_singleton] at h
    exact Or.inl h
  | cons z zs ih =>
    simp only [insertLinkByWeight] at h
    split at h
    · rcases List.mem_cons.mp h with he | hm
      · exact Or.inr (by simp [he])
      · rcases ih hm with he | hm2
        · exact Or.inl he
        · exact Or.inr (by simp [hm2])
    · rcases List.mem_cons.mp h with he | hm
      · exact Or.inl he
      · exact Or.inr hm

theorem mem_sortLinksByWeight (links : List Link) (x : Link)
    (h : x ∈ sortLinksByWeight links) : x ∈ links := by
  unfold sortLinksByWeight at h
  suffices hgen : ∀ (l acc : List Link),
      x ∈ l.foldl (fun acc x => insertLinkByWeight x acc) acc →
      x ∈ acc ∨ x ∈ l by
    rcases hgen links [] h with h2 | h2
    · simp at h2
    · exact h2
  intro l
  induction l with
  | nil =>
    intro acc h2
    exact Or.inl h2
  | cons y ys ih =>
    intro acc h2
    simp only [List.foldl_cons] at h2
    rcases ih _ h2 with h3 | h3
    · rcases mem_insertLinkByWeight x y acc h3 with he | hm
      · exact Or.inr (by simp [he])
      · exact Or.inl hm
    · exact Or.inr (by simp [h3])

/-- `runKruskal` returns a result on every well-formed graph. -/
theorem runKruskal_isSome (graph : GraphData) (hwf : WellFormed graph) :
    (runKruskal graph).isSome := by
  unfold runKruskal
  rcases hdir : graph.isDirected with _ | _
  · simp only [hdir, Bool.false_eq_true, if_false]
    have hinv0 : KInv graph
        (graph.nodes.foldl (fun m n => m.set n.id n.id) []) := by
      refine ⟨UFOk_selfparent _ (uf_init_selfparent graph.nodes [] (by
          intro k q h
          simp at h)), ?_, ?_⟩
      · intro k hk
        exact uf_init_defined graph.nodes [] k (Or.inl hk)
      · have := uf_init_keys graph.nodes []
        simpa [JSObj.keys] using this
    split
    next heq =>
      exfalso
      have h2 : (Option.isSome (none : Option KruskalState)) = true := by
        rw [← heq]
        refine kruskal_fold_isSome graph _ _
          (fun l hl => hwf l (mem_sortLinksByWeight graph.links l hl)) ?_
        exact hinv0
      simp at h2
    next st heq =>
      rfl
  · simp only [hdir, if_true]
    rfl

end NetworkSim
namespace NetworkSim

/-- The BFS parent chain of `runFordFulkerson`: each step has strictly
positive residual capacity. -/
inductive FFChain (parent : JSObj String) (rGraph : JSObj Int) (s : String) :
    String → List String → Prop
  | base : FFChain parent rGraph s s [s]
  | step (v u : String) (l : List String) : parent.get v = some u →
      0 < (rGraph.get (edgeKey u v)).getD 0 →
      FFChain parent rGraph s u l → FFChain parent rGraph s v (v :: l)

theorem FFChain.nonnil {parent : JSObj String} {rGraph : JSObj Int}
    {s v : String} {l : List String} (h : FFChain parent rGraph s v l) :
    l ≠ [] := by
  cases h with
  | base => simp
  | step => simp

theorem FFChain.head {parent : JSObj String} {rGraph : JSObj Int}
    {s v : String} {l : List String} (h : FFChain parent rGraph s v l) :
    ∃ t, l = v :: t := by
  cases h with
  | base => exact ⟨[], rfl⟩
  | step _ _ l _ _ _ => exact ⟨l, rfl⟩

theorem FFChain.last {parent : JSObj String} {rGraph : JSObj Int}
    {s v : String} {l : List String} (h : FFChain parent rGraph s v l) :
    l.getLast? = some s := by
  induction h with
  | base => rfl
  | step v u l hp hres hch ih =>
    rcases l with _ | ⟨a, t⟩
    · exact absurd rfl hch.nonnil
    · rw [List.getLast?_cons_cons]
      exact ih

theorem FFChain.keep {parent : JSObj String} {rGraph : JSObj Int}
    {s v w u0 : String} {l : List String} (h : FFChain parent rGraph s v l)
    (hout : ∀ x ∈ l, x ≠ w) :
    FFChain (parent.set w u0) rGraph s v l := by
  induction h with
  | base => exact FFChain.base
  | step v u l hp hres hch ih =>
    refine FFChain.step v u l ?_ hres (ih (fun x hx => hout x (by simp [hx])))
    rw [JSObj.get_set_ne _ _ _ _ (fun he => (hout v (by simp)) he.symm)]
    exact hp

theorem list_length_le_of_nodup_subset (l L : List String) (hnd : l.Nodup)
    (hsub : ∀ x ∈ l, x ∈ L) : l.length ≤ L.length := by
  have hsub2 : l.toFinset ⊆ L.toFinset := by
    intro x hx
    rw [List.mem_toFinset] at hx
    rw [List.mem_toFinset]
    exact hsub x hx
  calc l.length = l.toFinset.card := (List.toFinset_card_of_nodup hnd).symm
    _ ≤ L.toFinset.card := Finset.card_le_card hsub2
    _ ≤ L.length := L.toFinset_card_le

/-- The BFS invariant: every visited node has a duplicate-free positive
parent chain through visited nodes. -/
def BInv (s : String) (parent : JSObj String) (rGraph : JSObj Int)
    (visited : List String) : Prop :=
  ∀ v ∈ visited, ∃ l, FFChain parent rGraph s v l ∧ l.Nodup ∧
    ∀ x ∈ l, x ∈ visited

theorem BInv_mono (s : String) (parent : JSObj String) (rGraph : JSObj Int)
    (visited visited' : List String) (hsub : ∀ x ∈ visited, x ∈ visited')
    (h : BInv s parent rGraph visited) :
    ∀ v ∈ visited, ∃ l, FFChain parent rGraph s v l ∧ l.Nodup ∧
      ∀ x ∈ l, x ∈ visited' := by
  intro v hv
  obtain ⟨l, hch, hnd, hm⟩ := h v hv
  exact ⟨l, hch, hnd, fun x hx => hsub x (hm x hx)⟩

theorem ffScanNodes_spec (graph : GraphData) (t u s : String) :
    ∀ (ns : List Node) (queue visited : List String) (st : FFState),
    (∀ n ∈ ns, n ∈ graph.nodes) →
    u ∈ visited →
    s ∈ visited →
    BInv s st.parent st.rGraph visited →
    visited.Nodup →
    (∀ x ∈ visited, x ∈ s :: graph.nodes.map Node.id) →
    (∀ x ∈ queue, x ∈ visited) →
    ((ffScanNodes graph t u ns queue visited st).2.2.1.rGraph = st.rGraph ∧
     BInv s (ffScanNodes graph t u ns queue visited st).2.2.1.parent
       (ffScanNodes graph t u ns queue visited st).2.2.1.rGraph
       (ffScanNodes graph t u ns queue visited st).2.1 ∧
     (ffScanNodes graph t u ns queue visited st).2.1.Nodup ∧
     (∀ x ∈ (ffScanNodes graph t u ns queue visited st).2.1,
       x ∈ s :: graph.nodes.map Node.id) ∧
     (∀ x ∈ (ffScanNodes graph t u ns queue visited st).1,
       x ∈ (ffScanNodes graph t u ns queue visited st).2.1) ∧
     ((ffScanNodes graph t u ns queue visited st).2.2.2 = true →
       t ∈ (ffScanNodes graph t u ns queue visited st).2.1 ∧ t ≠ s)) := by
  intro ns
  induction ns with
  | nil =>
    intro queue visited st _ hu hsv hinv hnd hids hq
    simp only [ffScanNodes]
    exact ⟨trivial, hinv, hnd, hids, hq, by simp⟩
  | cons node rest ih =>
    intro queue visited st hns hu hsv hinv hnd hids hq
    simp only [ffScanNodes]
    by_cases hok : (!visited.contains node.id &&
        (match st.rGraph.get (edgeKey u node.id) with
         | some rc => decide (rc > 0)
         | none => false)) = true
    · rw [if_pos hok]
      simp only [Bool.and_eq_true, Bool.not_eq_true] at hok
      obtain ⟨hfresh, hres⟩ := hok
      have hfresh2 : node.id ∉ visited := by
        simpa using hfresh
      have hrespos : 0 < (st.rGraph.get (edgeKey u node.id)).getD 0 := by
        rcases hrc : st.rGraph.get (edgeKey u node.id) with _ | rc
        · rw [hrc] at hres
          simp at hres
        · rw [hrc] at hres
          simp only [decide_eq_true_eq] at hres
          simpa using hres
      -- the state after the push
      have hinv2 : BInv s (st.parent.set node.id u) st.rGraph
          (visited ++ [node.id]) := by
        intro v hv
        rcases List.mem_append.mp hv with hv | hv
        · obtain ⟨l, hch, hnd2, hm⟩ := hinv v hv
          refine ⟨l, FFChain.keep hch (fun x hx he => hfresh2 (he ▸ hm x hx)), hnd2,
            fun x hx => List.mem_append.mpr (Or.inl (hm x hx))⟩
        · simp only [List.mem_singleton] at hv
          subst hv
          obtain ⟨l, hch, hnd2, hm⟩ := hinv u hu
          refine ⟨node.id :: l, ?_, ?_, ?_⟩
          · refine FFChain.step node.id u l (JSObj.get_set _ _ _) hrespos
              (FFChain.keep hch (fun x hx he => hfresh2 (he ▸ hm x hx)))
          · simp only [List.nodup_cons]
            exact ⟨fun hmem => hfresh2 (hm node.id hmem), hnd2⟩
          · intro x hx
            rcases List.mem_cons.mp hx with he | hx2
            · subst he
              exact List.mem_append.mpr (Or.inr (by simp))
            · exact List.mem_append.mpr (Or.inl (hm x hx2))
      have hnd2 : (visited ++ [node.id]).Nodup := by
        simp only [List.nodup_append, List.nodup_singleton, true_and]
        exact ⟨hnd, by simpa [List.disjoint_singleton] using hfresh2⟩
      have hids2 : ∀ x ∈ visited ++ [node.id],
          x ∈ s :: graph.nodes.map Node.id := by
        intro x hx
        rcases List.mem_append.mp hx with hx | hx
        · exact hids x hx
        · simp only [List.mem_singleton] at hx
          subst hx
          exact List.mem_cons.mpr (Or.inr (List.mem_map.mpr ⟨node, hns node (by simp), rfl⟩))
      have hq2 : ∀ x ∈ queue ++ [node.id], x ∈ visited ++ [node.id] := by
        intro x hx
        rcases List.mem_append.mp hx with hx | hx
        · exact List.mem_append.mpr (Or.inl (hq x hx))
        · exact List.mem_append.mpr (Or.inr hx)
      by_cases hvt : node.id = t
      · rw [if_pos hvt]
        subst hvt
        refine ⟨rfl, hinv2, hnd2, hids2, hq2, fun _ => ?_⟩
        refine ⟨List.mem_append.mpr (Or.inr (by simp)), ?_⟩
        intro he
        exact hfresh2 (he ▸ hsv)
      · rw [if_neg hvt]
        exact ih (queue ++ [node.id]) (visited ++ [node.id]) _
          (fun n hn => hns n (by simp [hn]))
          (List.mem_append.mpr (Or.inl hu))
          (List.mem_append.mpr (Or.inl hsv)) hinv2 hnd2 hids2 hq2
    · rw [if_neg hok]
      exact ih queue visited st (fun n hn => hns n (by simp [hn])) hu hsv hinv hnd hids hq

end NetworkSim
namespace NetworkSim

theorem ffScanNodes_visited_mono (graph : GraphData) (t u : String) :
    ∀ (ns : List Node) (queue visited : List String) (st : FFState),
    ∀ x ∈ visited, x ∈ (ffScanNodes graph t u ns queue visited st).2.1 := by
  intro ns
  induction ns with
  | nil =>
    intro queue visited st x hx
    simpa [ffScanNodes] using hx
  | cons node rest ih =>
    intro queue visited st x hx
    simp only [ffScanNodes]
    split
    · split
      · simpa using Or.inl hx
      · exact ih _ _ _ x (List.mem_append.mpr (Or.inl hx))
    · exact ih _ _ _ x hx

theorem ffBfsLoop_spec (graph : GraphData) (t s : String) :
    ∀ (fuel : Nat) (queue visited : List String) (st : FFState),
    s ∈ visited →
    BInv s st.parent st.rGraph visited →
    visited.Nodup →
    (∀ x ∈ visited, x ∈ s :: graph.nodes.map Node.id) →
    (∀ x ∈ queue, x ∈ visited) →
    ((ffBfsLoop graph t fuel queue visited st).1.rGraph = st.rGraph ∧
     ((ffBfsLoop graph t fuel queue visited st).2 = true →
       t ≠ s ∧
       ∃ l, FFChain (ffBfsLoop graph t fuel queue visited st).1.parent
         (ffBfsLoop graph t fuel queue visited st).1.rGraph s t l ∧
         l.Nodup ∧ ∀ x ∈ l, x ∈ s :: graph.nodes.map Node.id)) := by
  intro fuel
  induction fuel with
  | zero =>
    intro queue visited st hsv hinv hnd hids hq
    simp only [ffBfsLoop]
    exact ⟨trivial, by simp⟩
  | succ f ih =>
    intro queue visited st hsv hinv hnd hids hq
    rcases hqe : queue with _ | ⟨u, rest⟩
    · simp only [ffBfsLoop]
      exact ⟨trivial, by simp⟩
    · simp only [ffBfsLoop]
      obtain ⟨hrg, hinv2, hnd2, hids2, hq2, hfound⟩ :=
        ffScanNodes_spec graph t u s graph.nodes rest visited st
          (fun n hn => hn) (hq u (by rw [hqe]; simp)) hsv hinv hnd hids
          (fun x hx => hq x (by rw [hqe]; simp [hx]))
      by_cases hf : (ffScanNodes graph t u graph.nodes rest visited st).2.2.2 = true
      · rw [if_pos hf]
        refine ⟨hrg, fun _ => ?_⟩
        obtain ⟨htv, hts⟩ := hfound hf
        refine ⟨hts, ?_⟩
        obtain ⟨l, hch, hndl, hm⟩ := hinv2 t htv
        exact ⟨l, hch, hndl, fun x hx => hids2 x (hm x hx)⟩
      · rw [if_neg hf]
        have hsv2 : s ∈ (ffScanNodes graph t u graph.nodes rest visited st).2.1 :=
          ffScanNodes_visited_mono graph t u graph.nodes rest visited st s hsv
        obtain ⟨irg, ichain⟩ := ih _ _ _ hsv2 hinv2 hnd2 hids2 hq2
        exact ⟨by rw [irg, hrg], ichain⟩

theorem ffBfs_spec (graph : GraphData) (s t : String) (st : FFState) :
    (ffBfs graph s t st).1.rGraph = st.rGraph ∧
    ((ffBfs graph s t st).2 = true →
      t ≠ s ∧
      ∃ l, FFChain (ffBfs graph s t st).1.parent (ffBfs graph s t st).1.rGraph s t l ∧
        l.Nodup ∧ l.length ≤ graph.nodes.length + 1 ∧
        ∀ x ∈ l, x ∈ s :: graph.nodes.map Node.id) := by
  unfold ffBfs
  obtain ⟨hrg, hchain⟩ := ffBfsLoop_spec graph t s (graph.nodes.length + 2) [s] [s]
    { st with
      parent := []
      logs := st.logs ++ ["Scanning: Quét đường dẫn khả dụng (BFS)..."]
      steps := st.steps ++ [{
        log := "Scanning: Quét đường dẫn khả dụng (BFS)..."
        visited := some [s]
        currentNodeId := some s
        flowDetails := some (getFlowDetails graph st.rGraph) }] }
    (by simp)
    (by
      intro v hv
      simp only [List.mem_singleton] at hv
      subst hv
      exact ⟨[v], FFChain.base, by simp, by simp⟩)
    (by simp)
    (by
      intro x hx
      simp only [List.mem_singleton] at hx
      simp [hx])
    (fun x hx => hx)
  refine ⟨hrg, fun hf => ?_⟩
  obtain ⟨hts, l, hch, hndl, hm⟩ := hchain hf
  refine ⟨hts, l, hch, hndl, ?_, hm⟩
  have := list_length_le_of_nodup_subset l (s :: graph.nodes.map Node.id) hndl hm
  simpa using this

end NetworkSim
namespace NetworkSim

/-- The `(parent, child)` pairs along a parent chain. -/
def chainEdges : List String → List (String × String)
  | v :: u :: rest => (u, v) :: chainEdges (u :: rest)
  | _ => []

theorem chainEdges_mem : ∀ (l : List String) (p : String × String),
    p ∈ chainEdges l → p.1 ∈ l ∧ p.2 ∈ l := by
  intro l
  induction l with
  | nil => intro p hp; simp [chainEdges] at hp
  | cons v rest ih =>
    intro p hp
    rcases rest with _ | ⟨u, t⟩
    · simp [chainEdges] at hp
    · simp only [chainEdges, List.mem_cons] at hp
      rcases hp with hp | hp
      · subst hp
        exact ⟨by simp, by simp⟩
      · obtain ⟨h1, h2⟩ := ih p hp
        exact ⟨by simp [h1], by simp [h2]⟩

theorem getLast?_mem : ∀ (l : List String) (a : String),
    l.getLast? = some a → a ∈ l := by
  intro l
  induction l with
  | nil => intro a h; simp at h
  | cons x xs ih =>
    intro a h
    rcases xs with _ | ⟨y, t⟩
    · simp only [List.getLast?_singleton, Option.some.injEq] at h
      simp [h]
    · rw [List.getLast?_cons_cons] at h
      exact List.mem_cons.mpr (Or.inr (ih a h))

theorem jnMin_none_some (b : Int) : jnMin none (some b) = some b := rfl

theorem jnMin_some_some (a b : Int) : jnMin (some a) (some b) = some (min a b) := by
  simp only [jnMin, jnLe]
  split
  · next h =>
    simp only [decide_eq_true_eq] at h
    rw [min_eq_left h]
  · next h =>
    simp only [decide_eq_true_eq] at h
    rw [min_eq_right (by omega)]

/-- The backward walk follows the BFS chain and returns a bottleneck that is
positive and below every chain-edge residual. -/
theorem ffWalk_spec (r : JSObj Int) (parent : JSObj String) (s : String) :
    ∀ {v : String} {l : List String}, FFChain parent r s v l → l.Nodup → v ≠ s →
    ∀ fuel, l.length ≤ fuel → ∀ (path : List String) (pf0 : JNum),
    (∀ mm, pf0 = some mm → 1 ≤ mm) →
    ∃ (path2 : List String) (m : Int), ffWalk r parent s fuel v path pf0 = some (path2, some m) ∧
      1 ≤ m ∧ (∀ mm, pf0 = some mm → m ≤ mm) ∧
      ∀ p ∈ chainEdges l, m ≤ (r.get (edgeKey p.1 p.2)).getD 0 := by
  intro v l hch
  induction hch with
  | base =>
    intro _ hne
    exact absurd rfl hne
  | step v u l hp hres hch ih =>
    intro hnd hvs fuel hfuel path pf0 hpf0
    rcases fuel with _ | f
    · simp at hfuel
    · simp only [ffWalk, if_neg hvs, hp]
      by_cases hus : u = s
      · -- next hop is the source: the walk stops there
        subst hus
        rcases hch.head with ⟨t0, ht0⟩
        have ht0nil : t0 = [] := by
          subst ht0
          rcases t0 with _ | ⟨a, t1⟩
          · rfl
          · exfalso
            have hnd2 : (u :: a :: t1).Nodup := (List.nodup_cons.mp hnd).2
            have hlast2 : (a :: t1).getLast? = some u := by
              have := hch.last
              rw [List.getLast?_cons_cons] at this
              exact this
            exact (List.nodup_cons.mp hnd2).1 (getLast?_mem _ _ hlast2)
        subst ht0
        subst ht0nil
        rcases f with _ | f2
        · simp only [List.length_cons, List.length_singleton] at hfuel
          omega
        · simp only [ffWalk, if_pos rfl]
          rcases pf0 with _ | m0
          · refine ⟨u :: path, (r.get (edgeKey u v)).getD 0, ?_, by omega, ?_, ?_⟩
            · simp only [if_true, jnMin_none_some]
            · intro mm hmm
              exact absurd hmm (by simp)
            · intro p hp
              simp only [chainEdges, List.mem_singleton] at hp
              subst hp
              exact Int.le_refl _
          · have h1m0 : 1 ≤ m0 := hpf0 m0 rfl
            refine ⟨u :: path, min m0 ((r.get (edgeKey u v)).getD 0), ?_,
              ?_, ?_, ?_⟩
            · simp only [if_true, jnMin_some_some]
            · omega
            · intro mm hmm
              simp only [Option.some.injEq] at hmm
              subst hmm
              omega
            · intro p hp
              simp only [chainEdges, List.mem_singleton] at hp
              subst hp
              simp only
              omega
      · -- keep walking
        have hvs2 : v ∉ l := (List.nodup_cons.mp hnd).1
        have hpf1 : ∀ mm, jnMin pf0 (some ((r.get (edgeKey u v)).getD 0)) =
            some mm → 1 ≤ mm := by
          rcases pf0 with _ | m0
          · rw [jnMin_none_some]
            intro mm hmm
            simp only [Option.some.injEq] at hmm
            omega
          · rw [jnMin_some_some]
            intro mm hmm
            simp only [Option.some.injEq] at hmm
            have := hpf0 m0 rfl
            omega
        obtain ⟨path2, m, heq, h1, hmono, hedges⟩ := ih (List.nodup_cons.mp hnd).2
          hus f (by simpa using hfuel) (u :: path)
          (jnMin pf0 (some ((r.get (edgeKey u v)).getD 0))) hpf1
        rcases hch.head with ⟨t0, ht0⟩
        refine ⟨path2, m, heq, h1, ?_, ?_⟩
        · intro mm hmm
          subst hmm
          rcases hm2 : jnMin (some mm) (some ((r.get (edgeKey u v)).getD 0))
            with _ | m2
          · rw [jnMin_some_some] at hm2
            exact absurd hm2 (by simp)
          · have := hmono m2 hm2
            rw [jnMin_some_some] at hm2
            simp only [Option.some.injEq] at hm2
            omega
        · intro p hp
          rw [ht0] at hp
          simp only [chainEdges, List.mem_cons] at hp
          rcases hp with hp | hp
          · subst hp
            simp only
            have hble : m ≤ (r.get (edgeKey u v)).getD 0 := by
              rcases pf0 with _ | m0
              · exact hmono _ (jnMin_none_some _)
              · have := hmono (min m0 ((r.get (edgeKey u v)).getD 0))
                  (jnMin_some_some _ _)
                omega
            exact hble
          · exact hedges p (by rw [ht0]; simp [chainEdges, hp])

end NetworkSim
namespace NetworkSim

/-- The backward update succeeds along the BFS chain, decrements every
forward chain key by exactly the bottleneck, and touches no key other than
the chain's forward and backward keys. -/
theorem ffUpdate_spec (parent : JSObj String) (r0 : JSObj Int) (s : String)
    (ids : List String)
    (hinj : ∀ a b c d, a ∈ s :: ids → b ∈ s :: ids → c ∈ s :: ids →
      d ∈ s :: ids → edgeKey a b = edgeKey c d → a = c ∧ b = d) :
    ∀ {v : String} {l : List String}, FFChain parent r0 s v l → l.Nodup →
    (∀ x ∈ l, x ∈ s :: ids) →
    ∀ fuel, l.length ≤ fuel → ∀ (r : JSObj Int) (pf : Int),
    ∃ r2, ffUpdate parent s pf fuel v r = some r2 ∧
      (∀ p ∈ chainEdges l, (r2.get (edgeKey p.1 p.2)).getD 0 =
        (r.get (edgeKey p.1 p.2)).getD 0 - pf) ∧
      (∀ k, (∀ p ∈ chainEdges l, k ≠ edgeKey p.1 p.2 ∧ k ≠ edgeKey p.2 p.1) →
        r2.get k = r.get k) := by
  intro v l hch
  induction hch with
  | base =>
    intro hnd hmem fuel hfuel r pf
    rcases fuel with _ | f
    · simp at hfuel
    · refine ⟨r, ?_, ?_, ?_⟩
      · simp [ffUpdate]
      · intro p hp
        simp [chainEdges] at hp
      · intro k _
        rfl
  | step v u l hp hres hch ih =>
    intro hnd hmem fuel hfuel r pf
    have hsl : s ∈ l := getLast?_mem l s hch.last
    have hvl : v ∉ l := (List.nodup_cons.mp hnd).1
    have hvs : v ≠ s := fun he => hvl (he ▸ hsl)
    have hul : u ∈ l := by
      rcases hch.head with ⟨t0, ht0⟩
      rw [ht0]
      simp
    have hvu : v ≠ u := fun he => hvl (he ▸ hul)
    have hvmem : v ∈ s :: ids := hmem v (by simp)
    have humem : u ∈ s :: ids := hmem u (by simp [hul])
    rcases fuel with _ | f
    · simp at hfuel
    · simp only [ffUpdate, if_neg hvs, hp]
      obtain ⟨r2, heq, hfwd, hkeep⟩ := ih (List.nodup_cons.mp hnd).2
        (fun x hx => hmem x (by simp [hx])) f (by simpa using hfuel)
        ((r.set (edgeKey u v) ((r.get (edgeKey u v)).getD 0 - pf)).set
          (edgeKey v u) (((r.set (edgeKey u v)
            ((r.get (edgeKey u v)).getD 0 - pf)).get (edgeKey v u)).getD 0 + pf))
        pf
      have hfb : edgeKey u v ≠ edgeKey v u := by
        intro he
        exact hvu ((hinj u v v u humem hvmem hvmem humem he).1).symm
      have hedgemem : ∀ p ∈ chainEdges l, p.1 ∈ s :: ids ∧ p.2 ∈ s :: ids := by
        intro p hp
        obtain ⟨h1, h2⟩ := chainEdges_mem l p hp
        exact ⟨hmem _ (by simp [h1]), hmem _ (by simp [h2])⟩
      have hp2notv : ∀ p ∈ chainEdges l, p.2 ≠ v ∧ p.1 ≠ v := by
        intro p hp
        obtain ⟨h1, h2⟩ := chainEdges_mem l p hp
        exact ⟨fun he => hvl (he ▸ h2), fun he => hvl (he ▸ h1)⟩
      have hnotfwd : ∀ p ∈ chainEdges l, edgeKey u v ≠ edgeKey p.1 p.2 ∧
          edgeKey u v ≠ edgeKey p.2 p.1 := by
        intro p hp
        obtain ⟨hm1, hm2⟩ := hedgemem p hp
        obtain ⟨hn2, hn1⟩ := hp2notv p hp
        constructor
        · intro he
          exact hn2 (hinj u v p.1 p.2 humem hvmem hm1 hm2 he).2.symm
        · intro he
          exact hn1 (hinj u v p.2 p.1 humem hvmem hm2 hm1 he).2.symm
      have hnotbwd : ∀ p ∈ chainEdges l, edgeKey v u ≠ edgeKey p.1 p.2 ∧
          edgeKey v u ≠ edgeKey p.2 p.1 := by
        intro p hp
        obtain ⟨hm1, hm2⟩ := hedgemem p hp
        obtain ⟨hn2, hn1⟩ := hp2notv p hp
        constructor
        · intro he
          exact hn1 (hinj v u p.1 p.2 hvmem humem hm1 hm2 he).1.symm
        · intro he
          exact hn2 (hinj v u p.2 p.1 hvmem humem hm2 hm1 he).1.symm
      rcases hch.head with ⟨t0, ht0⟩
      have hce : chainEdges (v :: l) = (u, v) :: chainEdges l := by
        rw [ht0]
        rfl
      refine ⟨r2, heq, ?_, ?_⟩
      · intro p hpmem
        rw [hce] at hpmem
        rcases List.mem_cons.mp hpmem with hpe | hpmem2
        · subst hpe
          simp only
          have huntouched := hkeep (edgeKey u v) (fun p' hp' =>
            hnotfwd p' hp')
          rw [huntouched]
          rw [JSObj.get_set_ne _ _ _ _ (fun he => hfb he.symm)]
          rw [JSObj.get_set]
          rfl
        · have := hfwd p hpmem2
          rw [this]
          have hne1 : edgeKey p.1 p.2 ≠ edgeKey v u :=
            fun he => (hnotbwd p hpmem2).1 he.symm
          have hne2 : edgeKey p.1 p.2 ≠ edgeKey u v :=
            fun he => (hnotfwd p hpmem2).1 he.symm
          rw [JSObj.get_set_ne _ _ _ _ (fun he => hne1 he.symm),
            JSObj.get_set_ne _ _ _ _ (fun he => hne2 he.symm)]
      · intro k hk
        rw [hce] at hk
        have hkuv : k ≠ edgeKey u v := (hk (u, v) (by simp)).1
        have hkvu : k ≠ edgeKey v u := (hk (u, v) (by simp)).2
        rw [hkeep k (fun p hp => hk p (by simp [hp]))]
        rw [JSObj.get_set_ne _ _ _ _ (fun he => hkvu he.symm),
          JSObj.get_set_ne _ _ _ _ (fun he => hkuv he.symm)]

end NetworkSim
namespace NetworkSim

/-- Distinct residual keys for distinct node pairs: no id collides with the
`u->v` encoding (true of the app's generated ids). -/
def KeysInj (graph : GraphData) (s : String) : Prop :=
  ∀ a ∈ s :: graph.nodes.map Node.id, ∀ b ∈ s :: graph.nodes.map Node.id,
  ∀ c ∈ s :: graph.nodes.map Node.id, ∀ d ∈ s :: graph.nodes.map Node.id,
    edgeKey a b = edgeKey c d → a = c ∧ b = d

/-- Total absolute residual mass. -/
def absTotal (r : JSObj Int) : Nat := (r.map (fun p => p.2.natAbs)).sum

theorem absTotal_set_eq (m : JSObj Int) (k : String) (v : Int) :
    absTotal (JSObj.set m k v) + ((m.get k).getD 0).natAbs =
      absTotal m + v.natAbs := by
  induction m with
  | nil => simp [absTotal, JSObj.set, JSObj.get]
  | cons p rest ih =>
    by_cases hk : p.1 = k
    · simp only [JSObj.set, JSObj.get, hk, if_pos rfl]
      simp [absTotal]
      omega
    · simp only [JSObj.set, JSObj.get, if_neg hk]
      simp only [absTotal, List.map_cons, List.sum_cons] at ih ⊢
      omega

theorem absTotal_set_le (m : JSObj Int) (k : String) (v : Int) :
    absTotal (JSObj.set m k v) ≤ absTotal m + v.natAbs := by
  have := absTotal_set_eq m k v
  omega

theorem buildResidual_absTotal (graph : GraphData) :
    absTotal (buildResidual graph) ≤
      2 * graph.links.foldl (fun a l => a + (capOrWeight l).natAbs) 0 := by
  unfold buildResidual
  suffices hgen : ∀ (ls : List Link) (r : JSObj Int) (a : Nat),
      absTotal r ≤ 2 * a →
      absTotal (ls.foldl (fun r l =>
        let r := r.set (edgeKey l.source l.target) (capOrWeight l)
        if !graph.isDirected then
          r.set (edgeKey l.target l.source) (capOrWeight l)
        else
          match r.get (edgeKey l.target l.source) with
          | none => r.set (edgeKey l.target l.source) 0
          | some _ => r) r) ≤
      2 * (ls.foldl (fun a l => a + (capOrWeight l).natAbs) a) by
    exact hgen graph.links [] 0 (by simp [absTotal])
  intro ls
  induction ls with
  | nil => intro r a h; exact h
  | cons l rest ih =>
    intro r a h
    simp only [List.foldl_cons]
    refine ih _ _ ?_
    have h1 := absTotal_set_le r (edgeKey l.source l.target) (capOrWeight l)
    rcases hdir : graph.isDirected with _ | _
    · simp only [hdir, Bool.not_false, if_true]
      have h2 := absTotal_set_le (r.set (edgeKey l.source l.target) (capOrWeight l))
        (edgeKey l.target l.source) (capOrWeight l)
      omega
    · simp only [hdir, Bool.not_true, Bool.false_eq_true, if_false]
      rcases hrev : (r.set (edgeKey l.source l.target) (capOrWeight l)).get
          (edgeKey l.target l.source) with _ | w
      · simp only [hrev]
        have h2 := absTotal_set_le (r.set (edgeKey l.source l.target) (capOrWeight l))
          (edgeKey l.target l.source) 0
        simp only [Int.natAbs_zero] at h2
        omega
      · simp only [hrev]
        omega

/-- Total source-outgoing residual, the termination potential. -/
def ffPhi (graph : GraphData) (s : String) (r : JSObj Int) : Nat :=
  (((graph.nodes.map Node.id).dedup).map
    (fun i => ((r.get (edgeKey s i)).getD 0).toNat)).sum

theorem sum_getD_le_absTotal (f : String → String) :
    ∀ (ks : List String), ks.Nodup →
    (∀ a ∈ ks, ∀ b ∈ ks, f a = f b → a = b) →
    ∀ (r : JSObj Int),
    (ks.map (fun i => ((r.get (f i)).getD 0).toNat)).sum ≤ absTotal r := by
  intro ks
  induction ks with
  | nil => intro _ _ r; simp
  | cons k rest ih =>
    intro hnd hinj r
    simp only [List.map_cons, List.sum_cons]
    have hkeep : ∀ i ∈ rest, (r.set (f k) 0).get (f i) = r.get (f i) := by
      intro i hi
      refine JSObj.get_set_ne _ _ _ _ ?_
      intro he
      have := hinj k (by simp) i (by simp [hi]) he
      subst this
      exact (List.nodup_cons.mp hnd).1 hi
    have hrec := ih (List.nodup_cons.mp hnd).2
      (fun a ha b hb he => hinj a (by simp [ha]) b (by simp [hb]) he)
      (r.set (f k) 0)
    have hsum_eq : (rest.map (fun i => (((r.set (f k) 0).get (f i)).getD 0).toNat)).sum =
        (rest.map (fun i => ((r.get (f i)).getD 0).toNat)).sum := by
      refine congrArg List.sum ?_
      refine List.map_congr_left ?_
      intro i hi
      rw [hkeep i hi]
    have habs := absTotal_set_eq r (f k) 0
    simp only [Int.natAbs_zero] at habs
    have htn : ((r.get (f k)).getD 0).toNat ≤ ((r.get (f k)).getD 0).natAbs := by
      omega
    omega

theorem map_sum_le {α : Type} (l : List α) (f g : α → Nat)
    (hle : ∀ x ∈ l, g x ≤ f x) : (l.map g).sum ≤ (l.map f).sum := by
  induction l with
  | nil => simp
  | cons a rest ih =>
    simp only [List.map_cons, List.sum_cons]
    have h1 := hle a (by simp)
    have h2 := ih (fun x hx => hle x (by simp [hx]))
    omega

theorem map_sum_lt {α : Type} (l : List α) (f g : α → Nat)
    (hle : ∀ x ∈ l, g x ≤ f x) (x0 : α) (hx0 : x0 ∈ l) (hlt : g x0 < f x0) :
    (l.map g).sum < (l.map f).sum := by
  induction l with
  | nil => simp at hx0
  | cons a rest ih =>
    simp only [List.map_cons, List.sum_cons]
    rcases List.mem_cons.mp hx0 with he | hmem
    · subst he
      have hrest := map_sum_le rest f g (fun x hx => hle x (by simp [hx]))
      omega
    · have h1 := hle a (by simp)
      have h2 := ih (fun x hx => hle x (by simp [hx])) hmem
      omega

/-- The second endpoints on a chain are never the source, and every chain
has an edge out of the source. -/
theorem chain_edge_facts (parent : JSObj String) (r0 : JSObj Int) (s : String) :
    ∀ {v : String} {L : List String}, FFChain parent r0 s v L → L.Nodup →
    ∀ p ∈ chainEdges L, p.2 ≠ s ∧ p.1 ∈ L ∧ p.2 ∈ L := by
  intro v L hch
  induction hch with
  | base =>
    intro _ p hp
    simp [chainEdges] at hp
  | step v u l hp hres hch ih =>
    intro hnd p hpmem
    have hsl : s ∈ l := getLast?_mem l s hch.last
    have hvl : v ∉ l := (List.nodup_cons.mp hnd).1
    have hvs : v ≠ s := fun he => hvl (he ▸ hsl)
    rcases hch.head with ⟨t0, ht0⟩
    have hce : chainEdges (v :: l) = (u, v) :: chainEdges l := by
      rw [ht0]
      rfl
    rw [hce] at hpmem
    rcases List.mem_cons.mp hpmem with he | hmem
    · subst he
      refine ⟨hvs, ?_, by simp⟩
      rw [ht0]
      simp
    · obtain ⟨h1, h2, h3⟩ := ih (List.nodup_cons.mp hnd).2 p hmem
      exact ⟨h1, by simp [h2], by simp [h3]⟩

theorem chain_has_sedge (parent : JSObj String) (r0 : JSObj Int) (s : String) :
    ∀ {v : String} {L : List String}, FFChain parent r0 s v L → L.Nodup → v ≠ s →
    ∃ w, (s, w) ∈ chainEdges L ∧ w ∈ L ∧ w ≠ s := by
  intro v L hch
  induction hch with
  | base =>
    intro _ hne
    exact absurd rfl hne
  | step v u l hp hres hch ih =>
    intro hnd hvs
    rcases hch.head with ⟨t0, ht0⟩
    have hce : chainEdges (v :: l) = (u, v) :: chainEdges l := by
      rw [ht0]
      rfl
    by_cases hus : u = s
    · subst hus
      have ht0nil : t0 = [] := by
        subst ht0
        rcases t0 with _ | ⟨a, t1⟩
        · rfl
        · exfalso
          have hnd2 : (u :: a :: t1).Nodup := (List.nodup_cons.mp hnd).2
          have hlast2 : (a :: t1).getLast? = some u := by
            have := hch.last
            rw [List.getLast?_cons_cons] at this
            exact this
          exact (List.nodup_cons.mp hnd2).1 (getLast?_mem _ _ hlast2)
      refine ⟨v, ?_, by simp, hvs⟩
      rw [hce]
      simp
    · obtain ⟨w, hw1, hw2, hw3⟩ := ih (List.nodup_cons.mp hnd).2 hus
      refine ⟨w, ?_, by simp [hw2], hw3⟩
      rw [hce]
      simp [hw1]

end NetworkSim
namespace NetworkSim

/-- One augmentation strictly shrinks the source-outgoing residual total. -/
theorem ffPhi_decrease (graph : GraphData) (s : String) (hinj : KeysInj graph s)
    (parent : JSObj String) (r0 r2 : JSObj Int) {t : String} {l : List String}
    (hch : FFChain parent r0 s t l) (hnd : l.Nodup) (hts : t ≠ s)
    (hmem : ∀ x ∈ l, x ∈ s :: graph.nodes.map Node.id)
    (m : Int) (h1m : 1 ≤ m)
    (hedges : ∀ p ∈ chainEdges l, m ≤ (r0.get (edgeKey p.1 p.2)).getD 0)
    (hfwd : ∀ p ∈ chainEdges l, (r2.get (edgeKey p.1 p.2)).getD 0 =
      (r0.get (edgeKey p.1 p.2)).getD 0 - m)
    (hkeep : ∀ k, (∀ p ∈ chainEdges l, k ≠ edgeKey p.1 p.2 ∧
      k ≠ edgeKey p.2 p.1) → r2.get k = r0.get k) :
    ffPhi graph s r2 < ffPhi graph s r0 := by
  obtain ⟨w, hws, hwl, hwns⟩ := chain_has_sedge parent r0 s hch hnd hts
  have hwid : w ∈ graph.nodes.map Node.id := by
    have := hmem w hwl
    rcases List.mem_cons.mp this with he | h
    · exact absurd he hwns
    · exact h
  refine map_sum_lt _ _ _ ?_ w ?_ ?_
  · intro i hi
    have hiid : i ∈ s :: graph.nodes.map Node.id := by
      simp only [List.mem_cons]
      exact Or.inr (List.mem_dedup.mp hi)
    by_cases hcase : ∀ p ∈ chainEdges l, edgeKey s i ≠ edgeKey p.1 p.2 ∧
        edgeKey s i ≠ edgeKey p.2 p.1
    · rw [hkeep _ hcase]
    · push_neg at hcase
      obtain ⟨p, hp, hne⟩ := hcase
      obtain ⟨hp2s, hp1l, hp2l⟩ := chain_edge_facts parent r0 s hch hnd p hp
      have hp1id : p.1 ∈ s :: graph.nodes.map Node.id := hmem _ hp1l
      have hp2id : p.2 ∈ s :: graph.nodes.map Node.id := hmem _ hp2l
      by_cases hfk : edgeKey s i = edgeKey p.1 p.2
      · have := hinj s (by simp) i hiid p.1 hp1id p.2 hp2id hfk
        rw [hfk, hfwd p hp]
        omega
      · have hbk : edgeKey s i = edgeKey p.2 p.1 := hne hfk
        have := hinj s (by simp) i hiid p.2 hp2id p.1 hp1id hbk
        exact absurd this.1.symm hp2s
  · exact List.mem_dedup.mpr hwid
  · have h1 := hfwd (s, w) hws
    have h2 := hedges (s, w) hws
    simp only at h1 h2
    rw [h1]
    omega

/-- The augmentation loop of `runFordFulkerson` answers within
`ffPhi + 1` rounds. -/
theorem ffOuterLoop_isSome (graph : GraphData) (s t : String)
    (hinj : KeysInj graph s) :
    ∀ (fuel : Nat) (st : FFState),
    ffPhi graph s st.rGraph + 1 ≤ fuel →
    (ffOuterLoop graph s t fuel st).isSome := by
  intro fuel
  induction fuel with
  | zero =>
    intro st h
    exact absurd h (by omega)
  | succ f ih =>
    intro st hfuel
    obtain ⟨hrg, hchain⟩ := ffBfs_spec graph s t st
    simp only [ffOuterLoop]
    by_cases hb : (ffBfs graph s t st).2 = true
    · simp only [hb, Bool.not_true, Bool.false_eq_true, if_false]
      obtain ⟨hts, l, hch, hnd, hlen, hmem⟩ := hchain hb
      obtain ⟨path2, m, hwalk, h1m, -, hedges⟩ := ffWalk_spec
        (ffBfs graph s t st).1.rGraph (ffBfs graph s t st).1.parent s hch hnd hts
        (graph.nodes.length + 2) (by omega) [t] none (by simp)
      rw [hwalk]
      obtain ⟨r2, hupd, hfwd, hkeep⟩ := ffUpdate_spec (ffBfs graph s t st).1.parent
        (ffBfs graph s t st).1.rGraph s (graph.nodes.map Node.id)
        (fun a b c d ha hb2 hc hd he => hinj a ha b hb2 c hc d hd he) hch hnd
        (fun x hx => hmem x hx) (graph.nodes.length + 2) (by omega)
        (ffBfs graph s t st).1.rGraph m
      simp only
      rw [hupd]
      refine ih _ ?_
      have hdec : ffPhi graph s r2 < ffPhi graph s (ffBfs graph s t st).1.rGraph :=
        ffPhi_decrease graph s hinj (ffBfs graph s t st).1.parent
          (ffBfs graph s t st).1.rGraph r2 hch hnd hts hmem m h1m hedges hfwd hkeep
      rw [hrg] at hdec
      simp only
      omega
    · simp only [Bool.not_eq_true] at hb
      simp only [hb, Bool.not_false, if_true]
      rfl

/-- `runFordFulkerson` returns a result whenever distinct node pairs have
distinct residual keys. -/
theorem runFordFulkerson_isSome (graph : GraphData) (s t : String)
    (hinj : KeysInj graph s) : (runFordFulkerson graph s t).isSome := by
  unfold runFordFulkerson
  dsimp only
  split
  next heq =>
    exfalso
    have h2 : (Option.isSome (none : Option FFState)) = true := by
      rw [← heq]
      refine ffOuterLoop_isSome graph s t hinj _ _ ?_
      have hA := buildResidual_absTotal graph
      have hB : ffPhi graph s (buildResidual graph) ≤
          absTotal (buildResidual graph) := by
        refine sum_getD_le_absTotal (fun i => edgeKey s i) _
          (List.nodup_dedup _) ?_ _
        intro a ha b hb he
        exact (hinj s (by simp) a (by simp [List.mem_dedup.mp ha]) s (by simp) b
          (by simp [List.mem_dedup.mp hb]) he).2
      show ffPhi graph s (buildResidual graph) + 1 ≤ ffFuel graph
      unfold ffFuel
      omega
    simp at h2
  next st2 heq =>
    rfl

end NetworkSim
namespace NetworkSim

/-- The empty directed graph. -/
def emptyDirectedGraph : GraphData := { nodes := [], links := [], isDirected := true }

/-- The empty undirected graph. -/
def emptyUndirectedGraph : GraphData := { nodes := [], links := [], isDirected := false }

/-- `runPrim` answers its directed-graph error before touching `nodes[0]`,
so the empty **directed** graph does not throw — only the undirected one
does, together with `runFleury` and `runHierholzer`. -/
theorem prim_skips_empty_directed :
    (runPrim emptyDirectedGraph).isSome = true ∧
    runPrim emptyUndirectedGraph = none ∧
    runFleury emptyUndirectedGraph = none ∧
    runHierholzer emptyUndirectedGraph = none := by
  refine ⟨by decide, by decide, by decide, by decide⟩

theorem runFleury_empty (g : GraphData) (h : g.nodes = []) :
    runFleury g = none := by
  unfold runFleury
  simp [h]

theorem runHierholzer_empty (g : GraphData) (h : g.nodes = []) :
    runHierholzer g = none := by
  unfold runHierholzer
  simp [h]

theorem runPrim_empty_undirected (g : GraphData) (h : g.nodes = [])
    (hdir : g.isDirected = false) : runPrim g = none := by
  unfold runPrim
  simp [h, hdir]

/-- **C10.** On a well-formed graph with at least one node and existing
start/source/sink ids, every entry point terminates with a result: the nine
`Option`-valued entry points return `some` and `runBellmanFord` is total.
`runFordFulkerson` additionally assumes that distinct node pairs yield
distinct `u->v` residual keys, as the app's generated ids do.  The
at-least-one-node precondition is necessary for `runFleury` and
`runHierholzer` on any graph but for `runPrim` only on undirected graphs,
because `runPrim` checks `isDirected` before reading `nodes[0]`. -/
theorem entry_points_terminate (graph : GraphData) (hwf : WellFormed graph)
    (hne : graph.nodes ≠ []) (s t : String) (e : Option String)
    (hs : s ∈ graph.nodes.map Node.id) (ht : t ∈ graph.nodes.map Node.id)
    (hinj : KeysInj graph s) :
    (runBFS graph s).isSome ∧
    (runDFS graph s).isSome ∧
    (runDijkstra graph s e).isSome ∧
    (∃ r : AlgorithmResult, runBellmanFord graph s e = r) ∧
    (runPrim graph).isSome ∧
    (runKruskal graph).isSome ∧
    (runFordFulkerson graph s t).isSome ∧
    (runFleury graph).isSome ∧
    (runHierholzer graph).isSome ∧
    (checkBipartite graph).isSome ∧
    (∀ g : GraphData, g.nodes = [] →
      runFleury g = none ∧ runHierholzer g = none ∧
      (g.isDirected = false → runPrim g = none)) := by
  refine ⟨runBFS_isSome graph hwf s, runDFS_isSome graph hwf s,
    runDijkstra_isSome graph hwf s e, ⟨_, rfl⟩,
    runPrim_isSome graph hwf hne, runKruskal_isSome graph hwf,
    runFordFulkerson_isSome graph s t hinj,
    runFleury_isSome graph hwf hne, runHierholzer_isSome graph hwf hne,
    checkBipartite_isSome graph hwf, ?_⟩
  intro g hg
  exact ⟨runFleury_empty g hg, runHierholzer_empty g hg,
    fun hd => runPrim_empty_undirected g hg hd⟩

theorem entry_points_terminate_witness :
    (runBFS twoNodeGraph "a").isSome ∧
    (runDFS twoNodeGraph "a").isSome ∧
    (runDijkstra twoNodeGraph "a" (some "b")).isSome ∧
    (∃ r : AlgorithmResult, runBellmanFord twoNodeGraph "a" (some "b") = r) ∧
    (runPrim twoNodeGraph).isSome ∧
    (runKruskal twoNodeGraph).isSome ∧
    (runFordFulkerson twoNodeGraph "a" "b").isSome ∧
    (runFleury twoNodeGraph).isSome ∧
    (runHierholzer twoNodeGraph).isSome ∧
    (checkBipartite twoNodeGraph).isSome ∧
    (∀ g : GraphData, g.nodes = [] →
      runFleury g = none ∧ runHierholzer g = none ∧
      (g.isDirected = false → runPrim g = none)) :=
  entry_points_terminate twoNodeGraph (by unfold WellFormed; decide)
    (by decide) "a" "b" (some "b") (by decide) (by decide)
    (by unfold KeysInj; decide)
/-! ### Shortest paths: edge data, path weights and the optimum `sssp` -/

/-- The directed edge data the two shortest-path algorithms relax: a link
taken forward, or backward when the graph is undirected, with its weight. -/
def EData (graph : GraphData) (u v : String) (w : Int) : Prop :=
  ∃ l ∈ graph.links, w = l.weight ∧
    ((l.source = u ∧ l.target = v) ∨
     (graph.isDirected = false ∧ l.source = v ∧ l.target = u))

/-- The cheapest link usable from `u` to `v` (minimum over parallel links). -/
def minLinkW (graph : GraphData) (u v : String) : Option Int :=
  ((graph.links.filter (fun l =>
    (l.source == u && l.target == v) ||
    (!graph.isDirected && l.source == v && l.target == u))).map Link.weight).min?

/-- Weight of a node sequence, stepping over the cheapest parallel link each
time; `none` when two consecutive nodes are not linked. -/
def pathW (graph : GraphData) : List String → Option Int
  | [] => some 0
  | [_] => some 0
  | u :: v :: rest =>
    match minLinkW graph u v, pathW graph (v :: rest) with
    | some w, some r => some (w + r)
    | _, _ => none

/-- A duplicate-free linked node sequence from `s` to `e`. -/
def pathOkB (graph : GraphData) (s e : String) (p : List String) : Bool :=
  p.head? == some s && p.getLast? == some e && decide p.Nodup &&
    (pathW graph p).isSome

/-- Every duplicate-free sequence of node ids, as permutations of subsets. -/
def pathCandidates (graph : GraphData) : List (List String) :=
  ((graph.nodes.map Node.id).dedup.sublists).flatMap List.permutations

/-- The optimal `s`-to-`e` distance: the least weight of a duplicate-free
linked node sequence from `s` to `e` (`none` when unreachable). -/
def sssp (graph : GraphData) (s e : String) : Option Int :=
  (((pathCandidates graph).filter (pathOkB graph s e)).filterMap
    (pathW graph)).min?

theorem int_min?_mem {xs : List Int} {a : Int} (h : xs.min? = some a) : a ∈ xs :=
  List.min?_mem (fun a b => min_choice a b) h

theorem int_min?_le {xs : List Int} {a b : Int} (h : xs.min? = some a)
    (hb : b ∈ xs) : a ≤ b := by
  exact ((List.le_min?_iff (fun a b c => le_min_iff) h).mp (le_refl a)) b hb

theorem int_min?_isSome {xs : List Int} {b : Int} (hb : b ∈ xs) :
    ∃ a, xs.min? = some a := by
  rcases h : xs.min? with _ | a
  · rw [List.min?_eq_none_iff] at h
    subst h
    simp at hb
  · exact ⟨a, rfl⟩

theorem minLinkW_EData (graph : GraphData) (u v : String) (w : Int)
    (h : minLinkW graph u v = some w) : EData graph u v w := by
  unfold minLinkW at h
  have hmem := int_min?_mem h
  rw [List.mem_map] at hmem
  obtain ⟨l, hl, hw⟩ := hmem
  rw [List.mem_filter] at hl
  refine ⟨l, hl.1, hw.symm, ?_⟩
  have hcond := hl.2
  simp only [Bool.or_eq_true, Bool.and_eq_true, beq_iff_eq, Bool.not_eq_true'] at hcond
  rcases hcond with ⟨h1, h2⟩ | ⟨⟨hdir, h1⟩, h2⟩
  · exact Or.inl ⟨h1, h2⟩
  · exact Or.inr ⟨hdir, h1, h2⟩

theorem EData_minLinkW (graph : GraphData) (u v : String) (w : Int)
    (h : EData graph u v w) : ∃ mw, minLinkW graph u v = some mw ∧ mw ≤ w := by
  obtain ⟨l, hl, hw, hor⟩ := h
  have hmem : w ∈ (graph.links.filter (fun l =>
      (l.source == u && l.target == v) ||
      (!graph.isDirected && l.source == v && l.target == u))).map Link.weight := by
    rw [List.mem_map]
    refine ⟨l, ?_, hw.symm⟩
    rw [List.mem_filter]
    refine ⟨hl, ?_⟩
    simp only [Bool.or_eq_true, Bool.and_eq_true, beq_iff_eq, Bool.not_eq_true']
    rcases hor with ⟨h1, h2⟩ | ⟨hdir, h1, h2⟩
    · exact Or.inl ⟨h1, h2⟩
    · exact Or.inr ⟨⟨hdir, h1⟩, h2⟩
  obtain ⟨a, ha⟩ := int_min?_isSome hmem
  refine ⟨a, ?_, int_min?_le ha hmem⟩
  unfold minLinkW
  exact ha

theorem EData_nonneg (graph : GraphData)
    (hpos : ∀ l ∈ graph.links, 0 ≤ l.weight) (u v : String) (w : Int)
    (h : EData graph u v w) : 0 ≤ w := by
  obtain ⟨l, hl, hw, -⟩ := h
  rw [hw]
  exact hpos l hl

theorem EData_mem_ids (graph : GraphData) (hwf : WellFormed graph)
    (u v : String) (w : Int) (h : EData graph u v w) :
    u ∈ graph.nodes.map Node.id ∧ v ∈ graph.nodes.map Node.id := by
  obtain ⟨l, hl, -, hor⟩ := h
  rcases hor with ⟨h1, h2⟩ | ⟨-, h1, h2⟩
  · rw [← h1, ← h2]; exact hwf l hl
  · rw [← h1, ← h2]; exact ⟨(hwf l hl).2, (hwf l hl).1⟩

theorem minLinkW_nonneg (graph : GraphData)
    (hpos : ∀ l ∈ graph.links, 0 ≤ l.weight) (u v : String) (w : Int)
    (h : minLinkW graph u v = some w) : 0 ≤ w :=
  EData_nonneg graph hpos u v w (minLinkW_EData graph u v w h)

@[simp] theorem pathW_nil (graph : GraphData) : pathW graph [] = some 0 := rfl

@[simp] theorem pathW_single (graph : GraphData) (u : String) :
    pathW graph [u] = some 0 := rfl

theorem pathW_cons_cons (graph : GraphData) (u v : String) (rest : List String) :
    pathW graph (u :: v :: rest) =
      match minLinkW graph u v, pathW graph (v :: rest) with
      | some w, some r => some (w + r)
      | _, _ => none := rfl

theorem pathW_nonneg (graph : GraphData)
    (hpos : ∀ l ∈ graph.links, 0 ≤ l.weight) :
    ∀ (p : List String) (w : Int), pathW graph p = some w → 0 ≤ w := by
  intro p
  induction p with
  | nil => intro w hw; simp only [pathW_nil, Option.some.injEq] at hw; omega
  | cons u rest ih =>
    intro w hw
    cases rest with
    | nil => simp only [pathW_single, Option.some.injEq] at hw; omega
    | cons v rest' =>
      rw [pathW_cons_cons] at hw
      rcases hm : minLinkW graph u v with _ | mw
      · rw [hm] at hw; simp at hw
      · rcases hr : pathW graph (v :: rest') with _ | r
        · rw [hm, hr] at hw; simp at hw
        · rw [hm, hr] at hw
          simp only [Option.some.injEq] at hw
          have h1 := minLinkW_nonneg graph hpos u v mw hm
          have h2 := ih r hr
          omega
theorem pathW_append_cons (graph : GraphData) :
    ∀ (A : List String) (x : String) (Y : List String),
    pathW graph (A ++ x :: Y) =
      match pathW graph (A ++ [x]), pathW graph (x :: Y) with
      | some a, some b => some (a + b)
      | _, _ => none := by
  intro A
  induction A with
  | nil =>
    intro x Y
    simp only [List.nil_append, pathW_single]
    rcases h : pathW graph (x :: Y) with _ | b
    · rfl
    · simp
  | cons a A' ih =>
    intro x Y
    cases A' with
    | nil =>
      simp only [List.cons_append, List.nil_append]
      rw [pathW_cons_cons, pathW_cons_cons graph a x []]
      simp only [pathW_single]
      rcases hm : minLinkW graph a x with _ | mw
      · rfl
      · rcases hr : pathW graph (x :: Y) with _ | r
        · rfl
        · simp
    | cons a' A'' =>
      have hLHS : pathW graph ((a :: a' :: A'') ++ x :: Y) =
          match minLinkW graph a a', pathW graph ((a' :: A'') ++ x :: Y) with
          | some w, some r => some (w + r)
          | _, _ => none := by
        simp only [List.cons_append]
        rw [pathW_cons_cons]
      have hRHS : pathW graph ((a :: a' :: A'') ++ [x]) =
          match minLinkW graph a a', pathW graph ((a' :: A'') ++ [x]) with
          | some w, some r => some (w + r)
          | _, _ => none := by
        simp only [List.cons_append]
        rw [pathW_cons_cons]
      rw [hLHS, hRHS, ih x Y]
      rcases h1 : minLinkW graph a a' with _ | w1
      · rfl
      · rcases h2 : pathW graph ((a' :: A'') ++ [x]) with _ | w2
        · rfl
        · rcases h3 : pathW graph (x :: Y) with _ | w3
          · rfl
          · simp [Int.add_assoc]

theorem pathW_snoc (graph : GraphData) (p : List String) (u v : String)
    (h : p.getLast? = some u) :
    pathW graph (p ++ [v]) =
      match pathW graph p, minLinkW graph u v with
      | some r, some w => some (r + w)
      | _, _ => none := by
  obtain ⟨p', hp'⟩ : ∃ p', p = p' ++ [u] := by
    rcases List.eq_nil_or_concat p with rfl | ⟨p', b, rfl⟩
    · simp at h
    · rw [List.concat_eq_append] at h ⊢
      rw [List.getLast?_concat] at h
      simp only [Option.some.injEq] at h
      exact ⟨p', by rw [h]⟩
  subst hp'
  rw [List.append_assoc]
  simp only [List.cons_append, List.nil_append]
  rw [pathW_append_cons graph p' u [v]]
  rw [pathW_cons_cons]
  simp only [pathW_single]
  rcases h1 : pathW graph (p' ++ [u]) with _ | r
  · rcases h2 : minLinkW graph u v with _ | w
    · rfl
    · rfl
  · rcases h2 : minLinkW graph u v with _ | w
    · rfl
    · simp

theorem exists_dup_split :
    ∀ (p : List String), ¬ p.Nodup → ∃ A x B C, p = A ++ x :: B ++ x :: C := by
  intro p
  induction p with
  | nil => intro h; exact absurd List.nodup_nil h
  | cons y t ih =>
    intro h
    by_cases hy : y ∈ t
    · obtain ⟨B, C, hbc⟩ := List.append_of_mem hy
      exact ⟨[], y, B, C, by rw [hbc]; rfl⟩
    · have ht : ¬ t.Nodup := by
        intro hnd
        exact h (List.nodup_cons.mpr ⟨hy, hnd⟩)
      obtain ⟨A, x, B, C, habc⟩ := ih ht
      exact ⟨y :: A, x, B, C, by rw [habc]; rfl⟩

theorem head?_append_cons {α : Type} (A : List α) (x : α) (Y Z : List α) :
    (A ++ x :: Y).head? = (A ++ x :: Z).head? := by
  cases A with
  | nil => rfl
  | cons a A' => rfl

theorem getLast?_append_cons' {α : Type} (A : List α) (x : α) (Y : List α) :
    (A ++ x :: Y).getLast? = (x :: Y).getLast? := by
  rw [List.getLast?_append]
  have h : (x :: Y).getLast?.isSome := by
    cases Y with
    | nil => rfl
    | cons y Y' =>
      rw [List.getLast?_cons]
      cases hY : (y :: Y').getLast? with
      | none => simp at hY
      | some z => rfl
  rcases hg : (x :: Y).getLast? with _ | z
  · rw [hg] at h; simp at h
  · rfl

theorem mem_pathCandidates (graph : GraphData) (p : List String)
    (hnd : p.Nodup) (hsub : ∀ x ∈ p, x ∈ graph.nodes.map Node.id) :
    p ∈ pathCandidates graph := by
  set ids := (graph.nodes.map Node.id).dedup with hids
  have hidsnd : ids.Nodup := List.nodup_dedup _
  set q := ids.filter (fun x => decide (x ∈ p)) with hq
  have hqsub : q.Sublist ids := List.filter_sublist ids
  have hqnd : q.Nodup := hidsnd.filter _
  have hqperm : q.Perm p := by
    rw [List.perm_ext_iff_of_nodup hqnd hnd]
    intro a
    rw [hq, List.mem_filter]
    constructor
    · intro ⟨_, h2⟩
      simpa using h2
    · intro ha
      refine ⟨?_, by simpa using ha⟩
      rw [hids, List.mem_dedup]
      exact hsub a ha
  unfold pathCandidates
  rw [List.mem_flatMap]
  refine ⟨q, ?_, ?_⟩
  · rw [List.mem_sublists]
    exact hqsub
  · rw [List.mem_permutations]
    exact hqperm.symm

theorem pathCandidates_subset (graph : GraphData) (p : List String)
    (hp : p ∈ pathCandidates graph) :
    ∀ x ∈ p, x ∈ graph.nodes.map Node.id := by
  unfold pathCandidates at hp
  rw [List.mem_flatMap] at hp
  obtain ⟨q, hq, hperm⟩ := hp
  rw [List.mem_sublists] at hq
  rw [List.mem_permutations] at hperm
  intro x hx
  have hxq : x ∈ q := hperm.mem_iff.mp hx
  have := hq.mem hxq
  rw [List.mem_dedup] at this
  exact this

theorem sssp_le (graph : GraphData) (s e : String) (p : List String)
    (hh : p.head? = some s) (hl : p.getLast? = some e) (hnd : p.Nodup)
    (hsub : ∀ x ∈ p, x ∈ graph.nodes.map Node.id) (w : Int)
    (hw : pathW graph p = some w) :
    ∃ d, sssp graph s e = some d ∧ d ≤ w := by
  have hmem : w ∈ ((pathCandidates graph).filter (pathOkB graph s e)).filterMap
      (pathW graph) := by
    rw [List.mem_filterMap]
    refine ⟨p, ?_, hw⟩
    rw [List.mem_filter]
    refine ⟨mem_pathCandidates graph p hnd hsub, ?_⟩
    unfold pathOkB
    simp only [Bool.and_eq_true, beq_iff_eq, decide_eq_true_eq, Option.isSome_iff_exists]
    exact ⟨⟨⟨hh, hl⟩, hnd⟩, w, hw⟩
  obtain ⟨a, ha⟩ := int_min?_isSome hmem
  refine ⟨a, ?_, int_min?_le ha hmem⟩
  unfold sssp
  exact ha

theorem sssp_mem (graph : GraphData) (s e : String) (d : Int)
    (h : sssp graph s e = some d) :
    ∃ p, p.head? = some s ∧ p.getLast? = some e ∧ p.Nodup ∧
      (∀ x ∈ p, x ∈ graph.nodes.map Node.id) ∧ pathW graph p = some d := by
  unfold sssp at h
  have hmem := int_min?_mem h
  rw [List.mem_filterMap] at hmem
  obtain ⟨p, hp, hw⟩ := hmem
  rw [List.mem_filter] at hp
  have hok := hp.2
  unfold pathOkB at hok
  simp only [Bool.and_eq_true, beq_iff_eq, decide_eq_true_eq] at hok
  exact ⟨p, hok.1.1.1, hok.1.1.2, hok.1.2, pathCandidates_subset graph p hp.1, hw⟩

theorem sssp_nonneg (graph : GraphData)
    (hpos : ∀ l ∈ graph.links, 0 ≤ l.weight) (s e : String) (d : Int)
    (h : sssp graph s e = some d) : 0 ≤ d := by
  obtain ⟨p, -, -, -, -, hw⟩ := sssp_mem graph s e d h
  exact pathW_nonneg graph hpos p d hw
/-- Cycle removal: any linked node sequence is weighed down by some
duplicate-free one, so `sssp` lower-bounds every walk weight. -/
theorem sssp_le_of_pathW (graph : GraphData)
    (hpos : ∀ l ∈ graph.links, 0 ≤ l.weight) :
    ∀ (n : Nat) (p : List String) (s e : String) (w : Int), p.length = n →
    p.head? = some s → p.getLast? = some e →
    (∀ x ∈ p, x ∈ graph.nodes.map Node.id) → pathW graph p = some w →
    ∃ d, sssp graph s e = some d ∧ d ≤ w := by
  intro n
  induction n using Nat.strong_induction_on with
  | _ n ih =>
    intro p s e w hn hh hl hsub hw
    by_cases hnd : p.Nodup
    · exact sssp_le graph s e p hh hl hnd hsub w hw
    · obtain ⟨A, x, B, C, hp⟩ := exists_dup_split p hnd
      subst hp
      simp only [List.cons_append, List.append_assoc] at hn hh hl hsub hw hnd
      have hsplit1 := pathW_append_cons graph A x (B ++ x :: C)
      rw [hw] at hsplit1
      rcases ha : pathW graph (A ++ [x]) with _ | a
      · rw [ha] at hsplit1; simp at hsplit1
      rcases hbc : pathW graph (x :: (B ++ x :: C)) with _ | bc
      · rw [ha, hbc] at hsplit1; simp at hsplit1
      rw [ha, hbc] at hsplit1
      simp only [Option.some.injEq] at hsplit1
      have hshape : x :: (B ++ x :: C) = (x :: B) ++ x :: C := by simp
      have hsplit2 := pathW_append_cons graph (x :: B) x C
      rw [← hshape] at hsplit2
      rw [hbc] at hsplit2
      rcases hcyc : pathW graph ((x :: B) ++ [x]) with _ | cyc
      · rw [hcyc] at hsplit2; simp at hsplit2
      rcases hc : pathW graph (x :: C) with _ | c
      · rw [hcyc, hc] at hsplit2; simp at hsplit2
      rw [hcyc, hc] at hsplit2
      simp only [Option.some.injEq] at hsplit2
      have hcyc0 : 0 ≤ cyc := pathW_nonneg graph hpos _ cyc hcyc
      have hw' : pathW graph (A ++ x :: C) = some (a + c) := by
        rw [pathW_append_cons graph A x C, ha, hc]
      have hh' : (A ++ x :: C).head? = some s := by
        rw [head?_append_cons A x C (B ++ x :: C)]
        exact hh
      have hl' : (A ++ x :: C).getLast? = some e := by
        rw [getLast?_append_cons' A x C]
        rw [getLast?_append_cons' A x (B ++ x :: C)] at hl
        rw [hshape] at hl
        rw [getLast?_append_cons' (x :: B) x C] at hl
        exact hl
      have hsub' : ∀ y ∈ A ++ x :: C, y ∈ graph.nodes.map Node.id := by
        intro y hy
        refine hsub y ?_
        rcases List.mem_append.mp hy with h1 | h1
        · exact List.mem_append.mpr (Or.inl h1)
        · rcases List.mem_cons.mp h1 with h2 | h2
          · subst h2; simp
          · simp [h2]
      have hlen : (A ++ x :: C).length < n := by
        rw [← hn]
        simp only [List.length_append, List.length_cons]
        omega
      obtain ⟨d, hd, hdle⟩ := ih _ hlen (A ++ x :: C) s e (a + c) rfl hh' hl' hsub' hw'
      exact ⟨d, hd, by omega⟩

/-- The triangle inequality for `sssp` along one usable link. -/
theorem sssp_triangle (graph : GraphData) (hwf : WellFormed graph)
    (hpos : ∀ l ∈ graph.links, 0 ≤ l.weight) (s u v : String) (du w : Int)
    (hu : sssp graph s u = some du) (he : EData graph u v w) :
    ∃ dv, sssp graph s v = some dv ∧ dv ≤ du + w := by
  obtain ⟨p, hh, hl, hnd, hsub, hpw⟩ := sssp_mem graph s u du hu
  obtain ⟨mw, hmw, hmwle⟩ := EData_minLinkW graph u v w he
  have hsnoc := pathW_snoc graph p u v hl
  rw [hpw, hmw] at hsnoc
  have hh' : (p ++ [v]).head? = some s := by
    cases p with
    | nil => simp at hh
    | cons y t => simpa using hh
  have hl' : (p ++ [v]).getLast? = some v := List.getLast?_concat p
  have hsub' : ∀ x ∈ p ++ [v], x ∈ graph.nodes.map Node.id := by
    intro x hx
    rcases List.mem_append.mp hx with h1 | h1
    · exact hsub x h1
    · simp only [List.mem_singleton] at h1
      rw [h1]
      exact (EData_mem_ids graph hwf u v w he).2
  obtain ⟨dv, hdv, hle⟩ := sssp_le_of_pathW graph hpos (p ++ [v]).length
    (p ++ [v]) s v (du + mw) rfl hh' hl' hsub' hsnoc
  exact ⟨dv, hdv, by omega⟩

/-- The distance from a node to itself is zero. -/
theorem sssp_self (graph : GraphData)
    (hpos : ∀ l ∈ graph.links, 0 ≤ l.weight) (s : String)
    (hs : s ∈ graph.nodes.map Node.id) : sssp graph s s = some 0 := by
  obtain ⟨d, hd, hle⟩ := sssp_le graph s s [s] rfl rfl (by simp) (by simpa using hs) 0 rfl
  have h0 := sssp_nonneg graph hpos s s d hd
  have : d = 0 := by omega
  rw [← this]
  exact hd
/-! ### Predecessor chains shared by `runDijkstra` and `runBellmanFord` -/

/-- Backward `previous`-chains: `PChain prev s v l` says the list `l` starts
at `v` and follows `previous` pointers down to the start node `s`. -/
inductive PChain (prev : JSObj (Option String)) (s : String) :
    String → List String → Prop
  | base : PChain prev s s [s]
  | step {v u : String} {l : List String} :
      (JSObj.get prev v).getD none = some u → PChain prev s u l →
      PChain prev s v (v :: l)

theorem getD_none_some (o : Option (Option String)) (u : String)
    (h : o.getD none = some u) : o = some (some u) := by
  cases o with
  | none => simp at h
  | some o' => simp at h; rw [h]

theorem PChain.head_eq {prev : JSObj (Option String)} {s x : String}
    {l : List String} (h : PChain prev s x l) : ∃ t, l = x :: t := by
  cases h with
  | base => exact ⟨[], rfl⟩
  | step hp hc => exact ⟨_, rfl⟩

theorem PChain.head?_eq {prev : JSObj (Option String)} {s x : String}
    {l : List String} (h : PChain prev s x l) : l.head? = some x := by
  obtain ⟨t, ht⟩ := h.head_eq
  rw [ht]
  rfl

theorem PChain.last_eq {prev : JSObj (Option String)} {s x : String}
    {l : List String} (h : PChain prev s x l) : l.getLast? = some s := by
  induction h with
  | base => rfl
  | step hp hc ih =>
    obtain ⟨t, ht⟩ := hc.head_eq
    subst ht
    rw [List.getLast?_cons, ih]
    rfl

theorem PChain.mem_self {prev : JSObj (Option String)} {s x : String}
    {l : List String} (h : PChain prev s x l) : x ∈ l := by
  obtain ⟨t, ht⟩ := h.head_eq
  rw [ht]
  exact List.mem_cons_self x t

theorem PChain.nodes_prev {prev : JSObj (Option String)} {s x : String}
    {l : List String} (h : PChain prev s x l) :
    ∀ y ∈ l, y = s ∨ ∃ z, prev.get y = some (some z) := by
  induction h with
  | base =>
    intro y hy
    simp only [List.mem_singleton] at hy
    exact Or.inl hy
  | step hp hc ih =>
    intro y hy
    rcases List.mem_cons.mp hy with h1 | h1
    · rw [h1]
      exact Or.inr ⟨_, getD_none_some _ _ hp⟩
    · exact ih y h1

theorem chain_unchanged {prev q : JSObj (Option String)} {s x : String}
    {l : List String} (h : PChain prev s x l)
    (hq : ∀ y ∈ l, q.get y = prev.get y) : PChain q s x l := by
  induction h with
  | base => exact PChain.base
  | step hp hc ih =>
    refine PChain.step ?_ (ih ?_)
    · rw [hq _ (List.mem_cons_self _ _)]
      assumption
    · intro y hy
      exact hq y (List.mem_cons_of_mem _ hy)

theorem PChain.inv_cons {prev : JSObj (Option String)} {s x : String}
    {l : List String} (h : PChain prev s x (x :: l)) (hne : l ≠ []) :
    ∃ u, (prev.get x).getD none = some u ∧ PChain prev s u l := by
  cases h with
  | base => exact absurd rfl hne
  | step hp hc => exact ⟨_, hp, hc⟩

theorem chain_suffix {prev : JSObj (Option String)} {s : String} :
    ∀ (A : List String) (x v : String) (B : List String),
    PChain prev s x (A ++ v :: B) → PChain prev s v (v :: B) := by
  intro A
  induction A with
  | nil =>
    intro x v B h
    obtain ⟨t, ht⟩ := h.head_eq
    simp only [List.nil_append, List.cons.injEq] at ht
    rcases ht with ⟨hx, -⟩
    subst hx
    simpa using h
  | cons a A' ih =>
    intro x v B h
    simp only [List.cons_append] at h
    obtain ⟨t, ht⟩ := h.head_eq
    rw [List.cons.injEq] at ht
    rcases ht with ⟨hax, -⟩
    subst hax
    obtain ⟨u, hp, hc⟩ := PChain.inv_cons h (by simp)
    exact ih _ v B hc

theorem chain_graft {prev q : JSObj (Option String)} {s : String} :
    ∀ (A : List String) (x v : String) (B C : List String),
    PChain prev s x (A ++ v :: B) → PChain q s v (v :: C) →
    (∀ a ∈ A, q.get a = prev.get a) → PChain q s x (A ++ v :: C) := by
  intro A
  induction A with
  | nil =>
    intro x v B C h hv hq
    obtain ⟨t, ht⟩ := h.head_eq
    simp only [List.nil_append, List.cons.injEq] at ht
    rcases ht with ⟨hx, -⟩
    subst hx
    simpa using hv
  | cons a A' ih =>
    intro x v B C h hv hq
    simp only [List.cons_append] at h ⊢
    obtain ⟨t, ht⟩ := h.head_eq
    rw [List.cons.injEq] at ht
    rcases ht with ⟨hax, -⟩
    subst hax
    obtain ⟨u, hp, hc⟩ := PChain.inv_cons h (by simp)
    refine PChain.step ?_ (ih _ v B C hc hv (fun y hy => hq y (List.mem_cons_of_mem _ hy)))
    rw [hq a (List.mem_cons_self _ _)]
    exact hp

/-- Along a predecessor chain, tentative distances never increase toward the
head, as each chain edge satisfies `dist v ≥ dist u + minLinkW u v ≥ dist u`. -/
theorem chain_desc (graph : GraphData)
    (hpos : ∀ l ∈ graph.links, 0 ≤ l.weight)
    (dist : JSObj JNum) (prev : JSObj (Option String)) (s : String)
    (hedge : ∀ v u, prev.get v = some (some u) → ∃ dv du mw,
      dist.get v = some (some dv) ∧ dist.get u = some (some du) ∧
      minLinkW graph u v = some mw ∧ du + mw ≤ dv) :
    ∀ {x : String} {l : List String}, PChain prev s x l →
    ∀ dx, dist.get x = some (some dx) →
    ∀ y ∈ l, ∃ dy, dist.get y = some (some dy) ∧ dy ≤ dx := by
  intro x l h
  induction h with
  | base =>
    intro dx hdx y hy
    simp only [List.mem_singleton] at hy
    rw [hy]
    exact ⟨dx, hdx, le_refl dx⟩
  | step hp hc ih =>
    intro dx hdx y hy
    rename_i v u l'
    obtain ⟨dv, du, mw, hdv, hdu, hmw, hle⟩ :=
      hedge v u (getD_none_some _ _ hp)
    rw [hdv] at hdx
    simp only [Option.some.injEq] at hdx
    have hmw0 := minLinkW_nonneg graph hpos u v mw hmw
    rcases List.mem_cons.mp hy with h1 | h1
    · refine ⟨dx, ?_, le_refl dx⟩
      rw [h1, hdv, hdx]
    · obtain ⟨dy, hdy, hdyle⟩ := ih du hdu y h1
      exact ⟨dy, hdy, by omega⟩

/-- When every chain edge is tight (`dist v = dist u + minLinkW u v`), the
reversed chain is a linked path whose weight is exactly the distance of the
chain's head. -/
theorem chain_pathW (graph : GraphData)
    (dist : JSObj JNum) (prev : JSObj (Option String)) (s : String)
    (hs0 : dist.get s = some (some 0)) :
    ∀ {x : String} {l : List String}, PChain prev s x l →
    (∀ y z, (prev.get y).getD none = some z → y ∈ l → ∃ dy dz mw,
      dist.get y = some (some dy) ∧ dist.get z = some (some dz) ∧
      minLinkW graph z y = some mw ∧ dy = dz + mw) →
    ∀ dx, dist.get x = some (some dx) →
    pathW graph l.reverse = some dx := by
  intro x l h
  induction h with
  | base =>
    intro htight dx hdx
    rw [hs0] at hdx
    simp only [Option.some.injEq] at hdx
    rw [← hdx]
    rfl
  | step hp hc ih =>
    intro htight dx hdx
    rename_i v u l'
    obtain ⟨dy, dz, mw, hdy, hdz, hmw, htt⟩ :=
      htight v u hp (List.mem_cons_self _ _)
    rw [hdy] at hdx
    simp only [Option.some.injEq] at hdx
    have hrec := ih (fun y z hyz hym =>
      htight y z hyz (List.mem_cons_of_mem _ hym)) dz hdz
    have hlast : l'.reverse.getLast? = some u := by
      rw [List.getLast?_reverse]
      exact hc.head?_eq
    have hsnoc := pathW_snoc graph l'.reverse u v hlast
    rw [hrec, hmw] at hsnoc
    have hrev : (v :: l').reverse = l'.reverse ++ [v] := by
      simp
    rw [hrev, hsnoc, ← hdx, htt]
/-- The joint invariant on the `distances` / `previous` maps shared by
`runDijkstra` and `runBellmanFord`: keys are exactly node ids, every finite
distance is witnessed by a linked walk of no larger weight, the start keeps a
non-positive distance and no predecessor, every predecessor edge is realised
by a link of no larger weight, every finite non-start node has a predecessor,
and predecessor chains are duplicate-free and reach the start. -/
structure DPInv (graph : GraphData) (s : String) (dist : JSObj JNum)
    (prev : JSObj (Option String)) : Prop where
  dist_keys : ∀ x ∈ graph.nodes.map Node.id, ∃ j, dist.get x = some j
  prev_keys : ∀ x ∈ graph.nodes.map Node.id, ∃ o, prev.get x = some o
  dist_ids : ∀ x j, dist.get x = some j → x ∈ graph.nodes.map Node.id
  sound : ∀ x w, dist.get x = some (some w) → ∃ p, p.head? = some s ∧
    p.getLast? = some x ∧ (∀ y ∈ p, y ∈ graph.nodes.map Node.id) ∧
    ∃ wp, pathW graph p = some wp ∧ wp ≤ w
  dist_s : ∃ w0, dist.get s = some (some w0) ∧ w0 ≤ 0
  prev_s : prev.get s = some none
  prev_edge : ∀ v u, prev.get v = some (some u) → ∃ dv du mw,
    dist.get v = some (some dv) ∧ dist.get u = some (some du) ∧
    minLinkW graph u v = some mw ∧ du + mw ≤ dv
  prev_fin : ∀ x ∈ graph.nodes.map Node.id, x ≠ s →
    ∀ w, dist.get x = some (some w) → ∃ u, prev.get x = some (some u)
  chains : ∀ v u, prev.get v = some (some u) → ∃ l, PChain prev s v l ∧
    l.Nodup ∧ ∀ y ∈ l, y ∈ graph.nodes.map Node.id

theorem DPInv.fin_nonneg {graph : GraphData} {s : String} {dist : JSObj JNum}
    {prev : JSObj (Option String)} (hinv : DPInv graph s dist prev)
    (hpos : ∀ l ∈ graph.links, 0 ≤ l.weight) (x : String) (w : Int)
    (hx : dist.get x = some (some w)) : 0 ≤ w := by
  obtain ⟨p, -, -, -, wp, hwp, hle⟩ := hinv.sound x w hx
  have := pathW_nonneg graph hpos p wp hwp
  omega

theorem DPInv.dist_s_zero {graph : GraphData} {s : String} {dist : JSObj JNum}
    {prev : JSObj (Option String)} (hinv : DPInv graph s dist prev)
    (hpos : ∀ l ∈ graph.links, 0 ≤ l.weight) :
    dist.get s = some (some 0) := by
  obtain ⟨w0, hw0, hle⟩ := hinv.dist_s
  have h0 := hinv.fin_nonneg hpos s w0 hw0
  have : w0 = 0 := by omega
  rw [← this]
  exact hw0

theorem DPInv.dist_ge {graph : GraphData} {s : String} {dist : JSObj JNum}
    {prev : JSObj (Option String)} (hinv : DPInv graph s dist prev)
    (hpos : ∀ l ∈ graph.links, 0 ≤ l.weight) (x : String) (w : Int)
    (hx : dist.get x = some (some w)) :
    ∃ d, sssp graph s x = some d ∧ d ≤ w := by
  obtain ⟨p, hh, hl, hsub, wp, hwp, hle⟩ := hinv.sound x w hx
  obtain ⟨d, hd, hdle⟩ := sssp_le_of_pathW graph hpos p.length p s x wp rfl
    hh hl hsub hwp
  exact ⟨d, hd, by omega⟩

theorem DPInv.chain_of_fin {graph : GraphData} {s : String} {dist : JSObj JNum}
    {prev : JSObj (Option String)} (hinv : DPInv graph s dist prev)
    (x : String) (hx : x ∈ graph.nodes.map Node.id) (w : Int)
    (hw : dist.get x = some (some w)) :
    ∃ l, PChain prev s x l ∧ l.Nodup ∧
      ∀ y ∈ l, y ∈ graph.nodes.map Node.id := by
  by_cases hxs : x = s
  · subst hxs
    exact ⟨[x], PChain.base, by simp, by simpa using hx⟩
  · obtain ⟨u, hu⟩ := hinv.prev_fin x hx hxs w hw
    exact hinv.chains x u hu

/-- One strict relaxation over a usable link preserves the joint invariant.
Both algorithms fire exactly this update. -/
theorem DPInv_relax (graph : GraphData) (hwf : WellFormed graph)
    (hpos : ∀ l ∈ graph.links, 0 ≤ l.weight) (s : String)
    (dist : JSObj JNum) (prev : JSObj (Option String))
    (hinv : DPInv graph s dist prev) (u v : String) (w : Int)
    (he : EData graph u v w) (du : Int)
    (hdu : dist.get u = some (some du)) (dv : JNum)
    (hdv : dist.get v = some dv)
    (himp : jnLt (some (du + w)) dv = true) :
    DPInv graph s (dist.set v (some (du + w))) (prev.set v (some u)) := by
  have hvids : v ∈ graph.nodes.map Node.id := hinv.dist_ids v dv hdv
  have huids : u ∈ graph.nodes.map Node.id := hinv.dist_ids u _ hdu
  have hw0 : 0 ≤ w := EData_nonneg graph hpos u v w he
  have hdu0 : 0 ≤ du := hinv.fin_nonneg hpos u du hdu
  obtain ⟨mw, hmw, hmwle⟩ := EData_minLinkW graph u v w he
  have himp' : ∀ z, dv = some z → du + w < z := by
    intro z hz
    rw [hz] at himp
    unfold jnLt at himp
    simpa using himp
  have hvns : v ≠ s := by
    intro hvs
    subst hvs
    obtain ⟨w0, hw0', hle0⟩ := hinv.dist_s
    rw [hdv] at hw0'
    simp only [Option.some.injEq] at hw0'
    have := himp' w0 (by rw [hw0'])
    omega
  have hvnu : v ≠ u := by
    intro hvu
    subst hvu
    rw [hdv] at hdu
    simp only [Option.some.injEq] at hdu
    have := himp' du (by rw [hdu])
    omega
  obtain ⟨Lu, hLu, hLund, hLuids⟩ := hinv.chain_of_fin u huids du hdu
  have hdesc_u := chain_desc graph hpos dist prev s hinv.prev_edge hLu du hdu
  have hvnotinLu : v ∉ Lu := by
    intro hv
    obtain ⟨dyv, hdyv, hdyvle⟩ := hdesc_u v hv
    rw [hdv] at hdyv
    simp only [Option.some.injEq] at hdyv
    have := himp' dyv (by rw [hdyv])
    omega
  have hLuq : PChain (prev.set v (some u)) s u Lu :=
    chain_unchanged hLu (fun y hy =>
      JSObj.get_set_ne prev v y (some u) (fun hvy => hvnotinLu (hvy ▸ hy)))
  have hLv : PChain (prev.set v (some u)) s v (v :: Lu) := by
    refine PChain.step ?_ hLuq
    rw [JSObj.get_set]
    rfl
  refine ⟨?_, ?_, ?_, ?_, ?_, ?_, ?_, ?_, ?_⟩
  · intro x hx
    by_cases hxv : x = v
    · subst hxv
      exact ⟨_, JSObj.get_set dist x _⟩
    · rw [JSObj.get_set_ne dist v x _ (fun h => hxv h.symm)]
      exact hinv.dist_keys x hx
  · intro x hx
    by_cases hxv : x = v
    · subst hxv
      exact ⟨_, JSObj.get_set prev x _⟩
    · rw [JSObj.get_set_ne prev v x _ (fun h => hxv h.symm)]
      exact hinv.prev_keys x hx
  · intro x j hj
    by_cases hxv : x = v
    · subst hxv
      exact hvids
    · rw [JSObj.get_set_ne dist v x _ (fun h => hxv h.symm)] at hj
      exact hinv.dist_ids x j hj
  · intro x wx hx
    by_cases hxv : x = v
    · subst hxv
      rw [JSObj.get_set] at hx
      simp only [Option.some.injEq] at hx
      obtain ⟨p, hh, hl, hsub, wp, hwp, hle⟩ := hinv.sound u du hdu
      have hsnoc := pathW_snoc graph p u x hl
      rw [hwp, hmw] at hsnoc
      refine ⟨p ++ [x], ?_, List.getLast?_concat p, ?_, wp + mw, hsnoc, by omega⟩
      · cases p with
        | nil => simp at hh
        | cons y t => simpa using hh
      · intro y hy
        rcases List.mem_append.mp hy with h1 | h1
        · exact hsub y h1
        · simp only [List.mem_singleton] at h1
          rw [h1]
          exact hvids
    · rw [JSObj.get_set_ne dist v x _ (fun h => hxv h.symm)] at hx
      exact hinv.sound x wx hx
  · rw [JSObj.get_set_ne dist v s _ hvns]
    exact hinv.dist_s
  · rw [JSObj.get_set_ne prev v s _ hvns]
    exact hinv.prev_s
  · intro y z hyz
    by_cases hyv : y = v
    · rw [hyv, JSObj.get_set] at hyz
      simp only [Option.some.injEq] at hyz
      rw [hyv, ← hyz]
      refine ⟨du + w, du, mw, ?_, ?_, hmw, by omega⟩
      · rw [JSObj.get_set]
      · rw [JSObj.get_set_ne dist v u _ hvnu]
        exact hdu
    · rw [JSObj.get_set_ne prev v y _ (fun h => hyv h.symm)] at hyz
      obtain ⟨dy, dz, mwz, hdy, hdz, hmwz, hlez⟩ := hinv.prev_edge y z hyz
      have hdy' : (dist.set v (some (du + w))).get y = some (some dy) := by
        rw [JSObj.get_set_ne dist v y _ (fun h => hyv h.symm)]
        exact hdy
      by_cases hzv : z = v
      · rw [hzv, hdv] at hdz
        simp only [Option.some.injEq] at hdz
        have hlt := himp' dz (by rw [hdz])
        refine ⟨dy, du + w, mwz, hdy', ?_, hmwz, by omega⟩
        rw [hzv, JSObj.get_set]
      · refine ⟨dy, dz, mwz, hdy', ?_, hmwz, hlez⟩
        rw [JSObj.get_set_ne dist v z _ (fun h => hzv h.symm)]
        exact hdz
  · intro x hx hxs wx hwx
    by_cases hxv : x = v
    · subst hxv
      exact ⟨u, by rw [JSObj.get_set]⟩
    · rw [JSObj.get_set_ne dist v x _ (fun h => hxv h.symm)] at hwx
      obtain ⟨z, hz⟩ := hinv.prev_fin x hx hxs wx hwx
      exact ⟨z, by rw [JSObj.get_set_ne prev v x _ (fun h => hxv h.symm)]; exact hz⟩
  · intro x z hxz
    by_cases hxv : x = v
    · subst hxv
      refine ⟨x :: Lu, hLv, ?_, ?_⟩
      · exact List.nodup_cons.mpr ⟨hvnotinLu, hLund⟩
      · intro y hy
        rcases List.mem_cons.mp hy with h1 | h1
        · rw [h1]; exact hvids
        · exact hLuids y h1
    · rw [JSObj.get_set_ne prev v x _ (fun h => hxv h.symm)] at hxz
      obtain ⟨Lx, hLx, hLxnd, hLxids⟩ := hinv.chains x z hxz
      by_cases hvLx : v ∈ Lx
      · obtain ⟨A, B, hAB⟩ := List.append_of_mem hvLx
        subst hAB
        have hnodups := List.nodup_append.mp hLxnd
        have hvnotA : v ∉ A := by
          intro hvA
          exact (hnodups.2.2 hvA) (List.mem_cons_self v B)
        have hsinvB : s ∈ v :: B := by
          have hlast := hLx.last_eq
          rw [getLast?_append_cons' A v B] at hlast
          exact getLast?_mem (v :: B) s hlast
        have hgraft : PChain (prev.set v (some u)) s x (A ++ v :: Lu) := by
          refine chain_graft A x v B Lu hLx hLv ?_
          intro a ha
          exact JSObj.get_set_ne prev v a _ (fun h => hvnotA (h ▸ ha))
        refine ⟨A ++ v :: Lu, hgraft, ?_, ?_⟩
        · rw [List.nodup_append]
          refine ⟨hnodups.1, List.nodup_cons.mpr ⟨hvnotinLu, hLund⟩, ?_⟩
          intro a ha
          have hanv : a ≠ v := fun h => hvnotA (h ▸ ha)
          have hans : a ≠ s := by
            intro has
            exact (hnodups.2.2 ha) (has ▸ hsinvB)
          obtain ⟨A2, A3, hA2⟩ := List.append_of_mem ha
          have hLxshape : A ++ v :: B = A2 ++ a :: (A3 ++ v :: B) := by
            rw [hA2]
            simp
          have hsuffix : PChain prev s a (a :: (A3 ++ v :: B)) :=
            chain_suffix A2 x a (A3 ++ v :: B) (by rw [← hLxshape]; exact hLx)
          have haprev : ∃ za, prev.get a = some (some za) := by
            rcases hLx.nodes_prev a (by simp [ha]) with h1 | h1
            · exact absurd h1 hans
            · exact h1
          obtain ⟨za, hza⟩ := haprev
          obtain ⟨da, dza, mwa, hda, -, -, -⟩ := hinv.prev_edge a za hza
          have hdesc_a := chain_desc graph hpos dist prev s hinv.prev_edge
            hsuffix da hda
          obtain ⟨dvv, hdvv, hdvvle⟩ := hdesc_a v (by simp)
          rw [hdv] at hdvv
          simp only [Option.some.injEq] at hdvv
          have hlt := himp' dvv (by rw [hdvv])
          intro hacontra
          rcases List.mem_cons.mp hacontra with h2 | h2
          · exact hanv h2
          · obtain ⟨dy, hdy, hdyle⟩ := hdesc_u a h2
            rw [hda] at hdy
            simp only [Option.some.injEq] at hdy
            omega
        · intro y hy
          rcases List.mem_append.mp hy with h1 | h1
          · exact hLxids y (by simp [h1])
          · rcases List.mem_cons.mp h1 with h2 | h2
            · rw [h2]; exact hvids
            · exact hLuids y h2
      · refine ⟨Lx, ?_, hLxnd, hLxids⟩
        exact chain_unchanged hLx (fun y hy =>
          JSObj.get_set_ne prev v y _ (fun h => hvLx (h ▸ hy)))
/-! ### Bellman-Ford: edge list, relaxation and invariant transfer -/

theorem bfAllEdges_eq (graph : GraphData) :
    bfAllEdges graph = graph.links.flatMap (fun l =>
      [⟨l.source, l.target, l.weight⟩] ++
        (if graph.isDirected then [] else [⟨l.target, l.source, l.weight⟩])) := by
  unfold bfAllEdges
  rw [show (fun (es : List BFEdge) (l : Link) =>
      es ++ [(⟨l.source, l.target, l.weight⟩ : BFEdge)] ++
        (if graph.isDirected then [] else [⟨l.target, l.source, l.weight⟩])) =
      (fun es l => es ++ ([(⟨l.source, l.target, l.weight⟩ : BFEdge)] ++
        (if graph.isDirected then [] else [⟨l.target, l.source, l.weight⟩]))) from ?_]
  · rw [foldl_append_flatMap]
    simp
  · funext es l
    rw [List.append_assoc]

theorem bfAllEdges_EData (graph : GraphData) (e : BFEdge)
    (he : e ∈ bfAllEdges graph) : EData graph e.u e.v e.w := by
  rw [bfAllEdges_eq, List.mem_flatMap] at he
  obtain ⟨l, hl, hmem⟩ := he
  rcases List.mem_append.mp hmem with h1 | h1
  · simp only [List.mem_singleton] at h1
    subst h1
    exact ⟨l, hl, rfl, Or.inl ⟨rfl, rfl⟩⟩
  · rcases hdir : graph.isDirected with _ | _
    · rw [hdir] at h1
      simp only [if_neg Bool.false_ne_true, List.mem_singleton] at h1
      subst h1
      exact ⟨l, hl, rfl, Or.inr ⟨hdir, rfl, rfl⟩⟩
    · rw [hdir] at h1
      simp at h1

theorem EData_bfAllEdges (graph : GraphData) (u v : String) (w : Int)
    (he : EData graph u v w) : (⟨u, v, w⟩ : BFEdge) ∈ bfAllEdges graph := by
  obtain ⟨l, hl, hw, hor⟩ := he
  rw [bfAllEdges_eq, List.mem_flatMap]
  refine ⟨l, hl, ?_⟩
  rcases hor with ⟨h1, h2⟩ | ⟨hdir, h1, h2⟩
  · rw [List.mem_append]
    left
    simp [← h1, ← h2, hw]
  · rw [List.mem_append]
    right
    rw [hdir]
    simp [← h1, ← h2, hw]

theorem bfImproves_spec (dist : JSObj JNum) (e : BFEdge)
    (h : bfImproves dist e = true) : ∃ du dv, dist.get e.u = some (some du) ∧
      dist.get e.v = some dv ∧ jnLt (some (du + e.w)) dv = true := by
  unfold bfImproves at h
  rcases hu : dist.get e.u with _ | ju
  · rw [hu] at h; simp at h
  · rw [hu] at h
    rcases ju with _ | du
    · simp at h
    · rcases hv : dist.get e.v with _ | dv
      · rw [hv] at h; simp at h
      · rw [hv] at h
        exact ⟨du, dv, rfl, rfl, h⟩

theorem bfRelaxEdge_changes (graph : GraphData) (st : BFState) (e : BFEdge) :
    ((bfRelaxEdge graph st e).distances = st.distances ∧
     (bfRelaxEdge graph st e).previous = st.previous ∧
     (bfRelaxEdge graph st e).somethingChanged = st.somethingChanged) ∨
    (bfImproves st.distances e = true ∧
     (bfRelaxEdge graph st e).somethingChanged = true ∧ ∃ du,
      st.distances.get e.u = some (some du) ∧
      (bfRelaxEdge graph st e).distances = st.distances.set e.v (some (du + e.w)) ∧
      (bfRelaxEdge graph st e).previous = st.previous.set e.v (some e.u)) := by
  rcases hb : bfImproves st.distances e with _ | _
  · refine Or.inl ?_
    unfold bfRelaxEdge
    rw [hb]
    simp
  · obtain ⟨du, dv, hu, hv, hlt⟩ := bfImproves_spec st.distances e hb
    refine Or.inr ⟨rfl, ?_, du, hu, ?_, ?_⟩
    · unfold bfRelaxEdge
      simp only [hb, if_true, hu]
    · unfold bfRelaxEdge
      simp only [hb, if_true, hu]
    · unfold bfRelaxEdge
      simp only [hb, if_true, hu]

theorem bfRelax_inv (graph : GraphData) (hwf : WellFormed graph)
    (hpos : ∀ l ∈ graph.links, 0 ≤ l.weight) (s : String) (st : BFState)
    (e : BFEdge) (he : e ∈ bfAllEdges graph)
    (hinv : DPInv graph s st.distances st.previous) :
    DPInv graph s (bfRelaxEdge graph st e).distances
      (bfRelaxEdge graph st e).previous := by
  rcases bfRelaxEdge_changes graph st e with ⟨hd, hp, -⟩ | ⟨himp, -, du, hu, hd, hp⟩
  · rw [hd, hp]
    exact hinv
  · rw [hd, hp]
    obtain ⟨du', dv, hu', hv, hlt⟩ := bfImproves_spec st.distances e himp
    rw [hu] at hu'
    simp only [Option.some.injEq] at hu'
    rw [hu']
    exact DPInv_relax graph hwf hpos s st.distances st.previous hinv e.u e.v e.w
      (bfAllEdges_EData graph e he) du' (by rw [← hu', hu]) dv hv hlt

theorem bfRelaxFold_inv (graph : GraphData) (hwf : WellFormed graph)
    (hpos : ∀ l ∈ graph.links, 0 ≤ l.weight) (s : String) :
    ∀ (es : List BFEdge) (st : BFState), (∀ e ∈ es, e ∈ bfAllEdges graph) →
    DPInv graph s st.distances st.previous →
    DPInv graph s (es.foldl (bfRelaxEdge graph) st).distances
      (es.foldl (bfRelaxEdge graph) st).previous := by
  intro es
  induction es with
  | nil => intro st _ hinv; exact hinv
  | cons e rest ih =>
    intro st hes hinv
    rw [List.foldl_cons]
    exact ih _ (fun e' he' => hes e' (by simp [he']))
      (bfRelax_inv graph hwf hpos s st e (hes e (by simp)) hinv)

theorem bfFlag_mono (graph : GraphData) :
    ∀ (es : List BFEdge) (st : BFState), st.somethingChanged = true →
    (es.foldl (bfRelaxEdge graph) st).somethingChanged = true := by
  intro es
  induction es with
  | nil => intro st h; exact h
  | cons e rest ih =>
    intro st h
    rw [List.foldl_cons]
    refine ih _ ?_
    rcases bfRelaxEdge_changes graph st e with ⟨-, -, hf⟩ | ⟨-, hf, -⟩
    · rw [hf]; exact h
    · exact hf

theorem bfFold_unchanged (graph : GraphData) :
    ∀ (es : List BFEdge) (st : BFState),
    (es.foldl (bfRelaxEdge graph) st).somethingChanged = false →
    (es.foldl (bfRelaxEdge graph) st).distances = st.distances ∧
    ∀ e ∈ es, bfImproves st.distances e = false := by
  intro es
  induction es with
  | nil =>
    intro st h
    exact ⟨rfl, by simp⟩
  | cons e rest ih =>
    intro st h
    rw [List.foldl_cons] at h ⊢
    rcases bfRelaxEdge_changes graph st e with ⟨hd, -, -⟩ | ⟨-, hf, -⟩
    · have himpf : bfImproves st.distances e = false := by
        rcases bfRelaxEdge_changes graph st e with ⟨-, -, -⟩ | ⟨himp, hf', -⟩
        · rcases hi : bfImproves st.distances e with _ | _
          · rfl
          · exfalso
            obtain ⟨du, dv, hu, hv, hlt⟩ := bfImproves_spec st.distances e hi
            have : (bfRelaxEdge graph st e).somethingChanged = true := by
              unfold bfRelaxEdge
              simp only [hi, if_true, hu]
            exact absurd (bfFlag_mono graph rest _ this) (by rw [h]; simp)
        · exact absurd (bfFlag_mono graph rest _ hf') (by rw [h]; simp)
      have hst : bfRelaxEdge graph st e = st := by
        unfold bfRelaxEdge
        rw [himpf]
        rfl
      rw [hst] at h ⊢
      obtain ⟨h1, h2⟩ := ih st h
      refine ⟨h1, ?_⟩
      intro e' he'
      rcases List.mem_cons.mp he' with h3 | h3
      · rw [h3]; exact himpf
      · exact h2 e' h3
    · exact absurd (bfFlag_mono graph rest _ hf) (by rw [h]; simp)
/-! ### Bellman-Ford: distances only decrease, and the round upper bound -/

theorem jnLe_refl (a : JNum) : jnLe a a = true := by
  cases a with
  | none => rfl
  | some x => simp [jnLe]

theorem jnLe_trans (a b c : JNum) (h1 : jnLe a b = true) (h2 : jnLe b c = true) :
    jnLe a c = true := by
  cases a with
  | none =>
    cases b with
    | none => exact h2
    | some y => simp [jnLe] at h1
  | some x =>
    cases c with
    | none => rfl
    | some z =>
      cases b with
      | none => simp [jnLe] at h2
      | some y =>
        simp only [jnLe, decide_eq_true_eq] at h1 h2 ⊢
        omega

theorem jnLt_le (a b : JNum) (h : jnLt a b = true) : jnLe a b = true := by
  cases a with
  | none => simp [jnLt] at h
  | some x =>
    cases b with
    | none => rfl
    | some y =>
      simp only [jnLt, decide_eq_true_eq] at h
      simp only [jnLe, decide_eq_true_eq]
      omega

/-- `dist'` is pointwise at most `dist`, with key presence preserved. -/
def DLe (dist dist' : JSObj JNum) : Prop :=
  ∀ x, (dist.get x = none → dist'.get x = none) ∧
    ∀ j, dist.get x = some j → ∃ j', dist'.get x = some j' ∧ jnLe j' j = true

theorem DLe_refl (dist : JSObj JNum) : DLe dist dist :=
  fun x => ⟨fun h => h, fun j hj => ⟨j, hj, jnLe_refl j⟩⟩

theorem DLe_trans {d1 d2 d3 : JSObj JNum} (h1 : DLe d1 d2) (h2 : DLe d2 d3) :
    DLe d1 d3 := by
  intro x
  refine ⟨fun h => (h2 x).1 ((h1 x).1 h), ?_⟩
  intro j hj
  obtain ⟨j2, hj2, hle2⟩ := (h1 x).2 j hj
  obtain ⟨j3, hj3, hle3⟩ := (h2 x).2 j2 hj2
  exact ⟨j3, hj3, jnLe_trans j3 j2 j hle3 hle2⟩

theorem bfRelaxEdge_DLe (graph : GraphData) (st : BFState) (e : BFEdge) :
    DLe st.distances (bfRelaxEdge graph st e).distances := by
  rcases bfRelaxEdge_changes graph st e with ⟨hd, -, -⟩ | ⟨himp, -, du, hu, hd, -⟩
  · rw [hd]
    exact DLe_refl _
  · rw [hd]
    obtain ⟨du', dv, hu', hv, hlt⟩ := bfImproves_spec st.distances e himp
    rw [hu] at hu'
    simp only [Option.some.injEq] at hu'
    intro x
    by_cases hxv : x = e.v
    · subst hxv
      constructor
      · intro h
        rw [h] at hv
        exact absurd hv (by simp)
      · intro j hj
        rw [hj] at hv
        simp only [Option.some.injEq] at hv
        refine ⟨some (du + e.w), JSObj.get_set _ _ _, ?_⟩
        rw [hv]
        rw [← hu'] at hlt
        exact jnLt_le _ _ hlt
    · rw [JSObj.get_set_ne _ _ _ _ (fun h => hxv h.symm)]
      exact ⟨fun h => h, fun j hj => ⟨j, hj, jnLe_refl j⟩⟩

theorem bfFold_DLe (graph : GraphData) :
    ∀ (es : List BFEdge) (st : BFState),
    DLe st.distances ((es.foldl (bfRelaxEdge graph) st)).distances := by
  intro es
  induction es with
  | nil => intro st; exact DLe_refl _
  | cons e rest ih =>
    intro st
    rw [List.foldl_cons]
    exact DLe_trans (bfRelaxEdge_DLe graph st e) (ih _)

/-- Upper bound through paths of at most `k` nodes. -/
def UBk (graph : GraphData) (s : String) (dist : JSObj JNum) (k : Nat) : Prop :=
  ∀ (p : List String) (x : String) (w : Int), p.head? = some s →
    p.getLast? = some x → pathW graph p = some w →
    (∀ y ∈ p, y ∈ graph.nodes.map Node.id) → p.length ≤ k →
    ∃ wx, dist.get x = some (some wx) ∧ wx ≤ w

theorem UBk_mono_dist {graph : GraphData} {s : String} {dist dist' : JSObj JNum}
    {k : Nat} (hub : UBk graph s dist k) (hle : DLe dist dist') :
    UBk graph s dist' k := by
  intro p x w hh hl hw hsub hlen
  obtain ⟨wx, hwx, hwxle⟩ := hub p x w hh hl hw hsub hlen
  obtain ⟨j', hj', hlej⟩ := (hle x).2 _ hwx
  cases j' with
  | none => simp [jnLe] at hlej
  | some wx' =>
    refine ⟨wx', hj', ?_⟩
    simp only [jnLe, decide_eq_true_eq] at hlej
    omega

theorem UBk_mono_k {graph : GraphData} {s : String} {dist : JSObj JNum}
    {k k' : Nat} (hub : UBk graph s dist k) (hk : k' ≤ k) :
    UBk graph s dist k' := by
  intro p x w hh hl hw hsub hlen
  exact hub p x w hh hl hw hsub (by omega)

/-- One full relaxation round extends the reach of the upper bound by one
node: the cheapest last edge of any path is itself relaxed in the round. -/
theorem bfRound_UB (graph : GraphData) (hwf : WellFormed graph)
    (hpos : ∀ l ∈ graph.links, 0 ≤ l.weight) (s : String) (st : BFState)
    (k : Nat) (hinv : DPInv graph s st.distances st.previous)
    (hub : UBk graph s st.distances k) :
    UBk graph s ((bfAllEdges graph).foldl (bfRelaxEdge graph) st).distances
      (k + 1) := by
  intro p x w hh hl hw hsub hlen
  have hDLe := bfFold_DLe graph (bfAllEdges graph) st
  by_cases hlk : p.length ≤ k
  · exact UBk_mono_dist hub hDLe p x w hh hl hw hsub hlk
  rcases List.eq_nil_or_concat p with rfl | ⟨p', b, rfl⟩
  · simp at hh
  rw [List.concat_eq_append] at hh hl hw hsub hlen hlk
  rw [List.getLast?_concat] at hl
  simp only [Option.some.injEq] at hl
  subst hl
  cases p' with
  | nil =>
    simp only [List.nil_append] at hh hw
    simp only [List.head?_cons, Option.some.injEq] at hh
    simp only [pathW_single, Option.some.injEq] at hw
    have hinv' := bfRelaxFold_inv graph hwf hpos s (bfAllEdges graph) st
      (fun e he => he) hinv
    refine ⟨0, ?_, by omega⟩
    rw [hh]
    exact hinv'.dist_s_zero hpos
  | cons h0 t0 =>
    have hne : (h0 :: t0) ≠ [] := by simp
    obtain ⟨u, hu⟩ : ∃ u, (h0 :: t0).getLast? = some u := by
      rcases hg : (h0 :: t0).getLast? with _ | u
      · rw [List.getLast?_cons] at hg
        rcases hg2 : t0.getLast? with _ | z
        · rw [hg2] at hg; simp at hg
        · rw [hg2] at hg; simp at hg
      · exact ⟨u, rfl⟩
    have hsnoc := pathW_snoc graph (h0 :: t0) u b hu
    rw [hw] at hsnoc
    rcases hwp : pathW graph (h0 :: t0) with _ | wp
    · rw [hwp] at hsnoc; simp at hsnoc
    rcases hmw : minLinkW graph u b with _ | mw
    · rw [hwp, hmw] at hsnoc; simp at hsnoc
    rw [hwp, hmw] at hsnoc
    simp only [Option.some.injEq] at hsnoc
    have hh' : (h0 :: t0).head? = some s := by
      simpa using hh
    have hsub' : ∀ y ∈ h0 :: t0, y ∈ graph.nodes.map Node.id := by
      intro y hy
      exact hsub y (List.mem_append.mpr (Or.inl hy))
    have hlen' : (h0 :: t0).length ≤ k := by
      simp only [List.length_append, List.length_cons, List.length_nil] at hlen hlk ⊢
      omega
    obtain ⟨wu, hwu, hwule⟩ := hub (h0 :: t0) u wp hh' hu hwp hsub' hlen'
    have hbids : b ∈ graph.nodes.map Node.id := hsub b (by simp)
    have hedge : (⟨u, b, mw⟩ : BFEdge) ∈ bfAllEdges graph :=
      EData_bfAllEdges graph u b mw (minLinkW_EData graph u b mw hmw)
    obtain ⟨E1, E2, hE⟩ := List.append_of_mem hedge
    have hfold : (bfAllEdges graph).foldl (bfRelaxEdge graph) st =
        E2.foldl (bfRelaxEdge graph)
          (bfRelaxEdge graph (E1.foldl (bfRelaxEdge graph) st) ⟨u, b, mw⟩) := by
      rw [hE, List.foldl_append, List.foldl_cons]
    have hE1sub : ∀ e ∈ E1, e ∈ bfAllEdges graph := by
      intro e he
      rw [hE]
      exact List.mem_append.mpr (Or.inl he)
    have hmidinv := bfRelaxFold_inv graph hwf hpos s E1 st hE1sub hinv
    have hmidDLe := bfFold_DLe graph E1 st
    obtain ⟨ju, hju, hjule⟩ := (hmidDLe u).2 _ hwu
    cases ju with
    | none => simp [jnLe] at hjule
    | some wu' =>
    simp only [jnLe, decide_eq_true_eq] at hjule
    set mid := E1.foldl (bfRelaxEdge graph) st with hmid
    obtain ⟨jb, hjb⟩ := hmidinv.dist_keys b hbids
    have hstep : ∃ wb2, (bfRelaxEdge graph mid ⟨u, b, mw⟩).distances.get b =
        some (some wb2) ∧ wb2 ≤ wu' + mw := by
      rcases hi : bfImproves mid.distances ⟨u, b, mw⟩ with _ | _
      · have hnochange : (bfRelaxEdge graph mid ⟨u, b, mw⟩).distances =
            mid.distances := by
          unfold bfRelaxEdge
          rw [hi]
          rfl
        rw [hnochange]
        unfold bfImproves at hi
        simp only at hi
        rw [hju, hjb] at hi
        cases jb with
        | none =>
          simp only [jnLt] at hi
          exact absurd hi (by simp)
        | some wb =>
          simp only [jnLt, decide_eq_false_iff_not] at hi
          refine ⟨wb, hjb, ?_⟩
          omega
      · have hd : (bfRelaxEdge graph mid ⟨u, b, mw⟩).distances =
            mid.distances.set b (some (wu' + mw)) := by
          unfold bfRelaxEdge
          dsimp only
          simp only [hi, if_true, hju]
        rw [hd]
        exact ⟨wu' + mw, JSObj.get_set _ _ _, le_refl _⟩
    obtain ⟨wb2, hwb2, hwb2le⟩ := hstep
    have hE2DLe := bfFold_DLe graph E2 (bfRelaxEdge graph mid ⟨u, b, mw⟩)
    obtain ⟨jx, hjx, hjxle⟩ := (hE2DLe b).2 _ hwb2
    cases jx with
    | none => simp [jnLe] at hjxle
    | some wx =>
    simp only [jnLe, decide_eq_true_eq] at hjxle
    refine ⟨wx, ?_, by omega⟩
    rw [hfold]
    exact hjx
/-! ### Bellman-Ford: main loop specification and final distances -/

/-- No edge of the relaxation list can still improve `dist`. -/
def BFStable (graph : GraphData) (dist : JSObj JNum) : Prop :=
  ∀ e ∈ bfAllEdges graph, bfImproves dist e = false

theorem bfRound_full (graph : GraphData) (hwf : WellFormed graph)
    (hpos : ∀ l ∈ graph.links, 0 ≤ l.weight) (s : String) (k : Nat)
    (st1 : BFState) (hinv : DPInv graph s st1.distances st1.previous)
    (hub : UBk graph s st1.distances k) :
    DPInv graph s ((bfAllEdges graph).foldl (bfRelaxEdge graph) st1).distances
      ((bfAllEdges graph).foldl (bfRelaxEdge graph) st1).previous ∧
    UBk graph s ((bfAllEdges graph).foldl (bfRelaxEdge graph) st1).distances
      (k + 1) ∧
    (((bfAllEdges graph).foldl (bfRelaxEdge graph) st1).somethingChanged = false →
      BFStable graph
        ((bfAllEdges graph).foldl (bfRelaxEdge graph) st1).distances) := by
  refine ⟨bfRelaxFold_inv graph hwf hpos s _ st1 (fun e he => he) hinv,
    bfRound_UB graph hwf hpos s st1 k hinv hub, ?_⟩
  intro hflag
  obtain ⟨hdist, hni⟩ := bfFold_unchanged graph (bfAllEdges graph) st1 hflag
  intro e he
  rw [hdist]
  exact hni e he

theorem bfMainLoop_spec (graph : GraphData) (hwf : WellFormed graph)
    (hpos : ∀ l ∈ graph.links, 0 ≤ l.weight) (s : String) (total : Nat) :
    ∀ (rem : Nat) (st : BFState) (k : Nat),
    DPInv graph s st.distances st.previous →
    UBk graph s st.distances k →
    DPInv graph s (bfMainLoop graph (bfAllEdges graph) total rem st).distances
      (bfMainLoop graph (bfAllEdges graph) total rem st).previous ∧
    (UBk graph s (bfMainLoop graph (bfAllEdges graph) total rem st).distances
        (k + rem) ∨
     BFStable graph
        (bfMainLoop graph (bfAllEdges graph) total rem st).distances) := by
  intro rem
  induction rem with
  | zero =>
    intro st k hinv hub
    exact ⟨hinv, Or.inl (by simpa using hub)⟩
  | succ r ih =>
    intro st k hinv hub
    unfold bfMainLoop
    simp only
    split
    next hconv =>
      constructor
      · exact (bfRound_full graph hwf hpos s k _ (by exact hinv) (by exact hub)).1
      · refine Or.inr ((bfRound_full graph hwf hpos s k _ (by exact hinv)
          (by exact hub)).2.2 ?_)
        simpa using hconv
    next hconv =>
      constructor
      · exact (ih _ (k + 1)
          (by exact (bfRound_full graph hwf hpos s k _ (by exact hinv) (by exact hub)).1)
          (by exact (bfRound_full graph hwf hpos s k _ (by exact hinv) (by exact hub)).2.1)).1
      · exact Or.imp (fun h => UBk_mono_k h (by omega)) (fun h => h)
          (ih _ (k + 1)
            (by exact (bfRound_full graph hwf hpos s k _ (by exact hinv) (by exact hub)).1)
            (by exact (bfRound_full graph hwf hpos s k _ (by exact hinv) (by exact hub)).2.1)).2

theorem get_foldl_setconst {α : Type} (c : α) :
    ∀ (nodes : List Node) (m0 : JSObj α) (x : String),
    JSObj.get (nodes.foldl (fun m n => JSObj.set m n.id c) m0) x =
      if x ∈ nodes.map Node.id then some c else m0.get x := by
  intro nodes
  induction nodes with
  | nil =>
    intro m0 x
    simp
  | cons n rest ih =>
    intro m0 x
    rw [List.foldl_cons, ih]
    by_cases hx : x ∈ rest.map Node.id
    · rw [if_pos hx, if_pos (by simp [hx])]
    · rw [if_neg hx]
      by_cases hn : n.id = x
      · rw [hn, JSObj.get_set,
          if_pos (by rw [List.map_cons]; exact List.mem_cons.mpr (Or.inl hn.symm))]
      · rw [JSObj.get_set_ne _ _ _ _ hn,
          if_neg (by
            rw [List.map_cons]
            intro hmem
            rcases List.mem_cons.mp hmem with h | h
            · exact hn h.symm
            · exact hx h)]

theorem bf_init_snd (graph : GraphData) :
    (graph.nodes.foldl
      (fun (acc : JSObj JNum × JSObj (Option String)) n =>
        (JSObj.set acc.1 n.id none, JSObj.set acc.2 n.id none)) ([], [])).2 =
    graph.nodes.foldl (fun m n => JSObj.set m n.id none) [] := by
  suffices h : ∀ (l : List Node) (a : JSObj JNum) (b : JSObj (Option String)),
      (l.foldl (fun acc n => (JSObj.set acc.1 n.id none, JSObj.set acc.2 n.id none)) (a, b)).2 =
      l.foldl (fun m n => JSObj.set m n.id none) b by
    exact h graph.nodes [] []
  intro l
  induction l with
  | nil => intro a b; rfl
  | cons n rest ih =>
    intro a b
    rw [List.foldl_cons, List.foldl_cons]
    exact ih _ _

theorem bfInit_inv (graph : GraphData) (s : String)
    (hs : s ∈ graph.nodes.map Node.id) :
    DPInv graph s
      ((graph.nodes.foldl (fun m n => JSObj.set m n.id (none : JNum)) []).set s
        (some 0))
      (graph.nodes.foldl (fun m n => JSObj.set m n.id (none : Option String)) []) := by
  have hgetd : ∀ x, JSObj.get
      ((graph.nodes.foldl (fun m n => JSObj.set m n.id (none : JNum)) []).set s
        (some 0)) x =
      if x = s then some (some 0)
      else if x ∈ graph.nodes.map Node.id then some none else none := by
    intro x
    by_cases hxs : x = s
    · rw [hxs, JSObj.get_set, if_pos rfl]
    · rw [JSObj.get_set_ne _ _ _ _ (fun h => hxs h.symm), if_neg hxs]
      rw [get_foldl_setconst]
      simp
  have hgetp : ∀ x, JSObj.get
      (graph.nodes.foldl (fun m n => JSObj.set m n.id (none : Option String)) []) x =
      if x ∈ graph.nodes.map Node.id then some none else none := by
    intro x
    rw [get_foldl_setconst]
    simp
  refine ⟨?_, ?_, ?_, ?_, ?_, ?_, ?_, ?_, ?_⟩
  · intro x hx
    rw [hgetd]
    by_cases hxs : x = s
    · rw [if_pos hxs]; exact ⟨_, rfl⟩
    · rw [if_neg hxs, if_pos hx]; exact ⟨_, rfl⟩
  · intro x hx
    rw [hgetp, if_pos hx]
    exact ⟨_, rfl⟩
  · intro x j hj
    rw [hgetd] at hj
    by_cases hxs : x = s
    · rw [hxs]; exact hs
    · rw [if_neg hxs] at hj
      by_cases hx : x ∈ graph.nodes.map Node.id
      · exact hx
      · rw [if_neg hx] at hj; exact absurd hj (by simp)
  · intro x w hx
    rw [hgetd] at hx
    by_cases hxs : x = s
    · rw [if_pos hxs] at hx
      simp only [Option.some.injEq] at hx
      rw [hxs]
      refine ⟨[s], rfl, rfl, by simpa using hs, 0, rfl, by omega⟩
    · rw [if_neg hxs] at hx
      by_cases hxn : x ∈ graph.nodes.map Node.id
      · rw [if_pos hxn] at hx
        exact absurd hx (by simp)
      · rw [if_neg hxn] at hx
        exact absurd hx (by simp)
  · refine ⟨0, ?_, le_refl 0⟩
    rw [hgetd, if_pos rfl]
  · rw [hgetp, if_pos hs]
  · intro v u hv
    rw [hgetp] at hv
    by_cases hvn : v ∈ graph.nodes.map Node.id
    · rw [if_pos hvn] at hv
      exact absurd hv (by simp)
    · rw [if_neg hvn] at hv
      exact absurd hv (by simp)
  · intro x hx hxs w hw
    rw [hgetd, if_neg hxs, if_pos hx] at hw
    exact absurd hw (by simp)
  · intro v u hv
    rw [hgetp] at hv
    by_cases hvn : v ∈ graph.nodes.map Node.id
    · rw [if_pos hvn] at hv
      exact absurd hv (by simp)
    · rw [if_neg hvn] at hv
      exact absurd hv (by simp)

theorem bfInit_UB1 (graph : GraphData) (s : String) :
    UBk graph s
      ((graph.nodes.foldl (fun m n => JSObj.set m n.id (none : JNum)) []).set s
        (some 0)) 1 := by
  intro p x w hh hl hw hsub hlen
  cases p with
  | nil => simp at hh
  | cons y t =>
    cases t with
    | nil =>
      simp only [List.head?_cons, Option.some.injEq] at hh
      simp only [List.getLast?_cons, List.getLast?_nil, Option.getD_none,
        Option.some.injEq] at hl
      simp only [pathW_single, Option.some.injEq] at hw
      refine ⟨0, ?_, by omega⟩
      rw [← hl, ← hh, JSObj.get_set]
    | cons z t' =>
      simp only [List.length_cons] at hlen
      omega
theorem bfAfterLoop_spec (graph : GraphData) (hwf : WellFormed graph)
    (hpos : ∀ l ∈ graph.links, 0 ≤ l.weight) (s : String)
    (hs : s ∈ graph.nodes.map Node.id) :
    DPInv graph s (bfAfterLoopState graph s).distances
      (bfAfterLoopState graph s).previous ∧
    (UBk graph s (bfAfterLoopState graph s).distances graph.nodes.length ∨
     BFStable graph (bfAfterLoopState graph s).distances) := by
  have hlen1 : 1 ≤ graph.nodes.length := by
    obtain ⟨n, hn, -⟩ := List.mem_map.mp hs
    exact List.length_pos.mpr (List.ne_nil_of_mem hn)
  have hinv0 : DPInv graph s
      ((graph.nodes.foldl
        (fun (acc : JSObj JNum × JSObj (Option String)) n =>
          (JSObj.set acc.1 n.id none, JSObj.set acc.2 n.id none)) ([], [])).1.set s
        (some 0))
      ((graph.nodes.foldl
        (fun (acc : JSObj JNum × JSObj (Option String)) n =>
          (JSObj.set acc.1 n.id none, JSObj.set acc.2 n.id none)) ([], [])).2) := by
    rw [bf_init_fst, bf_init_snd]
    exact bfInit_inv graph s hs
  have hub0 : UBk graph s
      ((graph.nodes.foldl
        (fun (acc : JSObj JNum × JSObj (Option String)) n =>
          (JSObj.set acc.1 n.id none, JSObj.set acc.2 n.id none)) ([], [])).1.set s
        (some 0)) 1 := by
    rw [bf_init_fst]
    exact bfInit_UB1 graph s
  unfold bfAfterLoopState
  simp only
  constructor
  · exact (bfMainLoop_spec graph hwf hpos s _ _ _ 1 (by exact hinv0)
      (by exact hub0)).1
  · exact Or.imp (fun h => UBk_mono_k h (by omega)) (fun h => h)
      (bfMainLoop_spec graph hwf hpos s _ _ _ 1 (by exact hinv0)
        (by exact hub0)).2

/-- Under stability, distances telescope along any linked node sequence. -/
theorem bfStable_UB (graph : GraphData) (hwf : WellFormed graph)
    (hpos : ∀ l ∈ graph.links, 0 ≤ l.weight) (s : String)
    (dist : JSObj JNum) (prev : JSObj (Option String))
    (hinv : DPInv graph s dist prev) (hstable : BFStable graph dist) :
    ∀ (rest : List String) (x z : String) (dx wr : Int),
    dist.get x = some (some dx) → pathW graph (x :: rest) = some wr →
    (∀ y ∈ x :: rest, y ∈ graph.nodes.map Node.id) →
    (x :: rest).getLast? = some z →
    ∃ wz, dist.get z = some (some wz) ∧ wz ≤ dx + wr := by
  intro rest
  induction rest with
  | nil =>
    intro x z dx wr hx hw hsub hl
    simp only [List.getLast?_cons, List.getLast?_nil, Option.getD_none,
      Option.some.injEq] at hl
    simp only [pathW_single, Option.some.injEq] at hw
    refine ⟨dx, ?_, by omega⟩
    rw [← hl]
    exact hx
  | cons y rest' ih =>
    intro x z dx wr hx hw hsub hl
    rw [pathW_cons_cons] at hw
    rcases hmw : minLinkW graph x y with _ | mw
    · rw [hmw] at hw; simp at hw
    rcases hwr : pathW graph (y :: rest') with _ | wr'
    · rw [hmw, hwr] at hw; simp at hw
    rw [hmw, hwr] at hw
    simp only [Option.some.injEq] at hw
    have hedge : (⟨x, y, mw⟩ : BFEdge) ∈ bfAllEdges graph :=
      EData_bfAllEdges graph x y mw (minLinkW_EData graph x y mw hmw)
    have hni := hstable _ hedge
    unfold bfImproves at hni
    simp only at hni
    rw [hx] at hni
    obtain ⟨jy, hjy⟩ := hinv.dist_keys y (hsub y (by simp))
    rw [hjy] at hni
    cases jy with
    | none =>
      simp only [jnLt] at hni
      exact absurd hni (by simp)
    | some dy =>
      simp only [jnLt, decide_eq_false_iff_not] at hni
      have hl' : (y :: rest').getLast? = some z := by
        rw [List.getLast?_cons] at hl
        rcases hg : (y :: rest').getLast? with _ | z'
        · simp at hg
        · rw [hg] at hl
          simpa using hl
      obtain ⟨wz, hwz, hwzle⟩ := ih y z dy wr' hjy hwr
        (fun q hq => hsub q (by simp [hq])) hl'
      exact ⟨wz, hwz, by omega⟩

/-- With the invariant and either the full-round bound or stability, the
final distances agree exactly with the optimum `sssp`. -/
theorem bf_dist_eq (graph : GraphData) (hwf : WellFormed graph)
    (hpos : ∀ l ∈ graph.links, 0 ≤ l.weight) (s : String)
    (hs : s ∈ graph.nodes.map Node.id)
    (dist : JSObj JNum) (prev : JSObj (Option String))
    (hinv : DPInv graph s dist prev)
    (hcase : UBk graph s dist graph.nodes.length ∨ BFStable graph dist) :
    ∀ x ∈ graph.nodes.map Node.id,
      (∀ d, sssp graph s x = some d → dist.get x = some (some d)) ∧
      (sssp graph s x = none → dist.get x = some none) := by
  intro x hx
  have hreach : ∀ d, sssp graph s x = some d → dist.get x = some (some d) := by
    intro d hd
    obtain ⟨p, hh, hl, hnd, hsub, hw⟩ := sssp_mem graph s x d hd
    have hub : ∃ wx, dist.get x = some (some wx) ∧ wx ≤ d := by
      rcases hcase with hub | hstable
      · have hplen : p.length ≤ graph.nodes.length := by
          have h1 : p.length ≤ (graph.nodes.map Node.id).dedup.length := by
            refine list_length_le_of_nodup_subset p _ hnd ?_
            intro y hy
            rw [List.mem_dedup]
            exact hsub y hy
          have h2 : (graph.nodes.map Node.id).dedup.length ≤
              (graph.nodes.map Node.id).length :=
            (List.dedup_sublist _).length_le
          rw [List.length_map] at h2
          omega
        exact hub p x d hh hl hw hsub hplen
      · cases p with
        | nil => simp at hh
        | cons y rest =>
          simp only [List.head?_cons, Option.some.injEq] at hh
          have hy0 : dist.get y = some (some 0) := by
            rw [hh]
            exact hinv.dist_s_zero hpos
          obtain ⟨wz, hwz, hwzle⟩ := bfStable_UB graph hwf hpos s dist prev
            hinv hstable rest y x 0 d hy0 hw hsub hl
          exact ⟨wz, hwz, by omega⟩
    obtain ⟨wx, hwx, hwxle⟩ := hub
    obtain ⟨d', hd', hd'le⟩ := hinv.dist_ge hpos x wx hwx
    rw [hd] at hd'
    simp only [Option.some.injEq] at hd'
    have : wx = d := by omega
    rw [← this]
    exact hwx
  refine ⟨hreach, ?_⟩
  intro hnone
  obtain ⟨j, hj⟩ := hinv.dist_keys x hx
  cases j with
  | none => exact hj
  | some wx =>
    obtain ⟨d', hd', -⟩ := hinv.dist_ge hpos x wx hj
    rw [hnone] at hd'
    exact absurd hd' (by simp)

/-- The final distances are stable: the detection pass finds nothing. -/
theorem bf_final_stable (graph : GraphData) (hwf : WellFormed graph)
    (hpos : ∀ l ∈ graph.links, 0 ≤ l.weight) (s : String)
    (hs : s ∈ graph.nodes.map Node.id)
    (dist : JSObj JNum) (prev : JSObj (Option String))
    (hinv : DPInv graph s dist prev)
    (hcase : UBk graph s dist graph.nodes.length ∨ BFStable graph dist) :
    BFStable graph dist := by
  rcases hcase with hub | hstable
  · intro e he
    rcases hi : bfImproves dist e with _ | _
    · rfl
    exfalso
    obtain ⟨du, dv, hu, hv, hlt⟩ := bfImproves_spec dist e hi
    have hE := bfAllEdges_EData graph e he
    have hvids := (EData_mem_ids graph hwf e.u e.v e.w hE).2
    have huids := (EData_mem_ids graph hwf e.u e.v e.w hE).1
    obtain ⟨d, hd, hdle⟩ := hinv.dist_ge hpos e.u du hu
    have hueq := (bf_dist_eq graph hwf hpos s hs dist prev hinv (Or.inl hub)
      e.u huids).1 d hd
    rw [hu] at hueq
    simp only [Option.some.injEq] at hueq
    obtain ⟨dv', hsv, hdvle⟩ := sssp_triangle graph hwf hpos s e.u e.v d e.w hd hE
    have hveq := (bf_dist_eq graph hwf hpos s hs dist prev hinv (Or.inl hub)
      e.v hvids).1 dv' hsv
    rw [hv] at hveq
    simp only [Option.some.injEq] at hveq
    rw [hveq] at hlt
    simp only [jnLt, decide_eq_true_eq] at hlt
    omega
  · exact hstable
/-! ### `reconstructPath` follows predecessor chains -/

theorem reconstructGo_none (prev : JSObj (Option String)) :
    ∀ (fuel : Nat) (visited path : List String),
    reconstructPathGo prev fuel none visited path = path := by
  intro fuel
  cases fuel with
  | zero => intro visited path; rfl
  | succ f => intro visited path; rfl

theorem reconstructGo_chain (prev : JSObj (Option String)) (s : String)
    (hps : prev.get s = some none) :
    ∀ {x : String} {L : List String}, PChain prev s x L → L.Nodup →
    (∀ y ∈ L, truthy y = true) →
    ∀ (fuel : Nat) (visited path : List String), L.length ≤ fuel →
    (∀ y ∈ L, y ∉ visited) →
    reconstructPathGo prev fuel (some x) visited path = L.reverse ++ path := by
  intro x L h
  induction h with
  | base =>
    intro hnd htru fuel visited path hfuel hvis
    cases fuel with
    | zero => simp at hfuel
    | succ f =>
      have htx : truthy s = true := htru s (by simp)
      have hcont : visited.contains s = false := by
        simpa using hvis s (by simp)
      unfold reconstructPathGo
      simp only [htx, hcont, hps, Bool.true_eq_false, if_false, Option.getD_some]
      rw [reconstructGo_none]
      simp
  | step hp hc ih =>
    intro hnd htru fuel visited path hfuel hvis
    rename_i v u L'
    cases fuel with
    | zero => simp at hfuel
    | succ f =>
      have htx : truthy v = true := htru v (by simp)
      have hcont : visited.contains v = false := by
        simpa using hvis v (by simp)
      unfold reconstructPathGo
      simp only [htx, hcont, Bool.true_eq_false, if_false, hp]
      rw [ih (List.nodup_cons.mp hnd).2
        (fun y hy => htru y (by simp [hy])) f (visited ++ [v]) (v :: path)
        (by simp only [List.length_cons] at hfuel; omega) ?_]
      · simp
      · intro y hy
        rw [List.mem_append]
        push_neg
        refine ⟨hvis y (by simp [hy]), ?_⟩
        simp only [List.mem_singleton]
        intro hyv
        exact (List.nodup_cons.mp hnd).1 (hyv ▸ hy)

theorem reconstructPath_chain (prev : JSObj (Option String)) (s e : String)
    (hps : prev.get s = some none) (L : List String)
    (h : PChain prev s e L) (hnd : L.Nodup)
    (htru : ∀ y ∈ L, truthy y = true)
    (hkeys : ∀ y ∈ L, y ∈ prev.keys) :
    reconstructPath prev e = L.reverse := by
  unfold reconstructPath
  rw [reconstructGo_chain prev s hps h hnd htru _ [] [] ?_ ?_]
  · simp
  · have := list_length_le_of_nodup_subset L prev.keys hnd hkeys
    omega
  · simp

/-- The endgame of `runBellmanFord` with an existing, truthy end id: the
unreachable report exactly when `sssp` is infinite, otherwise a start-to-end
path of exactly the optimal weight. -/
theorem runBellmanFord_path_spec (graph : GraphData) (hwf : WellFormed graph)
    (hpos : ∀ l ∈ graph.links, 0 ≤ l.weight) (s e : String)
    (hs : s ∈ graph.nodes.map Node.id) (he : e ∈ graph.nodes.map Node.id)
    (htru : ∀ x ∈ graph.nodes.map Node.id, truthy x = true) :
    (sssp graph s e = none → (runBellmanFord graph s (some e)).path = none) ∧
    (∀ d, sssp graph s e = some d →
      ∃ p, (runBellmanFord graph s (some e)).path = some p ∧
        p.head? = some s ∧ p.getLast? = some e ∧ pathW graph p = some d) := by
  have hany : (graph.links.any (fun l => l.weight < 0)) = false := by
    rw [List.any_eq_false]
    intro l hl
    simp only [decide_eq_true_eq, not_lt]
    exact hpos l hl
  obtain ⟨hinv, hcase⟩ := bfAfterLoop_spec graph hwf hpos s hs
  have hstable := bf_final_stable graph hwf hpos s hs _ _ hinv hcase
  have heq := bf_dist_eq graph hwf hpos s hs _ _ hinv hcase e he
  have hfind : (bfAllEdges graph).find?
      (bfImproves (bfAfterLoopState graph s).distances) = none := by
    rw [List.find?_eq_none]
    intro e' he'
    rw [hstable e' he']
    simp
  have hrbf : runBellmanFord graph s (some e) =
      bfEndPhase graph (some e) (bfAfterLoopState graph s) := by
    unfold runBellmanFord
    rw [hany]
    simp only [Bool.and_false, Bool.false_eq_true, if_false, hfind]
  rw [hrbf]
  have hetruthy : endTruthy (some e) = true := htru e he
  constructor
  · intro hnone
    have hinf := heq.2 hnone
    unfold bfEndPhase
    rw [if_pos hetruthy]
    simp only [Option.getD_some]
    rw [if_pos hinf]
  · intro d hd
    have hfin := heq.1 d hd
    obtain ⟨L, hL, hLnd, hLids⟩ := hinv.chain_of_fin e he d hfin
    have htight : ∀ y z, ((bfAfterLoopState graph s).previous.get y).getD none =
        some z → y ∈ L → ∃ dy dz mw,
        (bfAfterLoopState graph s).distances.get y = some (some dy) ∧
        (bfAfterLoopState graph s).distances.get z = some (some dz) ∧
        minLinkW graph z y = some mw ∧ dy = dz + mw := by
      intro y z hyz hym
      obtain ⟨dy, dz, mw, hdy, hdz, hmw, hle⟩ :=
        hinv.prev_edge y z (getD_none_some _ _ hyz)
      refine ⟨dy, dz, mw, hdy, hdz, hmw, ?_⟩
      have hedge : (⟨z, y, mw⟩ : BFEdge) ∈ bfAllEdges graph :=
        EData_bfAllEdges graph z y mw (minLinkW_EData graph z y mw hmw)
      have hni := hstable _ hedge
      unfold bfImproves at hni
      simp only at hni
      rw [hdz, hdy] at hni
      simp only [jnLt, decide_eq_false_iff_not] at hni
      omega
    have hpathw := chain_pathW graph _ _ s (hinv.dist_s_zero hpos) hL htight d hfin
    have hrecon : reconstructPath (bfAfterLoopState graph s).previous e =
        L.reverse := by
      refine reconstructPath_chain _ s e hinv.prev_s L hL hLnd
        (fun y hy => htru y (hLids y hy)) ?_
      intro y hy
      rcases hL.nodes_prev y hy with h1 | h1
      · rw [h1]
        exact mem_keys_of_get _ s none hinv.prev_s
      · obtain ⟨z, hz⟩ := h1
        exact mem_keys_of_get _ y (some z) hz
    refine ⟨L.reverse, ?_, ?_, ?_, hpathw⟩
    · unfold bfEndPhase
      rw [if_pos hetruthy]
      simp only [Option.getD_some]
      rw [if_neg (by rw [hfin]; simp)]
      rw [hrecon]
    · rw [List.head?_reverse]
      exact hL.last_eq
    · rw [List.getLast?_reverse]
      exact hL.head?_eq
/-! ### Dijkstra: the sorted queue and the weighted adjacency view -/

theorem jnLe_total (a b : JNum) : jnLe a b = true ∨ jnLe b a = true := by
  cases a with
  | none =>
    cases b with
    | none => exact Or.inl rfl
    | some y => exact Or.inr rfl
  | some x =>
    cases b with
    | none => exact Or.inl rfl
    | some y =>
      simp only [jnLe, decide_eq_true_eq]
      omega

theorem insertByKey_perm (key : String → JNum) (x : String) :
    ∀ (l : List String), (insertByKey key x l).Perm (x :: l) := by
  intro l
  induction l with
  | nil => exact List.Perm.refl _
  | cons y ys ih =>
    unfold insertByKey
    by_cases h : jnLe (key y) (key x) = true
    · rw [if_pos h]
      exact (ih.cons y).trans (List.Perm.swap x y ys)
    · rw [if_neg h]

theorem sortByKey_perm (key : String → JNum) (l : List String) :
    (sortByKey key l).Perm l := by
  unfold sortByKey
  suffices h : ∀ (l : List String) (acc : List String),
      (l.foldl (fun acc x => insertByKey key x acc) acc).Perm (acc ++ l) by
    simpa using h l []
  intro l
  induction l with
  | nil => intro acc; simp
  | cons x xs ih =>
    intro acc
    rw [List.foldl_cons]
    refine (ih (insertByKey key x acc)).trans ?_
    refine (List.Perm.append_right xs (insertByKey_perm key x acc)).trans ?_
    exact List.perm_middle.symm

theorem insertByKey_pairwise (key : String → JNum) (x : String) :
    ∀ (l : List String),
    l.Pairwise (fun a b => jnLe (key a) (key b) = true) →
    (insertByKey key x l).Pairwise (fun a b => jnLe (key a) (key b) = true) := by
  intro l
  induction l with
  | nil =>
    intro h
    simp [insertByKey]
  | cons y ys ih =>
    intro h
    rw [List.pairwise_cons] at h
    unfold insertByKey
    by_cases hle : jnLe (key y) (key x) = true
    · rw [if_pos hle]
      rw [List.pairwise_cons]
      refine ⟨?_, ih h.2⟩
      intro a ha
      have hmem := (insertByKey_perm key x ys).mem_iff.mp ha
      rcases List.mem_cons.mp hmem with h1 | h1
      · rw [h1]; exact hle
      · exact h.1 a h1
    · rw [if_neg hle]
      have hxy : jnLe (key x) (key y) = true := by
        rcases jnLe_total (key x) (key y) with h1 | h1
        · exact h1
        · exact absurd h1 hle
      rw [List.pairwise_cons]
      refine ⟨?_, List.pairwise_cons.mpr h⟩
      intro a ha
      rcases List.mem_cons.mp ha with h1 | h1
      · rw [h1]; exact hxy
      · exact jnLe_trans _ _ _ hxy (h.1 a h1)

theorem sortByKey_pairwise (key : String → JNum) (l : List String) :
    (sortByKey key l).Pairwise (fun a b => jnLe (key a) (key b) = true) := by
  unfold sortByKey
  suffices h : ∀ (l : List String) (acc : List String),
      acc.Pairwise (fun a b => jnLe (key a) (key b) = true) →
      (l.foldl (fun acc x => insertByKey key x acc) acc).Pairwise
        (fun a b => jnLe (key a) (key b) = true) by
    exact h l [] (by simp)
  intro l
  induction l with
  | nil => intro acc h; exact h
  | cons x xs ih =>
    intro acc h
    rw [List.foldl_cons]
    exact ih _ (insertByKey_pairwise key x acc h)

theorem sortByKey_head_min (key : String → JNum) (l : List String)
    (u : String) (rest : List String) (h : sortByKey key l = u :: rest) :
    ∀ y ∈ l, jnLe (key u) (key y) = true := by
  intro y hy
  have hperm := sortByKey_perm key l
  have hmem : y ∈ u :: rest := by
    rw [← h]
    exact hperm.mem_iff.mpr hy
  rcases List.mem_cons.mp hmem with h1 | h1
  · rw [h1]; exact jnLe_refl _
  · have hpw := sortByKey_pairwise key l
    rw [h, List.pairwise_cons] at hpw
    exact hpw.1 y h1

/-- Adjacency-entry soundness with weights: every entry is a usable link. -/
def AdjSoundW (graph : GraphData) (m : JSObj (List AdjEntry)) : Prop :=
  ∀ u lst, m.get u = some lst → ∀ en ∈ lst, EData graph u en.node en.weight

theorem pushAdj_soundW (graph : GraphData) (m m' : JSObj (List AdjEntry))
    (key : String) (en : AdjEntry) (h : pushAdj m key en = some m')
    (hs : AdjSoundW graph m) (hl : EData graph key en.node en.weight) :
    AdjSoundW graph m' := by
  unfold pushAdj at h
  rcases hget : m.get key with _ | lst0
  · rw [hget] at h; exact absurd h (by simp)
  · rw [hget] at h
    simp only [Option.some.injEq] at h
    subst h
    intro u lst hu e0 he0
    by_cases hkk : key = u
    · subst hkk
      rw [JSObj.get_set] at hu
      simp only [Option.some.injEq] at hu
      subst hu
      rcases List.mem_append.mp he0 with h0 | h0
      · exact hs _ _ hget _ h0
      · simp only [List.mem_singleton] at h0
        subst h0
        exact hl
    · rw [JSObj.get_set_ne _ _ _ _ hkk] at hu
      exact hs _ _ hu _ he0

theorem getAdjacencyList_soundW (graph : GraphData) (adj : JSObj (List AdjEntry))
    (h : getAdjacencyList graph = some adj) : AdjSoundW graph adj := by
  unfold getAdjacencyList at h
  simp only at h
  suffices hgen : ∀ (ls : List Link), (∀ l ∈ ls, l ∈ graph.links) →
      ∀ m, AdjSoundW graph m → ls.foldlM (adjStep graph) m = some adj →
      AdjSoundW graph adj by
    refine hgen graph.links (fun l hl => hl) _ ?_ h
    intro u lst hu e he
    exfalso
    suffices hempty : ∀ (l : List Node) (m0 : JSObj (List AdjEntry)),
        (∀ u lst, JSObj.get m0 u = some lst → lst = []) →
        ∀ u lst, JSObj.get (l.foldl (fun m n => JSObj.set m n.id []) m0) u = some lst →
          lst = [] by
      have := hempty graph.nodes [] (by intro u lst h0; simp at h0) u lst hu
      subst this
      simp at he
    intro l
    induction l with
    | nil => intro m0 hm0; exact hm0
    | cons n rest ih =>
      intro m0 hm0
      refine ih _ ?_
      intro u lst h0
      by_cases hn : n.id = u
      · subst hn
        rw [JSObj.get_set] at h0
        simpa using h0.symm
      · rw [JSObj.get_set_ne _ _ _ _ hn] at h0
        exact hm0 _ _ h0
  intro ls
  induction ls with
  | nil =>
    intro _ m hm hfold
    simp only [List.foldlM_nil, Option.pure_def, Option.some.injEq] at hfold
    subst hfold
    exact hm
  | cons l rest ih =>
    intro hls m hm hfold
    rw [List.foldlM_cons] at hfold
    rcases hstep : adjStep graph m l with _ | mnext
    · rw [hstep] at hfold; exact absurd hfold (by simp)
    · rw [hstep] at hfold
      simp only [Option.bind_eq_bind, Option.some_bind] at hfold
      obtain ⟨m1, hp1, hcase⟩ := adjStep_cases graph m mnext l hstep
      have hm1 : AdjSoundW graph m1 :=
        pushAdj_soundW graph m m1 _ _ hp1 hm
          ⟨l, hls l (by simp), rfl, Or.inl ⟨rfl, rfl⟩⟩
      have hmnext : AdjSoundW graph mnext := by
        rcases hcase with ⟨-, heq⟩ | ⟨hdir, hp2⟩
        · subst heq; exact hm1
        · exact pushAdj_soundW graph m1 mnext _ _ hp2 hm1
            ⟨l, hls l (by simp), rfl, Or.inr ⟨hdir, rfl, rfl⟩⟩
      exact ih (fun l' hl' => hls l' (by simp [hl'])) mnext hmnext hfold

/-- A weighted entry at `u` towards `x`. -/
def HasEntryW (m : JSObj (List AdjEntry)) (u x : String) (w : Int) : Prop :=
  ∃ lst, m.get u = some lst ∧ ∃ en ∈ lst, en.node = x ∧ en.weight = w

theorem pushAdj_hasEntryW_mono (m m' : JSObj (List AdjEntry)) (key : String)
    (e : AdjEntry) (h : pushAdj m key e = some m') (u x : String) (w : Int)
    (he : HasEntryW m u x w) : HasEntryW m' u x w := by
  rcases he with ⟨lst, hlst, e0, he0, hx, hw⟩
  obtain ⟨t, ht⟩ := pushAdj_entries m m' key e h u lst hlst
  exact ⟨lst ++ t, ht, e0, by simp [he0], hx, hw⟩

theorem pushAdj_hasEntryW_self (m m' : JSObj (List AdjEntry)) (key : String)
    (e : AdjEntry) (h : pushAdj m key e = some m') :
    HasEntryW m' key e.node e.weight := by
  unfold pushAdj at h
  rcases hget : m.get key with _ | lst0
  · rw [hget] at h; exact absurd h (by simp)
  · rw [hget] at h
    simp only [Option.some.injEq] at h
    subst h
    exact ⟨lst0 ++ [e], JSObj.get_set _ _ _, e, by simp, rfl, rfl⟩

theorem adjFold_hasEntryW_mono (graph : GraphData) (adj : JSObj (List AdjEntry))
    (ls : List Link) (m : JSObj (List AdjEntry))
    (hfold : ls.foldlM (adjStep graph) m = some adj) (u x : String) (w : Int)
    (hx : HasEntryW m u x w) : HasEntryW adj u x w := by
  induction ls generalizing m with
  | nil =>
    simp only [List.foldlM_nil, Option.pure_def, Option.some.injEq] at hfold
    subst hfold
    exact hx
  | cons l rest ih =>
    rw [List.foldlM_cons] at hfold
    rcases hstep : adjStep graph m l with _ | mnext
    · rw [hstep] at hfold; exact absurd hfold (by simp)
    · rw [hstep] at hfold
      simp only [Option.bind_eq_bind, Option.some_bind] at hfold
      obtain ⟨m1, hp1, hcase⟩ := adjStep_cases graph m mnext l hstep
      have hx1 := pushAdj_hasEntryW_mono m m1 _ _ hp1 u x w hx
      have hxnext : HasEntryW mnext u x w := by
        rcases hcase with ⟨-, heq⟩ | ⟨-, hp2⟩
        · subst heq; exact hx1
        · exact pushAdj_hasEntryW_mono m1 mnext _ _ hp2 u x w hx1
      exact ih mnext hfold hxnext

theorem getAdjacencyList_completeW (graph : GraphData)
    (adj : JSObj (List AdjEntry)) (h : getAdjacencyList graph = some adj) :
    ∀ l ∈ graph.links, HasEntryW adj l.source l.target l.weight ∧
      (graph.isDirected = false → HasEntryW adj l.target l.source l.weight) := by
  unfold getAdjacencyList at h
  simp only at h
  suffices hgen : ∀ (ls : List Link) (m : JSObj (List AdjEntry)),
      ls.foldlM (adjStep graph) m = some adj →
      ∀ l ∈ ls, HasEntryW adj l.source l.target l.weight ∧
        (graph.isDirected = false → HasEntryW adj l.target l.source l.weight) by
    exact hgen graph.links _ h
  intro ls
  induction ls with
  | nil => intro m _ l hl; simp at hl
  | cons l rest ih =>
    intro m hfold l' hl'
    rw [List.foldlM_cons] at hfold
    rcases hstep : adjStep graph m l with _ | mnext
    · rw [hstep] at hfold; exact absurd hfold (by simp)
    · rw [hstep] at hfold
      simp only [Option.bind_eq_bind, Option.some_bind] at hfold
      obtain ⟨m1, hp1, hcase⟩ := adjStep_cases graph m mnext l hstep
      rcases List.mem_cons.mp hl' with heq | hmem
      · subst heq
        constructor
        · refine adjFold_hasEntryW_mono graph adj rest mnext hfold _ _ _ ?_
          have hself := pushAdj_hasEntryW_self m m1 _ _ hp1
          rcases hcase with ⟨-, heq⟩ | ⟨-, hp2⟩
          · subst heq; exact hself
          · exact pushAdj_hasEntryW_mono m1 mnext _ _ hp2 _ _ _ hself
        · intro hdir
          rcases hcase with ⟨hdir2, -⟩ | ⟨-, hp2⟩
          · rw [hdir] at hdir2; exact absurd hdir2 (by simp)
          · exact adjFold_hasEntryW_mono graph adj rest mnext hfold _ _ _
              (pushAdj_hasEntryW_self m1 mnext _ _ hp2)
      · exact ih mnext hfold l' hmem

/-- The cheapest usable link towards a neighbour appears as an entry. -/
theorem minLinkW_hasEntryW (graph : GraphData) (adj : JSObj (List AdjEntry))
    (h : getAdjacencyList graph = some adj) (u v : String) (mw : Int)
    (hmw : minLinkW graph u v = some mw) : HasEntryW adj u v mw := by
  obtain ⟨l, hl, hw, hor⟩ := minLinkW_EData graph u v mw hmw
  rcases hor with ⟨h1, h2⟩ | ⟨hdir, h1, h2⟩
  · have := (getAdjacencyList_completeW graph adj h l hl).1
    rw [h1, h2, ← hw] at this
    exact this
  · have := (getAdjacencyList_completeW graph adj h l hl).2 hdir
    rw [h1, h2, ← hw] at this
    exact this
/-! ### Dijkstra: one neighbour relaxation and the full neighbour pass -/

theorem dijkstraRelax_changes (graph : GraphData) (u : String)
    (st : DijkstraState) (en : AdjEntry) :
    ((dijkstraRelax graph u st en).distances = st.distances ∧
     (dijkstraRelax graph u st en).previous = st.previous ∧
     (dijkstraRelax graph u st en).queue = st.queue ∧
     (dijkstraRelax graph u st en).visited = st.visited ∧
     (∀ du dv, st.distances.get u = some (some du) →
       st.distances.get en.node = some dv →
       jnLt (some (du + en.weight)) dv = false)) ∨
    (∃ du dv, st.distances.get u = some (some du) ∧
      st.distances.get en.node = some dv ∧
      jnLt (some (du + en.weight)) dv = true ∧
      (dijkstraRelax graph u st en).distances =
        st.distances.set en.node (some (du + en.weight)) ∧
      (dijkstraRelax graph u st en).previous =
        st.previous.set en.node (some u) ∧
      (dijkstraRelax graph u st en).queue = st.queue ∧
      (dijkstraRelax graph u st en).visited = st.visited) := by
  rcases hgu : st.distances.get u with _ | ju
  · left
    have hst : dijkstraRelax graph u st en = st := by
      unfold dijkstraRelax
      dsimp only
      rw [hgu]
      rcases hgv : st.distances.get en.node with _ | dv
      · rfl
      · simp [jnAdd, jnLt]
    rw [hst]
    exact ⟨rfl, rfl, rfl, rfl, fun du dv h1 h2 => by simp at h1⟩
  · cases ju with
    | none =>
      left
      have hst : dijkstraRelax graph u st en = st := by
        unfold dijkstraRelax
        dsimp only
        rw [hgu]
        rcases hgv : st.distances.get en.node with _ | dv
        · rfl
        · simp [jnAdd, jnLt]
      rw [hst]
      refine ⟨rfl, rfl, rfl, rfl, fun du dv h1 h2 => ?_⟩
      simp at h1
    | some du =>
      rcases hgv : st.distances.get en.node with _ | dv
      · left
        have hst : dijkstraRelax graph u st en = st := by
          unfold dijkstraRelax
          dsimp only
          rw [hgu, hgv]
          rfl
        rw [hst]
        refine ⟨rfl, rfl, rfl, rfl, fun du' dv' h1 h2 => ?_⟩
        simp at h2
      · rcases hlt : jnLt (some (du + en.weight)) dv with _ | _
        · left
          have hst : dijkstraRelax graph u st en = st := by
            unfold dijkstraRelax
            dsimp only
            rw [hgu, hgv]
            simp only [Option.getD_some, jnAdd, Option.map]
            rw [hlt]
            rfl
          rw [hst]
          refine ⟨rfl, rfl, rfl, rfl, fun du' dv' h1 h2 => ?_⟩
          simp only [Option.some.injEq] at h1 h2
          rw [← h1, ← h2]
          exact hlt
        · right
          refine ⟨du, dv, rfl, rfl, hlt, ?_, ?_, ?_, ?_⟩ <;>
          · unfold dijkstraRelax
            dsimp only
            rw [hgu, hgv]
            simp only [Option.getD_some, jnAdd, Option.map]
            rw [hlt]
            rfl

theorem dijkstraRelax_DLe (graph : GraphData) (u : String) (st : DijkstraState)
    (en : AdjEntry) : DLe st.distances (dijkstraRelax graph u st en).distances := by
  rcases dijkstraRelax_changes graph u st en with ⟨hd, -, -, -, -⟩ |
    ⟨du, dv, hu, hv, hlt, hd, -, -, -⟩
  · rw [hd]
    exact DLe_refl _
  · rw [hd]
    intro x
    by_cases hxv : x = en.node
    · subst hxv
      constructor
      · intro h
        rw [h] at hv
        exact absurd hv (by simp)
      · intro j hj
        rw [hj] at hv
        simp only [Option.some.injEq] at hv
        refine ⟨some (du + en.weight), JSObj.get_set _ _ _, ?_⟩
        rw [hv]
        exact jnLt_le _ _ hlt
    · rw [JSObj.get_set_ne _ _ _ _ (fun h => hxv h.symm)]
      exact ⟨fun h => h, fun j hj => ⟨j, hj, jnLe_refl j⟩⟩

theorem dijkstraFold_spec (graph : GraphData) (hwf : WellFormed graph)
    (hpos : ∀ l ∈ graph.links, 0 ≤ l.weight) (s u : String) (du : Int)
    (hdelta : sssp graph s u = some du) :
    ∀ (ens : List AdjEntry) (st : DijkstraState),
    (∀ en ∈ ens, EData graph u en.node en.weight) →
    DPInv graph s st.distances st.previous →
    st.distances.get u = some (some du) →
    u ∈ st.visited →
    (∀ x ∈ st.visited, ∃ dx, st.distances.get x = some (some dx) ∧
      sssp graph s x = some dx) →
    (∀ v z, st.previous.get v = some (some z) → z ∈ st.visited) →
    DPInv graph s (ens.foldl (dijkstraRelax graph u) st).distances
      (ens.foldl (dijkstraRelax graph u) st).previous ∧
    (ens.foldl (dijkstraRelax graph u) st).queue = st.queue ∧
    (ens.foldl (dijkstraRelax graph u) st).visited = st.visited ∧
    DLe st.distances (ens.foldl (dijkstraRelax graph u) st).distances ∧
    (∀ x ∈ st.visited,
      (ens.foldl (dijkstraRelax graph u) st).distances.get x =
        st.distances.get x) ∧
    (∀ v z, (ens.foldl (dijkstraRelax graph u) st).previous.get v =
      some (some z) → z ∈ st.visited) ∧
    (∀ en ∈ ens, ∃ jv,
      (ens.foldl (dijkstraRelax graph u) st).distances.get en.node = some jv ∧
      jnLe jv (some (du + en.weight)) = true) := by
  intro ens
  induction ens with
  | nil =>
    intro st hens hinv hu huvis hvd hpv
    exact ⟨hinv, rfl, rfl, DLe_refl _, fun x hx => rfl, hpv, by simp⟩
  | cons en rest ih =>
    intro st hens hinv hu huvis hvd hpv
    have hE : EData graph u en.node en.weight := hens en (by simp)
    have hw0 : 0 ≤ en.weight := EData_nonneg graph hpos _ _ _ hE
    rw [List.foldl_cons]
    rcases dijkstraRelax_changes graph u st en with
      ⟨hd, hp, hq, hv, hnlt⟩ | ⟨du', dv, hu', hv', hlt, hd, hp, hq, hv⟩
    · -- the entry did not improve: state unchanged up to logs
      have hinv1 : DPInv graph s (dijkstraRelax graph u st en).distances
          (dijkstraRelax graph u st en).previous := by
        rw [hd, hp]; exact hinv
      have hrec := ih (dijkstraRelax graph u st en)
        (fun e' he' => hens e' (by simp [he']))
        hinv1 (by rw [hd]; exact hu) (by rw [hv]; exact huvis)
        (by rw [hv, hd]; exact hvd) (by rw [hv, hp]; exact hpv)
      refine ⟨hrec.1, by rw [hrec.2.1, hq], by rw [hrec.2.2.1, hv],
        by rw [hd] at hrec; exact hrec.2.2.2.1, ?_, ?_, ?_⟩
      · intro x hx
        rw [hrec.2.2.2.2.1 x (by rw [hv]; exact hx), hd]
      · intro v z hvz
        rw [hv] at hrec
        exact hrec.2.2.2.2.2.1 v z hvz
      · intro e' he'
        rcases List.mem_cons.mp he' with h1 | h1
        · -- the bound for `en` itself: it was already at most du + weight
          rw [h1]
          obtain ⟨jb, hjb⟩ := hinv.dist_keys en.node
            (EData_mem_ids graph hwf u en.node en.weight hE).2
          cases jb with
          | none =>
            have := hnlt du none hu hjb
            simp [jnLt] at this
          | some dvb =>
            have hnb := hnlt du (some dvb) hu hjb
            simp only [jnLt, decide_eq_false_iff_not] at hnb
            obtain ⟨j', hj', hjle⟩ :=
              ((by rw [hd] at hrec; exact hrec.2.2.2.1 : DLe st.distances _)
                en.node).2 _ hjb
            refine ⟨j', hj', ?_⟩
            refine jnLe_trans _ _ _ hjle ?_
            simp only [jnLe, decide_eq_true_eq]
            omega
        · exact hrec.2.2.2.2.2.2 e' h1
    · -- the entry improved: apply the shared relaxation preservation
      have hdue : du = du' := by
        rw [hu] at hu'
        simp only [Option.some.injEq] at hu'
        exact hu'
      rw [← hdue] at hlt hd
      have hennode_ne_u : en.node ≠ u := by
        intro hco
        rw [hco, hu] at hv'
        simp only [Option.some.injEq] at hv'
        rw [← hv'] at hlt
        simp only [jnLt, decide_eq_true_eq] at hlt
        omega
      have hennode_novis : en.node ∉ st.visited := by
        intro hco
        obtain ⟨dx, hdx, hdx2⟩ := hvd en.node hco
        rw [hv'] at hdx
        simp only [Option.some.injEq] at hdx
        have hnewinv := DPInv_relax graph hwf hpos s st.distances st.previous
          hinv u en.node en.weight hE du hu dv hv' hlt
        obtain ⟨d2, hd2, hd2le⟩ := hnewinv.dist_ge hpos en.node (du + en.weight)
          (by rw [JSObj.get_set])
        rw [hdx2] at hd2
        simp only [Option.some.injEq] at hd2
        rw [hdx] at hlt
        simp only [jnLt, decide_eq_true_eq] at hlt
        omega
      have hinv1 : DPInv graph s (dijkstraRelax graph u st en).distances
          (dijkstraRelax graph u st en).previous := by
        rw [hd, hp]
        exact DPInv_relax graph hwf hpos s st.distances st.previous hinv
          u en.node en.weight hE du hu dv hv' hlt
      have hu1 : (dijkstraRelax graph u st en).distances.get u =
          some (some du) := by
        rw [hd, JSObj.get_set_ne _ _ _ _ hennode_ne_u]
        exact hu
      have hvd1 : ∀ x ∈ (dijkstraRelax graph u st en).visited, ∃ dx,
          (dijkstraRelax graph u st en).distances.get x = some (some dx) ∧
          sssp graph s x = some dx := by
        rw [hv, hd]
        intro x hx
        obtain ⟨dx, hdx, hdx2⟩ := hvd x hx
        refine ⟨dx, ?_, hdx2⟩
        rw [JSObj.get_set_ne _ _ _ _ (fun h => hennode_novis (by rw [h]; exact hx))]
        exact hdx
      have hpv1 : ∀ v z, (dijkstraRelax graph u st en).previous.get v =
          some (some z) → z ∈ (dijkstraRelax graph u st en).visited := by
        rw [hv, hp]
        intro v z hvz
        by_cases hven : v = en.node
        · rw [hven, JSObj.get_set] at hvz
          simp only [Option.some.injEq] at hvz
          rw [← hvz]
          exact huvis
        · rw [JSObj.get_set_ne _ _ _ _ (fun h => hven h.symm)] at hvz
          exact hpv v z hvz
      have hrec := ih (dijkstraRelax graph u st en)
        (fun e' he' => hens e' (by simp [he']))
        hinv1 hu1 (by rw [hv]; exact huvis) hvd1 hpv1
      refine ⟨hrec.1, by rw [hrec.2.1, hq], by rw [hrec.2.2.1, hv],
        DLe_trans (dijkstraRelax_DLe graph u st en) hrec.2.2.2.1, ?_, ?_, ?_⟩
      · intro x hx
        rw [hrec.2.2.2.2.1 x (by rw [hv]; exact hx), hd,
          JSObj.get_set_ne _ _ _ _ (fun h => hennode_novis (by rw [h]; exact hx))]
      · intro v z hvz
        rw [hv] at hrec
        exact hrec.2.2.2.2.2.1 v z hvz
      · intro e' he'
        rcases List.mem_cons.mp he' with h1 | h1
        · rw [h1]
          obtain ⟨j', hj', hjle⟩ := (hrec.2.2.2.1 en.node).2 (some (du + en.weight))
            (by rw [hd, JSObj.get_set])
          exact ⟨j', hj', hjle⟩
        · exact hrec.2.2.2.2.2.2 e' h1
/-! ### Dijkstra: the frontier-crossing argument and the greedy pop -/

theorem dijkstra_crossing (graph : GraphData) (hwf : WellFormed graph)
    (hpos : ∀ l ∈ graph.links, 0 ≤ l.weight) (s : String)
    (adj : JSObj (List AdjEntry)) (hadj : getAdjacencyList graph = some adj)
    (dist : JSObj JNum) (visited : List String)
    (hvd : ∀ x ∈ visited, ∃ dx, dist.get x = some (some dx) ∧
      sssp graph s x = some dx)
    (hvr : ∀ x ∈ visited, ∀ dx, sssp graph s x = some dx →
      ∀ en ∈ (adj.get x).getD [], ∃ jv, dist.get en.node = some jv ∧
        jnLe jv (some (dx + en.weight)) = true) :
    ∀ (rest : List String) (x : String) (dx wr : Int),
    x ∈ visited → sssp graph s x = some dx →
    pathW graph (x :: rest) = some wr →
    (∃ z, (x :: rest).getLast? = some z ∧ z ∉ visited) →
    ∃ y, y ∉ visited ∧ ∃ wy, dist.get y = some (some wy) ∧ wy ≤ dx + wr := by
  intro rest
  induction rest with
  | nil =>
    intro x dx wr hxv hdx hw hz
    obtain ⟨z, hzl, hznv⟩ := hz
    simp only [List.getLast?_cons, List.getLast?_nil, Option.getD_none,
      Option.some.injEq] at hzl
    rw [← hzl] at hznv
    exact absurd hxv hznv
  | cons y rest' ih =>
    intro x dx wr hxv hdx hw hz
    rw [pathW_cons_cons] at hw
    rcases hmw : minLinkW graph x y with _ | mw
    · rw [hmw] at hw; simp at hw
    rcases hwr : pathW graph (y :: rest') with _ | wr'
    · rw [hmw, hwr] at hw; simp at hw
    rw [hmw, hwr] at hw
    simp only [Option.some.injEq] at hw
    have hwr0 : 0 ≤ wr' := pathW_nonneg graph hpos _ _ hwr
    have hmw0 : 0 ≤ mw := minLinkW_nonneg graph hpos x y mw hmw
    obtain ⟨lst, hlst, en, hen, hennode, henw⟩ :=
      minLinkW_hasEntryW graph adj hadj x y mw hmw
    have henmem : en ∈ (adj.get x).getD [] := by
      rw [hlst]
      exact hen
    obtain ⟨jy, hjy, hjyle⟩ := hvr x hxv dx hdx en henmem
    rw [hennode] at hjy
    rw [henw] at hjyle
    by_cases hyv : y ∈ visited
    · obtain ⟨dy, hdy, hdy2⟩ := hvd y hyv
      rw [hdy] at hjy
      simp only [Option.some.injEq] at hjy
      rw [← hjy] at hjyle
      simp only [jnLe, decide_eq_true_eq] at hjyle
      have hz' : ∃ z, (y :: rest').getLast? = some z ∧ z ∉ visited := by
        obtain ⟨z, hzl, hznv⟩ := hz
        refine ⟨z, ?_, hznv⟩
        rw [List.getLast?_cons] at hzl
        rcases hg : (y :: rest').getLast? with _ | z0
        · simp at hg
        · rw [hg] at hzl
          simpa using hzl
      obtain ⟨y', hy'nv, wy', hwy', hwy'le⟩ := ih y dy wr' hyv hdy2 hwr hz'
      exact ⟨y', hy'nv, wy', hwy', by omega⟩
    · cases jy with
      | none => simp [jnLe] at hjyle
      | some wy =>
        simp only [jnLe, decide_eq_true_eq] at hjyle
        exact ⟨y, hyv, wy, hjy, by omega⟩

theorem dijkstra_pop_delta (graph : GraphData) (hwf : WellFormed graph)
    (hpos : ∀ l ∈ graph.links, 0 ≤ l.weight) (s : String)
    (hs : s ∈ graph.nodes.map Node.id)
    (adj : JSObj (List AdjEntry)) (hadj : getAdjacencyList graph = some adj)
    (st : DijkstraState)
    (hinv : DPInv graph s st.distances st.previous)
    (hvd : ∀ x ∈ st.visited, ∃ dx, st.distances.get x = some (some dx) ∧
      sssp graph s x = some dx)
    (hvr : ∀ x ∈ st.visited, ∀ dx, sssp graph s x = some dx →
      ∀ en ∈ (adj.get x).getD [], ∃ jv, st.distances.get en.node = some jv ∧
        jnLe jv (some (dx + en.weight)) = true)
    (hqv : ∀ x ∈ graph.nodes.map Node.id, x ∈ st.queue ∨ x ∈ st.visited)
    (hqids : ∀ x ∈ st.queue, x ∈ graph.nodes.map Node.id)
    (hdisj : ∀ x ∈ st.visited, x ∉ st.queue)
    (hfirst : st.visited = [] → ∀ x ∈ graph.nodes.map Node.id, x ≠ s →
      st.distances.get x = some none)
    (hsvis : st.visited = [] ∨ s ∈ st.visited)
    (u : String) (rest : List String)
    (hsort : sortByKey (fun a => (st.distances.get a).getD none) st.queue =
      u :: rest)
    (du : Int) (hufin : st.distances.get u = some (some du)) :
    sssp graph s u = some du := by
  have huq : u ∈ st.queue := by
    refine (sortByKey_perm (fun a => (st.distances.get a).getD none)
      st.queue).mem_iff.mp ?_
    rw [hsort]
    simp
  have huids : u ∈ graph.nodes.map Node.id := hqids u huq
  obtain ⟨d, hd, hdle⟩ := hinv.dist_ge hpos u du hufin
  rcases hvize : st.visited with _ | ⟨v0, vrest⟩
  · -- nothing visited yet: the popped node must be the start
    have hus : u = s := by
      by_contra hne
      have := hfirst hvize u huids hne
      rw [hufin] at this
      simp at this
    rw [hus]
    have hself := sssp_self graph hpos s hs
    rw [hus] at hufin
    have h0 : 0 ≤ du := hinv.fin_nonneg hpos s du hufin
    obtain ⟨w0, hw0, hle0⟩ := hinv.dist_s
    rw [hufin] at hw0
    simp only [Option.some.injEq] at hw0
    have : du = 0 := by omega
    rw [this]
    exact hself
  · have hsv : s ∈ st.visited := by
      rcases hsvis with h | h
      · rw [h] at hvize; simp at hvize
      · exact h
    have hunv : u ∉ st.visited := by
      intro hco
      exact (hdisj u hco) huq
    -- upper bound via the crossing argument
    have hule : du ≤ d := by
      by_contra hgt
      push_neg at hgt
      obtain ⟨p, hh, hl, hnd, hsub, hw⟩ := sssp_mem graph s u d hd
      cases p with
      | nil => simp at hh
      | cons p0 prest =>
        simp only [List.head?_cons, Option.some.injEq] at hh
        have hs0 : sssp graph s p0 = some 0 := by
          rw [hh]
          exact sssp_self graph hpos s hs
        obtain ⟨y, hynv, wy, hwy, hwyle⟩ := dijkstra_crossing graph hwf hpos s
          adj hadj st.distances st.visited hvd hvr prest p0 0 d
          (by rw [hh]; exact hsv) hs0 hw ⟨u, hl, hunv⟩
        have hyids : y ∈ graph.nodes.map Node.id :=
          hinv.dist_ids y _ hwy
        have hyq : y ∈ st.queue := by
          rcases hqv y hyids with h | h
          · exact h
          · exact absurd h hynv
        have hmin := sortByKey_head_min (fun a => (st.distances.get a).getD none)
          st.queue u rest hsort y hyq
        simp only [hufin, hwy, Option.getD_some, jnLe, decide_eq_true_eq] at hmin
        omega
    have : d = du := by omega
    rw [← this]
    exact hd
/-! ### Dijkstra: the loop invariant and the loop postcondition -/

/-- Invariant of `runDijkstra`'s main loop, relative to the adjacency map. -/
structure DijInv (graph : GraphData) (s : String) (adj : JSObj (List AdjEntry))
    (st : DijkstraState) : Prop where
  core : DPInv graph s st.distances st.previous
  qv : ∀ x ∈ graph.nodes.map Node.id, x ∈ st.queue ∨ x ∈ st.visited
  qids : ∀ x ∈ st.queue, x ∈ graph.nodes.map Node.id
  qnodup : st.queue.Nodup
  qvdisj : ∀ x ∈ st.visited, x ∉ st.queue
  svis : st.visited = [] ∨ s ∈ st.visited
  first : st.visited = [] → ∀ x ∈ graph.nodes.map Node.id, x ≠ s →
    st.distances.get x = some none
  vdelta : ∀ x ∈ st.visited, ∃ dx, st.distances.get x = some (some dx) ∧
    sssp graph s x = some dx
  vrelaxed : ∀ x ∈ st.visited, ∀ dx, sssp graph s x = some dx →
    ∀ en ∈ (adj.get x).getD [], ∃ jv, st.distances.get en.node = some jv ∧
      jnLe jv (some (dx + en.weight)) = true
  pvis : ∀ v z, st.previous.get v = some (some z) → z ∈ st.visited

/-- What holds of the state `runDijkstra`'s loop returns: the shared
invariant, correct distances on visited nodes, fully processed predecessor
witnesses, and either the end node was reached or every unvisited node is
unreachable. -/
def DijQ (graph : GraphData) (s e : String) (adj : JSObj (List AdjEntry))
    (st : DijkstraState) : Prop :=
  DPInv graph s st.distances st.previous ∧
  (∀ x ∈ st.visited, ∃ dx, st.distances.get x = some (some dx) ∧
    sssp graph s x = some dx) ∧
  (∀ v z, st.previous.get v = some (some z) → ∃ dz,
    st.distances.get z = some (some dz) ∧ sssp graph s z = some dz ∧
    ∀ en ∈ (adj.get z).getD [], ∃ jv, st.distances.get en.node = some jv ∧
      jnLe jv (some (dz + en.weight)) = true) ∧
  (e ∈ st.visited ∨
    ((∀ y ∈ graph.nodes.map Node.id, y ∉ st.visited →
      st.distances.get y = some none) ∧
     (∀ x ∈ st.visited, ∀ dx, sssp graph s x = some dx →
       ∀ en ∈ (adj.get x).getD [], ∃ jv, st.distances.get en.node = some jv ∧
         jnLe jv (some (dx + en.weight)) = true)))

theorem DijQ_build (graph : GraphData) (s e : String)
    (adj : JSObj (List AdjEntry)) (st : DijkstraState)
    (hcore : DPInv graph s st.distances st.previous)
    (hvd : ∀ x ∈ st.visited, ∃ dx, st.distances.get x = some (some dx) ∧
      sssp graph s x = some dx)
    (hvr : ∀ x ∈ st.visited, ∀ dx, sssp graph s x = some dx →
      ∀ en ∈ (adj.get x).getD [], ∃ jv, st.distances.get en.node = some jv ∧
        jnLe jv (some (dx + en.weight)) = true)
    (hpv : ∀ v z, st.previous.get v = some (some z) → z ∈ st.visited)
    (hcase : e ∈ st.visited ∨ ∀ y ∈ graph.nodes.map Node.id,
      y ∉ st.visited → st.distances.get y = some none) :
    DijQ graph s e adj st := by
  refine ⟨hcore, hvd, ?_, ?_⟩
  · intro v z hvz
    have hz := hpv v z hvz
    obtain ⟨dz, h1, h2⟩ := hvd z hz
    exact ⟨dz, h1, h2, hvr z hz dz h2⟩
  · rcases hcase with h | h
    · exact Or.inl h
    · exact Or.inr ⟨h, hvr⟩

theorem dijkstraLoop_Q (graph : GraphData) (hwf : WellFormed graph)
    (hpos : ∀ l ∈ graph.links, 0 ≤ l.weight) (s e : String)
    (hs : s ∈ graph.nodes.map Node.id) (he : e ∈ graph.nodes.map Node.id)
    (adj : JSObj (List AdjEntry)) (hadj : getAdjacencyList graph = some adj) :
    ∀ (fuel : Nat) (st st' : DijkstraState),
    dijkstraLoop graph s (some e) fuel st = some st' →
    DijInv graph s adj st →
    DijQ graph s e adj st' := by
  intro fuel
  induction fuel with
  | zero =>
    intro st st' hrun hinv
    unfold dijkstraLoop at hrun
    split at hrun
    next hq =>
      simp only [Option.some.injEq] at hrun
      subst hrun
      refine DijQ_build graph s e adj st hinv.core hinv.vdelta hinv.vrelaxed
        hinv.pvis (Or.inl ?_)
      rcases hinv.qv e he with h | h
      · rw [List.isEmpty_iff] at hq
        rw [hq] at h
        simp at h
      · exact h
    next hq => exact absurd hrun (by simp)
  | succ f ih =>
    intro st st' hrun hinv
    unfold dijkstraLoop at hrun
    split at hrun
    next hq =>
      simp only [Option.some.injEq] at hrun
      subst hrun
      refine DijQ_build graph s e adj st hinv.core hinv.vdelta hinv.vrelaxed
        hinv.pvis (Or.inl ?_)
      rcases hinv.qv e he with h | h
      · rw [List.isEmpty_iff] at hq
        rw [hq] at h
        simp at h
      · exact h
    next hq =>
      rcases hsortE : sortByKey (fun a => (st.distances.get a).getD none)
        st.queue with _ | ⟨u, rest⟩
      · exfalso
        have hqperm := sortByKey_perm (fun a => (st.distances.get a).getD none)
          st.queue
        rw [hsortE] at hqperm
        have hnil : st.queue = [] := by
          have hlen := hqperm.length_eq
          simp only [List.length_nil] at hlen
          exact List.length_eq_zero.mp hlen.symm
        rw [hnil] at hq
        simp at hq
      · rw [hsortE] at hrun
        dsimp only at hrun
        have hqperm := sortByKey_perm (fun a => (st.distances.get a).getD none)
          st.queue
        rw [hsortE] at hqperm
        have huq : u ∈ st.queue := hqperm.mem_iff.mp (by simp)
        have huids : u ∈ graph.nodes.map Node.id := hinv.qids u huq
        have hurnodup : (u :: rest).Nodup := hqperm.nodup_iff.mpr hinv.qnodup
        split at hrun
        next hgu =>
          -- the popped node is at infinite distance: the loop returns, and
          -- by head-minimality every unvisited node is at infinity
          simp only [Option.some.injEq] at hrun
          subst hrun
          refine DijQ_build graph s e adj _ (by exact hinv.core)
            (by exact hinv.vdelta) (by exact hinv.vrelaxed)
            (by exact hinv.pvis) (Or.inr ?_)
          intro y hy hyv
          have hyv' : y ∉ st.visited := hyv
          have hyq : y ∈ st.queue := by
            rcases hinv.qv y hy with h | h
            · exact h
            · exact absurd h hyv'
          have hmin := sortByKey_head_min
            (fun a => (st.distances.get a).getD none) st.queue u rest hsortE
            y hyq
          obtain ⟨jy, hjy⟩ := hinv.core.dist_keys y hy
          simp only [hgu, hjy, Option.getD_some] at hmin
          cases jy with
          | none => exact hjy
          | some wy => simp [jnLe] at hmin
        next hgu =>
          obtain ⟨du, hufin⟩ : ∃ du, st.distances.get u = some (some du) := by
            obtain ⟨ju, hju⟩ := hinv.core.dist_keys u huids
            cases ju with
            | none => exact absurd hju hgu
            | some du => exact ⟨du, hju⟩
          have hdelta := dijkstra_pop_delta graph hwf hpos s hs adj hadj st
            hinv.core hinv.vdelta hinv.vrelaxed hinv.qv hinv.qids hinv.qvdisj
            hinv.first hinv.svis u rest hsortE du hufin
          split at hrun
          next hbe =>
            -- reached the end node: it joins `visited` and the loop stops
            simp only [Option.some.injEq] at hrun
            subst hrun
            have hue : u = e := by
              simp only [Bool.and_eq_true, beq_iff_eq, Option.getD_some] at hbe
              exact hbe.2
            refine ⟨by exact hinv.core, ?_, ?_, Or.inl ?_⟩
            · intro x hx
              have hx' : x ∈ st.visited ++ [u] := hx
              rcases List.mem_append.mp hx' with h1 | h1
              · obtain ⟨dx, h2, h3⟩ := hinv.vdelta x h1
                exact ⟨dx, h2, h3⟩
              · simp only [List.mem_singleton] at h1
                subst h1
                exact ⟨du, hufin, hdelta⟩
            · intro v z hvz
              have hvz' : st.previous.get v = some (some z) := hvz
              have hz := hinv.pvis v z hvz'
              obtain ⟨dz, h2, h3⟩ := hinv.vdelta z hz
              exact ⟨dz, h2, h3, hinv.vrelaxed z hz dz h3⟩
            · show e ∈ st.visited ++ [u]
              rw [← hue]
              simp
          next hbe =>
            rw [hadj] at hrun
            dsimp only at hrun
            obtain ⟨R2, hrun2, hR2d, hR2p, hR2q, hR2v⟩ :
                ∃ R2 : DijkstraState,
                  dijkstraLoop graph s (some e) f
                    (List.foldl (dijkstraRelax graph u) R2
                      ((adj.get u).getD [])) = some st' ∧
                  R2.distances = st.distances ∧ R2.previous = st.previous ∧
                  R2.queue = rest ∧ R2.visited = st.visited ++ [u] :=
              ⟨_, hrun, rfl, rfl, rfl, rfl⟩
            have hsound := getAdjacencyList_soundW graph adj hadj
            have hens : ∀ en ∈ (adj.get u).getD [],
                EData graph u en.node en.weight := by
              intro en hen
              rcases hgadj : adj.get u with _ | lst
              · rw [hgadj] at hen
                simp at hen
              · rw [hgadj] at hen
                simp only [Option.getD_some] at hen
                exact hsound u lst hgadj en hen
            have hfold := dijkstraFold_spec graph hwf hpos s u du hdelta
              ((adj.get u).getD []) R2 hens
              (by rw [hR2d, hR2p]; exact hinv.core)
              (by rw [hR2d]; exact hufin)
              (by rw [hR2v]; simp)
              (by
                rw [hR2v, hR2d]
                intro x hx
                rcases List.mem_append.mp hx with h1 | h1
                · exact hinv.vdelta x h1
                · simp only [List.mem_singleton] at h1
                  subst h1
                  exact ⟨du, hufin, hdelta⟩)
              (by
                rw [hR2p, hR2v]
                intro v z hvz
                exact List.mem_append.mpr (Or.inl (hinv.pvis v z hvz)))
            obtain ⟨h1, h2, h3, h4, h5, h6, h7⟩ := hfold
            rw [hR2q] at h2
            rw [hR2v] at h3
            rw [hR2d] at h4
            rw [hR2v, hR2d] at h5
            rw [hR2v] at h6
            refine ih _ st' hrun2 ⟨h1, ?_, ?_, ?_, ?_, ?_, ?_, ?_, ?_, ?_⟩
            · -- qv
              intro x hx
              rcases hinv.qv x hx with h | h
              · have hx' : x ∈ u :: rest := hqperm.mem_iff.mpr h
                rcases List.mem_cons.mp hx' with h1' | h1'
                · right
                  rw [h3]
                  subst h1'
                  simp
                · left
                  rw [h2]
                  exact h1'
              · right
                rw [h3]
                exact List.mem_append.mpr (Or.inl h)
            · -- qids
              intro x hx
              rw [h2] at hx
              exact hinv.qids x
                (hqperm.mem_iff.mp (List.mem_cons.mpr (Or.inr hx)))
            · -- qnodup
              rw [h2]
              exact (List.nodup_cons.mp hurnodup).2
            · -- qvdisj
              intro x hx
              rw [h3] at hx
              rw [h2]
              rcases List.mem_append.mp hx with h1' | h1'
              · intro hco
                exact hinv.qvdisj x h1'
                  (hqperm.mem_iff.mp (List.mem_cons.mpr (Or.inr hco)))
              · simp only [List.mem_singleton] at h1'
                subst h1'
                exact (List.nodup_cons.mp hurnodup).1
            · -- svis
              right
              rw [h3]
              rcases hinv.svis with h | h
              · have hus : u = s := by
                  by_contra hne
                  have := hinv.first h u huids hne
                  rw [hufin] at this
                  simp at this
                rw [← hus]
                simp
              · exact List.mem_append.mpr (Or.inl h)
            · -- first
              intro hemp
              rw [h3] at hemp
              simp at hemp
            · -- vdelta
              intro x hx
              rw [h3] at hx
              rcases List.mem_append.mp hx with hx1 | hx1
              · obtain ⟨dx, hdx1, hdx2⟩ := hinv.vdelta x hx1
                refine ⟨dx, ?_, hdx2⟩
                rw [h5 x (List.mem_append.mpr (Or.inl hx1))]
                exact hdx1
              · simp only [List.mem_singleton] at hx1
                subst hx1
                refine ⟨du, ?_, hdelta⟩
                rw [h5 x (by simp)]
                exact hufin
            · -- vrelaxed
              intro x hx dx hdx en hen
              rw [h3] at hx
              rcases List.mem_append.mp hx with hx1 | hx1
              · obtain ⟨jv, hjv, hle⟩ := hinv.vrelaxed x hx1 dx hdx en hen
                obtain ⟨jv', hjv', hle'⟩ := (h4 en.node).2 jv hjv
                exact ⟨jv', hjv', jnLe_trans _ _ _ hle' hle⟩
              · simp only [List.mem_singleton] at hx1
                subst hx1
                rw [hdelta] at hdx
                simp only [Option.some.injEq] at hdx
                subst hdx
                exact h7 en hen
            · -- pvis
              intro v z hvz
              rw [h3]
              exact h6 v z hvz

/-- The three parallel initial folds of `runDijkstra`, componentwise. -/
theorem dij_init_eq (graph : GraphData) :
    graph.nodes.foldl
      (fun (acc : JSObj JNum × JSObj (Option String) × List String) n =>
        (acc.1.set n.id none, acc.2.1.set n.id none, acc.2.2 ++ [n.id]))
      ([], [], []) =
    (graph.nodes.foldl (fun m n => JSObj.set m n.id none) [],
     graph.nodes.foldl (fun m n => JSObj.set m n.id none) [],
     graph.nodes.map Node.id) := by
  suffices h : ∀ (l : List Node) (a : JSObj JNum) (b : JSObj (Option String))
      (q : List String),
      l.foldl (fun acc n => (acc.1.set n.id none, acc.2.1.set n.id none,
        acc.2.2 ++ [n.id])) (a, b, q) =
      (l.foldl (fun m n => JSObj.set m n.id none) a,
       l.foldl (fun m n => JSObj.set m n.id none) b,
       q ++ l.map Node.id) by
    rw [h]
    simp
  intro l
  induction l with
  | nil => intro a b q; simp
  | cons n rest ih =>
    intro a b q
    rw [List.foldl_cons, List.foldl_cons, List.foldl_cons, ih]
    simp

/-- The loop invariant holds of `runDijkstra`'s initial state. -/
theorem dijInit_inv (graph : GraphData) (s : String)
    (hs : s ∈ graph.nodes.map Node.id)
    (hnodup : (graph.nodes.map Node.id).Nodup)
    (adj : JSObj (List AdjEntry)) (st : DijkstraState)
    (hd : st.distances = (graph.nodes.foldl
      (fun m n => JSObj.set m n.id (none : JNum)) []).set s (some 0))
    (hp : st.previous = graph.nodes.foldl
      (fun m n => JSObj.set m n.id (none : Option String)) [])
    (hq : st.queue = graph.nodes.map Node.id)
    (hv : st.visited = []) :
    DijInv graph s adj st := by
  refine ⟨?_, ?_, ?_, ?_, ?_, ?_, ?_, ?_, ?_, ?_⟩
  · rw [hd, hp]
    exact bfInit_inv graph s hs
  · intro x hx
    left
    rw [hq]
    exact hx
  · intro x hx
    rw [hq] at hx
    exact hx
  · rw [hq]
    exact hnodup
  · intro x hx
    rw [hv] at hx
    simp at hx
  · left
    exact hv
  · intro _ x hx hxs
    rw [hd, JSObj.get_set_ne _ _ _ _ (fun h => hxs h.symm), get_foldl_setconst]
    rw [if_pos hx]
  · intro x hx
    rw [hv] at hx
    simp at hx
  · intro x hx
    rw [hv] at hx
    simp at hx
  · intro v z hvz
    rw [hp, get_foldl_setconst] at hvz
    split at hvz
    · simp at hvz
    · simp at hvz

/-- The endgame of `runDijkstra` with an existing, truthy end id: the
unreachable report exactly when `sssp` is infinite, otherwise a
start-to-end path of exactly the optimal weight. -/
theorem runDijkstra_path_spec (graph : GraphData) (hwf : WellFormed graph)
    (hpos : ∀ l ∈ graph.links, 0 ≤ l.weight)
    (hnodup : (graph.nodes.map Node.id).Nodup) (s e : String)
    (hs : s ∈ graph.nodes.map Node.id) (he : e ∈ graph.nodes.map Node.id)
    (htru : ∀ x ∈ graph.nodes.map Node.id, truthy x = true) :
    ∃ res, runDijkstra graph s (some e) = some res ∧
    (sssp graph s e = none → res.path = none) ∧
    (∀ d, sssp graph s e = some d →
      ∃ p, res.path = some p ∧ p.head? = some s ∧ p.getLast? = some e ∧
        pathW graph p = some d) := by
  obtain ⟨adj, hadj, -⟩ := getAdjacencyList_wf graph hwf
  have hany : (graph.links.any (fun l => l.weight < 0)) = false := by
    rw [List.any_eq_false]
    intro l hl
    simp only [decide_eq_true_eq, not_lt]
    exact hpos l hl
  unfold runDijkstra
  simp only [hany, Bool.false_eq_true, if_false]
  split
  next heq =>
    exfalso
    obtain ⟨st0, heq0, hq0⟩ : ∃ st0 : DijkstraState,
        dijkstraLoop graph s (some e) (graph.nodes.length + 1) st0 = none ∧
        st0.queue = (graph.nodes.foldl
          (fun (acc : JSObj JNum × JSObj (Option String) × List String) n =>
            (acc.1.set n.id none, acc.2.1.set n.id none, acc.2.2 ++ [n.id]))
          ([], [], [])).2.2 :=
      ⟨_, heq, rfl⟩
    have h2 := dijkstraLoop_isSome graph s (some e) adj hadj
      (graph.nodes.length + 1) st0 (by rw [hq0, dij_init_eq]; simp)
    rw [heq0] at h2
    simp at h2
  next st heq =>
    have hQ := dijkstraLoop_Q graph hwf hpos s e hs he adj hadj _ _ st heq
      (dijInit_inv graph s hs hnodup adj _ (by rw [dij_init_eq])
        (by rw [dij_init_eq]) (by rw [dij_init_eq]) rfl)
    obtain ⟨hcore, hvd, hprevrel, hdisj⟩ := hQ
    have hkey : (sssp graph s e = none ∧ st.distances.get e = some none) ∨
        (∃ d, sssp graph s e = some d ∧
          st.distances.get e = some (some d) ∧ e ∈ st.visited) := by
      rcases hsse : sssp graph s e with _ | d
      · left
        refine ⟨rfl, ?_⟩
        rcases hdisj with hev | ⟨hinf, -⟩
        · obtain ⟨dx, -, hδ⟩ := hvd e hev
          rw [hsse] at hδ
          exact absurd hδ (by simp)
        · by_cases hev : e ∈ st.visited
          · obtain ⟨dx, -, hδ⟩ := hvd e hev
            rw [hsse] at hδ
            exact absurd hδ (by simp)
          · exact hinf e he hev
      · right
        have hevis : e ∈ st.visited := by
          by_contra hnv
          rcases hdisj with hev | ⟨hinf, hvr⟩
          · exact hnv hev
          · have hsvis : s ∈ st.visited := by
              by_contra hsnv
              have hds := hinf s hs hsnv
              obtain ⟨w0, hw0, -⟩ := hcore.dist_s
              rw [hds] at hw0
              simp at hw0
            obtain ⟨p, hh, hl, hnd, hsub, hw⟩ := sssp_mem graph s e d hsse
            cases p with
            | nil => simp at hh
            | cons p0 prest =>
              simp only [List.head?_cons, Option.some.injEq] at hh
              have hs0 : sssp graph s p0 = some 0 := by
                rw [hh]
                exact sssp_self graph hpos s hs
              obtain ⟨y, hynv, wy, hwy, -⟩ := dijkstra_crossing graph hwf hpos
                s adj hadj st.distances st.visited hvd hvr prest p0 0 d
                (by rw [hh]; exact hsvis) hs0 hw ⟨e, hl, hnv⟩
              have hyinf := hinf y (hcore.dist_ids y _ hwy) hynv
              rw [hwy] at hyinf
              simp at hyinf
        obtain ⟨d', hde, hδ⟩ := hvd e hevis
        rw [hsse] at hδ
        simp only [Option.some.injEq] at hδ
        subst hδ
        exact ⟨d, rfl, hde, hevis⟩
    rw [if_pos (show endTruthy (some e) = true from htru e he)]
    simp only [Option.getD_some]
    rcases hkey with ⟨hsse, hde⟩ | ⟨d, hsse, hde, hevis⟩
    · rw [if_pos hde]
      refine ⟨_, rfl, ?_, ?_⟩
      · intro _
        rfl
      · intro d hd
        rw [hsse] at hd
        exact absurd hd (by simp)
    · rw [if_neg (by rw [hde]; simp)]
      obtain ⟨L, hL, hLnd, hLids⟩ := hcore.chain_of_fin e he d hde
      have htight : ∀ y z, (st.previous.get y).getD none = some z → y ∈ L →
          ∃ dy dz mw, st.distances.get y = some (some dy) ∧
          st.distances.get z = some (some dz) ∧
          minLinkW graph z y = some mw ∧ dy = dz + mw := by
        intro y z hyz hym
        obtain ⟨dy, dz, mw, hdy, hdz, hmw, hle⟩ :=
          hcore.prev_edge y z (getD_none_some _ _ hyz)
        obtain ⟨dz2, hdz2, hdz2d, hbound⟩ :=
          hprevrel y z (getD_none_some _ _ hyz)
        rw [hdz] at hdz2
        simp only [Option.some.injEq] at hdz2
        obtain ⟨lst, hlst, en, hen, hennode, henw⟩ :=
          minLinkW_hasEntryW graph adj hadj z y mw hmw
        have henmem : en ∈ (adj.get z).getD [] := by
          rw [hlst]
          exact hen
        obtain ⟨jy, hjy, hjle⟩ := hbound en henmem
        rw [hennode, hdy] at hjy
        simp only [Option.some.injEq] at hjy
        rw [henw, ← hjy, ← hdz2] at hjle
        simp only [jnLe, decide_eq_true_eq] at hjle
        exact ⟨dy, dz, mw, hdy, hdz, hmw, by omega⟩
      have hpathw := chain_pathW graph st.distances st.previous s
        (hcore.dist_s_zero hpos) hL htight d hde
      have hrecon : reconstructPath st.previous e = L.reverse := by
        refine reconstructPath_chain st.previous s e hcore.prev_s L hL hLnd
          (fun y hy => htru y (hLids y hy)) ?_
        intro y hy
        rcases hL.nodes_prev y hy with h1 | h1
        · rw [h1]
          exact mem_keys_of_get _ s none hcore.prev_s
        · obtain ⟨z, hz⟩ := h1
          exact mem_keys_of_get _ y (some z) hz
      refine ⟨_, rfl, ?_, ?_⟩
      · intro h
        rw [h] at hsse
        exact absurd hsse (by simp)
      · intro d0 hd0
        rw [hsse] at hd0
        simp only [Option.some.injEq] at hd0
        subst hd0
        refine ⟨L.reverse, ?_, ?_, ?_, hpathw⟩
        · show some (reconstructPath st.previous e) = some L.reverse
          rw [hrecon]
        · rw [List.head?_reverse]
          exact hL.last_eq
        · rw [List.getLast?_reverse]
          exact hL.head?_eq
/-! ## C1 — Dijkstra and Bellman–Ford agree on nonnegative graphs -/

/-- **C1 (counterexample).** With an end id that names no node (here `"z"`),
neither algorithm reports the target unreachable: both return the bare ghost
path `["z"]`, which does not start at the start node, although `sssp` has no
path at all.  The claim's "for any end id" fails for ids absent from the
graph. -/
theorem dijkstra_bellmanFord_ghost_end :
    (runDijkstra twoNodeGraph "a" (some "z")).map (·.path) =
      some (some ["z"]) ∧
    (runBellmanFord twoNodeGraph "a" (some "z")).path = some ["z"] ∧
    (["z"] : List String).head? ≠ some "a" ∧
    sssp twoNodeGraph "a" "z" = none := by
  refine ⟨rfl, rfl, by decide, ?_⟩
  rcases hsse : sssp twoNodeGraph "a" "z" with _ | d
  · rfl
  · exfalso
    obtain ⟨p, -, hl, -, hsub, -⟩ := sssp_mem twoNodeGraph "a" "z" d hsse
    have hz := hsub "z" (getLast?_mem p "z" hl)
    simp [twoNodeGraph, mkNode] at hz

/-- **C1 (amended).** On a well-formed graph (link endpoints are node ids,
the app's standing data invariant) with duplicate-free, non-empty node ids,
no negative edge weight, and start and end ids that both exist in the graph,
`runDijkstra` and `runBellmanFord` agree on the shortest path from start to
end: either both report the end unreachable (and indeed no linked path
exists), or both return a path from the start node to the end node whose
total edge weight is the same minimal value `sssp graph s e`.  The
non-empty-id hypothesis `htru` is necessary: a falsy id ends the
`while (current)` walk of `reconstructPath` one step early, so with an
empty-string node on the shortest path both algorithms return a truncated
path (`dijkstra_bellmanFord_empty_id` below). -/
theorem dijkstra_bellmanFord_agree (graph : GraphData) (hwf : WellFormed graph)
    (hpos : ∀ l ∈ graph.links, 0 ≤ l.weight)
    (hnodup : (graph.nodes.map Node.id).Nodup) (s e : String)
    (hs : s ∈ graph.nodes.map Node.id) (he : e ∈ graph.nodes.map Node.id)
    (htru : ∀ x ∈ graph.nodes.map Node.id, truthy x = true) :
    ∃ res, runDijkstra graph s (some e) = some res ∧
      ((sssp graph s e = none ∧ res.path = none ∧
        (runBellmanFord graph s (some e)).path = none) ∨
       (∃ d pD pB, sssp graph s e = some d ∧
         res.path = some pD ∧ pD.head? = some s ∧ pD.getLast? = some e ∧
         pathW graph pD = some d ∧
         (runBellmanFord graph s (some e)).path = some pB ∧
         pB.head? = some s ∧ pB.getLast? = some e ∧
         pathW graph pB = some d)) := by
  obtain ⟨res, hres, hDn, hDs⟩ := runDijkstra_path_spec graph hwf hpos hnodup
    s e hs he htru
  obtain ⟨hBn, hBs⟩ := runBellmanFord_path_spec graph hwf hpos s e hs he htru
  refine ⟨res, hres, ?_⟩
  rcases hsse : sssp graph s e with _ | d
  · exact Or.inl ⟨rfl, hDn hsse, hBn hsse⟩
  · obtain ⟨pD, h1, h2, h3, h4⟩ := hDs d hsse
    obtain ⟨pB, h5, h6, h7, h8⟩ := hBs d hsse
    exact Or.inr ⟨d, pD, pB, rfl, h1, h2, h3, h4, h5, h6, h7, h8⟩

/-- The amended C1 statement at a concrete input: the one-edge graph, start
`"a"`, end `"b"`. -/
theorem dijkstra_bellmanFord_agree_witness :
    ∃ res, runDijkstra twoNodeGraph "a" (some "b") = some res ∧
      ((sssp twoNodeGraph "a" "b" = none ∧ res.path = none ∧
        (runBellmanFord twoNodeGraph "a" (some "b")).path = none) ∨
       (∃ d pD pB, sssp twoNodeGraph "a" "b" = some d ∧
         res.path = some pD ∧ pD.head? = some "a" ∧ pD.getLast? = some "b" ∧
         pathW twoNodeGraph pD = some d ∧
         (runBellmanFord twoNodeGraph "a" (some "b")).path = some pB ∧
         pB.head? = some "a" ∧ pB.getLast? = some "b" ∧
         pathW twoNodeGraph pB = some d)) :=
  dijkstra_bellmanFord_agree twoNodeGraph (by unfold WellFormed; decide)
    (by decide) (by decide) "a" "b" (by decide) (by decide) (by decide)

/-- One undirected edge whose source node id is the empty string. -/
def emptyIdGraph : GraphData := {
  nodes := [mkNode "" "E", mkNode "b" "B"]
  links := [{ source := "", target := "b", weight := 1 }]
  isDirected := false }

/-- Dropping the non-empty-id hypothesis from the amended C1 statement makes
it false: on `emptyIdGraph` — well-formed, duplicate-free ids, nonnegative
weights, start `""` and end `"b"` both present — both algorithms return the
path `["b"]`, which does not start at the start node, because the falsy id
`""` stops the `while (current)` walk of `reconstructPath` one step early. -/
theorem dijkstra_bellmanFord_empty_id :
    WellFormed emptyIdGraph ∧
    (∀ l ∈ emptyIdGraph.links, 0 ≤ l.weight) ∧
    (emptyIdGraph.nodes.map Node.id).Nodup ∧
    "" ∈ emptyIdGraph.nodes.map Node.id ∧
    "b" ∈ emptyIdGraph.nodes.map Node.id ∧
    ¬ (∃ res, runDijkstra emptyIdGraph "" (some "b") = some res ∧
      ((sssp emptyIdGraph "" "b" = none ∧ res.path = none ∧
        (runBellmanFord emptyIdGraph "" (some "b")).path = none) ∨
       (∃ d pD pB, sssp emptyIdGraph "" "b" = some d ∧
         res.path = some pD ∧ pD.head? = some "" ∧ pD.getLast? = some "b" ∧
         pathW emptyIdGraph pD = some d ∧
         (runBellmanFord emptyIdGraph "" (some "b")).path = some pB ∧
         pB.head? = some "" ∧ pB.getLast? = some "b" ∧
         pathW emptyIdGraph pB = some d))) := by
  refine ⟨by unfold WellFormed; decide, by decide, by decide, by decide,
    by decide, ?_⟩
  rintro ⟨res, hres, hcase⟩
  have hpath : res.path = some ["b"] := by
    have h1 : (runDijkstra emptyIdGraph "" (some "b")).map
        AlgorithmResult.path = some (some ["b"]) := by rfl
    rw [hres] at h1
    simp only [Option.map_some', Option.some.injEq] at h1
    exact h1
  rcases hcase with ⟨-, hp, -⟩ | ⟨d, pD, pB, -, hpD, hhead, -⟩
  · rw [hp] at hpath
    exact absurd hpath (by simp)
  · rw [hpath] at hpD
    have hpd2 := Option.some.inj hpD
    rw [← hpd2] at hhead
    exact absurd hhead (by decide)

/-! ## C6 — shared spanning-tree theory for `runPrim` and `runKruskal` -/

/-- Undirected incidence: the link joins `x` and `y` (in either direction). -/
def EJoins (l : Link) (x y : String) : Prop :=
  (l.source = x ∧ l.target = y) ∨ (l.source = y ∧ l.target = x)

theorem EJoins.swap {l : Link} {x y : String} (h : EJoins l x y) :
    EJoins l y x := by
  rcases h with ⟨h1, h2⟩ | ⟨h1, h2⟩
  · exact Or.inr ⟨h1, h2⟩
  · exact Or.inl ⟨h1, h2⟩

/-- Reachability through a list of links, ignoring direction. -/
inductive Reach (F : List Link) : String → String → Prop
  | refl (x : String) : Reach F x x
  | step {x y z : String} (l : Link) (hl : l ∈ F) (hj : EJoins l x y)
      (h : Reach F y z) : Reach F x z

theorem Reach.single {F : List Link} {x y : String} (l : Link) (hl : l ∈ F)
    (hj : EJoins l x y) : Reach F x y :=
  Reach.step l hl hj (Reach.refl y)

theorem Reach.trans {F : List Link} {x y z : String} (h1 : Reach F x y)
    (h2 : Reach F y z) : Reach F x z := by
  induction h1 with
  | refl => exact h2
  | step l hl hj h ih => exact Reach.step l hl hj (ih h2)

theorem Reach.comm {F : List Link} {x y : String} (h : Reach F x y) :
    Reach F y x := by
  induction h with
  | refl => exact Reach.refl _
  | step l hl hj h ih => exact Reach.trans ih (Reach.single l hl hj.swap)

theorem Reach.mono {F F' : List Link} {x y : String} (hsub : ∀ l ∈ F, l ∈ F')
    (h : Reach F x y) : Reach F' x y := by
  induction h with
  | refl => exact Reach.refl _
  | step l hl hj h ih => exact Reach.step l (hsub l hl) hj ih

/-- If every link of `F` has both endpoints satisfying `P`, reachability
stays inside `P` (or never moves). -/
theorem reach_endpoints (F : List Link) (P : String → Prop)
    (hF : ∀ l ∈ F, P l.source ∧ P l.target) :
    ∀ x y, Reach F x y → x = y ∨ (P x ∧ P y) := by
  intro x y h
  induction h with
  | refl => exact Or.inl rfl
  | step l hl hj h ih =>
    rename_i x0 x2 z0
    have hPx : P l.source ∧ P l.target := hF l hl
    have h1 : P x0 := by
      rcases hj with ⟨h1, -⟩ | ⟨-, h2⟩
      · rw [← h1]; exact hPx.1
      · rw [← h2]; exact hPx.2
    have h2 : P x2 := by
      rcases hj with ⟨-, h2⟩ | ⟨h1, -⟩
      · rw [← h2]; exact hPx.2
      · rw [← h1]; exact hPx.1
    rcases ih with he | ⟨-, hz⟩
    · exact Or.inr ⟨h1, he ▸ h2⟩
    · exact Or.inr ⟨h1, hz⟩

/-- Any reachability witness crosses a boundary predicate somewhere. -/
theorem reach_crossing (F : List Link) (C : String → Prop) :
    ∀ x y, Reach F x y → C x → ¬ C y →
    ∃ f ∈ F, ∃ a b, EJoins f a b ∧ C a ∧ ¬ C b := by
  intro x y h hx hy
  induction h with
  | refl => exact absurd hx hy
  | step l hl hj h ih =>
    rename_i x0 x2 z0
    by_cases hC : C x2
    · exact ih hC hy
    · exact ⟨l, hl, x0, x2, hj, hx, hC⟩

/-- Explicit walks: the vertex list visited by a linked walk. -/
inductive VWalk (F : List Link) : String → String → List String → Prop
  | single (x : String) : VWalk F x x [x]
  | cons {x y z : String} {p : List String} (l : Link) (hl : l ∈ F)
      (hj : EJoins l x y) (hw : VWalk F y z p) : VWalk F x z (x :: p)

theorem VWalk.ne_empty {F : List Link} {x y : String} {p : List String}
    (h : VWalk F x y p) : p ≠ [] := by
  cases h with
  | single => simp
  | cons => simp

theorem VWalk.first_some {F : List Link} {x y : String} {p : List String}
    (h : VWalk F x y p) : p.head? = some x := by
  cases h with
  | single => rfl
  | cons => rfl

theorem VWalk.mem_start {F : List Link} {x y : String} {p : List String}
    (h : VWalk F x y p) : x ∈ p := by
  cases h with
  | single => simp
  | cons => simp

theorem VWalk.last_some {F : List Link} {x y : String} {p : List String}
    (h : VWalk F x y p) : p.getLast? = some y := by
  induction h with
  | single => rfl
  | cons l hl hj hw ih =>
    rw [List.getLast?_cons]
    rw [ih]
    rfl

theorem VWalk.mem_end {F : List Link} {x y : String} {p : List String}
    (h : VWalk F x y p) : y ∈ p :=
  getLast?_mem p y h.last_some

theorem reach_of_vwalk {F : List Link} {x y : String} {p : List String}
    (h : VWalk F x y p) : Reach F x y := by
  induction h with
  | single => exact Reach.refl _
  | cons l hl hj hw ih => exact Reach.step l hl hj ih

theorem vwalk_of_reach {F : List Link} {x y : String} (h : Reach F x y) :
    ∃ p, VWalk F x y p := by
  induction h with
  | refl => exact ⟨_, VWalk.single _⟩
  | step l hl hj h ih =>
    obtain ⟨p, hp⟩ := ih
    exact ⟨_, VWalk.cons l hl hj hp⟩

theorem VWalk.split_cons {F : List Link} {x y : String} {a : String}
    {p : List String} (h : VWalk F x y (a :: p)) (hne : p ≠ []) :
    x = a ∧ ∃ l ∈ F, ∃ x2, EJoins l x x2 ∧ VWalk F x2 y p := by
  cases h with
  | single => exact absurd rfl hne
  | cons l hl hj hw => exact ⟨rfl, l, hl, _, hj, hw⟩

theorem vwalk_prefix {F : List Link} :
    ∀ (A : List String) (x y c : String) (B : List String),
    VWalk F x y (A ++ c :: B) → VWalk F x c (A ++ [c]) := by
  intro A
  induction A with
  | nil =>
    intro x y c B h
    have hh := h.first_some
    simp only [List.nil_append, List.head?_cons, Option.some.injEq] at hh
    subst hh
    simp only [List.nil_append]
    exact VWalk.single c
  | cons a A' ih =>
    intro x y c B h
    simp only [List.cons_append] at h
    have hh := h.first_some
    simp only [List.head?_cons, Option.some.injEq] at hh
    subst hh
    obtain ⟨-, l, hl, x2, hj, hw⟩ := h.split_cons (by simp)
    simp only [List.cons_append]
    exact VWalk.cons l hl hj (ih x2 y c B hw)

theorem vwalk_suffix {F : List Link} :
    ∀ (A : List String) (x y c : String) (B : List String),
    VWalk F x y (A ++ c :: B) → VWalk F c y (c :: B) := by
  intro A
  induction A with
  | nil =>
    intro x y c B h
    have hh := h.first_some
    simp only [List.nil_append, List.head?_cons, Option.some.injEq] at hh
    subst hh
    simpa using h
  | cons a A' ih =>
    intro x y c B h
    simp only [List.cons_append] at h
    obtain ⟨-, l, hl, x2, hj, hw⟩ := h.split_cons (by simp)
    exact ih x2 y c B hw

theorem vwalk_glue {F : List Link} :
    ∀ (A : List String) (x y c : String) (C : List String),
    VWalk F x c (A ++ [c]) → VWalk F c y (c :: C) → VWalk F x y (A ++ c :: C) := by
  intro A
  induction A with
  | nil =>
    intro x y c C h1 h2
    have hh := h1.first_some
    simp only [List.nil_append, List.head?_cons, Option.some.injEq] at hh
    subst hh
    simpa using h2
  | cons a A' ih =>
    intro x y c C h1 h2
    simp only [List.cons_append] at h1
    have hh := h1.first_some
    simp only [List.head?_cons, Option.some.injEq] at hh
    subst hh
    obtain ⟨-, l, hl, x2, hj, hw⟩ := h1.split_cons (by simp [List.append_eq_nil])
    simp only [List.cons_append]
    exact VWalk.cons l hl hj (ih x2 y c C hw h2)

/-- Every walk can be shortened to a duplicate-free walk. -/
theorem vwalk_nodup {F : List Link} :
    ∀ (n : Nat) (p : List String) (x y : String), p.length ≤ n →
    VWalk F x y p → ∃ q, VWalk F x y q ∧ q.Nodup := by
  intro n
  induction n with
  | zero =>
    intro p x y hlen h
    have := h.ne_empty
    cases p with
    | nil => exact absurd rfl this
    | cons a p' => simp at hlen
  | succ n ih =>
    intro p x y hlen h
    by_cases hnd : p.Nodup
    · exact ⟨p, h, hnd⟩
    · obtain ⟨A, c, B, C, hsplit⟩ := exists_dup_split p hnd
      subst hsplit
      have h2 : VWalk F c y (c :: C) := vwalk_suffix (A ++ c :: B) x y c C h
      rw [List.append_assoc, List.cons_append] at h
      have h1 : VWalk F x c (A ++ [c]) := vwalk_prefix A x y c _ h
      have h3 : VWalk F x y (A ++ c :: C) := vwalk_glue A x y c C h1 h2
      refine ih (A ++ c :: C) x y ?_ h3
      simp only [List.length_append, List.length_cons] at hlen ⊢
      omega

/-- A duplicate-free walk from inside `C` to outside it contains a crossing
link, and splits into pieces that each avoid one crossing endpoint. -/
theorem vwalk_crossing {F : List Link} (C : String → Prop) :
    ∀ {p : List String} {x y : String}, VWalk F x y p → p.Nodup →
    C x → ¬ C y →
    ∃ f a b p1 p2, f ∈ F ∧ EJoins f a b ∧ C a ∧ ¬ C b ∧
      VWalk F x a p1 ∧ VWalk F b y p2 ∧
      (∀ v ∈ p1, v ∈ p) ∧ (∀ v ∈ p2, v ∈ p) ∧ b ∉ p1 ∧ a ∉ p2 := by
  intro p x y h
  induction h with
  | single =>
    intro hnd hx hy
    exact absurd hx hy
  | cons l hl hj hw ih =>
    intro hnd hx hy
    rename_i x0 x2 y0 p'
    have hx2m : x2 ∈ p' := hw.mem_start
    have hx0n : x0 ∉ p' := (List.nodup_cons.mp hnd).1
    by_cases hC2 : C x2
    · obtain ⟨f, a, b, p1, p2, hf, hjf, hCa, hCb, w1, w2, hm1, hm2, hb1, ha2⟩ :=
        ih (List.nodup_cons.mp hnd).2 hC2 hy
      refine ⟨f, a, b, x0 :: p1, p2, hf, hjf, hCa, hCb,
        VWalk.cons l hl hj w1, w2, ?_, ?_, ?_, ha2⟩
      · intro v hv
        rcases List.mem_cons.mp hv with h1 | h1
        · simp [h1]
        · simp [hm1 v h1]
      · intro v hv
        simp [hm2 v hv]
      · intro hco
        rcases List.mem_cons.mp hco with h1 | h1
        · have : b ∈ p' := hm2 b w2.mem_start
          rw [h1] at this
          exact hx0n this
        · exact hb1 h1
    · refine ⟨l, x0, x2, [x0], p', hl, hj, hx, hC2,
        VWalk.single x0, hw, ?_, ?_, ?_, ?_⟩
      · intro v hv
        simp only [List.mem_singleton] at hv
        simp [hv]
      · intro v hv
        simp [hv]
      · intro hco
        simp only [List.mem_singleton] at hco
        rw [hco] at hx2m
        exact hx0n hx2m
      · exact hx0n

/-- A walk that misses one endpoint of `f` never uses `f`. -/
theorem vwalk_avoid {F : List Link} (f : Link) :
    ∀ {p : List String} {x y : String}, VWalk F x y p →
    (f.source ∉ p ∨ f.target ∉ p) → VWalk (F.erase f) x y p := by
  intro p x y h
  induction h with
  | single =>
    intro hav
    exact VWalk.single _
  | cons l hl hj hw ih =>
    intro hav
    rename_i x0 x2 y0 p'
    have hx2m : x2 ∈ p' := hw.mem_start
    by_cases hlf : l = f
    · exfalso
      subst hlf
      rcases hj with ⟨h1, h2⟩ | ⟨h1, h2⟩
      · rcases hav with hav | hav
        · exact hav (by rw [h1]; simp)
        · exact hav (by rw [h2]; simp [hx2m])
      · rcases hav with hav | hav
        · exact hav (by rw [h1]; simp [hx2m])
        · exact hav (by rw [h2]; simp)
    · refine VWalk.cons l ((List.mem_erase_of_ne hlf).mpr hl) hj (ih ?_)
      rcases hav with hav | hav
      · exact Or.inl (fun hco => hav (by simp [hco]))
      · exact Or.inr (fun hco => hav (by simp [hco]))

/-- Total weight of a selection of links. -/
def costOf (T : List Link) : Int := (T.map Link.weight).sum

theorem costOf_append (A B : List Link) :
    costOf (A ++ B) = costOf A + costOf B := by
  simp [costOf]

theorem costOf_perm {A B : List Link} (h : A.Perm B) : costOf A = costOf B :=
  (h.map Link.weight).sum_eq

theorem costOf_erase (f : Link) (T : List Link) (hf : f ∈ T) :
    costOf T = f.weight + costOf (T.erase f) := by
  have := costOf_perm (List.perm_cons_erase hf)
  rw [this]
  simp [costOf]

/-- A spanning tree of the graph: usable links (weight of a real link between
its endpoints, in either direction on undirected graphs), exactly one fewer
than the number of nodes, connecting every pair of node ids. -/
def SpanningTree (graph : GraphData) (T : List Link) : Prop :=
  (∀ l ∈ T, EData graph l.source l.target l.weight) ∧
  T.length + 1 = graph.nodes.length ∧
  ∀ x ∈ graph.nodes.map Node.id, ∀ y ∈ graph.nodes.map Node.id, Reach T x y

/-- The greedy exchange step, shared by Prim and Kruskal: if the forest `F`
embeds into a spanning tree `T`, and `e` is a cheapest usable link leaving
the `F`-component of its source, then `F` extended by `e` embeds into a
spanning tree that costs no more than `T`. -/
theorem promise_step (graph : GraphData) (hwf : WellFormed graph)
    (F : List Link) (e : Link)
    (he : EData graph e.source e.target e.weight)
    (hnew : ¬ Reach F e.source e.target)
    (hmin : ∀ g ∈ graph.links,
      ((Reach F e.source g.source ∧ ¬ Reach F e.source g.target) ∨
       (Reach F e.source g.target ∧ ¬ Reach F e.source g.source)) →
      e.weight ≤ g.weight)
    (T : List Link) (hT : SpanningTree graph T) (hFT : List.Subperm F T) :
    ∃ Tn, SpanningTree graph Tn ∧ costOf Tn ≤ costOf T ∧
      List.Subperm (F ++ [e]) Tn := by
  obtain ⟨hTE, hTlen, hTspan⟩ := hT
  have hu : e.source ∈ graph.nodes.map Node.id :=
    (EData_mem_ids graph hwf _ _ _ he).1
  have hv : e.target ∈ graph.nodes.map Node.id :=
    (EData_mem_ids graph hwf _ _ _ he).2
  obtain ⟨p0, hw0⟩ := vwalk_of_reach (hTspan _ hu _ hv)
  obtain ⟨p, hwp, hpnd⟩ := vwalk_nodup p0.length p0 _ _ (le_refl _) hw0
  obtain ⟨f, a, b, p1, p2, hfT, hjf, hCa, hCb, w1, w2, hm1, hm2, hb1, ha2⟩ :=
    vwalk_crossing (fun z => Reach F e.source z) hwp hpnd
      (Reach.refl _) hnew
  have hfF : f ∉ F := by
    intro hco
    exact hCb (Reach.trans hCa (Reach.single f hco hjf))
  have hwle : e.weight ≤ f.weight := by
    obtain ⟨l0, hl0, hl0w, hl0or⟩ := hTE f hfT
    have hj0 : EJoins l0 a b := by
      rcases hl0or with ⟨h1, h2⟩ | ⟨-, h1, h2⟩
      · rcases hjf with ⟨h3, h4⟩ | ⟨h3, h4⟩
        · exact Or.inl ⟨by rw [h1, h3], by rw [h2, h4]⟩
        · exact Or.inr ⟨by rw [h1, h3], by rw [h2, h4]⟩
      · rcases hjf with ⟨h3, h4⟩ | ⟨h3, h4⟩
        · exact Or.inr ⟨by rw [h1, h4], by rw [h2, h3]⟩
        · exact Or.inl ⟨by rw [h1, h4], by rw [h2, h3]⟩
    have hle0 : e.weight ≤ l0.weight := by
      rcases hj0 with ⟨h1, h2⟩ | ⟨h1, h2⟩
      · exact hmin l0 hl0 (Or.inl ⟨by rw [h1]; exact hCa, by rw [h2]; exact hCb⟩)
      · exact hmin l0 hl0 (Or.inr ⟨by rw [h2]; exact hCa, by rw [h1]; exact hCb⟩)
    omega
  have herase_sub : ∀ l ∈ T.erase f, l ∈ T.erase f ++ [e] :=
    fun l hl => List.mem_append.mpr (Or.inl hl)
  have hab : Reach (T.erase f ++ [e]) a b := by
    have hav1 : f.source ∉ p1 ∨ f.target ∉ p1 := by
      rcases hjf with ⟨h1, h2⟩ | ⟨h1, h2⟩
      · exact Or.inr (by rw [h2]; exact hb1)
      · exact Or.inl (by rw [h1]; exact hb1)
    have hav2 : f.source ∉ p2 ∨ f.target ∉ p2 := by
      rcases hjf with ⟨h1, h2⟩ | ⟨h1, h2⟩
      · exact Or.inl (by rw [h1]; exact ha2)
      · exact Or.inr (by rw [h2]; exact ha2)
    have r1 : Reach (T.erase f ++ [e]) e.source a :=
      Reach.mono herase_sub (reach_of_vwalk (vwalk_avoid f w1 hav1))
    have r2 : Reach (T.erase f ++ [e]) b e.target :=
      Reach.mono herase_sub (reach_of_vwalk (vwalk_avoid f w2 hav2))
    have rE : Reach (T.erase f ++ [e]) e.source e.target :=
      Reach.single e (List.mem_append.mpr (Or.inr (by simp)))
        (Or.inl ⟨rfl, rfl⟩)
    exact Reach.trans r1.comm (Reach.trans rE r2.comm)
  have htrans : ∀ x y, Reach T x y → Reach (T.erase f ++ [e]) x y := by
    intro x y h
    induction h with
    | refl => exact Reach.refl _
    | step l hl hj h ih =>
      by_cases hlf : l = f
      · subst hlf
        refine Reach.trans ?_ ih
        rcases hj with ⟨h1, h2⟩ | ⟨h1, h2⟩ <;>
          rcases hjf with ⟨h3, h4⟩ | ⟨h3, h4⟩
        · rw [← h1, h3, ← h2, h4]
          exact hab
        · rw [← h1, h3, ← h2, h4]
          exact hab.comm
        · rw [← h2, h4, ← h1, h3]
          exact hab.comm
        · rw [← h2, h4, ← h1, h3]
          exact hab
      · exact Reach.step l
          (List.mem_append.mpr (Or.inl ((List.mem_erase_of_ne hlf).mpr hl)))
          hj ih
  have hTpos : 0 < T.length := List.length_pos_of_mem hfT
  refine ⟨T.erase f ++ [e], ⟨?_, ?_, ?_⟩, ?_, ?_⟩
  · intro l hl
    rcases List.mem_append.mp hl with h1 | h1
    · exact hTE l (List.mem_of_mem_erase h1)
    · simp only [List.mem_singleton] at h1
      subst h1
      exact he
  · rw [List.length_append, List.length_erase_of_mem hfT]
    simp only [List.length_singleton]
    omega
  · intro x hx y hy
    exact htrans x y (hTspan x hx y hy)
  · rw [costOf_append, costOf_erase f T hfT]
    simp only [costOf, List.map_cons, List.map_nil, List.sum_cons,
      List.sum_nil]
    omega
  · rw [List.subperm_ext_iff] at hFT ⊢
    intro x hx
    have h1 : List.count x F ≤ List.count x (T.erase f) := by
      by_cases hxF : x ∈ F
      · have h2 := hFT x hxF
        by_cases hxf : x = f
        · subst hxf
          exact absurd hxF hfF
        · rw [List.count_erase_of_ne hxf]
          exact h2
      · rw [List.count_eq_zero_of_not_mem hxF]
        exact Nat.zero_le _
    rw [List.count_append, List.count_append]
    omega

/-- If the forest has full size and embeds into a spanning tree at most as
expensive as `T`, it is itself at most as expensive as `T`. -/
theorem promise_final (graph : GraphData) (F : List Link)
    (hlen : F.length + 1 = graph.nodes.length)
    (T : List Link) (hT : SpanningTree graph T)
    (Tn : List Link) (hTn : SpanningTree graph Tn) (hc : costOf Tn ≤ costOf T)
    (hsub : List.Subperm F Tn) : costOf F ≤ costOf T := by
  have hperm : F.Perm Tn := by
    refine hsub.perm_of_length_le ?_
    have := hTn.2.1
    omega
  rw [costOf_perm hperm]
  exact hc
theorem reach_transfer {K L : List Link}
    (hall : ∀ l ∈ L, Reach K l.source l.target) :
    ∀ x y, Reach L x y → Reach K x y := by
  intro x y h
  induction h with
  | refl => exact Reach.refl _
  | step l hl hj h ih =>
    rename_i x0 x2 z0
    refine Reach.trans ?_ ih
    rcases hj with ⟨h1, h2⟩ | ⟨h1, h2⟩
    · rw [← h1, ← h2]
      exact hall l hl
    · rw [← h1, ← h2]
      exact (hall l hl).comm

theorem jnLe_of_not_lt (a b : JNum) (h : jnLt a b = false) :
    jnLe b a = true := by
  cases a with
  | none =>
    cases b with
    | none => rfl
    | some y => rfl
  | some x =>
    cases b with
    | none => simp [jnLt] at h
    | some y =>
      simp only [jnLt, decide_eq_false_iff_not, not_lt] at h
      simp only [jnLe, decide_eq_true_eq]
      omega

/-- The grow argument: every edge set spanning a duplicate-free vertex list
from a root contains at least one fewer than that many distinct edges.  `G`
collects, one per newly reached vertex, a crossing edge of `F`. -/
theorem grow_aux (F : List Link) :
    ∀ (n : Nat) (out S : List String), out.length ≤ n →
    (S ++ out).Nodup →
    (∀ l ∈ F, l.source ∈ S ++ out ∧ l.target ∈ S ++ out) →
    (∀ b ∈ out, ∃ x ∈ S, Reach F x b) →
    ∃ G : List Link, G.Nodup ∧ (∀ g ∈ G, g ∈ F) ∧ G.length = out.length ∧
      ∀ g ∈ G, ¬ (g.source ∈ S ∧ g.target ∈ S) := by
  intro n
  induction n with
  | zero =>
    intro out S hlen hnd hend hreach
    have hout : out = [] := List.length_eq_zero.mp (by omega)
    subst hout
    exact ⟨[], by simp, by simp, by simp, by simp⟩
  | succ n ih =>
    intro out S hlen hnd hend hreach
    cases out with
    | nil => exact ⟨[], by simp, by simp, by simp, by simp⟩
    | cons b0 out0 =>
      obtain ⟨x0, hx0S, hx0r⟩ := hreach b0 (by simp)
      have hb0S : b0 ∉ S := by
        intro hco
        exact (List.nodup_append.mp hnd).2.2 hco (by simp)
      obtain ⟨f, hfF, a, b, hjf, haS, hbS⟩ :=
        reach_crossing F (· ∈ S) x0 b0 hx0r hx0S hb0S
      have hbout : b ∈ b0 :: out0 := by
        have hbm : b ∈ S ++ b0 :: out0 := by
          rcases hjf with ⟨h1, h2⟩ | ⟨h1, h2⟩
          · rw [← h2]
            exact (hend f hfF).2
          · rw [← h1]
            exact (hend f hfF).1
        rcases List.mem_append.mp hbm with h | h
        · exact absurd h hbS
        · exact h
      have hperm : (S ++ b0 :: out0).Perm (S ++ b :: (b0 :: out0).erase b) :=
        List.Perm.append_left S (List.perm_cons_erase hbout)
      obtain ⟨G, hGnd, hGF, hGlen, hGcross⟩ :=
        ih ((b0 :: out0).erase b) (S ++ [b])
          (by
            rw [List.length_erase_of_mem hbout]
            simp only [List.length_cons] at hlen ⊢
            omega)
          (by
            rw [List.append_assoc, List.singleton_append]
            exact hperm.nodup_iff.mp hnd)
          (by
            intro l hl
            rw [List.append_assoc, List.singleton_append]
            exact ⟨hperm.mem_iff.mp (hend l hl).1,
              hperm.mem_iff.mp (hend l hl).2⟩)
          (by
            intro b' hb'
            obtain ⟨x, hxS, hr⟩ := hreach b' (List.mem_of_mem_erase hb')
            exact ⟨x, List.mem_append.mpr (Or.inl hxS), hr⟩)
      have hfends : f.source ∈ S ++ [b] ∧ f.target ∈ S ++ [b] := by
        rcases hjf with ⟨h1, h2⟩ | ⟨h1, h2⟩
        · exact ⟨by rw [h1]; exact List.mem_append.mpr (Or.inl haS),
            by rw [h2]; simp⟩
        · exact ⟨by rw [h1]; simp,
            by rw [h2]; exact List.mem_append.mpr (Or.inl haS)⟩
      refine ⟨f :: G, ?_, ?_, ?_, ?_⟩
      · rw [List.nodup_cons]
        refine ⟨?_, hGnd⟩
        intro hco
        exact hGcross f hco hfends
      · intro g hg
        rcases List.mem_cons.mp hg with h | h
        · rw [h]
          exact hfF
        · exact hGF g h
      · rw [List.length_cons, hGlen, List.length_erase_of_mem hbout]
        simp
      · intro g hg
        rcases List.mem_cons.mp hg with h | h
        · subst h
          intro ⟨hs, ht⟩
          rcases hjf with ⟨h1, h2⟩ | ⟨h1, h2⟩
          · rw [h2] at ht
            exact hbS ht
          · rw [h1] at hs
            exact hbS hs
        · intro ⟨hs, ht⟩
          exact hGcross g h ⟨List.mem_append.mpr (Or.inl hs),
            List.mem_append.mpr (Or.inl ht)⟩

/-- A connected edge list over a duplicate-free vertex list has at least
`|N| - 1` edges. -/
theorem spanning_lower_bound (F : List Link) (N : List String) (hN : N.Nodup)
    (hend : ∀ l ∈ F, l.source ∈ N ∧ l.target ∈ N)
    (s : String) (hs : s ∈ N) (hspan : ∀ x ∈ N, Reach F s x) :
    N.length ≤ F.length + 1 := by
  have hperm : N.Perm (s :: N.erase s) := List.perm_cons_erase hs
  obtain ⟨G, hGnd, hGF, hGlen, -⟩ := grow_aux F (N.erase s).length
    (N.erase s) [s] (le_refl _)
    (by
      rw [List.singleton_append]
      exact hperm.nodup_iff.mp hN)
    (by
      intro l hl
      rw [List.singleton_append]
      exact ⟨hperm.mem_iff.mp (hend l hl).1, hperm.mem_iff.mp (hend l hl).2⟩)
    (by
      intro b hb
      exact ⟨s, by simp, hspan b (List.mem_of_mem_erase hb)⟩)
  have hle := (List.Nodup.subperm hGnd hGF).length_le
  have h1 : (N.erase s).length = N.length - 1 := List.length_erase_of_mem hs
  have h2 : 0 < N.length := List.length_pos_of_mem hs
  omega

/-! ### `primFindMin`: the scan for the cheapest fringe node -/

theorem primFindMin_fold_inv (graph : GraphData) (st : PrimState) :
    ∀ (L : List (Nat × Node)) (acc : Option Nat × JNum),
    (∀ pr ∈ L, graph.nodes.get? pr.1 = some pr.2) →
    (acc.1 = none → acc.2 = none) →
    (∀ idx, acc.1 = some idx → ∃ node, graph.nodes.get? idx = some node ∧
      node.id ∉ st.mstSet ∧ (st.key.get node.id).getD none = acc.2 ∧
      acc.2 ≠ none) →
    ∀ res, L.foldl (fun acc p =>
        if !st.mstSet.contains p.2.id &&
            jnLt ((st.key.get p.2.id).getD none) acc.2
        then (some p.1, (st.key.get p.2.id).getD none) else acc) acc = res →
    ((res.1 = none → res.2 = none) ∧
     (∀ idx, res.1 = some idx → ∃ node, graph.nodes.get? idx = some node ∧
       node.id ∉ st.mstSet ∧ (st.key.get node.id).getD none = res.2 ∧
       res.2 ≠ none) ∧
     (∀ pr ∈ L, pr.2.id ∉ st.mstSet →
       jnLe res.2 ((st.key.get pr.2.id).getD none) = true) ∧
     jnLe res.2 acc.2 = true) := by
  intro L
  induction L with
  | nil =>
    intro acc hget h1 h2 res hres
    rw [List.foldl_nil] at hres
    subst hres
    exact ⟨h1, h2, by simp, jnLe_refl _⟩
  | cons pr L' ih =>
    intro acc hget h1 h2 res hres
    rw [List.foldl_cons] at hres
    rcases hguard : (!st.mstSet.contains pr.2.id &&
        jnLt ((st.key.get pr.2.id).getD none) acc.2) with _ | _
    · -- no update
      rw [hguard] at hres
      simp only [Bool.false_eq_true, if_false] at hres
      obtain ⟨c1, c2, c3, c4⟩ := ih acc (fun q hq => hget q (by simp [hq]))
        h1 h2 res hres
      refine ⟨c1, c2, ?_, c4⟩
      intro q hq hqm
      rcases List.mem_cons.mp hq with h | h
      · subst h
        have hg2 : st.mstSet.contains q.2.id = true ∨
            jnLt ((st.key.get q.2.id).getD none) acc.2 = false := by
          rcases hc : st.mstSet.contains q.2.id with _ | _
          · rcases hj : jnLt ((st.key.get q.2.id).getD none) acc.2 with _ | _
            · exact Or.inr rfl
            · exfalso
              rw [hc, hj] at hguard
              simp at hguard
          · exact Or.inl rfl
        rcases hg2 with hg | hg
        · exfalso
          have hmem : q.2.id ∈ st.mstSet := by simpa using hg
          exact hqm hmem
        · exact jnLe_trans _ _ _ c4 (jnLe_of_not_lt _ _ hg)
      · exact c3 q h hqm
    · -- update to (some pr.1, key pr.2)
      rw [hguard] at hres
      simp only [if_true] at hres
      have hgt := hguard
      simp only [Bool.and_eq_true, Bool.not_eq_true'] at hgt
      have hnew1 : (some pr.1, (st.key.get pr.2.id).getD none).1 = none →
          (some pr.1, (st.key.get pr.2.id).getD none).2 = none := by
        intro h
        simp at h
      have hprm : pr.2.id ∉ st.mstSet := by
        intro hco
        have := hgt.1
        rw [List.contains_eq_any_beq] at this
        simp only [List.any_eq_false, beq_iff_eq] at this
        exact this pr.2.id hco rfl
      have hfin : ((st.key.get pr.2.id).getD none) ≠ none := by
        intro hco
        rw [hco] at hgt
        simp [jnLt] at hgt
      have hnew2 : ∀ idx, (some pr.1, (st.key.get pr.2.id).getD none).1 =
          some idx → ∃ node, graph.nodes.get? idx = some node ∧
          node.id ∉ st.mstSet ∧
          (st.key.get node.id).getD none =
            (some pr.1, (st.key.get pr.2.id).getD none).2 ∧
          (some pr.1, (st.key.get pr.2.id).getD none).2 ≠ none := by
        intro idx hidx
        simp only [Option.some.injEq] at hidx
        subst hidx
        exact ⟨pr.2, hget pr (by simp), hprm, rfl, hfin⟩
      obtain ⟨c1, c2, c3, c4⟩ := ih _ (fun q hq => hget q (by simp [hq]))
        hnew1 hnew2 res hres
      refine ⟨c1, c2, ?_, ?_⟩
      · intro q hq hqm
        rcases List.mem_cons.mp hq with h | h
        · subst h
          exact c4
        · exact c3 q h hqm
      · exact jnLe_trans _ _ _ c4 (jnLt_le _ _ hgt.2)

theorem primFindMin_none (graph : GraphData) (st : PrimState)
    (h : primFindMin graph st = none) :
    ∀ n ∈ graph.nodes, n.id ∉ st.mstSet →
      (st.key.get n.id).getD none = none := by
  intro n hn hnm
  unfold primFindMin at h
  obtain ⟨c1, c2, c3, c4⟩ := primFindMin_fold_inv graph st graph.nodes.enum
    ((none : Option Nat), (none : JNum))
    (by
      intro pr hpr
      exact List.mem_enum_iff_get?.mp hpr)
    (fun _ => rfl)
    (by
      intro idx hidx
      simp at hidx)
    _ rfl
  obtain ⟨i, hi⟩ := List.get?_of_mem hn
  have hmin := c3 (i, n) (List.mem_enum_iff_get?.mpr hi) hnm
  rw [c1 h] at hmin
  rcases hk : (st.key.get n.id).getD none with _ | k
  · rfl
  · rw [hk] at hmin
    simp [jnLe] at hmin

theorem primFindMin_some (graph : GraphData) (st : PrimState) (u : Nat)
    (h : primFindMin graph st = some u) :
    ∃ node k, graph.nodes.get? u = some node ∧ node.id ∉ st.mstSet ∧
      st.key.get node.id = some (some k) ∧
      ∀ n ∈ graph.nodes, n.id ∉ st.mstSet →
        jnLe (some k) ((st.key.get n.id).getD none) = true := by
  unfold primFindMin at h
  obtain ⟨c1, c2, c3, c4⟩ := primFindMin_fold_inv graph st graph.nodes.enum
    ((none : Option Nat), (none : JNum))
    (by
      intro pr hpr
      exact List.mem_enum_iff_get?.mp hpr)
    (fun _ => rfl)
    (by
      intro idx hidx
      simp at hidx)
    _ rfl
  obtain ⟨node, hnode, hnm, hkey, hfin⟩ := c2 u h
  rcases hres : (st.key.get node.id).getD none with _ | k
  · rw [hres] at hkey
    exact absurd hkey.symm hfin
  · have hget : st.key.get node.id = some (some k) := by
      rcases hg : st.key.get node.id with _ | j
      · rw [hg] at hres
        simp at hres
      · rw [hg] at hres
        simp only [Option.getD_some] at hres
        rw [hres]
    refine ⟨node, k, hnode, hnm, hget, ?_⟩
    intro n hn hnm2
    obtain ⟨i, hi⟩ := List.get?_of_mem hn
    have hmin := c3 (i, n) (List.mem_enum_iff_get?.mpr hi) hnm2
    rw [hres] at hkey
    rw [← hkey] at hmin
    exact hmin
/-! ### `runPrim`: the loop invariant -/

/-- Invariant of `runPrim`'s main loop (`s0` is the start node id). -/
structure PInv (graph : GraphData) (s0 : String) (st : PrimState) : Prop where
  mids : ∀ x ∈ st.mstSet, x ∈ graph.nodes.map Node.id
  mnd : st.mstSet.Nodup
  msv : st.mstSet = [] ∨ s0 ∈ st.mstSet
  kk : ∀ x ∈ graph.nodes.map Node.id, ∃ j, st.key.get x = some j
  kdom : ∀ y j, st.key.get y = some j → y ∈ graph.nodes.map Node.id
  fe : ∀ l ∈ st.mstLinks, EData graph l.source l.target l.weight
  fends : ∀ l ∈ st.mstLinks, l.source ∈ st.mstSet ∧ l.target ∈ st.mstSet
  fcon : ∀ x ∈ st.mstSet, Reach st.mstLinks s0 x
  flen : st.mstLinks.length + 1 = st.mstSet.length ∨
    (st.mstSet = [] ∧ st.mstLinks = [])
  ksound : ∀ y w, y ∉ st.mstSet → y ≠ s0 → st.key.get y = some (some w) →
    ∃ p, (st.parent.get y).getD none = some p ∧ p ∈ st.mstSet ∧
      EData graph p y w
  s0key : st.mstSet = [] → st.key.get s0 = some (some 0)
  init_inf : st.mstSet = [] → ∀ x ∈ graph.nodes.map Node.id, x ≠ s0 →
    st.key.get x = some none
  pnone : st.mstSet = [] → ∀ y, (st.parent.get y).getD none = none
  kcompl : ∀ y p w, y ∉ st.mstSet → p ∈ st.mstSet → EData graph p y w →
    ∃ k, st.key.get y = some (some k) ∧ k ≤ w
  promise : ∀ T, SpanningTree graph T → ∃ Tn, SpanningTree graph Tn ∧
    costOf Tn ≤ costOf T ∧ List.Subperm st.mstLinks Tn

/-- The neighbour scan of one Prim iteration: keys only drop, and every
change is a recorded relaxation from the fresh node `uId`. -/
theorem primRelaxFold_spec (uId : String) :
    ∀ (ens : List AdjEntry) (st : PrimState),
    (∀ en ∈ ens, ∃ j, st.key.get en.node = some j) →
    ∀ res, ens.foldl (fun st v =>
      if (!st.mstSet.contains v.node &&
          (match st.key.get v.node with
           | some kv => jnLt (some v.weight) kv
           | none => false))
      then { st with parent := st.parent.set v.node (some uId),
                     key := st.key.set v.node (some v.weight) }
      else st) st = res →
    res.mstSet = st.mstSet ∧ res.mstLinks = st.mstLinks ∧
    DLe st.key res.key ∧
    (∀ y, (res.key.get y = st.key.get y ∧ res.parent.get y = st.parent.get y) ∨
      (∃ en ∈ ens, en.node = y ∧ y ∉ st.mstSet ∧
        res.key.get y = some (some en.weight) ∧
        res.parent.get y = some (some uId))) ∧
    (∀ en ∈ ens, en.node ∉ st.mstSet →
      ∃ k, res.key.get en.node = some (some k) ∧ k ≤ en.weight) := by
  intro ens
  induction ens with
  | nil =>
    intro st hkeys res hres
    rw [List.foldl_nil] at hres
    subst hres
    exact ⟨rfl, rfl, DLe_refl _, fun y => Or.inl ⟨rfl, rfl⟩, by simp⟩
  | cons en rest ih =>
    intro st hkeys res hres
    rw [List.foldl_cons] at hres
    rcases hguard : (!st.mstSet.contains en.node &&
        (match st.key.get en.node with
         | some kv => jnLt (some en.weight) kv
         | none => false)) with _ | _
    · rw [hguard] at hres
      simp only [Bool.false_eq_true, if_false] at hres
      obtain ⟨c1, c2, c3, c4, c5⟩ := ih st
        (fun e he => hkeys e (by simp [he])) res hres
      refine ⟨c1, c2, c3, ?_, ?_⟩
      · intro y
        rcases c4 y with h | ⟨e', he', h1, h2, h3, h4⟩
        · exact Or.inl h
        · exact Or.inr ⟨e', by simp [he'], h1, h2, h3, h4⟩
      · intro e' he' hem
        rcases List.mem_cons.mp he' with h | h
        · subst h
          obtain ⟨j, hj⟩ := hkeys e' (by simp)
          have hcont : st.mstSet.contains e'.node = false := by
            rcases hc : st.mstSet.contains e'.node with _ | _
            · rfl
            · exfalso
              have hmem2 : e'.node ∈ st.mstSet := by simpa using hc
              exact hem hmem2
          rw [hcont] at hguard
          simp only [Bool.not_false, Bool.true_and] at hguard
          rw [hj] at hguard
          cases j with
          | none => simp [jnLt] at hguard
          | some kv =>
            simp only [jnLt, decide_eq_false_iff_not, not_lt] at hguard
            obtain ⟨j', hj', hle⟩ := (c3 e'.node).2 _ hj
            cases j' with
            | none => simp [jnLe] at hle
            | some k' =>
              simp only [jnLe, decide_eq_true_eq] at hle
              exact ⟨k', hj', by omega⟩
        · exact c5 e' h hem
    · rw [hguard] at hres
      simp only [if_true] at hres
      have hguard2 := hguard
      simp only [Bool.and_eq_true, Bool.not_eq_true'] at hguard2
      have hennm : en.node ∉ st.mstSet := by
        intro hco
        have := hguard2.1
        rw [List.contains_eq_any_beq] at this
        simp only [List.any_eq_false, beq_iff_eq] at this
        exact this en.node hco rfl
      obtain ⟨kv, hkv, hlt⟩ : ∃ kv, st.key.get en.node = some kv ∧
          jnLt (some en.weight) kv = true := by
        rcases hj : st.key.get en.node with _ | kv
        · rw [hj] at hguard2
          simp at hguard2
        · rw [hj] at hguard2
          exact ⟨kv, rfl, hguard2.2⟩
      obtain ⟨c1, c2, c3, c4, c5⟩ := ih
        { st with parent := st.parent.set en.node (some uId),
                  key := st.key.set en.node (some en.weight) }
        (by
          intro e he
          by_cases hee : en.node = e.node
          · refine ⟨some en.weight, ?_⟩
            show (st.key.set en.node (some en.weight)).get e.node = _
            rw [← hee, JSObj.get_set]
          · obtain ⟨j, hj⟩ := hkeys e (by simp [he])
            refine ⟨j, ?_⟩
            show (st.key.set en.node (some en.weight)).get e.node = _
            rw [JSObj.get_set_ne _ _ _ _ hee]
            exact hj)
        res hres
      have hstep : DLe st.key
          (st.key.set en.node (some en.weight)) := by
        intro y
        by_cases hy : en.node = y
        · subst hy
          constructor
          · intro h
            rw [h] at hkv
            exact absurd hkv (by simp)
          · intro j hj
            rw [hkv] at hj
            simp only [Option.some.injEq] at hj
            subst hj
            exact ⟨some en.weight, JSObj.get_set _ _ _, jnLt_le _ _ hlt⟩
        · constructor
          · intro h
            rw [JSObj.get_set_ne _ _ _ _ hy]
            exact h
          · intro j hj
            rw [JSObj.get_set_ne _ _ _ _ hy]
            exact ⟨j, hj, jnLe_refl _⟩
      refine ⟨c1, c2, DLe_trans hstep c3, ?_, ?_⟩
      · intro y
        rcases c4 y with ⟨h1, h2⟩ | ⟨e', he', h1, h2, h3, h4⟩
        · by_cases hy : en.node = y
          · subst hy
            refine Or.inr ⟨en, by simp, rfl, hennm, ?_, ?_⟩
            · rw [h1]
              exact JSObj.get_set _ _ _
            · rw [h2]
              exact JSObj.get_set _ _ _
          · refine Or.inl ⟨?_, ?_⟩
            · rw [h1]
              exact JSObj.get_set_ne _ _ _ _ hy
            · rw [h2]
              exact JSObj.get_set_ne _ _ _ _ hy
        · exact Or.inr ⟨e', by simp [he'], h1, h2, h3, h4⟩
      · intro e' he' hem
        rcases List.mem_cons.mp he' with h | h
        · subst h
          obtain ⟨j', hj', hle⟩ := (c3 e'.node).2 (some e'.weight)
            (JSObj.get_set _ _ _)
          cases j' with
          | none => simp [jnLe] at hle
          | some k' =>
            simp only [jnLe, decide_eq_true_eq] at hle
            exact ⟨k', hj', hle⟩
        · exact c5 e' h hem
/-- One iteration of `runPrim`: on `none` the fringe is empty, so everything
reachable is already in the tree; on `some` the invariant advances and the
tree grows by exactly one node. -/
theorem primIteration_spec (graph : GraphData) (hwf : WellFormed graph)
    (hdir : graph.isDirected = false)
    (adj : JSObj (List AdjEntry)) (hadj : getAdjacencyList graph = some adj)
    (s0 : String) (hs0 : s0 ∈ graph.nodes.map Node.id)
    (st : PrimState) (hinv : PInv graph s0 st) :
    (primIteration graph adj st = none →
      ∀ x ∈ graph.nodes.map Node.id, Reach graph.links s0 x →
        x ∈ st.mstSet) ∧
    (∀ st', primIteration graph adj st = some st' →
      PInv graph s0 st' ∧ st'.mstSet.length = st.mstSet.length + 1) := by
  rcases hfind : primFindMin graph st with _ | u
  · constructor
    · intro _ x hx hr
      by_contra hxm
      have hfields := primFindMin_none graph st hfind
      rcases hms : st.mstSet with _ | ⟨m0, ms⟩
      · -- nothing selected although the start has key 0
        obtain ⟨n0, hn0, hn0id⟩ := List.mem_map.mp hs0
        have h1 := hfields n0 hn0 (by rw [hms, hn0id]; simp)
        rw [hn0id, hinv.s0key hms] at h1
        simp at h1
      · have hs0m : s0 ∈ st.mstSet := by
          rcases hinv.msv with h | h
          · rw [h] at hms
            simp at hms
          · exact h
        obtain ⟨g, hg, a, b, hjg, haS, hbS⟩ :=
          reach_crossing graph.links (· ∈ st.mstSet) s0 x hr hs0m hxm
        have hE : EData graph a b g.weight := by
          rcases hjg with ⟨h1, h2⟩ | ⟨h1, h2⟩
          · exact ⟨g, hg, rfl, Or.inl ⟨h1, h2⟩⟩
          · exact ⟨g, hg, rfl, Or.inr ⟨hdir, h1, h2⟩⟩
        obtain ⟨kb, hkb, -⟩ := hinv.kcompl b a g.weight hbS haS hE
        have hbids : b ∈ graph.nodes.map Node.id :=
          (EData_mem_ids graph hwf a b g.weight hE).2
        obtain ⟨nb, hnb, hnbid⟩ := List.mem_map.mp hbids
        have h1 := hfields nb hnb (by rw [hnbid]; exact hbS)
        rw [hnbid, hkb] at h1
        simp at h1
    · intro st' hco
      unfold primIteration at hco
      rw [hfind] at hco
      exact absurd hco (by simp)
  · constructor
    · intro hco
      unfold primIteration at hco
      rw [hfind] at hco
      dsimp only at hco
      exact absurd hco (by simp)
    · intro st' hrun
      unfold primIteration at hrun
      rw [hfind] at hrun
      dsimp only at hrun
      obtain ⟨node, k, hnode, hnm, hkey, hmin⟩ := primFindMin_some graph st u hfind
      have huid : ((graph.nodes.get? u).map (·.id)).getD "" = node.id := by
        rw [hnode]
        rfl
      rw [huid] at hrun
      have hnodemem : node ∈ graph.nodes := by
        have := List.get?_eq_some.mp hnode
        obtain ⟨hlt, hget⟩ := this
        rw [← hget]
        exact List.get_mem _ _ _
      have huidids : node.id ∈ graph.nodes.map Node.id :=
        List.mem_map.mpr ⟨node, hnodemem, rfl⟩
      have hsoundW := getAdjacencyList_soundW graph adj hadj
      have hens : ∀ en ∈ (adj.get node.id).getD [],
          EData graph node.id en.node en.weight := by
        intro en hen
        rcases hgadj : adj.get node.id with _ | lst
        · rw [hgadj] at hen
          simp at hen
        · rw [hgadj] at hen
          simp only [Option.getD_some] at hen
          exact hsoundW node.id lst hgadj en hen
      have hkeys : ∀ en ∈ (adj.get node.id).getD [],
          ∃ j, st.key.get en.node = some j :=
        fun en hen =>
          hinv.kk en.node (EData_mem_ids graph hwf _ _ _ (hens en hen)).2
      have hmnd : (st.mstSet ++ [node.id]).Nodup := by
        rw [List.nodup_append]
        refine ⟨hinv.mnd, List.nodup_singleton _, ?_⟩
        intro a ha hb
        simp only [List.mem_singleton] at hb
        subst hb
        exact hnm ha
      have hmids : ∀ x ∈ st.mstSet ++ [node.id],
          x ∈ graph.nodes.map Node.id := by
        intro x hx
        rcases List.mem_append.mp hx with h | h
        · exact hinv.mids x h
        · simp only [List.mem_singleton] at h
          subst h
          exact huidids
      rw [hkey] at hrun
      dsimp only at hrun
      rcases hpar : (st.parent.get node.id).getD none with _ | p
      · -- no recorded parent: this is the very first selection (the start)
        rw [hpar] at hrun
        dsimp only at hrun
        simp only [Option.some.injEq] at hrun
        have hmse : st.mstSet = [] := by
          by_contra hne
          have hs0m : s0 ∈ st.mstSet := by
            rcases hinv.msv with h | h
            · exact absurd h hne
            · exact h
          have huns : node.id ≠ s0 := by
            intro hco
            rw [hco] at hnm
            exact hnm hs0m
          obtain ⟨q, hq, -, -⟩ :=
            hinv.ksound node.id k hnm huns hkey
          rw [hpar] at hq
          exact absurd hq (by simp)
        have hus : node.id = s0 := by
          by_contra hne
          have := hinv.init_inf hmse node.id huidids hne
          rw [hkey] at this
          simp at this
        have hlinks0 : st.mstLinks = [] := by
          rcases hinv.flen with h | h
          · rw [hmse] at h
            simp at h
          · exact h.2
        obtain ⟨R2, hEQ, hR2set, hR2links, hR2key, hR2par⟩ :
            ∃ R2 : PrimState,
              List.foldl (fun st v =>
                if (!st.mstSet.contains v.node &&
                    (match st.key.get v.node with
                     | some kv => jnLt (some v.weight) kv
                     | none => false))
                then { st with parent := st.parent.set v.node (some node.id),
                               key := st.key.set v.node (some v.weight) }
                else st) R2 ((adj.get node.id).getD []) = st' ∧
              R2.mstSet = st.mstSet ++ [node.id] ∧
              R2.mstLinks = st.mstLinks ∧
              R2.key = st.key ∧ R2.parent = st.parent :=
          ⟨_, hrun, rfl, rfl, rfl, rfl⟩
        obtain ⟨c1, c2, c3, c4, c5⟩ := primRelaxFold_spec node.id
          ((adj.get node.id).getD []) R2
          (by
            rw [hR2key]
            exact hkeys)
          st' hEQ
        rw [hR2set] at c1
        rw [hR2links, hlinks0] at c2
        rw [hR2key] at c3
        simp only [hR2key, hR2par, hR2set] at c4
        simp only [hR2key, hR2set] at c5
        have hlen' : st'.mstSet.length = st.mstSet.length + 1 := by
          rw [c1]
          simp
        refine ⟨⟨?_, ?_, ?_, ?_, ?_, ?_, ?_, ?_, ?_, ?_, ?_, ?_, ?_, ?_, ?_⟩,
          hlen'⟩
        · rw [c1]
          exact hmids
        · rw [c1]
          exact hmnd
        · right
          rw [c1, hmse, ← hus]
          simp
        · intro x hx
          rcases c4 x with ⟨h1, -⟩ | ⟨en, hen, h1, h2, h3, h4⟩
          · rw [h1]
            exact hinv.kk x hx
          · exact ⟨some en.weight, h3⟩
        · intro y j hj
          rcases c4 y with ⟨h1, -⟩ | ⟨en, hen, h1, h2, h3, h4⟩
          · rw [h1] at hj
            exact hinv.kdom y j hj
          · rw [← h1]
            exact (EData_mem_ids graph hwf _ _ _ (hens en hen)).2
        · rw [c2]
          intro l hl
          simp at hl
        · rw [c2]
          intro l hl
          simp at hl
        · intro x hx
          rw [c1, hmse] at hx
          simp only [List.nil_append, List.mem_singleton] at hx
          subst hx
          rw [← hus]
          exact Reach.refl _
        · left
          rw [c1, c2, hmse]
          simp
        · intro y w hym hys hkw
          rcases c4 y with ⟨h1, h2⟩ | ⟨en, hen, h1, h2, h3, h4⟩
          · -- untouched keys were all infinite except the start
            exfalso
            rw [h1] at hkw
            have hyid : y ∈ graph.nodes.map Node.id :=
              hinv.kdom y (some w) hkw
            have := hinv.init_inf hmse y hyid hys
            rw [hkw] at this
            simp at this
          · refine ⟨node.id, ?_, ?_, ?_⟩
            · rw [h4]
              rfl
            · rw [c1]
              simp
            · rw [h3] at hkw
              simp only [Option.some.injEq] at hkw
              rw [← h1, ← hkw]
              exact hens en hen
        · intro hco
          rw [c1] at hco
          simp at hco
        · intro hco
          rw [c1] at hco
          simp at hco
        · intro hco
          rw [c1] at hco
          simp at hco
        · intro y q w hym hqm hE
          rw [c1] at hym hqm
          rcases List.mem_append.mp hqm with hq1 | hq1
          · rw [hmse] at hq1
            simp at hq1
          · simp only [List.mem_singleton] at hq1
            subst hq1
            -- a usable edge from the fresh node: it was just relaxed
            obtain ⟨lst, hlst, en, hen, hennode, henw⟩ :
                HasEntryW adj node.id y w := by
              obtain ⟨l0, hl0, hl0w, hl0or⟩ := hE
              rcases hl0or with ⟨h1, h2⟩ | ⟨hd, h1, h2⟩
              · have := (getAdjacencyList_completeW graph adj hadj l0 hl0).1
                rw [h1, h2, ← hl0w] at this
                exact this
              · have := (getAdjacencyList_completeW graph adj hadj l0 hl0).2 hd
                rw [h1, h2, ← hl0w] at this
                exact this
            have henmem : en ∈ (adj.get node.id).getD [] := by
              rw [hlst]
              exact hen
            have hynm : y ∉ st.mstSet := by
              intro hco
              exact hym (List.mem_append.mpr (Or.inl hco))
            obtain ⟨kf, hkf, hkfle⟩ := c5 en henmem (by rw [hennode]; exact hym)
            rw [hennode] at hkf
            rw [henw] at hkfle
            exact ⟨kf, hkf, hkfle⟩
        · intro T hT
          obtain ⟨Tn, hTn, hc, hsub⟩ := hinv.promise T hT
          refine ⟨Tn, hTn, hc, ?_⟩
          rw [c2]
          simpa using hsub
      · -- a recorded parent: add the tree link from `p` to the new node
        rw [hpar] at hrun
        dsimp only at hrun
        simp only [Option.some.injEq] at hrun
        have hs0m : s0 ∈ st.mstSet := by
          rcases hinv.msv with h | h
          · exfalso
            have := hinv.pnone h node.id
            rw [hpar] at this
            exact absurd this (by simp)
          · exact h
        have huns : node.id ≠ s0 := by
          intro hco
          rw [hco] at hnm
          exact hnm hs0m
        obtain ⟨p', hp', hpmem, hEnew0⟩ := hinv.ksound node.id k hnm huns hkey
        rw [hpar] at hp'
        simp only [Option.some.injEq] at hp'
        subst hp'
        have hEnew : EData graph p node.id k := hEnew0
        obtain ⟨R2, hEQ, hR2set, hR2links, hR2key, hR2par⟩ :
            ∃ R2 : PrimState,
              List.foldl (fun st v =>
                if (!st.mstSet.contains v.node &&
                    (match st.key.get v.node with
                     | some kv => jnLt (some v.weight) kv
                     | none => false))
                then { st with parent := st.parent.set v.node (some node.id),
                               key := st.key.set v.node (some v.weight) }
                else st) R2 ((adj.get node.id).getD []) = st' ∧
              R2.mstSet = st.mstSet ++ [node.id] ∧
              R2.mstLinks = st.mstLinks ++
                [(⟨p, node.id, k, none, none⟩ : Link)] ∧
              R2.key = st.key ∧ R2.parent = st.parent :=
          ⟨_, hrun, rfl, rfl, rfl, rfl⟩
        obtain ⟨c1, c2, c3, c4, c5⟩ := primRelaxFold_spec node.id
          ((adj.get node.id).getD []) R2
          (by
            rw [hR2key]
            exact hkeys)
          st' hEQ
        rw [hR2set] at c1
        rw [hR2links] at c2
        rw [hR2key] at c3
        simp only [hR2key, hR2par, hR2set] at c4
        simp only [hR2key, hR2set] at c5
        have hlen' : st'.mstSet.length = st.mstSet.length + 1 := by
          rw [c1]
          simp
        have henewJ : EJoins (⟨p, node.id, k, none, none⟩ : Link) p node.id :=
          Or.inl ⟨rfl, rfl⟩
        have hCto : ∀ z, Reach st.mstLinks p z → z ∈ st.mstSet := by
          intro z hz
          rcases reach_endpoints st.mstLinks (· ∈ st.mstSet) hinv.fends p z hz
            with he | ⟨-, h2⟩
          · rw [← he]
            exact hpmem
          · exact h2
        have hCfrom : ∀ z ∈ st.mstSet, Reach st.mstLinks p z := by
          intro z hz
          exact (hinv.fcon p hpmem).comm.trans (hinv.fcon z hz)
        refine ⟨⟨?_, ?_, ?_, ?_, ?_, ?_, ?_, ?_, ?_, ?_, ?_, ?_, ?_, ?_, ?_⟩,
          hlen'⟩
        · rw [c1]
          exact hmids
        · rw [c1]
          exact hmnd
        · right
          rw [c1]
          exact List.mem_append.mpr (Or.inl hs0m)
        · intro x hx
          rcases c4 x with ⟨h1, -⟩ | ⟨en, hen, h1, h2, h3, h4⟩
          · rw [h1]
            exact hinv.kk x hx
          · exact ⟨some en.weight, h3⟩
        · intro y j hj
          rcases c4 y with ⟨h1, -⟩ | ⟨en, hen, h1, h2, h3, h4⟩
          · rw [h1] at hj
            exact hinv.kdom y j hj
          · rw [← h1]
            exact (EData_mem_ids graph hwf _ _ _ (hens en hen)).2
        · rw [c2]
          intro l hl
          rcases List.mem_append.mp hl with h | h
          · exact hinv.fe l h
          · simp only [List.mem_singleton] at h
            subst h
            exact hEnew
        · rw [c1, c2]
          intro l hl
          rcases List.mem_append.mp hl with h | h
          · exact ⟨List.mem_append.mpr (Or.inl (hinv.fends l h).1),
              List.mem_append.mpr (Or.inl (hinv.fends l h).2)⟩
          · simp only [List.mem_singleton] at h
            subst h
            exact ⟨List.mem_append.mpr (Or.inl hpmem), by simp⟩
        · rw [c1, c2]
          intro x hx
          have hsub : ∀ l ∈ st.mstLinks,
              l ∈ st.mstLinks ++ [(⟨p, node.id, k, none, none⟩ : Link)] :=
            fun l hl => List.mem_append.mpr (Or.inl hl)
          rcases List.mem_append.mp hx with h | h
          · exact Reach.mono hsub (hinv.fcon x h)
          · simp only [List.mem_singleton] at h
            subst h
            refine Reach.trans (Reach.mono hsub (hinv.fcon p hpmem)) ?_
            exact Reach.single _ (List.mem_append.mpr (Or.inr (by simp)))
              henewJ
        · left
          rw [c1, c2]
          simp only [List.length_append, List.length_singleton]
          rcases hinv.flen with h | h
          · omega
          · exfalso
            rw [h.1] at hs0m
            simp at hs0m
        · intro y w hym hys hkw
          rcases c4 y with ⟨h1, h2⟩ | ⟨en, hen, h1, h2, h3, h4⟩
          · rw [h1] at hkw
            have hynm : y ∉ st.mstSet := by
              intro hco
              exact hym (by rw [c1]; exact List.mem_append.mpr (Or.inl hco))
            obtain ⟨q, hq, hqm, hqE⟩ := hinv.ksound y w hynm hys hkw
            refine ⟨q, ?_, ?_, hqE⟩
            · rw [h2]
              exact hq
            · rw [c1]
              exact List.mem_append.mpr (Or.inl hqm)
          · refine ⟨node.id, ?_, ?_, ?_⟩
            · rw [h4]
              rfl
            · rw [c1]
              simp
            · rw [h3] at hkw
              simp only [Option.some.injEq] at hkw
              rw [← h1, ← hkw]
              exact hens en hen
        · intro hco
          rw [c1] at hco
          simp at hco
        · intro hco
          rw [c1] at hco
          simp at hco
        · intro hco
          rw [c1] at hco
          simp at hco
        · intro y q w hym hqm hE
          rw [c1] at hym hqm
          have hynm : y ∉ st.mstSet := by
            intro hco
            exact hym (List.mem_append.mpr (Or.inl hco))
          rcases List.mem_append.mp hqm with hq1 | hq1
          · obtain ⟨kb, hkb, hkble⟩ := hinv.kcompl y q w hynm hq1 hE
            obtain ⟨j', hj', hle⟩ := (c3 y).2 _ hkb
            cases j' with
            | none => simp [jnLe] at hle
            | some k' =>
              simp only [jnLe, decide_eq_true_eq] at hle
              exact ⟨k', hj', by omega⟩
          · simp only [List.mem_singleton] at hq1
            subst hq1
            obtain ⟨lst, hlst, en, hen, hennode, henw⟩ :
                HasEntryW adj node.id y w := by
              obtain ⟨l0, hl0, hl0w, hl0or⟩ := hE
              rcases hl0or with ⟨h1, h2⟩ | ⟨hd, h1, h2⟩
              · have := (getAdjacencyList_completeW graph adj hadj l0 hl0).1
                rw [h1, h2, ← hl0w] at this
                exact this
              · have := (getAdjacencyList_completeW graph adj hadj l0 hl0).2 hd
                rw [h1, h2, ← hl0w] at this
                exact this
            have henmem : en ∈ (adj.get node.id).getD [] := by
              rw [hlst]
              exact hen
            obtain ⟨kf, hkf, hkfle⟩ := c5 en henmem
              (by rw [hennode]; exact hym)
            rw [hennode] at hkf
            rw [henw] at hkfle
            exact ⟨kf, hkf, hkfle⟩
        · intro T hT
          obtain ⟨T1, hT1, hc1, hsub1⟩ := hinv.promise T hT
          have hnew : ¬ Reach st.mstLinks p node.id := by
            intro hco
            exact hnm (hCto _ hco)
          have hminE : ∀ g ∈ graph.links,
              ((Reach st.mstLinks p g.source ∧
                ¬ Reach st.mstLinks p g.target) ∨
               (Reach st.mstLinks p g.target ∧
                ¬ Reach st.mstLinks p g.source)) →
              k ≤ g.weight := by
            intro g hg hcross
            have hbd : ∃ b, b ∉ st.mstSet ∧ b ∈ graph.nodes.map Node.id ∧
                ∃ kb, st.key.get b = some (some kb) ∧ kb ≤ g.weight := by
              rcases hcross with ⟨h1, h2⟩ | ⟨h1, h2⟩
              · have hbnm : g.target ∉ st.mstSet := fun hco => h2 (hCfrom _ hco)
                refine ⟨g.target, hbnm, (hwf g hg).2, ?_⟩
                exact hinv.kcompl g.target g.source g.weight hbnm (hCto _ h1)
                  ⟨g, hg, rfl, Or.inl ⟨rfl, rfl⟩⟩
              · have hbnm : g.source ∉ st.mstSet := fun hco => h2 (hCfrom _ hco)
                refine ⟨g.source, hbnm, (hwf g hg).1, ?_⟩
                exact hinv.kcompl g.source g.target g.weight hbnm (hCto _ h1)
                  ⟨g, hg, rfl, Or.inr ⟨hdir, rfl, rfl⟩⟩
            obtain ⟨b, hbnm, hbids, kb, hkb, hkbw⟩ := hbd
            obtain ⟨nb, hnb, hnbid⟩ := List.mem_map.mp hbids
            have hm2 := hmin nb hnb (by rw [hnbid]; exact hbnm)
            rw [hnbid, hkb] at hm2
            simp only [Option.getD_some, jnLe, decide_eq_true_eq] at hm2
            omega
          obtain ⟨T2, hT2, hc2, hsub2⟩ := promise_step graph hwf st.mstLinks
            (⟨p, node.id, k, none, none⟩ : Link) (by exact hEnew)
            (by exact hnew) (by exact hminE) T1 hT1 hsub1
          refine ⟨T2, hT2, le_trans hc2 hc1, ?_⟩
          rw [c2]
          exact hsub2
theorem primLoop_spec (graph : GraphData) (hwf : WellFormed graph)
    (hdir : graph.isDirected = false)
    (adj : JSObj (List AdjEntry)) (hadj : getAdjacencyList graph = some adj)
    (s0 : String) (hs0 : s0 ∈ graph.nodes.map Node.id) :
    ∀ (fuel : Nat) (st : PrimState), PInv graph s0 st →
    PInv graph s0 (primLoop graph adj fuel st) ∧
    (st.mstSet.length + fuel ≤ (primLoop graph adj fuel st).mstSet.length ∨
     ∀ x ∈ graph.nodes.map Node.id, Reach graph.links s0 x →
       x ∈ (primLoop graph adj fuel st).mstSet) := by
  intro fuel
  induction fuel with
  | zero =>
    intro st hinv
    refine ⟨hinv, Or.inl ?_⟩
    show st.mstSet.length + 0 ≤ st.mstSet.length
    omega
  | succ f ih =>
    intro st hinv
    obtain ⟨hnone, hsome⟩ :=
      primIteration_spec graph hwf hdir adj hadj s0 hs0 st hinv
    rcases hit : primIteration graph adj st with _ | st2
    · have hres : primLoop graph adj (f + 1) st = st := by
        unfold primLoop
        rw [hit]
      rw [hres]
      exact ⟨hinv, Or.inr (hnone hit)⟩
    · obtain ⟨hinv2, hlen2⟩ := hsome st2 hit
      have hres : primLoop graph adj (f + 1) st = primLoop graph adj f st2 := by
        rw [primLoop, hit]
      rw [hres]
      obtain ⟨hinv3, hcase⟩ := ih st2 hinv2
      refine ⟨hinv3, ?_⟩
      rcases hcase with h | h
      · left
        omega
      · right
        exact h

/-- The loop invariant holds of `runPrim`'s initial state. -/
theorem primInit_inv (graph : GraphData) (s0 : String)
    (hs0 : s0 ∈ graph.nodes.map Node.id) (st : PrimState)
    (hk : st.key = (graph.nodes.foldl
      (fun m n => JSObj.set m n.id (none : JNum)) []).set s0 (some 0))
    (hp : st.parent = JSObj.set ([] : JSObj (Option String)) s0 none)
    (hm : st.mstSet = []) (hl : st.mstLinks = []) :
    PInv graph s0 st := by
  have hkget : ∀ x, st.key.get x =
      if x = s0 then some (some 0)
      else if x ∈ graph.nodes.map Node.id then some none else none := by
    intro x
    rw [hk]
    by_cases hxs : x = s0
    · rw [hxs, JSObj.get_set, if_pos rfl]
    · rw [JSObj.get_set_ne _ _ _ _ (fun h => hxs h.symm), if_neg hxs,
        get_foldl_setconst]
      simp
  have hpget : ∀ y, (st.parent.get y).getD none = none := by
    intro y
    rw [hp]
    by_cases hys : s0 = y
    · subst hys
      rw [JSObj.get_set]
      rfl
    · rw [JSObj.get_set_ne _ _ _ _ hys]
      rfl
  refine ⟨?_, ?_, ?_, ?_, ?_, ?_, ?_, ?_, ?_, ?_, ?_, ?_, ?_, ?_, ?_⟩
  · intro x hx
    rw [hm] at hx
    simp at hx
  · rw [hm]
    exact List.nodup_nil
  · exact Or.inl hm
  · intro x hx
    rw [hkget x]
    by_cases hxs : x = s0
    · rw [if_pos hxs]
      exact ⟨_, rfl⟩
    · rw [if_neg hxs, if_pos hx]
      exact ⟨_, rfl⟩
  · intro y j hj
    rw [hkget y] at hj
    by_cases hys : y = s0
    · rw [hys]
      exact hs0
    · rw [if_neg hys] at hj
      by_cases hyi : y ∈ graph.nodes.map Node.id
      · exact hyi
      · rw [if_neg hyi] at hj
        exact absurd hj (by simp)
  · rw [hl]
    intro l hl2
    simp at hl2
  · rw [hl]
    intro l hl2
    simp at hl2
  · intro x hx
    rw [hm] at hx
    simp at hx
  · exact Or.inr ⟨hm, hl⟩
  · intro y w hym hys hkw
    rw [hkget y, if_neg hys] at hkw
    exfalso
    by_cases hyi : y ∈ graph.nodes.map Node.id
    · rw [if_pos hyi] at hkw
      simp at hkw
    · rw [if_neg hyi] at hkw
      simp at hkw
  · intro _
    rw [hkget s0, if_pos rfl]
  · intro _ x hx hxs
    rw [hkget x, if_neg hxs, if_pos hx]
  · intro _ y
    exact hpget y
  · intro y p w hym hpm hE
    rw [hm] at hpm
    simp at hpm
  · intro T hT
    rw [hl]
    exact ⟨T, hT, le_refl _, List.nil_subperm⟩

/-- On a connected graph, Prim's loop run for `|nodes|` iterations from the
empty tree produces a spanning tree that embeds into a spanning tree at most
as expensive as any given one. -/
theorem primRun_core (graph : GraphData) (hwf : WellFormed graph)
    (hnodup : (graph.nodes.map Node.id).Nodup)
    (hdir : graph.isDirected = false)
    (adj : JSObj (List AdjEntry)) (hadj : getAdjacencyList graph = some adj)
    (s0 : String) (hs0 : s0 ∈ graph.nodes.map Node.id)
    (hconn : ∀ x ∈ graph.nodes.map Node.id, ∀ y ∈ graph.nodes.map Node.id,
      Reach graph.links x y)
    (st0 : PrimState) (hinv0 : PInv graph s0 st0) (hm0 : st0.mstSet = []) :
    SpanningTree graph (primLoop graph adj graph.nodes.length st0).mstLinks ∧
    ∀ T, SpanningTree graph T → ∃ Tn, SpanningTree graph Tn ∧
      costOf Tn ≤ costOf T ∧
      List.Subperm (primLoop graph adj graph.nodes.length st0).mstLinks Tn := by
  obtain ⟨hfin, hcase⟩ := primLoop_spec graph hwf hdir adj hadj s0 hs0
    graph.nodes.length st0 hinv0
  have hfull : ∀ x ∈ graph.nodes.map Node.id,
      x ∈ (primLoop graph adj graph.nodes.length st0).mstSet := by
    rcases hcase with h | h
    · intro x hx
      rw [hm0] at h
      simp only [List.length_nil, Nat.zero_add] at h
      have hsub : List.Subperm
          (primLoop graph adj graph.nodes.length st0).mstSet
          (graph.nodes.map Node.id) :=
        List.Nodup.subperm hfin.mnd (fun a ha => hfin.mids a ha)
      have hperm := hsub.perm_of_length_le (by
        rw [List.length_map]
        exact h)
      exact hperm.mem_iff.mpr hx
    · intro x hx
      exact h x hx (hconn s0 hs0 x hx)
  have hslen : (primLoop graph adj graph.nodes.length st0).mstSet.length =
      graph.nodes.length := by
    have hle1 := (List.Nodup.subperm hfin.mnd
      (fun a ha => hfin.mids a ha)).length_le
    have hle2 := (List.Nodup.subperm hnodup hfull).length_le
    rw [List.length_map] at hle1 hle2
    omega
  constructor
  · refine ⟨hfin.fe, ?_, ?_⟩
    · rcases hfin.flen with h2 | h2
      · rw [h2]
        exact hslen
      · exfalso
        have := hfull s0 hs0
        rw [h2.1] at this
        simp at this
    · intro x hx y hy
      exact ((hfin.fcon x (hfull x hx)).comm).trans (hfin.fcon y (hfull y hy))
  · exact hfin.promise

/-- `runPrim` on a connected, nonempty, undirected graph returns a minimum
spanning tree (as witnessed by an embedding into an improvement of any
competitor spanning tree). -/
theorem runPrim_spec (graph : GraphData) (hwf : WellFormed graph)
    (hnodup : (graph.nodes.map Node.id).Nodup)
    (hdir : graph.isDirected = false) (hne : graph.nodes ≠ [])
    (hconn : ∀ x ∈ graph.nodes.map Node.id, ∀ y ∈ graph.nodes.map Node.id,
      Reach graph.links x y) :
    ∃ res P, runPrim graph = some res ∧ res.mstLinks = some P ∧
      SpanningTree graph P ∧
      ∀ T, SpanningTree graph T → ∃ Tn, SpanningTree graph Tn ∧
        costOf Tn ≤ costOf T ∧ List.Subperm P Tn := by
  obtain ⟨adj, hadj, -⟩ := getAdjacencyList_wf graph hwf
  unfold runPrim
  rw [hdir]
  simp only [Bool.false_eq_true, if_false]
  split
  next heq =>
    exfalso
    rw [List.head?_eq_none_iff] at heq
    exact hne heq
  next startNodeObj heq =>
    have hs0 : startNodeObj.id ∈ graph.nodes.map Node.id := by
      refine List.mem_map.mpr ⟨startNodeObj, ?_, rfl⟩
      cases hns : graph.nodes with
      | nil =>
        rw [hns] at heq
        simp at heq
      | cons n t =>
        rw [hns] at heq
        simp only [List.head?_cons, Option.some.injEq] at heq
        rw [← heq]
        simp
    rw [hadj]
    dsimp only
    refine ⟨_, _, rfl, rfl, ?_, ?_⟩
    · exact (primRun_core graph hwf hnodup hdir adj hadj startNodeObj.id hs0
        hconn _ (primInit_inv graph startNodeObj.id hs0 _ (by rfl) (by rfl)
          (by rfl) (by rfl)) (by rfl)).1
    · exact (primRun_core graph hwf hnodup hdir adj hadj startNodeObj.id hs0
        hconn _ (primInit_inv graph startNodeObj.id hs0 _ (by rfl) (by rfl)
          (by rfl) (by rfl)) (by rfl)).2
/-! ### `runKruskal`: union-find roots, the cut invariant and the promise -/

/-- `k`'s union-find root: the last node of its parent chain. -/
def RootsTo (parent : JSObj String) (k r : String) : Prop :=
  ∃ l, UFChain parent k l ∧ l.getLast? = some r

/-- Two parent chains from the same node end in the same root. -/
theorem ufChain_getLast_eq {parent : JSObj String} :
    ∀ {k : String} {l1 : List String}, UFChain parent k l1 →
    ∀ {l2 : List String}, UFChain parent k l2 →
    l1.getLast? = l2.getLast? := by
  intro k l1 h1
  induction h1 with
  | root k hk =>
    intro l2 h2
    cases h2 with
    | root _ hk2 => rfl
    | step _ p2 l2' hk2 hne2 hch2 =>
      rw [hk] at hk2
      simp only [Option.some.injEq] at hk2
      exact absurd hk2.symm hne2
  | step k p l hk hne hch ih =>
    intro l2 h2
    cases h2 with
    | root _ hk2 =>
      rw [hk2] at hk
      simp only [Option.some.injEq] at hk
      exact absurd hk.symm hne
    | step _ p2 l2' hk2 hne2 hch2 =>
      rw [hk] at hk2
      simp only [Option.some.injEq] at hk2
      subst hk2
      have h3 := ih hch2
      rcases l with _ | ⟨a, t⟩
      · exact absurd rfl hch.ne_nil
      · rcases l2' with _ | ⟨b, s⟩
        · exact absurd rfl hch2.ne_nil
        · rw [List.getLast?_cons_cons, List.getLast?_cons_cons]
          exact h3

theorem rootsTo_fun {parent : JSObj String} {k r1 r2 : String}
    (h1 : RootsTo parent k r1) (h2 : RootsTo parent k r2) : r1 = r2 := by
  obtain ⟨l1, hc1, hl1⟩ := h1
  obtain ⟨l2, hc2, hl2⟩ := h2
  have h3 := ufChain_getLast_eq hc1 hc2
  rw [hl1, hl2] at h3
  simp only [Option.some.injEq] at h3
  exact h3

/-- A successful `find` computes the chain root. -/
theorem rootsTo_of_ufFind (parent : JSObj String) :
    ∀ (fuel : Nat) (k r : String), ufFind parent fuel k = some r →
    RootsTo parent k r := by
  intro fuel
  induction fuel with
  | zero => intro k r h; exact absurd h (by simp [ufFind])
  | succ f ih =>
    intro k r h
    simp only [ufFind] at h
    rcases hk : parent.get k with _ | p
    · rw [hk] at h
      exact absurd h (by simp)
    · simp only [hk] at h
      by_cases hpk : p = k
      · rw [if_pos hpk] at h
        simp only [Option.some.injEq] at h
        subst h
        refine ⟨[k], UFChain.root k ?_, rfl⟩
        rw [hk, hpk]
      · rw [if_neg hpk] at h
        obtain ⟨l, hch, hlast⟩ := ih p r h
        refine ⟨k :: l, UFChain.step k p l hk hpk hch, ?_⟩
        rcases l with _ | ⟨a, t⟩
        · exact absurd rfl hch.ne_nil
        · rw [List.getLast?_cons_cons]
          exact hlast

/-- Linking root `rI` beneath root `rJ` redirects exactly the nodes rooted at
`rI` to `rJ` and keeps every other root. -/
theorem rootsTo_union (parent : JSObj String) (rI rJ : String)
    (hI : parent.get rI = some rI) (hJ : parent.get rJ = some rJ)
    (hne : rI ≠ rJ) :
    ∀ (k r : String), RootsTo parent k r →
    RootsTo (parent.set rI rJ) k (if r = rI then rJ else r) := by
  intro k r hr
  obtain ⟨l, hch, hlast⟩ := hr
  induction hch with
  | root k0 hk0 =>
    simp only [List.getLast?_singleton, Option.some.injEq] at hlast
    subst hlast
    by_cases hkI : k0 = rI
    · subst hkI
      rw [if_pos rfl]
      refine ⟨[k0, rJ], UFChain.step k0 rJ [rJ] ?_ ?_ (UFChain.root rJ ?_), ?_⟩
      · exact JSObj.get_set _ _ _
      · exact fun h => hne h.symm
      · rw [JSObj.get_set_ne _ _ _ _ hne]
        exact hJ
      · rw [List.getLast?_cons_cons]
        rfl
    · rw [if_neg hkI]
      refine ⟨[k0], UFChain.root k0 ?_, rfl⟩
      rw [JSObj.get_set_ne _ _ _ _ (fun h => hkI h.symm)]
      exact hk0
  | step k0 p l0 hk0 hne0 hch0 ih =>
    have hl0 : l0.getLast? = some r := by
      rcases l0 with _ | ⟨a, t⟩
      · exact absurd rfl hch0.ne_nil
      · rw [List.getLast?_cons_cons] at hlast
        exact hlast
    have hk0I : k0 ≠ rI := by
      intro he
      rw [he, hI] at hk0
      simp only [Option.some.injEq] at hk0
      exact hne0 (hk0.symm.trans he.symm)
    obtain ⟨l2, hch2, hlast2⟩ := ih hl0
    refine ⟨k0 :: l2, UFChain.step k0 p l2 ?_ hne0 hch2, ?_⟩
    · rw [JSObj.get_set_ne _ _ _ _ (fun h => hk0I h.symm)]
      exact hk0
    · rcases l2 with _ | ⟨a, t⟩
      · exact absurd rfl hch2.ne_nil
      · rw [List.getLast?_cons_cons]
        exact hlast2

/-- The Kruskal cut invariant: every node id has a root it can reach through
the accepted links, and both endpoints of every accepted link share a root. -/
structure KUF (graph : GraphData) (parent : JSObj String) (F : List Link) :
    Prop where
  rex : ∀ k ∈ graph.nodes.map Node.id, ∃ r, RootsTo parent k r ∧
    Reach F k r ∧ r ∈ graph.nodes.map Node.id
  edge : ∀ l ∈ F, ∃ r, RootsTo parent l.source r ∧ RootsTo parent l.target r

/-- Connected nodes have equal roots. -/
theorem kuf_reach_root {graph : GraphData} {parent : JSObj String}
    {F : List Link} (hkuf : KUF graph parent F) :
    ∀ x y, Reach F x y → ∀ rx ry, RootsTo parent x rx →
    RootsTo parent y ry → rx = ry := by
  intro x y h
  induction h with
  | refl =>
    intro rx ry h1 h2
    exact rootsTo_fun h1 h2
  | step l hl hj h ih =>
    rename_i x0 x2 z0
    intro rx ry h1 h2
    obtain ⟨r, hr1, hr2⟩ := hkuf.edge l hl
    have hx0 : RootsTo parent x0 r := by
      rcases hj with ⟨ha, hb⟩ | ⟨ha, hb⟩
      · rw [← ha]
        exact hr1
      · rw [← hb]
        exact hr2
    have hx2 : RootsTo parent x2 r := by
      rcases hj with ⟨ha, hb⟩ | ⟨ha, hb⟩
      · rw [← hb]
        exact hr2
      · rw [← ha]
        exact hr1
    exact (rootsTo_fun h1 hx0).trans (ih r ry hx2 h2)

/-- Nodes with equal roots are connected. -/
theorem kuf_root_reach {graph : GraphData} {parent : JSObj String}
    {F : List Link} (hkuf : KUF graph parent F) (x y : String)
    (hx : x ∈ graph.nodes.map Node.id) (hy : y ∈ graph.nodes.map Node.id)
    (r : String) (hxr : RootsTo parent x r) (hyr : RootsTo parent y r) :
    Reach F x y := by
  obtain ⟨rx, hrx, hreachx, -⟩ := hkuf.rex x hx
  obtain ⟨ry, hry, hreachy, -⟩ := hkuf.rex y hy
  have e1 : rx = r := rootsTo_fun hrx hxr
  have e2 : ry = r := rootsTo_fun hry hyr
  rw [e2, ← e1] at hreachy
  exact hreachx.trans hreachy.comm

/-- Accepting a link between two distinct components preserves the cut
invariant. -/
theorem kuf_union (graph : GraphData) (parent : JSObj String) (F : List Link)
    (hkuf : KUF graph parent F) (e : Link)
    (hs : e.source ∈ graph.nodes.map Node.id)
    (ht : e.target ∈ graph.nodes.map Node.id)
    (rI rJ : String) (hrtS : RootsTo parent e.source rI)
    (hrtT : RootsTo parent e.target rJ) (hne : rI ≠ rJ)
    (hI : parent.get rI = some rI) (hJ : parent.get rJ = some rJ) :
    KUF graph (parent.set rI rJ) (F ++ [e]) := by
  obtain ⟨r1, hr1, hre1, hr1m⟩ := hkuf.rex e.source hs
  obtain ⟨r2, hr2, hre2, hr2m⟩ := hkuf.rex e.target ht
  have e1 : r1 = rI := rootsTo_fun hr1 hrtS
  have e2 : r2 = rJ := rootsTo_fun hr2 hrtT
  rw [e1] at hre1 hr1m
  rw [e2] at hre2 hr2m
  have hsub : ∀ l ∈ F, l ∈ F ++ [e] := by
    intro l hl
    simp [hl]
  have heF : e ∈ F ++ [e] := by simp
  have hRIJ : Reach (F ++ [e]) rI rJ :=
    ((Reach.mono hsub hre1).comm.trans
      (Reach.single e heF (Or.inl ⟨rfl, rfl⟩))).trans (Reach.mono hsub hre2)
  refine ⟨?_, ?_⟩
  · intro k hk
    obtain ⟨r, hr, hre, hrm⟩ := hkuf.rex k hk
    refine ⟨if r = rI then rJ else r,
      rootsTo_union parent rI rJ hI hJ hne k r hr, ?_, ?_⟩
    · by_cases hrI : r = rI
      · rw [if_pos hrI]
        rw [hrI] at hre
        exact (Reach.mono hsub hre).trans hRIJ
      · rw [if_neg hrI]
        exact Reach.mono hsub hre
    · by_cases hrI : r = rI
      · rw [if_pos hrI]
        exact hr2m
      · rw [if_neg hrI]
        exact hrm
  · intro l hl
    rcases List.mem_append.mp hl with hl2 | hl2
    · obtain ⟨r, ha, hb⟩ := hkuf.edge l hl2
      exact ⟨if r = rI then rJ else r,
        rootsTo_union parent rI rJ hI hJ hne l.source r ha,
        rootsTo_union parent rI rJ hI hJ hne l.target r hb⟩
    · simp only [List.mem_singleton] at hl2
      subst hl2
      refine ⟨rJ, ?_, ?_⟩
      · have h1 := rootsTo_union parent rI rJ hI hJ hne _ rI hrtS
        rw [if_pos rfl] at h1
        exact h1
      · have h2 := rootsTo_union parent rI rJ hI hJ hne _ rJ hrtT
        rw [if_neg (fun h => hne h.symm)] at h2
        exact h2

/-- Case analysis of one successful `kruskalEdge` call: both `find`s answer,
and the state either unions the two roots and appends the link, or is
untouched apart from the logs. -/
theorem kruskalEdge_cases (graph : GraphData) (fuel : Nat) (st : KruskalState)
    (link : Link) (st1 : KruskalState)
    (h : kruskalEdge graph fuel st link = some st1) :
    ∃ rI rJ, ufFind st.parent fuel link.source = some rI ∧
      ufFind st.parent fuel link.target = some rJ ∧
      ((rI ≠ rJ ∧ st1.parent = st.parent.set rI rJ ∧
        st1.mstLinks = st.mstLinks ++ [link]) ∨
       (rI = rJ ∧ st1.parent = st.parent ∧ st1.mstLinks = st.mstLinks)) := by
  unfold kruskalEdge at h
  rcases hS : ufFind st.parent fuel link.source with _ | rI
  · simp only [hS] at h
    exact absurd h (by simp)
  · rcases hT : ufFind st.parent fuel link.target with _ | rJ
    · simp only [hS, hT] at h
      exact absurd h (by simp)
    · simp only [hS, hT] at h
      by_cases hIJ : rI ≠ rJ
      · rw [if_pos hIJ] at h
        simp only [Option.some.injEq] at h
        subst h
        exact ⟨rI, rJ, rfl, rfl, Or.inl ⟨hIJ, rfl, rfl⟩⟩
      · rw [if_neg hIJ] at h
        simp only [Option.some.injEq] at h
        subst h
        exact ⟨rI, rJ, rfl, rfl, Or.inr ⟨not_not.mp hIJ, rfl, rfl⟩⟩

theorem insertLinkByWeight_perm (x : Link) :
    ∀ (l : List Link), (insertLinkByWeight x l).Perm (x :: l) := by
  intro l
  induction l with
  | nil => exact List.Perm.refl _
  | cons y ys ih =>
    unfold insertLinkByWeight
    by_cases h : y.weight ≤ x.weight
    · rw [if_pos h]
      exact (ih.cons y).trans (List.Perm.swap x y ys)
    · rw [if_neg h]

theorem sortLinksByWeight_perm (l : List Link) :
    (sortLinksByWeight l).Perm l := by
  unfold sortLinksByWeight
  suffices h : ∀ (l acc : List Link),
      (l.foldl (fun acc x => insertLinkByWeight x acc) acc).Perm (acc ++ l) by
    simpa using h l []
  intro l
  induction l with
  | nil => intro acc; simp
  | cons x xs ih =>
    intro acc
    rw [List.foldl_cons]
    refine (ih (insertLinkByWeight x acc)).trans ?_
    refine (List.Perm.append_right xs (insertLinkByWeight_perm x acc)).trans ?_
    exact List.perm_middle.symm

theorem insertLinkByWeight_pairwise (x : Link) :
    ∀ (l : List Link), l.Pairwise (fun a b => a.weight ≤ b.weight) →
    (insertLinkByWeight x l).Pairwise (fun a b => a.weight ≤ b.weight) := by
  intro l
  induction l with
  | nil =>
    intro h
    simp [insertLinkByWeight]
  | cons y ys ih =>
    intro h
    rw [List.pairwise_cons] at h
    unfold insertLinkByWeight
    by_cases hle : y.weight ≤ x.weight
    · rw [if_pos hle]
      rw [List.pairwise_cons]
      refine ⟨?_, ih h.2⟩
      intro a ha
      have hmem := (insertLinkByWeight_perm x ys).mem_iff.mp ha
      rcases List.mem_cons.mp hmem with h1 | h1
      · rw [h1]
        exact hle
      · exact h.1 a h1
    · rw [if_neg hle]
      have hxy : x.weight ≤ y.weight := by omega
      rw [List.pairwise_cons]
      refine ⟨?_, List.pairwise_cons.mpr h⟩
      intro a ha
      rcases List.mem_cons.mp ha with h1 | h1
      · rw [h1]
        exact hxy
      · exact le_trans hxy (h.1 a h1)

theorem sortLinksByWeight_pairwise (l : List Link) :
    (sortLinksByWeight l).Pairwise (fun a b => a.weight ≤ b.weight) := by
  unfold sortLinksByWeight
  suffices h : ∀ (l acc : List Link),
      acc.Pairwise (fun a b => a.weight ≤ b.weight) →
      (l.foldl (fun acc x => insertLinkByWeight x acc) acc).Pairwise
        (fun a b => a.weight ≤ b.weight) by
    exact h l [] (by simp)
  intro l
  induction l with
  | nil =>
    intro acc hacc
    exact hacc
  | cons x xs ih =>
    intro acc hacc
    rw [List.foldl_cons]
    exact ih _ (insertLinkByWeight_pairwise x acc hacc)

/-- The initial self-parent map satisfies the cut invariant for the empty
selection. -/
theorem kruskal_init_kuf (graph : GraphData) :
    KUF graph (graph.nodes.foldl (fun m n => m.set n.id n.id)
      ([] : JSObj String)) [] := by
  refine ⟨?_, ?_⟩
  · intro k hk
    have hdef := uf_init_defined graph.nodes [] k (Or.inl hk)
    rcases hv : (graph.nodes.foldl (fun m n => m.set n.id n.id)
        ([] : JSObj String) : JSObj String).get k with _ | q
    · rw [hv] at hdef
      exact absurd hdef (by simp)
    · have hq := uf_init_selfparent graph.nodes []
        (by intro a b hab; simp at hab) k q hv
      subst hq
      exact ⟨q, ⟨[q], UFChain.root q hv, rfl⟩, Reach.refl q, hk⟩
  · intro l hl
    exact absurd hl (by simp)

/-- The Kruskal scan invariant: along a sorted split `pre ++ rest`, with every
`pre`-link already connected, the fold keeps the cut invariant, the link
soundness, and the promise that the selection embeds into an improvement of
any spanning tree, and ends with every scanned link connected. -/
theorem kruskal_fold_full (graph : GraphData) (hwf : WellFormed graph) :
    ∀ (rest pre : List Link),
    sortLinksByWeight graph.links = pre ++ rest →
    ∀ st : KruskalState,
    KUF graph st.parent st.mstLinks →
    (∀ l ∈ st.mstLinks, EData graph l.source l.target l.weight) →
    (∀ T, SpanningTree graph T → ∃ Tn, SpanningTree graph Tn ∧
      costOf Tn ≤ costOf T ∧ List.Subperm st.mstLinks Tn) →
    (∀ l ∈ pre, Reach st.mstLinks l.source l.target) →
    ∀ res, rest.foldlM (kruskalEdge graph (graph.nodes.length + 1)) st =
      some res →
    KUF graph res.parent res.mstLinks ∧
    (∀ l ∈ res.mstLinks, EData graph l.source l.target l.weight) ∧
    (∀ T, SpanningTree graph T → ∃ Tn, SpanningTree graph Tn ∧
      costOf Tn ≤ costOf T ∧ List.Subperm res.mstLinks Tn) ∧
    (∀ l ∈ pre ++ rest, Reach res.mstLinks l.source l.target) := by
  intro rest
  induction rest with
  | nil =>
    intro pre hsplit st hkuf hfe hprom hpre res hres
    simp only [List.foldlM_nil, Option.pure_def, Option.some.injEq] at hres
    subst hres
    refine ⟨hkuf, hfe, hprom, ?_⟩
    intro l hl
    rw [List.append_nil] at hl
    exact hpre l hl
  | cons link rest' ih =>
    intro pre hsplit st hkuf hfe hprom hpre res hres
    rcases hstep : kruskalEdge graph (graph.nodes.length + 1) st link
      with _ | st1
    · rw [List.foldlM_cons, hstep] at hres
      simp at hres
    · rw [List.foldlM_cons, hstep] at hres
      simp only [Option.bind_eq_bind, Option.some_bind] at hres
      obtain ⟨rI, rJ, hS, hT, hcase⟩ :=
        kruskalEdge_cases graph _ st link st1 hstep
      have hlink : link ∈ graph.links := by
        refine mem_sortLinksByWeight graph.links link ?_
        rw [hsplit]
        simp
      have hsid : link.source ∈ graph.nodes.map Node.id := (hwf link hlink).1
      have htid : link.target ∈ graph.nodes.map Node.id := (hwf link hlink).2
      have hrtS : RootsTo st.parent link.source rI :=
        rootsTo_of_ufFind st.parent _ link.source rI hS
      have hrtT : RootsTo st.parent link.target rJ :=
        rootsTo_of_ufFind st.parent _ link.target rJ hT
      rcases hcase with ⟨hne, hpar, hmst⟩ | ⟨heq, hpar, hmst⟩
      · have hIroot : st.parent.get rI = some rI :=
          ufFind_root st.parent _ _ _ hS
        have hJroot : st.parent.get rJ = some rJ :=
          ufFind_root st.parent _ _ _ hT
        have hnew : ¬ Reach st.mstLinks link.source link.target := by
          intro hr
          exact hne (kuf_reach_root hkuf link.source link.target hr rI rJ
            hrtS hrtT)
        have he : EData graph link.source link.target link.weight :=
          ⟨link, hlink, rfl, Or.inl ⟨rfl, rfl⟩⟩
        have hsort := sortLinksByWeight_pairwise graph.links
        rw [hsplit] at hsort
        have hmin : ∀ g ∈ graph.links,
            ((Reach st.mstLinks link.source g.source ∧
              ¬ Reach st.mstLinks link.source g.target) ∨
             (Reach st.mstLinks link.source g.target ∧
              ¬ Reach st.mstLinks link.source g.source)) →
            link.weight ≤ g.weight := by
          intro g hg hcross
          have hg2 : g ∈ pre ++ link :: rest' := by
            rw [← hsplit]
            exact ((sortLinksByWeight_perm graph.links).mem_iff).mpr hg
          rcases List.mem_append.mp hg2 with hgp | hgr
          · exfalso
            have hgre : Reach st.mstLinks g.source g.target := hpre g hgp
            rcases hcross with ⟨h1, h2⟩ | ⟨h1, h2⟩
            · exact h2 (h1.trans hgre)
            · exact h2 (h1.trans hgre.comm)
          · rcases List.mem_cons.mp hgr with hge | hgr2
            · subst hge
              exact le_refl _
            · have hpw := (List.pairwise_append.mp hsort).2.1
              exact (List.pairwise_cons.mp hpw).1 g hgr2
        have hkuf1 : KUF graph st1.parent st1.mstLinks := by
          rw [hpar, hmst]
          exact kuf_union graph st.parent st.mstLinks hkuf link hsid htid
            rI rJ hrtS hrtT hne hIroot hJroot
        have hfe1 : ∀ l ∈ st1.mstLinks,
            EData graph l.source l.target l.weight := by
          rw [hmst]
          intro l hl
          rcases List.mem_append.mp hl with h1 | h1
          · exact hfe l h1
          · simp only [List.mem_singleton] at h1
            subst h1
            exact he
        have hprom1 : ∀ T, SpanningTree graph T → ∃ Tn,
            SpanningTree graph Tn ∧ costOf Tn ≤ costOf T ∧
            List.Subperm st1.mstLinks Tn := by
          intro T hT2
          obtain ⟨Tn, hTn, hc, hsubp⟩ := hprom T hT2
          obtain ⟨Tn2, hTn2, hc2, hsub2⟩ := promise_step graph hwf st.mstLinks
            link he hnew hmin Tn hTn hsubp
          refine ⟨Tn2, hTn2, le_trans hc2 hc, ?_⟩
          rw [hmst]
          exact hsub2
        have hpre1 : ∀ l ∈ pre ++ [link],
            Reach st1.mstLinks l.source l.target := by
          intro l hl
          rw [hmst]
          rcases List.mem_append.mp hl with h1 | h1
          · exact Reach.mono (by intro a ha; simp [ha]) (hpre l h1)
          · simp only [List.mem_singleton] at h1
            subst h1
            exact Reach.single l (by simp) (Or.inl ⟨rfl, rfl⟩)
        have hsplit1 : sortLinksByWeight graph.links =
            (pre ++ [link]) ++ rest' := by
          rw [hsplit, List.append_assoc, List.singleton_append]
        obtain ⟨ha, hb, hc, hd⟩ := ih (pre ++ [link]) hsplit1 st1 hkuf1 hfe1
          hprom1 hpre1 res hres
        refine ⟨ha, hb, hc, ?_⟩
        intro l hl
        refine hd l ?_
        rw [List.append_assoc, List.singleton_append]
        exact hl
      · rw [← heq] at hrtT
        have hreach : Reach st.mstLinks link.source link.target :=
          kuf_root_reach hkuf link.source link.target hsid htid rI hrtS hrtT
        have hkuf1 : KUF graph st1.parent st1.mstLinks := by
          rw [hpar, hmst]
          exact hkuf
        have hfe1 : ∀ l ∈ st1.mstLinks,
            EData graph l.source l.target l.weight := by
          rw [hmst]
          exact hfe
        have hprom1 : ∀ T, SpanningTree graph T → ∃ Tn,
            SpanningTree graph Tn ∧ costOf Tn ≤ costOf T ∧
            List.Subperm st1.mstLinks Tn := by
          intro T hT2
          obtain ⟨Tn, hTn, hc, hsubp⟩ := hprom T hT2
          refine ⟨Tn, hTn, hc, ?_⟩
          rw [hmst]
          exact hsubp
        have hpre1 : ∀ l ∈ pre ++ [link],
            Reach st1.mstLinks l.source l.target := by
          intro l hl
          rw [hmst]
          rcases List.mem_append.mp hl with h1 | h1
          · exact hpre l h1
          · simp only [List.mem_singleton] at h1
            subst h1
            exact hreach
        have hsplit1 : sortLinksByWeight graph.links =
            (pre ++ [link]) ++ rest' := by
          rw [hsplit, List.append_assoc, List.singleton_append]
        obtain ⟨ha, hb, hc, hd⟩ := ih (pre ++ [link]) hsplit1 st1 hkuf1 hfe1
          hprom1 hpre1 res hres
        refine ⟨ha, hb, hc, ?_⟩
        intro l hl
        refine hd l ?_
        rw [List.append_assoc, List.singleton_append]
        exact hl

/-- `runKruskal` on an undirected well-formed graph returns a selection whose
links are usable, which connects the endpoints of every link of the graph,
and which embeds into an improvement of any spanning tree. -/
theorem runKruskal_spec (graph : GraphData) (hwf : WellFormed graph)
    (hdir : graph.isDirected = false) :
    ∃ res K, runKruskal graph = some res ∧ res.mstLinks = some K ∧
      (∀ l ∈ K, EData graph l.source l.target l.weight) ∧
      (∀ l ∈ graph.links, Reach K l.source l.target) ∧
      ∀ T, SpanningTree graph T → ∃ Tn, SpanningTree graph Tn ∧
        costOf Tn ≤ costOf T ∧ List.Subperm K Tn := by
  unfold runKruskal
  rw [hdir]
  simp only [Bool.false_eq_true, if_false]
  split
  next heq =>
    exfalso
    have h2 : (Option.isSome (none : Option KruskalState)) = true := by
      rw [← heq]
      refine kruskal_fold_isSome graph _ _
        (fun l hl => hwf l (mem_sortLinksByWeight graph.links l hl)) ?_
      refine ⟨UFOk_selfparent _ (uf_init_selfparent graph.nodes []
        (by intro k q h; simp at h)), ?_, ?_⟩
      · intro k hk
        exact uf_init_defined graph.nodes [] k (Or.inl hk)
      · have := uf_init_keys graph.nodes []
        simpa [JSObj.keys] using this
    simp at h2
  next st heq =>
    have hfold := kruskal_fold_full graph hwf _ [] (by rfl) _
      (by exact kruskal_init_kuf graph)
      (by intro l hl; exact absurd hl (by simp))
      (by intro T hT2; exact ⟨T, hT2, le_refl _, List.nil_subperm⟩)
      (by intro l hl; exact absurd hl (by simp))
      st heq
    refine ⟨_, _, rfl, rfl, hfold.2.1, ?_, hfold.2.2.1⟩
    intro l hl
    refine hfold.2.2.2 l ?_
    rw [List.nil_append]
    exact ((sortLinksByWeight_perm graph.links).mem_iff).mpr hl
/-! ### C6: the spanning-tree agreement claim -/

/-- The claim's content for one graph: both algorithms return a selection of
links, both selections are spanning trees, their total costs agree, and that
common cost is minimal among spanning trees. -/
def MSTClaim (graph : GraphData) : Prop :=
  ∃ resP resK P K, runPrim graph = some resP ∧ runKruskal graph = some resK ∧
    resP.mstLinks = some P ∧ resK.mstLinks = some K ∧
    SpanningTree graph P ∧ SpanningTree graph K ∧ costOf P = costOf K ∧
    ∀ T, SpanningTree graph T → costOf P ≤ costOf T

/-- The claim as stated fails on the empty graph: it is undirected and
(vacuously) connected, yet no edge selection satisfies `SpanningTree`, whose
size clause forces `|T| + 1 = 0` there. -/
theorem kruskal_prim_mst_empty_counterexample :
    (emptyUndirectedGraph.isDirected = false ∧
     ∀ x ∈ emptyUndirectedGraph.nodes.map Node.id,
       ∀ y ∈ emptyUndirectedGraph.nodes.map Node.id,
         Reach emptyUndirectedGraph.links x y) ∧
    ¬ MSTClaim emptyUndirectedGraph := by
  refine ⟨⟨rfl, ?_⟩, ?_⟩
  · intro x hx
    simp [emptyUndirectedGraph] at hx
  · rintro ⟨resP, resK, P, K, -, -, -, -, hP, -⟩
    have hlen := hP.2.1
    rw [show emptyUndirectedGraph.nodes.length = 0 from rfl] at hlen
    omega

/-- C6: on a connected undirected graph, `runPrim` and `runKruskal` each
return a spanning tree as `mstLinks`, the two trees have the same total
weight, and that weight is minimal among all spanning trees.  The claim
holds once the graph is well-formed with duplicate-free node ids and at
least one node (the unrestricted claim fails on the empty graph). -/
theorem kruskal_prim_mst_agree (graph : GraphData) (hwf : WellFormed graph)
    (hnodup : (graph.nodes.map Node.id).Nodup)
    (hdir : graph.isDirected = false) (hne : graph.nodes ≠ [])
    (hconn : ∀ x ∈ graph.nodes.map Node.id, ∀ y ∈ graph.nodes.map Node.id,
      Reach graph.links x y) :
    MSTClaim graph := by
  obtain ⟨resP, P, hrunP, hmlP, hPst, hPprom⟩ :=
    runPrim_spec graph hwf hnodup hdir hne hconn
  obtain ⟨resK, K, hrunK, hmlK, hKE, hKreach, hKprom⟩ :=
    runKruskal_spec graph hwf hdir
  have hKconn : ∀ x ∈ graph.nodes.map Node.id,
      ∀ y ∈ graph.nodes.map Node.id, Reach K x y := by
    intro x hx y hy
    exact reach_transfer hKreach x y (hconn x hx y hy)
  have hKend : ∀ l ∈ K, l.source ∈ graph.nodes.map Node.id ∧
      l.target ∈ graph.nodes.map Node.id := by
    intro l hl
    exact EData_mem_ids graph hwf l.source l.target l.weight (hKE l hl)
  have hex : ∃ s, s ∈ graph.nodes.map Node.id := by
    rcases hns : graph.nodes with _ | ⟨n, t⟩
    · exact absurd hns hne
    · exact ⟨n.id, by simp⟩
  obtain ⟨s0, hs0⟩ := hex
  have hlow : graph.nodes.length ≤ K.length + 1 := by
    have h1 := spanning_lower_bound K (graph.nodes.map Node.id) hnodup hKend
      s0 hs0 (fun x hx => hKconn s0 hs0 x hx)
    rw [List.length_map] at h1
    exact h1
  obtain ⟨Tn, hTn, hcTn, hsubK⟩ := hKprom P hPst
  have hKlen : K.length + 1 = graph.nodes.length := by
    have h1 := hsubK.length_le
    have h2 := hTn.2.1
    omega
  have hKperm : K.Perm Tn := hsubK.perm_of_length_le (by
    have h2 := hTn.2.1
    omega)
  have hKst : SpanningTree graph K := ⟨hKE, hKlen, hKconn⟩
  have hc1 : costOf K ≤ costOf P := by
    rw [costOf_perm hKperm]
    exact hcTn
  have hc2 : costOf P ≤ costOf K := by
    obtain ⟨Tn2, hTn2, hcTn2, hsubP⟩ := hPprom K hKst
    exact promise_final graph P hPst.2.1 K hKst Tn2 hTn2 hcTn2 hsubP
  have hmin : ∀ T, SpanningTree graph T → costOf P ≤ costOf T := by
    intro T hT
    obtain ⟨Tn2, hTn2, hcTn2, hsubP⟩ := hPprom T hT
    exact promise_final graph P hPst.2.1 T hT Tn2 hTn2 hcTn2 hsubP
  exact ⟨resP, resK, P, K, hrunP, hrunK, hmlP, hmlK, hPst, hKst,
    le_antisymm hc2 hc1, hmin⟩

theorem kruskal_prim_mst_agree_witness : MSTClaim twoNodeGraph :=
  kruskal_prim_mst_agree twoNodeGraph
    (by unfold WellFormed; decide) (by decide) (by decide) (by decide)
    (by
      intro x hx y hy
      have hab : Reach twoNodeGraph.links "a" "b" :=
        Reach.single { source := "a", target := "b", weight := 1 }
          (by simp [twoNodeGraph]) (Or.inl ⟨rfl, rfl⟩)
      simp only [twoNodeGraph, mkNode, List.map_cons, List.map_nil,
        List.mem_cons, List.not_mem_nil, or_false] at hx hy
      rcases hx with hx | hx <;> rcases hy with hy | hy <;>
        subst hx <;> subst hy
      · exact Reach.refl _
      · exact hab
      · exact hab.comm
      · exact Reach.refl _)

end NetworkSim
